import Mathlib

/-!
Information-form (Hessian) factors of gtsam.

A shallow embedding of `gtsam/linear/HessianFactor.cpp`.  Scalars (`double` in the
source) are elements of an arbitrary linearly ordered field `K`, so every statement is
one of exact arithmetic; matrices are a shape together with a coefficient accessor, and
a block view is the list of block offsets that the source keeps next to the matrix.
-/

namespace gtsam

/-! ## Part 1: definitions -/

/-- Exceptions raised by the embedded code. -/
inductive Exception where
  | invalid_argument (what : String)
  | indeterminant_linear_system (what : String)
  | out_of_range (what : String)
  deriving DecidableEq, Repr

/-- Dense matrix (`Matrix`, `MatrixColMajor`, `Eigen::MatrixXd` in the source): a shape
and a coefficient accessor; `coeff i j` is meaningful for `i < rows` and `j < cols`. -/
structure MatrixXd (K : Type) where
  rows : Nat
  cols : Nat
  coeff : Nat → Nat → K

/-- Dense vector (`Vector`, `Eigen::VectorXd` in the source). -/
structure VectorXd (K : Type) where
  size : Nat
  coeff : Nat → K

/-- Offsets of the blocks whose dimensions are `dims`, starting at `start`
(`fillOffsets` of the block views: `offsets[j+1] = offsets[j] + dims[j]`). -/
def fillOffsets : Nat → List Nat → List Nat
  | start, [] => [start]
  | start, d :: ds => start :: fillOffsets (start + d) ds

/-- Modelled from the spec: the block view `SymmetricBlockView` is declared outside the
sources at hand; it is the "block boundaries" of an information factor, kept as the
starting column of every block plus the end, and `blockStart`, the first block of the
apparent view. -/
structure SymmetricBlockView where
  variableColOffsets : List Nat
  blockStart : Nat
  deriving DecidableEq, Repr

namespace SymmetricBlockView

/-- Block view over blocks of the given dimensions (`BlockInfo(matrix, dims, dims+n)`). -/
def ofDims (dims : List Nat) : SymmetricBlockView :=
  { variableColOffsets := fillOffsets 0 dims, blockStart := 0 }

/-- Starting row/column of a block of the apparent view (`info_.offset(block)`). -/
def offset (v : SymmetricBlockView) (block : Nat) : Nat :=
  v.variableColOffsets.getD (block + v.blockStart) 0

/-- Number of blocks of the apparent view (`info_.nBlocks()`). -/
def nBlocks (v : SymmetricBlockView) : Nat :=
  v.variableColOffsets.length - 1 - v.blockStart

/-- Rows (equally: columns) of block `b`, the `rows()` of `info_(b, c)` and the
`cols()` of `info_(a, b)`. -/
def blockDim (v : SymmetricBlockView) (b : Nat) : Nat :=
  v.offset (b + 1) - v.offset b

end SymmetricBlockView

namespace MatrixXd

variable {K : Type}

/-- Assignment to a block: `M.block(r0, c0, nr, nc) = src`. -/
def assignBlock (M : MatrixXd K) (r0 c0 nr nc : Nat) (src : Nat → Nat → K) : MatrixXd K :=
  { M with coeff := fun i j =>
      if r0 ≤ i ∧ i < r0 + nr ∧ c0 ≤ j ∧ j < c0 + nc then src (i - r0) (j - c0)
      else M.coeff i j }

/-- Accumulation into a block: `M.block(r0, c0, nr, nc).noalias() += src`. -/
def addBlock [Add K] (M : MatrixXd K) (r0 c0 nr nc : Nat) (src : Nat → Nat → K) :
    MatrixXd K :=
  { M with coeff := fun i j =>
      if r0 ≤ i ∧ i < r0 + nr ∧ c0 ≤ j ∧ j < c0 + nc then M.coeff i j + src (i - r0) (j - c0)
      else M.coeff i j }

/-- Accumulation into the upper triangle of a block:
`M.block(r0, c0, nr, nc).triangularView<Eigen::Upper>() += src`. -/
def addBlockUpper [Add K] (M : MatrixXd K) (r0 c0 nr nc : Nat) (src : Nat → Nat → K) :
    MatrixXd K :=
  { M with coeff := fun i j =>
      if r0 ≤ i ∧ i < r0 + nr ∧ c0 ≤ j ∧ j < c0 + nc ∧ i - r0 ≤ j - c0 then
        M.coeff i j + src (i - r0) (j - c0)
      else M.coeff i j }

/-- The block of `M` starting at `(r0, c0)`, as a coefficient accessor
(`M.block(r0, c0, _, _)` read as a right-hand side). -/
def block (M : MatrixXd K) (r0 c0 : Nat) : Nat → Nat → K :=
  fun i j => M.coeff (r0 + i) (c0 + j)

/-- The symmetric matrix read from the upper triangle:
`selfadjointView<Eigen::Upper>()`. -/
def selfadjointUpper (a : Nat → Nat → K) : Nat → Nat → K :=
  fun i j => if i ≤ j then a i j else a j i

/-- The zero matrix of a given shape (`Matrix::Zero(rows, cols)`). -/
def zero [Zero K] (rows cols : Nat) : MatrixXd K :=
  ⟨rows, cols, fun _ _ => 0⟩

/-- The symmetric `n x n` matrix read from the upper triangle of `a`. -/
def toSelfadjoint (n : Nat) (a : Nat → Nat → K) : Matrix (Fin n) (Fin n) K :=
  Matrix.of fun i j => selfadjointUpper a i j

end MatrixXd

/-- Information-form factor: the keys of its variables (`keys_` of `GaussianFactor`),
the dense matrix `matrix_` and the block view `info_` onto it. -/
structure HessianFactor (K : Type) where
  keys_ : List Nat
  matrix_ : MatrixXd K
  info_ : SymmetricBlockView

namespace HessianFactor

variable {K : Type}

/-- Number of variables of the factor (`size()`). -/
def size (h : HessianFactor K) : Nat := h.keys_.length

/-- Coefficient `(r, c)` of the block `info_(i, j)`. -/
def infoCoeff (h : HessianFactor K) (i j r c : Nat) : K :=
  h.matrix_.coeff (h.info_.offset i + r) (h.info_.offset j + c)

/-- The double loop of `assertInvariants()`: whether `matrix_(i, j)` is non-finite for
some row `i` and some column `j >= i`; `isfinite` is the test `isfinite` on the scalars. -/
def hasNonFinite (isfinite : K → Bool) (M : MatrixXd K) : Bool :=
  (List.range M.rows).any fun i =>
    (List.range (M.cols - i)).any fun t => !isfinite (M.coeff i (i + t))

/-- `assertInvariants()`; `NDEBUG` tells whether the check under `#ifndef NDEBUG` is
compiled out. -/
def assertInvariants (NDEBUG : Bool) (isfinite : K → Bool) (h : HessianFactor K) :
    Except Exception Unit :=
  if !NDEBUG && hasNonFinite isfinite h.matrix_ then
    .error (.invalid_argument "HessianFactor contains non-finite matrix entries.")
  else .ok ()

/-- The end of every constructor: `assertInvariants()` is called on the factor that has
been assembled, and the factor is constructed if the call does not throw. -/
def constructed (NDEBUG : Bool) (isfinite : K → Bool) (h : HessianFactor K) :
    Except Exception (HessianFactor K) :=
  match assertInvariants NDEBUG isfinite h with
  | .error e => .error e
  | .ok _ => .ok h

/-- The guard of the single-variable constructor. -/
def unaryDimsInconsistent (G : MatrixXd K) (g : VectorXd K) : Bool :=
  G.rows != G.cols || G.rows != g.size

/-- `HessianFactor(Index j1, const Matrix& G, const Vector& g, double f)`.
`fresh` is the unspecified content of the newly allocated `fullMatrix`; `NDEBUG` and
`isfinite` are those of `assertInvariants()`, which ends the constructor. -/
def ofUnary (NDEBUG : Bool) (isfinite : K → Bool) (fresh : Nat → Nat → K) (j1 : Nat)
    (G : MatrixXd K) (g : VectorXd K) (f : K) : Except Exception (HessianFactor K) :=
  if unaryDimsInconsistent G g then
    .error (.invalid_argument
      "Inconsistent matrix and/or vector dimensions in HessianFactor constructor")
  else
    let dims := [G.rows, 1]
    let fullMatrix : MatrixXd K := ⟨G.rows + 1, G.rows + 1, fresh⟩
    let infoMatrix := SymmetricBlockView.ofDims dims
    -- infoMatrix(0,0) = G
    let m1 := fullMatrix.assignBlock (infoMatrix.offset 0) (infoMatrix.offset 0)
      (infoMatrix.blockDim 0) (infoMatrix.blockDim 0) G.coeff
    -- infoMatrix.column(0,1,0) = g
    let m2 := m1.assignBlock (infoMatrix.offset 0) (infoMatrix.offset 1)
      (infoMatrix.blockDim 0) 1 (fun i _ => g.coeff i)
    -- infoMatrix(1,1)(0,0) = f
    let m3 := m2.assignBlock (infoMatrix.offset 1) (infoMatrix.offset 1) 1 1 (fun _ _ => f)
    -- assertInvariants()
    constructed NDEBUG isfinite { keys_ := [j1], matrix_ := m3, info_ := infoMatrix }

/-- The guard of the two-variable constructor. -/
def binaryDimsInconsistent (G11 G12 : MatrixXd K) (g1 : VectorXd K) (G22 : MatrixXd K)
    (g2 : VectorXd K) : Bool :=
  G11.rows != G11.cols || G11.rows != G12.rows || G11.rows != g1.size ||
    G22.cols != G12.cols || G22.cols != g2.size

/-- `HessianFactor(Index j1, Index j2, G11, G12, g1, G22, g2, f)`, with `fresh`,
`NDEBUG` and `isfinite` as for the single-variable constructor. -/
def ofBinary (NDEBUG : Bool) (isfinite : K → Bool) (fresh : Nat → Nat → K) (j1 j2 : Nat)
    (G11 G12 : MatrixXd K) (g1 : VectorXd K) (G22 : MatrixXd K) (g2 : VectorXd K) (f : K) :
    Except Exception (HessianFactor K) :=
  if binaryDimsInconsistent G11 G12 g1 G22 g2 then
    .error (.invalid_argument
      "Inconsistent matrix and/or vector dimensions in HessianFactor constructor")
  else
    let dims := [G11.rows, G22.rows, 1]
    let fullMatrix : MatrixXd K :=
      ⟨G11.rows + G22.rows + 1, G11.rows + G22.rows + 1, fresh⟩
    let infoMatrix := SymmetricBlockView.ofDims dims
    let m1 := fullMatrix.assignBlock (infoMatrix.offset 0) (infoMatrix.offset 0)
      (infoMatrix.blockDim 0) (infoMatrix.blockDim 0) G11.coeff
    let m2 := m1.assignBlock (infoMatrix.offset 0) (infoMatrix.offset 1)
      (infoMatrix.blockDim 0) (infoMatrix.blockDim 1) G12.coeff
    let m3 := m2.assignBlock (infoMatrix.offset 0) (infoMatrix.offset 2)
      (infoMatrix.blockDim 0) 1 (fun i _ => g1.coeff i)
    let m4 := m3.assignBlock (infoMatrix.offset 1) (infoMatrix.offset 1)
      (infoMatrix.blockDim 1) (infoMatrix.blockDim 1) G22.coeff
    let m5 := m4.assignBlock (infoMatrix.offset 1) (infoMatrix.offset 2)
      (infoMatrix.blockDim 1) 1 (fun i _ => g2.coeff i)
    let m6 := m5.assignBlock (infoMatrix.offset 2) (infoMatrix.offset 2) 1 1 (fun _ _ => f)
    -- assertInvariants()
    constructed NDEBUG isfinite { keys_ := [j1, j2], matrix_ := m6, info_ := infoMatrix }

/-- `constant_term()`: `info_(size(), size())(0,0)`. -/
def constant_term (h : HessianFactor K) : K :=
  h.infoCoeff h.size h.size 0 0

/-- `linear_term()`: `info_.rangeColumn(0, size(), size(), 0)`, as a coefficient
accessor over the scalar rows of the variable blocks. -/
def linear_term (h : HessianFactor K) : Nat → K :=
  fun i => h.matrix_.coeff (h.info_.offset 0 + i) (h.info_.offset h.size)

/-- Scalar dimension of the variable blocks: the rows of `info_.range(0, size(), ..)`. -/
def varDim (h : HessianFactor K) : Nat :=
  h.info_.offset h.size - h.info_.offset 0

/-- The value of `error(c)` for a `c.vector()` that has as many entries as the variable
blocks have rows, `x` giving these entries:
`0.5 * (f - 2.0 * xtg + xGx)` where `xtg = x.dot(linear_term())` and
`xGx = xᵀ * info_.range(0, size(), 0, size()).selfadjointView<Upper>() * x`.
The length of `c.vector()` is taken into account in `errorAt`. -/
def error [Field K] (h : HessianFactor K) (x : Nat → K) : K :=
  let f := h.constant_term
  let xtg := ∑ i ∈ Finset.range h.varDim, x i * h.linear_term i
  let G := MatrixXd.selfadjointUpper (h.matrix_.block (h.info_.offset 0) (h.info_.offset 0))
  let xGx := ∑ j ∈ Finset.range h.varDim,
    (∑ i ∈ Finset.range h.varDim, x i * G i j) * x j
  (1 / 2) * (f - 2 * xtg + xGx)

/-- `error(c)` with `c.vector()` as a vector with its length: the dot product with
`linear_term()` and the product with the block of the variables are those of Eigen,
which are defined for operands of matching sizes only; for a `c.vector()` of another
length there is no value (an assertion of Eigen fails, and without assertions the
entries read are unspecified). -/
def errorAt [Field K] (h : HessianFactor K) (c : VectorXd K) : Option K :=
  if c.size = h.varDim then some (h.error c.coeff) else none

end HessianFactor


/-- Entry of the scatter map: the slot of a variable in the joint factor and its
dimension. -/
structure SlotEntry where
  slot : Nat
  dimension : Nat
  deriving DecidableEq, Repr

/-- Modelled from the spec: the scatter map (`Scatter`, a map from variable key to
`SlotEntry`) is declared outside the sources at hand; "Scatter entry: key to (slot,
dimension)", kept as an association list. -/
abbrev Scatter := List (Nat × SlotEntry)

namespace Scatter

/-- `scatter.find(j)`, the entry of key `j` if there is one. -/
def find (scatter : Scatter) (j : Nat) : Option SlotEntry :=
  (List.find? (fun e => e.1 == j) scatter).map Prod.snd

/-- `scatter.find(j)->second.slot`.  The source dereferences the iterator without a
test, so the value for a missing key is unspecified there; it is `0` here and every
statement about it assumes the key present. -/
def slotOf (scatter : Scatter) (j : Nat) : Nat :=
  ((scatter.find j).map SlotEntry.slot).getD 0

end Scatter

/-- The body of the double loop of `updateATA`, one pair of blocks: the source block
`src` (already cut out of the update) is added to the block `(slot1, slot2)` of the
joint matrix if `slot2 > slot1`, its transpose to the block `(slot2, slot1)` if
`slot1 > slot2`, and its upper triangle to the diagonal block otherwise. -/
def updateATABlock {K : Type} [Add K] (info : SymmetricBlockView) (slot1 slot2 : Nat)
    (src : Nat → Nat → K) (M : MatrixXd K) : MatrixXd K :=
  if slot2 > slot1 then
    M.addBlock (info.offset slot1) (info.offset slot2)
      (info.blockDim slot1) (info.blockDim slot2) src
  else if slot1 > slot2 then
    M.addBlock (info.offset slot2) (info.offset slot1)
      (info.blockDim slot2) (info.blockDim slot1) (fun r c => src c r)
  else
    M.addBlockUpper (info.offset slot1) (info.offset slot2)
      (info.blockDim slot1) (info.blockDim slot2) src

/-- The double loop of `updateATA`: `for j2 < nBlocks, for j1 <= j2`, with
`slot(j) = (j == update.size()) ? this->info_.nBlocks()-1 : slots[j]`; `srcBlock j1 j2`
is the block `(j1, j2)` of the update. -/
def updateATALoop {K : Type} [Add K] (info : SymmetricBlockView) (updateBlocks : Nat)
    (updateSize : Nat) (slots : List Nat) (srcBlock : Nat → Nat → Nat → Nat → K)
    (M : MatrixXd K) : MatrixXd K :=
  (List.range updateBlocks).foldl (fun M j2 =>
    let slot2 := if j2 = updateSize then info.nBlocks - 1 else slots.getD j2 0
    (List.range (j2 + 1)).foldl (fun M j1 =>
      let slot1 := if j1 = updateSize then info.nBlocks - 1 else slots.getD j1 0
      updateATABlock info slot1 slot2 (srcBlock j1 j2) M) M) M

namespace HessianFactor

variable {K : Type}

/-- `updateATA(const HessianFactor& update, const Scatter& scatter)`. -/
def updateATA [Add K] (self update : HessianFactor K) (scatter : Scatter) : HessianFactor K :=
  let slots := update.keys_.map scatter.slotOf
  { self with
    matrix_ := updateATALoop self.info_ update.info_.nBlocks update.size slots
      (fun j1 j2 => update.matrix_.block (update.info_.offset j1) (update.info_.offset j2))
      self.matrix_ }

end HessianFactor

namespace HessianFactor

variable {K : Type}

/-- Slot of block `j` of the update in the joint factor, as `updateATA` computes it:
`(j == update.size()) ? this->info_.nBlocks()-1 : slots[j]`. -/
def updateSlot (self update : HessianFactor K) (scatter : Scatter) (j : Nat) : Nat :=
  if j = update.size then self.info_.nBlocks - 1
  else (update.keys_.map scatter.slotOf).getD j 0

/-- Scalar dimension of the whole view, the rows of `info_.full()`. -/
def fullDim (h : HessianFactor K) : Nat :=
  h.info_.offset h.info_.nBlocks - h.info_.offset 0

/-- Row of the joint matrix that each scalar row of the update is scattered to: the rows
of the block of every key, in the order of the keys, go to the rows of the scatter slot
of that key, and the rows of the constant block go to the last block of the joint
factor. -/
def scatterRows (self update : HessianFactor K) (scatter : Scatter) : List Nat :=
  (List.range (update.size + 1)).flatMap fun b =>
    (List.range (update.info_.blockDim b)).map fun k =>
      self.info_.offset (self.updateSlot update scatter b) + k

/-- The embedding `P` of the rows of the update into the rows of the joint factor:
`P i u = 1` if row `u` of the update is scattered to row `i`, else `0`. -/
def scatterEmbedding [Zero K] [One K] (self update : HessianFactor K) (scatter : Scatter) :
    Matrix (Fin self.matrix_.rows) (Fin update.fullDim) K :=
  Matrix.of fun i u => if (self.scatterRows update scatter).getD u 0 = i then 1 else 0

/-- The entry `(i, j)` of `P * sym(U) * Pᵀ`, with the sums of the two matrix products
written over the scalar rows of the update. -/
def scatteredUpdate [Field K] (self update : HessianFactor K) (scatter : Scatter)
    (i j : Nat) : K :=
  ∑ v ∈ Finset.range update.fullDim,
    (∑ u ∈ Finset.range update.fullDim,
      (if (self.scatterRows update scatter).getD u 0 = i then 1 else 0) *
        MatrixXd.selfadjointUpper
          (update.matrix_.block (update.info_.offset 0) (update.info_.offset 0)) u v) *
      (if (self.scatterRows update scatter).getD v 0 = j then 1 else 0)

/-- The update is valid for the joint factor and the scatter map: both block views have
ascending offsets, the update has one block per key plus the constant block, the joint
factor has one block per scatter entry plus the constant block (the assertion of
`updateATA`), the scatter slots are distinct and below the size of the scatter, the keys
of the update are distinct and all present in the scatter, and every block of the update
has the dimension of the block of the joint factor it is mapped to. -/
def ValidUpdate (self update : HessianFactor K) (scatter : Scatter) : Prop :=
  self.info_.variableColOffsets.Sorted (· ≤ ·) ∧
  update.info_.variableColOffsets.Sorted (· ≤ ·) ∧
  update.info_.nBlocks = update.size + 1 ∧
  self.info_.nBlocks = scatter.length + 1 ∧
  (scatter.map fun e => e.2.slot).Nodup ∧
  (∀ e ∈ scatter, e.2.slot < scatter.length) ∧
  update.keys_.Nodup ∧
  (∀ k ∈ update.keys_, (scatter.find k).isSome = true) ∧
  (∀ b, b < update.size + 1 →
    self.info_.blockDim (self.updateSlot update scatter b) = update.info_.blockDim b)

instance (self update : HessianFactor K) (scatter : Scatter) :
    Decidable (ValidUpdate self update scatter) := by
  unfold ValidUpdate; infer_instance

end HessianFactor

/-- Modelled from the spec: the noise models are declared outside the sources at hand;
"a noise model (uniform or diagonal weighting; constrained/zero-noise is explicitly
rejected)".  Every model of a Jacobian factor derives from `noiseModel::Diagonal`
(`Constrained`, `Isotropic` and `Unit` are its subclasses) and carries the vector of its
inverse sigmas; those of `Unit` are all one. -/
inductive NoiseModel (K : Type) where
  | Diagonal (invsigmas : List K)
  | Constrained (invsigmas : List K)
  | Isotropic (dim : Nat) (invsigma : K)
  | Unit (dim : Nat)

namespace NoiseModel

variable {K : Type}

/-- `isConstrained()`. -/
def isConstrained : NoiseModel K → Bool
  | Constrained _ => true
  | _ => false

/-- `dim()`. -/
def dim : NoiseModel K → Nat
  | Diagonal l => l.length
  | Constrained l => l.length
  | Isotropic d _ => d
  | Unit d => d

/-- `invsigmas()`, as a coefficient accessor. -/
def invsigmas [Zero K] [One K] : NoiseModel K → Nat → K
  | Diagonal l => fun i => l.getD i 0
  | Constrained l => fun i => l.getD i 0
  | Isotropic _ s => fun _ => s
  | Unit _ => fun _ => 1

/-- Whether `dynamic_pointer_cast<noiseModel::Unit>` succeeds. -/
def isUnit : NoiseModel K → Bool
  | Unit _ => true
  | _ => false

/-- Whether `dynamic_pointer_cast<noiseModel::Diagonal>` succeeds: every model listed
derives from `Diagonal`. -/
def isDiagonal : NoiseModel K → Bool
  | _ => true

end NoiseModel

/-- Modelled from the spec: the block view `VerticalBlockView` of a Jacobian factor is
declared outside the sources at hand; it is the starting column of every block plus the
end, the first block `blockStart` of the apparent view and its row range. -/
structure VerticalBlockView where
  variableColOffsets : List Nat
  rowStart : Nat
  rowEnd : Nat
  blockStart : Nat
  deriving DecidableEq, Repr

namespace VerticalBlockView

/-- Starting column of a block of the apparent view (`Ab_.offset(block)`). -/
def offset (v : VerticalBlockView) (block : Nat) : Nat :=
  v.variableColOffsets.getD (block + v.blockStart) 0

/-- Number of blocks of the apparent view (`Ab_.nBlocks()`). -/
def nBlocks (v : VerticalBlockView) : Nat :=
  v.variableColOffsets.length - 1 - v.blockStart

/-- Columns of block `b` (`Ab_(b).cols()`). -/
def blockCols (v : VerticalBlockView) (b : Nat) : Nat :=
  v.offset (b + 1) - v.offset b

/-- Rows of the apparent view (`Ab_.full().rows()`). -/
def rows (v : VerticalBlockView) : Nat := v.rowEnd - v.rowStart

/-- Columns of the apparent view (`Ab_.full().cols()`). -/
def cols (v : VerticalBlockView) : Nat := v.offset v.nBlocks - v.offset 0

end VerticalBlockView

/-- Modelled from the spec: `copyStructureFrom` of the block views is declared outside
the sources at hand; the information factor gets the "block boundaries" of the view
copied from, counted from the start of that view, and starts at its first block. -/
def SymmetricBlockView.copyStructureFrom (rhs : VerticalBlockView) : SymmetricBlockView :=
  { variableColOffsets := (rhs.variableColOffsets.drop rhs.blockStart).map (· - rhs.offset 0)
    blockStart := 0 }

/-- Measurement (Jacobian) factor: keys, the dense matrix `matrix_`, the block view
`Ab_` onto `[A | b]` and the noise model `model_`. -/
structure JacobianFactor (K : Type) where
  keys_ : List Nat
  matrix_ : MatrixXd K
  Ab_ : VerticalBlockView
  model_ : NoiseModel K

namespace JacobianFactor

variable {K : Type}

/-- Number of variables of the factor (`size()`). -/
def size (jf : JacobianFactor K) : Nat := jf.keys_.length

/-- The view `Ab_.full()`, equally `matrix_.block(Ab_.rowStart(), Ab_.offset(0), ..)`,
as a coefficient accessor. -/
def full (jf : JacobianFactor K) : Nat → Nat → K :=
  jf.matrix_.block jf.Ab_.rowStart (jf.Ab_.offset 0)

end JacobianFactor

/-- A Gaussian factor is an information factor, a measurement factor, or of another
class (on which both dynamic casts fail). -/
inductive GaussianFactor (K : Type) where
  | Hessian (hf : HessianFactor K)
  | Jacobian (jf : JacobianFactor K)
  | Other (keys : List Nat)

namespace GaussianFactor

variable {K : Type}

/-- The keys of the factor. -/
def keys : GaussianFactor K → List Nat
  | Hessian hf => hf.keys_
  | Jacobian jf => jf.keys_
  | Other ks => ks

end GaussianFactor

namespace HessianFactor

variable {K : Type}

/-- `HessianFactor(const GaussianFactor& gf)`: the conversion constructor, with `NDEBUG`
and `isfinite` those of `assertInvariants()`, which ends the constructor. -/
def ofGaussianFactor [Field K] (NDEBUG : Bool) (isfinite : K → Bool) (gf : GaussianFactor K) :
    Except Exception (HessianFactor K) :=
  match gf with
  | .Jacobian jf =>
    if jf.model_.isConstrained then
      .error (.invalid_argument
        "Cannot construct HessianFactor from JacobianFactor with constrained noise model")
    else
      -- invsigmas = model_->invsigmas().cwiseProduct(model_->invsigmas())
      let invsigmas : Nat → K := fun r => jf.model_.invsigmas r * jf.model_.invsigmas r
      let info := SymmetricBlockView.copyStructureFrom jf.Ab_
      let A := jf.full
      -- matrix_ = A.transpose() * invsigmas.asDiagonal() * A
      -- assertInvariants()
      constructed NDEBUG isfinite
          { keys_ := jf.keys_
            matrix_ := ⟨jf.Ab_.cols, jf.Ab_.cols, fun i j =>
              ∑ r ∈ Finset.range jf.Ab_.rows, (A r i * invsigmas r) * A r j⟩
            info_ := info }
  | .Hessian hf =>
    -- info_.assignNoalias(hf.info_); assertInvariants()
    constructed NDEBUG isfinite
        { keys_ := hf.keys_
          matrix_ := ⟨hf.fullDim, hf.fullDim,
            hf.matrix_.block (hf.info_.offset 0) (hf.info_.offset 0)⟩
          info_ :=
            { variableColOffsets :=
                (hf.info_.variableColOffsets.drop hf.info_.blockStart).map
                  (· - hf.info_.offset 0)
              blockStart := 0 } }
  | .Other _ =>
    .error (.invalid_argument
      "In HessianFactor(const GaussianFactor& gf), gf is neither a JacobianFactor nor a HessianFactor")

/-- `updateATA(const JacobianFactor& update, const Scatter& scatter)`.  The result is
the state of the joint factor when the call ends together with the exception thrown,
if any. -/
def updateATAJacobian [Field K] (self : HessianFactor K) (update : JacobianFactor K)
    (scatter : Scatter) : HessianFactor K × Option Exception :=
  let slots := update.keys_.map scatter.slotOf
  if update.model_.isConstrained then
    (self, some (.invalid_argument
      "Cannot update HessianFactor from JacobianFactor with constrained noise model"))
  else
    let updateA := update.full
    let updateInform? : Option (Nat → Nat → K) :=
      if update.model_.isUnit then
        -- updateA.transpose() * updateA
        some fun c1 c2 => ∑ r ∈ Finset.range update.Ab_.rows, updateA r c1 * updateA r c2
      else if update.model_.isDiagonal then
        -- updateA.transpose() * R * R * updateA, R = invsigmas().asDiagonal()
        some fun c1 c2 => ∑ r ∈ Finset.range update.Ab_.rows,
          ((updateA r c1 * update.model_.invsigmas r) * update.model_.invsigmas r)
            * updateA r c2
      else none
    match updateInform? with
    | none =>
      (self, some (.invalid_argument
        "In HessianFactor::updateATA, JacobianFactor noise model is neither Unit nor Diagonal"))
    | some updateInform =>
      let off0 := update.Ab_.offset 0
      ({ self with
          matrix_ := updateATALoop self.info_ update.Ab_.nBlocks update.size slots
            (fun j1 j2 r c =>
              updateInform (update.Ab_.offset j1 - off0 + r) (update.Ab_.offset j2 - off0 + c))
            self.matrix_ }, none)

/-- The body of the loop of the combined constructor: accumulate one factor, by the
overload of `updateATA` of its class. -/
def updateWith [Field K] (self : HessianFactor K) (factor : GaussianFactor K)
    (scatter : Scatter) : Except Exception (HessianFactor K) :=
  match factor with
  | .Hessian hessian => .ok (self.updateATA hessian scatter)
  | .Jacobian jacobianFactor =>
    match self.updateATAJacobian jacobianFactor scatter with
    | (joint, none) => .ok joint
    | (_, some e) => .error e
  | .Other _ => .error (.invalid_argument "GaussianFactor is neither Hessian nor Jacobian")

/-- `HessianFactor(const FactorGraph<GaussianFactor>& factors,
const vector<size_t>& dimensions, const Scatter& scatter)`: the combined constructor,
with `NDEBUG` and `isfinite` those of `assertInvariants()`, which ends the constructor. -/
def ofFactors [Field K] (NDEBUG : Bool) (isfinite : K → Bool) (factors : List (GaussianFactor K))
    (dimensions : List Nat) (scatter : Scatter) : Except Exception (HessianFactor K) :=
  -- info_.resize(dimensions.begin(), dimensions.end(), false); matrix_ = Zero
  let info := SymmetricBlockView.ofDims dimensions
  let n := info.offset info.nBlocks
  match factors.foldlM (fun self factor => self.updateWith factor scatter)
    ({ keys_ := [], matrix_ := MatrixXd.zero n n, info_ := info } : HessianFactor K) with
  | .error e => .error e
  -- assertInvariants()
  | .ok joint => constructed NDEBUG isfinite joint

/-- What a factor adds to the entries of a joint factor with block view `info`: the
result of accumulating it into the zero matrix (`0` if it is rejected). -/
def increment [Field K] (info : SymmetricBlockView) (factor : GaussianFactor K)
    (scatter : Scatter) (i j : Nat) : K :=
  match updateWith { keys_ := [], matrix_ := MatrixXd.zero 0 0, info_ := info } factor scatter with
  | .ok joint => joint.matrix_.coeff i j
  | .error _ => 0

end HessianFactor

/-- The factors that `updateATA` accepts: information factors and measurement factors
whose noise model is not constrained. -/
def GaussianFactor.Accumulable {K : Type} : GaussianFactor K → Prop
  | .Hessian _ => True
  | .Jacobian jf => jf.model_.isConstrained = false
  | .Other _ => False

/-- Modelled from the spec: `zeroBelowDiagonal` is declared outside the sources at hand;
"zeroing strictly-below-diagonal entries (enforcing upper-triangular structure)", here
of the block of `nr` rows and `nc` columns that starts at `(r0, c0)`. -/
def MatrixXd.zeroBelowDiagonal {K : Type} [Zero K] (M : MatrixXd K) (r0 c0 nr nc : Nat) :
    MatrixXd K :=
  { M with coeff := fun i j =>
      if r0 ≤ i ∧ i < r0 + nr ∧ c0 ≤ j ∧ j < c0 + nc ∧ j - c0 < i - r0 then 0
      else M.coeff i j }

/-- Modelled from the spec: the conditional `GaussianConditional` is declared outside the
sources at hand; "one eliminated frontal variable (or block of frontals) expressed as a
unit-or-scaled upper-triangular linear relation to its separator (parents) plus its own
information/noise": the keys (frontal variables first, then parents), the number of
frontal variables, the matrix `[R S d]` with its block view, and the sigmas. -/
structure GaussianConditional (K : Type) where
  keys_ : List Nat
  nrFrontals_ : Nat
  matrix_ : MatrixXd K
  rsd_ : VerticalBlockView
  sigmas_ : VectorXd K

namespace GaussianConditional

variable {K : Type}

/-- The frontal variables of the conditional. -/
def frontals (c : GaussianConditional K) : List Nat := c.keys_.take c.nrFrontals_

/-- The parents (separator) of the conditional. -/
def parents (c : GaussianConditional K) : List Nat := c.keys_.drop c.nrFrontals_

/-- `GaussianConditional(firstKey, lastKey, nrFrontals, matrices, sigmas)`: the keys are
copied and `rsd_.assignNoalias(matrices)` copies the apparent view of `matrices`: its
rows `rowStart .. rowEnd` and its columns from the first block of the view on. -/
def ofView (keys : List Nat) (nrFrontals : Nat) (M : MatrixXd K) (matrices : VerticalBlockView)
    (sigmas : VectorXd K) : GaussianConditional K :=
  { keys_ := keys
    nrFrontals_ := nrFrontals
    matrix_ := ⟨matrices.rows, matrices.cols, M.block matrices.rowStart (matrices.offset 0)⟩
    rsd_ :=
      { variableColOffsets :=
          (matrices.variableColOffsets.drop matrices.blockStart).map (· - matrices.offset 0)
        rowStart := 0
        rowEnd := matrices.rows
        blockStart := 0 }
    sigmas_ := sigmas }

end GaussianConditional

/-- State of the loop of `splitEliminatedFactor`: the matrix, the view `Ab` onto it and
the conditionals extracted so far. -/
structure SplitState (K : Type) where
  matrix : MatrixXd K
  Ab : VerticalBlockView
  conditionals : List (GaussianConditional K)

namespace HessianFactor

variable {K : Type}

/-- The body of the loop of `splitEliminatedFactor`, for the frontal variable `j`. -/
def splitStep [Zero K] [One K] (keys : List Nat) (st : SplitState K) (j : Nat) :
    SplitState K :=
  -- size_t varDim = Ab(0).cols(); Ab.rowEnd() = Ab.rowStart() + varDim;
  let varDim := st.Ab.blockCols 0
  let Ab : VerticalBlockView := { st.Ab with rowEnd := st.Ab.rowStart + varDim }
  -- zeroBelowDiagonal(Ab.range(0, Ab.nBlocks()))
  let M := st.matrix.zeroBelowDiagonal Ab.rowStart (Ab.offset 0) Ab.rows Ab.cols
  -- Vector sigmas = Vector::Ones(varDim)
  let sigmas : VectorXd K := ⟨varDim, fun _ => 1⟩
  -- conditionals->push_back(ConditionalType(keys.begin()+j, keys.end(), 1, Ab, sigmas))
  let conditional := GaussianConditional.ofView (keys.drop j) 1 M Ab sigmas
  -- Ab.rowStart() += varDim; Ab.firstBlock() += 1;
  { matrix := M
    Ab := { Ab with rowStart := Ab.rowStart + varDim, blockStart := Ab.blockStart + 1 }
    conditionals := st.conditionals ++ [conditional] }

/-- `splitEliminatedFactor(nrFrontals, keys)`: the conditionals returned and the factor
afterwards.  The view `BlockAb Ab(matrix_, info_)` has the block offsets of `info_` and
all rows of `matrix_`; every statement assumes `info_` to start at its block `0`. -/
def splitEliminatedFactor [Zero K] [One K] (self : HessianFactor K) (nrFrontals : Nat)
    (keys : List Nat) : List (GaussianConditional K) × HessianFactor K :=
  let Ab : VerticalBlockView :=
    { variableColOffsets := self.info_.variableColOffsets
      rowStart := 0
      rowEnd := self.matrix_.rows
      blockStart := 0 }
  let st := (List.range nrFrontals).foldl (splitStep keys) ⟨self.matrix_, Ab, []⟩
  -- info_.blockStart() = nrFrontals; keys_.assign(keys.begin() + nrFrontals, keys.end());
  (st.conditionals,
    { keys_ := keys.drop nrFrontals
      matrix_ := st.matrix
      info_ := { self.info_ with blockStart := nrFrontals } })

/-- An eliminated factor ready to be split over the keys `keys`: its view starts at
block `0` at offset `0`, the block offsets ascend, and there is one block per key plus
the constant block. -/
def Splittable (self : HessianFactor K) (keys : List Nat) : Prop :=
  self.info_.blockStart = 0 ∧
  self.info_.offset 0 = 0 ∧
  self.info_.variableColOffsets.Sorted (· ≤ ·) ∧
  self.info_.nBlocks = keys.length + 1

instance (self : HessianFactor K) (keys : List Nat) : Decidable (Splittable self keys) := by
  unfold Splittable; infer_instance

end HessianFactor

/-- The entry `(i, j)` of the block `(s1, s2)` of the joint view filled with the block of
`S` that starts at `(r1, r2)`, and `0` outside that block. -/
def scatteredBlock {K : Type} [Zero K] (info : SymmetricBlockView) (S : Nat → Nat → K)
    (s1 s2 r1 r2 i j : Nat) : K :=
  if info.offset s1 ≤ i ∧ i < info.offset (s1 + 1) ∧
      info.offset s2 ≤ j ∧ j < info.offset (s2 + 1) then
    S (r1 + (i - info.offset s1)) (r2 + (j - info.offset s2))
  else 0

/-- The joint factor with `factor` accumulated, written with its increment. -/
def HessianFactor.accumulated {K : Type} [Field K] (scatter : Scatter)
    (self : HessianFactor K) (factor : GaussianFactor K) : HessianFactor K :=
  { keys_ := self.keys_
    matrix_ := ⟨self.matrix_.rows, self.matrix_.cols, fun i j =>
      self.matrix_.coeff i j + HessianFactor.increment self.info_ factor scatter i j⟩
    info_ := self.info_ }

/-- What `splitEliminatedFactor` promises of the conditional of the frontal variable at
position `b`: its keys are `keys[b..]`, the first of them frontal; its sigmas are `dim b`
ones; its matrix `[R S d]` has the `dim b` rows of block `b` and the columns from block
`b` to the end, and every entry is the entry of the row band of block `b` of the matrix
`final`, which is the entry of the matrix of the factor at entry of the call on and
right of the diagonal, and zero below it. -/
def HessianFactor.IsSplitConditional {K : Type} [Zero K] [One K] (self : HessianFactor K)
    (keys : List Nat) (b : Nat) (final : MatrixXd K) (c : GaussianConditional K) : Prop :=
  c.keys_ = keys.drop b ∧ c.nrFrontals_ = 1 ∧
  c.sigmas_.size = self.info_.blockDim b ∧ (∀ r, c.sigmas_.coeff r = 1) ∧
  c.matrix_.rows = self.info_.blockDim b ∧
  c.matrix_.cols = self.info_.offset self.info_.nBlocks - self.info_.offset b ∧
  ∀ r c', r < self.info_.blockDim b →
    c' < self.info_.offset self.info_.nBlocks - self.info_.offset b →
    c.matrix_.coeff r c' = final.coeff (self.info_.offset b + r) (self.info_.offset b + c') ∧
    c.matrix_.coeff r c' =
      if c' < r then 0
      else self.matrix_.coeff (self.info_.offset b + r) (self.info_.offset b + c')

/-- Modelled from the spec: `choleskyPartial` (`gtsam/base/cholesky.cpp`) is not among
the sources at hand.  One step of the "in-place Cholesky-style elimination": the pivot
`ABC(k,k)` must be positive ("fails with `IndeterminantSystemError` if a pivot is
non-positive"), row `k` is divided by the square root of the pivot, and the upper
triangle of the remainder below and right of it gets the Schur-complement update.  The
square root of the scalars is the parameter `sqrt`. -/
def choleskyStep {K : Type} [LinearOrderedField K] (sqrt : K → K) (n k : Nat)
    (ABC : MatrixXd K) : Except Exception (MatrixXd K) :=
  let alpha := ABC.coeff k k
  if alpha ≤ 0 then
    .error (.indeterminant_linear_system "choleskyPartial: non-positive pivot")
  else
    let beta := sqrt alpha
    .ok { ABC with coeff := fun i j =>
      if i = k ∧ j = k then beta
      else if i = k ∧ k < j ∧ j < n then ABC.coeff k j / beta
      else if k < i ∧ i ≤ j ∧ j < n then ABC.coeff i j - ABC.coeff k i / beta * (ABC.coeff k j / beta)
      else ABC.coeff i j }

/-- Modelled from the spec: `choleskyPartial(ABC, nFrontal)`, the elimination of the
first `nFrontal` scalar variables of the symmetric matrix stored in the upper triangle
of `ABC`, one pivot after the other. -/
def choleskyPartial {K : Type} [LinearOrderedField K] (sqrt : K → K) (ABC : MatrixXd K)
    (nFrontal : Nat) : Except Exception (MatrixXd K) :=
  (List.range nFrontal).foldlM (fun M k => choleskyStep sqrt ABC.rows k M) ABC

/-- `partialCholesky(nrFrontals)`: `choleskyPartial(matrix_, info_.offset(nrFrontals))`;
an exception of `choleskyPartial` propagates. -/
def HessianFactor.partialCholesky {K : Type} [LinearOrderedField K] (sqrt : K → K)
    (self : HessianFactor K) (nrFrontals : Nat) : Except Exception (HessianFactor K) :=
  match choleskyPartial sqrt self.matrix_ (self.info_.offset nrFrontals) with
  | .ok M => .ok { self with matrix_ := M }
  | .error e => .error e

/-- The leading block `G11` of a matrix: the symmetric matrix read from the upper
triangle of its first `nF` rows and columns. -/
def MatrixXd.leading {K : Type} (M : MatrixXd K) (nF : Nat) : Matrix (Fin nF) (Fin nF) K :=
  MatrixXd.toSelfadjoint nF M.coeff

/-- The block `[G12 g1]` of a matrix of `n` columns: its first `nF` rows, from column
`nF` on. -/
def MatrixXd.topRight {K : Type} (M : MatrixXd K) (n nF : Nat) :
    Matrix (Fin nF) (Fin (n - nF)) K :=
  Matrix.of fun i j => M.coeff i (nF + j)

/-- The trailing block `[G22 g2; g2ᵀ f]` of a matrix of `n` rows and columns: the
symmetric matrix read from the upper triangle of its rows and columns from `nF` on. -/
def MatrixXd.trailing {K : Type} (M : MatrixXd K) (n nF : Nat) :
    Matrix (Fin (n - nF)) (Fin (n - nF)) K :=
  MatrixXd.toSelfadjoint (n - nF) (M.block nF nF)

/-- The upper triangular factor `R` stored on and above the diagonal of the first `nF`
rows and columns of a matrix. -/
def MatrixXd.upperFactor {K : Type} [Zero K] (M : MatrixXd K) (nF : Nat) :
    Matrix (Fin nF) (Fin nF) K :=
  Matrix.of fun i j => if i ≤ j then M.coeff i j else 0

/-- A symmetric matrix is positive definite: `xᵀ G x > 0` for every `x ≠ 0`. -/
def PositiveDefinite {K : Type} [LinearOrderedField K] {n : Nat}
    (G : Matrix (Fin n) (Fin n) K) : Prop :=
  ∀ x : Fin n → K, x ≠ 0 → 0 < Matrix.dotProduct x (Matrix.mulVec G x)

/-- Invariant of `choleskyPartial` after the first `k` pivots, `M` being the matrix at
entry and `Mk` the matrix reached: the shape is kept, the pivots stored are positive,
nothing below the diagonal is touched, and on and above the diagonal the matrix at entry
is the product of the rows already factored plus what is left of the remainder. -/
def CholeskyInvariant {K : Type} [LinearOrderedField K] (n : Nat) (M Mk : MatrixXd K)
    (k : Nat) : Prop :=
  Mk.rows = M.rows ∧ Mk.cols = M.cols ∧
  (∀ l, l < k → 0 < Mk.coeff l l) ∧
  (∀ i j, j < i → Mk.coeff i j = M.coeff i j) ∧
  ∀ i j, i ≤ j → j < n →
    M.coeff i j = ∑ l ∈ Finset.range k, (if l ≤ i then Mk.coeff l i * Mk.coeff l j else 0)
      + (if k ≤ i then Mk.coeff i j else 0)

/-- Modelled from the spec: `equal_with_abs_tol` (`gtsam/base/Matrix.cpp`) is not among
the sources at hand; "matrix equality up to tolerance": the shapes agree and no pair of
entries is further apart than `tol`. -/
def equal_with_abs_tol {K : Type} [LinearOrderedField K] (A B : MatrixXd K) (tol : K) : Bool :=
  if A.rows ≠ B.rows ∨ A.cols ≠ B.cols then false
  else (List.range A.rows).all fun i => (List.range A.cols).all fun j =>
    !decide (|A.coeff i j - B.coeff i j| > tol)

namespace HessianFactor

variable {K : Type}

/-- The matrix that `equals` compares: `info_.full().selfadjointView<Eigen::Upper>()`
with its last cell set to zero (`m(m.rows()-1, m.cols()-1) = 0.0`). -/
def comparedMatrix [Zero K] (h : HessianFactor K) : MatrixXd K :=
  let m : MatrixXd K := ⟨h.fullDim, h.fullDim,
    MatrixXd.selfadjointUpper (h.matrix_.block (h.info_.offset 0) (h.info_.offset 0))⟩
  m.assignBlock (m.rows - 1) (m.cols - 1) 1 1 (fun _ _ => 0)

/-- `equals(const GaussianFactor& lf, double tol)`. -/
def equals [LinearOrderedField K] (self : HessianFactor K) (lf : GaussianFactor K) (tol : K) :
    Bool :=
  match lf with
  | .Hessian rhs => equal_with_abs_tol self.comparedMatrix rhs.comparedMatrix tol
  | _ => false

/-- The factor with the constant-term cell, the last cell of the view, replaced by `f`. -/
def withConstant (h : HessianFactor K) (f : K) : HessianFactor K :=
  { h with
    matrix_ := h.matrix_.assignBlock (h.info_.offset 0 + (h.fullDim - 1))
      (h.info_.offset 0 + (h.fullDim - 1)) 1 1 (fun _ _ => f) }

end HessianFactor

/-! ### The damped optimization loop (`LevenbergMarquardtOptimizer.cpp`) -/

/-- `VectorValues`: a vector for every variable key, in the order of iteration. -/
abbrev VectorValues (K : Type) := List (Nat × VectorXd K)

/-- `VectorValues::at(key)`, `none` where the source throws `out_of_range`. -/
def VectorValues.valueAt {K : Type} (v : VectorValues K) (key : Nat) : Option (VectorXd K) :=
  (List.find? (fun e => e.1 == key) v).map Prod.snd

/-- `GaussianFactorGraph`: the factors of a linear graph, in order. -/
abbrev GaussianFactorGraph (K : Type) := List (GaussianFactor K)

/-- Modelled from the spec: `LevenbergMarquardtParams` is declared outside the sources at
hand; the "configuration surface" of the optimizer, with the two flags
`useFixedLambdaFactor_` and `reuse_diagonal_` that the source reads and writes. -/
structure LevenbergMarquardtParams (K : Type) where
  lambdaInitial : K
  lambdaFactor : K
  lambdaUpperBound : K
  lambdaLowerBound : K
  minModelFidelity : K
  relativeErrorTol : K
  diagonalDamping : Bool
  useFixedLambdaFactor_ : Bool
  reuse_diagonal_ : Bool

/-- Modelled from the spec: `LevenbergMarquardtState` is declared outside the sources at
hand; "current nonlinear estimate, current damping scalar, optional per-variable damping
diagonal cache, iteration and inner-iteration counters, current true cost". -/
structure LevenbergMarquardtState (K V : Type) where
  values : V
  error : K
  lambda : K
  iterations : Nat
  totalNumberInnerIterations : Nat
  hessianDiagonal : VectorValues K

/-- The optimizer: its parameters `params_` and its state `state_`, both of which
`iterate()` changes. -/
structure LevenbergMarquardtOptimizer (K V : Type) where
  params_ : LevenbergMarquardtParams K
  state_ : LevenbergMarquardtState K V

/-- The external collaborators of the optimizer, each a function of its arguments: the
square root of the scalars, `graph_.linearize`, `graph_.error`, `Values::retract`, the
keys and dimensions of the values in iteration order, `solve` (which may throw),
`GaussianFactorGraph::error` and `GaussianFactorGraph::hessianDiagonal`. -/
structure Collaborators (K V : Type) where
  sqrt : K → K
  linearize : V → GaussianFactorGraph K
  graphError : V → K
  retract : V → VectorValues K → V
  valueDims : V → List (Nat × Nat)
  solve : GaussianFactorGraph K → V → LevenbergMarquardtParams K →
    Except Exception (VectorValues K)
  linearError : GaussianFactorGraph K → VectorValues K → K
  hessianDiagonal : GaussianFactorGraph K → VectorValues K

/-- Modelled from the spec: the constructor `JacobianFactor(key, A, b, model)` is declared
outside the sources at hand; the measurement factor on one variable with coefficient
block `A`, residual `b` and the given noise model. -/
def JacobianFactor.ofUnary {K : Type} (i1 : Nat) (A1 : MatrixXd K) (b : VectorXd K)
    (model : NoiseModel K) : JacobianFactor K :=
  { keys_ := [i1]
    matrix_ := ⟨b.size, A1.cols + 1, fun r c => if c < A1.cols then A1.coeff r c else b.coeff r⟩
    Ab_ := { variableColOffsets := [0, A1.cols, A1.cols + 1], rowStart := 0, rowEnd := b.size,
             blockStart := 0 }
    model_ := model }

/-- How a trial of the inner loop of `iterate()` ends: the step is accepted (`break`),
the trial is rejected and another one follows, the trial is rejected with lambda at or
above its upper bound (`break`, giving up), or the search for lambda is stopped
(`break`). -/
inductive TrialOutcome where
  | accepted
  | retry
  | givingUp
  | stopSearching
  deriving DecidableEq, Repr

/-- The locals `step_is_successful`, `stopSearchingLambda`, `newValues`, `newError` and
`modelFidelity` of a trial when its evaluation ends; `newValues` and `newError` are
assigned on every path that sets `step_is_successful`. -/
inductive StepEvaluation (K V : Type) where
  | successful (newValues : V) (newError : K) (modelFidelity : K)
  | stopSearchingLambda
  | unsuccessful

namespace LevenbergMarquardtOptimizer

variable {K V : Type} [LinearOrderedField K]

/-- `increaseLambda()`. -/
def increaseLambda (self : LevenbergMarquardtOptimizer K V) : LevenbergMarquardtOptimizer K V :=
  if self.params_.useFixedLambdaFactor_ then
    { params_ := { self.params_ with reuse_diagonal_ := true }
      state_ := { self.state_ with lambda := self.state_.lambda * self.params_.lambdaFactor } }
  else
    { params_ := { self.params_ with
                   lambdaFactor := self.params_.lambdaFactor * 2, reuse_diagonal_ := true }
      state_ := { self.state_ with lambda := self.state_.lambda * self.params_.lambdaFactor } }

/-- `decreaseLambda(stepQuality)`. -/
def decreaseLambda (self : LevenbergMarquardtOptimizer K V) (stepQuality : K) :
    LevenbergMarquardtOptimizer K V :=
  if self.params_.useFixedLambdaFactor_ then
    { params_ := { self.params_ with reuse_diagonal_ := false }
      state_ := { self.state_ with
        lambda := max self.params_.lambdaLowerBound
          (self.state_.lambda / self.params_.lambdaFactor) } }
  else
    { params_ := { self.params_ with lambdaFactor := 2, reuse_diagonal_ := false }
      state_ := { self.state_ with
        lambda := max self.params_.lambdaLowerBound
          (self.state_.lambda * max (1 / 3) (1 - (2 * stepQuality - 1) ^ 3)) } }

/-- The clamped square root of an entry of the Hessian diagonal:
`sqrt(min(max(v, min_diagonal_), max_diagonal_))` with `min_diagonal_ = 1e-6` and
`max_diagonal_ = 1e32`. -/
def clampedSqrt (sqrt : K → K) (v : K) : K :=
  sqrt (min (max v (1 / 10 ^ 6)) (10 ^ 32))

/-- `buildDampedSystem(linear)`: the damped graph and the optimizer afterwards (the
diagonal cache may have been refreshed). -/
def buildDampedSystem (env : Collaborators K V) (self : LevenbergMarquardtOptimizer K V)
    (linear : GaussianFactorGraph K) :
    GaussianFactorGraph K × LevenbergMarquardtOptimizer K V :=
  -- Only retrieve diagonal vector when reuse_diagonal = false
  let self1 : LevenbergMarquardtOptimizer K V :=
    if self.params_.diagonalDamping && self.params_.reuse_diagonal_ == false then
      { self with state_ := { self.state_ with
          hessianDiagonal := (env.hessianDiagonal linear).map fun kv =>
            (kv.1, ⟨kv.2.size, fun aa => clampedSqrt env.sqrt (kv.2.coeff aa)⟩) } }
    else self
  let sigma := 1 / env.sqrt self1.state_.lambda
  let priors : List (JacobianFactor K) :=
    if self1.params_.diagonalDamping then
      self1.state_.hessianDiagonal.filterMap fun key_vector =>
        match self1.state_.hessianDiagonal.valueAt key_vector.1 with
        | some d =>
          let dim := key_vector.2.size
          some (JacobianFactor.ofUnary key_vector.1
            ⟨d.size, d.size, fun r c => if r = c then d.coeff r else 0⟩
            ⟨dim, fun _ => 0⟩ (.Isotropic dim (1 / sigma)))
        | none => none
    else
      (env.valueDims self1.state_.values).map fun key_value =>
        let dim := key_value.2
        JacobianFactor.ofUnary key_value.1
          ⟨dim, dim, fun r c => if r = c then 1 else 0⟩
          ⟨dim, fun _ => 0⟩ (.Isotropic dim (1 / sigma))
  (linear ++ priors.map GaussianFactor.Jacobian, self1)

/-- The evaluation of a solved trial: the block `if (systemSolvedSuccessfully) { .. }`
of `iterate()` after `reuse_diagonal_` has been set. -/
def evaluateStep (env : Collaborators K V) (linear : GaussianFactorGraph K)
    (self : LevenbergMarquardtOptimizer K V) (delta : VectorValues K) : StepEvaluation K V :=
  let newlinearizedError := env.linearError linear delta
  let linearizedCostChange := self.state_.error - newlinearizedError
  if linearizedCostChange ≥ 0 then
    let newValues := env.retract self.state_.values delta
    let newError := env.graphError newValues
    let costChange := self.state_.error - newError
    let absolute_function_tolerance := self.params_.relativeErrorTol * self.state_.error
    if |costChange| ≥ absolute_function_tolerance then
      if linearizedCostChange > 1 / 10 ^ 15 then
        let modelFidelity := costChange / linearizedCostChange
        if modelFidelity > self.params_.minModelFidelity then
          .successful newValues newError modelFidelity
        else .unsuccessful
      else .successful newValues newError 0
    else .stopSearchingLambda
  else .unsuccessful

/-- The end of a trial: the `if (step_is_successful) .. else if (!stopSearchingLambda)
.. else ..` of `iterate()`. -/
def finishTrial (self : LevenbergMarquardtOptimizer K V) (evaluation : StepEvaluation K V) :
    TrialOutcome × LevenbergMarquardtOptimizer K V :=
  match evaluation with
  | .successful newValues newError modelFidelity =>
    (.accepted,
      decreaseLambda
        { self with state_ := { self.state_ with values := newValues, error := newError } }
        modelFidelity)
  | .unsuccessful =>
    let increased := self.increaseLambda
    if increased.state_.lambda ≥ increased.params_.lambdaUpperBound then (.givingUp, increased)
    else (.retry, increased)
  | .stopSearchingLambda => (.stopSearching, self)

/-- The optimizer as the `solve` call of a trial finds it: after `buildDampedSystem`
and `++state_.totalNumberInnerIterations`. -/
def beforeSolve (env : Collaborators K V) (linear : GaussianFactorGraph K)
    (self : LevenbergMarquardtOptimizer K V) : LevenbergMarquardtOptimizer K V :=
  let built := self.buildDampedSystem env linear
  { built.2 with state_ := { built.2.state_ with
      totalNumberInnerIterations := built.2.state_.totalNumberInnerIterations + 1 } }

/-- The optimizer after a successful solve: `params_.reuse_diagonal_ = true`. -/
def afterSolve (env : Collaborators K V) (linear : GaussianFactorGraph K)
    (self : LevenbergMarquardtOptimizer K V) : LevenbergMarquardtOptimizer K V :=
  let self1 := self.beforeSolve env linear
  { self1 with params_ := { self1.params_ with reuse_diagonal_ := true } }

/-- One pass of the `while (true)` loop of `iterate()`: build the damped system, count
the inner iteration, try to solve (`IndeterminantLinearSystemException` is caught, any
other exception propagates), evaluate and finish. -/
def trial (env : Collaborators K V) (linear : GaussianFactorGraph K)
    (self : LevenbergMarquardtOptimizer K V) :
    Except Exception (TrialOutcome × LevenbergMarquardtOptimizer K V) :=
  let dampedSystem := (self.buildDampedSystem env linear).1
  let self1 := self.beforeSolve env linear
  match env.solve dampedSystem self1.state_.values self1.params_ with
  | .ok delta =>
    let self2 := self.afterSolve env linear
    .ok (finishTrial self2 (evaluateStep env linear self2 delta))
  | .error (.indeterminant_linear_system _) => .ok (finishTrial self1 .unsuccessful)
  | .error e => .error e

/-- The `while (true)` loop of `iterate()`, for at most `fuel` trials: `none` if the loop
has not ended by then, otherwise how the last trial ended and the optimizer after it. -/
def iterateLoop (env : Collaborators K V) (linear : GaussianFactorGraph K) :
    Nat → LevenbergMarquardtOptimizer K V →
      Except Exception (Option (TrialOutcome × LevenbergMarquardtOptimizer K V))
  | 0, _ => .ok none
  | fuel + 1, self =>
    match self.trial env linear with
    | .error e => .error e
    | .ok (.retry, next) => iterateLoop env linear fuel next
    | .ok (outcome, next) => .ok (some (outcome, next))

/-- `iterate()` with the outcome of its last trial: linearize, run the loop, increment
the iteration counter. -/
def iterateTrace (env : Collaborators K V) (fuel : Nat)
    (self : LevenbergMarquardtOptimizer K V) :
    Except Exception (Option (TrialOutcome × LevenbergMarquardtOptimizer K V)) :=
  let linear := env.linearize self.state_.values
  match iterateLoop env linear fuel self with
  | .error e => .error e
  | .ok none => .ok none
  | .ok (some (outcome, last)) =>
    .ok (some (outcome,
      { last with state_ := { last.state_ with iterations := last.state_.iterations + 1 } }))

/-- `iterate()`: the optimizer when the call returns. -/
def iterate (env : Collaborators K V) (fuel : Nat) (self : LevenbergMarquardtOptimizer K V) :
    Except Exception (Option (LevenbergMarquardtOptimizer K V)) :=
  match iterateTrace env fuel self with
  | .error e => .error e
  | .ok r => .ok (r.map Prod.snd)

end LevenbergMarquardtOptimizer

/-- The number of damped systems that the `while (true)` loop of `iterate()` builds
within `fuel` trials: every trial calls `buildDampedSystem` once, and only a rejected
trial below the upper bound is followed by another one. -/
def LevenbergMarquardtOptimizer.dampedSystemsBuilt {K V : Type} [LinearOrderedField K]
    (env : Collaborators K V) (linear : GaussianFactorGraph K) :
    Nat → LevenbergMarquardtOptimizer K V → Nat
  | 0, _ => 0
  | fuel + 1, self =>
    match self.trial env linear with
    | .ok (.retry, next) => 1 + dampedSystemsBuilt env linear fuel next
    | _ => 1

/-! ### Back-substitution (`base/Matrix-inl.h`) -/

/-- `numeric_limits<double>::epsilon()`, the distance from `1.0` to the next `double`. -/
def epsilon (K : Type) [Field K] : K := 1 / 2 ^ 52

/-- Assignment to one entry of a vector: `result(i) = x`. -/
def VectorXd.set {K : Type} (v : VectorXd K) (i : Nat) (x : K) : VectorXd K :=
  { v with coeff := fun k => if k = i then x else v.coeff k }

/-- `backSubstituteUpper(U, b, unit)`: back-substitution for `U*x = b`.  `NDEBUG` tells
whether the checks under `#ifndef NDEBUG` are compiled out, and `fresh` is the
unspecified content of the newly allocated `result`. -/
def backSubstituteUpper {K : Type} [LinearOrderedField K] (NDEBUG : Bool) (fresh : Nat → K)
    (U : MatrixXd K) (b : VectorXd K) (unit : Bool) : Except Exception (VectorXd K) :=
  let n := U.cols
  if !NDEBUG && U.rows != n then
    .error (.invalid_argument "backSubstituteUpper: U must be square")
  else
    -- for (size_t i = n; i > 0; i--)
    (List.range n).foldlM (fun (result : VectorXd K) k =>
      let i := n - k
      -- for (size_t j = i+1; j <= n; j++) zi -= U(i-1,j-1) * result(j-1);
      let zi := (List.range (n - i)).foldl (fun zi t =>
        zi - U.coeff (i - 1) (i + 1 + t - 1) * result.coeff (i + 1 + t - 1)) (b.coeff (i - 1))
      if !NDEBUG && !unit && decide (|U.coeff (i - 1) (i - 1)| ≤ epsilon K) then
        .error (.invalid_argument "backSubstituteUpper: U is singular")
      else
        .ok (result.set (i - 1) (if !unit then zi / U.coeff (i - 1) (i - 1) else zi)))
      ⟨n, fresh⟩

/-- `backSubstituteUpper(b, U, unit)`, the overload with the vector first:
back-substitution for `xᵀ*U = bᵀ`. -/
def backSubstituteUpperLeft {K : Type} [LinearOrderedField K] (NDEBUG : Bool) (fresh : Nat → K)
    (b : VectorXd K) (U : MatrixXd K) (unit : Bool) : Except Exception (VectorXd K) :=
  let n := U.cols
  if !NDEBUG && U.rows != n then
    .error (.invalid_argument "backSubstituteUpper: U must be square")
  else
    -- for (size_t i = 1; i <= n; i++)
    (List.range n).foldlM (fun (result : VectorXd K) k =>
      let i := k + 1
      -- for (size_t j = 1; j < i; j++) zi -= U(j-1,i-1) * result(j-1);
      let zi := (List.range (i - 1)).foldl (fun zi t =>
        zi - U.coeff (1 + t - 1) (i - 1) * result.coeff (1 + t - 1)) (b.coeff (i - 1))
      if !NDEBUG && !unit && decide (|U.coeff (i - 1) (i - 1)| ≤ epsilon K) then
        .error (.invalid_argument "backSubstituteUpper: U is singular")
      else
        .ok (result.set (i - 1) (if !unit then zi / U.coeff (i - 1) (i - 1) else zi)))
      ⟨n, fresh⟩

/-! ### Cache of the damping diagonal, verbosity names -/

namespace LevenbergMarquardtOptimizer

variable {K V : Type} [LinearOrderedField K]

/-- The diagonal cache is fresh: if the next `buildDampedSystem` is to reuse it
(`reuse_diagonal_` true), it is the clamped square root of the Hessian diagonal of the
linearization at the current estimate, as `buildDampedSystem` computes it. -/
def CacheFresh (env : Collaborators K V) (self : LevenbergMarquardtOptimizer K V) : Prop :=
  self.params_.reuse_diagonal_ = true →
    self.state_.hessianDiagonal =
      (env.hessianDiagonal (env.linearize self.state_.values)).map fun kv =>
        (kv.1, ⟨kv.2.size, fun aa => clampedSqrt env.sqrt (kv.2.coeff aa)⟩)

/-- The optimizers at the start of a trial, with the linearization of the `iterate()`
call the trial belongs to, in a run of `iterate()` calls that starts from `start`: the
first trial of the first call; the trial after a rejected one of the same call; the first
trial of the call after one whose loop has ended, at the linearization of the estimate
that call has left. -/
inductive TrialStart (env : Collaborators K V) (start : LevenbergMarquardtOptimizer K V) :
    LevenbergMarquardtOptimizer K V → GaussianFactorGraph K → Prop
  | first : TrialStart env start start (env.linearize start.state_.values)
  | again (self next : LevenbergMarquardtOptimizer K V) (linear : GaussianFactorGraph K) :
      TrialStart env start self linear → self.trial env linear = .ok (.retry, next) →
      TrialStart env start next linear
  | call (self last : LevenbergMarquardtOptimizer K V) (linear : GaussianFactorGraph K)
      (outcome : TrialOutcome) :
      TrialStart env start self linear → self.trial env linear = .ok (outcome, last) →
      outcome ≠ .retry →
      TrialStart env start
        { last with state_ := { last.state_ with iterations := last.state_.iterations + 1 } }
        (env.linearize last.state_.values)

/-- The number of times the `while (true)` loop of `iterate()` recomputes the diagonal
cache within `fuel` trials: a trial recomputes it in `buildDampedSystem` if
`diagonalDamping` is on and `reuse_diagonal_` is false. -/
def diagonalsComputed (env : Collaborators K V) (linear : GaussianFactorGraph K) :
    Nat → LevenbergMarquardtOptimizer K V → Nat
  | 0, _ => 0
  | fuel + 1, self =>
    (if self.params_.diagonalDamping && self.params_.reuse_diagonal_ == false then 1 else 0) +
      match self.trial env linear with
      | .ok (.retry, next) => diagonalsComputed env linear fuel next
      | _ => 0

end LevenbergMarquardtOptimizer

/-! ### The optimization loop in the arithmetic of `double` -/

namespace LevenbergMarquardtOptimizer

variable {K V : Type} [LinearOrderedField K]

/-- `increaseLambda()` in the arithmetic of `double`: `fl` rounds the exact result of an
operation on doubles to a double, so `state_.lambda *= params_.lambdaFactor` leaves
`fl (lambda * lambdaFactor)`.  With `fl = id` this is `increaseLambda`. -/
def increaseLambdaRounded (fl : K → K) (self : LevenbergMarquardtOptimizer K V) :
    LevenbergMarquardtOptimizer K V :=
  if self.params_.useFixedLambdaFactor_ then
    { params_ := { self.params_ with reuse_diagonal_ := true }
      state_ := { self.state_ with
        lambda := fl (self.state_.lambda * self.params_.lambdaFactor) } }
  else
    { params_ := { self.params_ with
                   lambdaFactor := fl (self.params_.lambdaFactor * 2), reuse_diagonal_ := true }
      state_ := { self.state_ with
        lambda := fl (self.state_.lambda * self.params_.lambdaFactor) } }

/-- `decreaseLambda(stepQuality)` in the arithmetic of `double`, every operation
followed by the rounding `fl`.  With `fl = id` this is `decreaseLambda`. -/
def decreaseLambdaRounded (fl : K → K) (self : LevenbergMarquardtOptimizer K V)
    (stepQuality : K) : LevenbergMarquardtOptimizer K V :=
  if self.params_.useFixedLambdaFactor_ then
    { params_ := { self.params_ with reuse_diagonal_ := false }
      state_ := { self.state_ with
        lambda := max self.params_.lambdaLowerBound
          (fl (self.state_.lambda / self.params_.lambdaFactor)) } }
  else
    { params_ := { self.params_ with lambdaFactor := 2, reuse_diagonal_ := false }
      state_ := { self.state_ with
        lambda := max self.params_.lambdaLowerBound
          (fl (self.state_.lambda *
            max (fl (1 / 3)) (fl (1 - fl (fl (fl (2 * stepQuality) - 1) ^ 3))))) } }

/-- The evaluation of a solved trial in the arithmetic of `double`, every operation
followed by the rounding `fl`.  With `fl = id` this is `evaluateStep`. -/
def evaluateStepRounded (fl : K → K) (env : Collaborators K V) (linear : GaussianFactorGraph K)
    (self : LevenbergMarquardtOptimizer K V) (delta : VectorValues K) : StepEvaluation K V :=
  let newlinearizedError := env.linearError linear delta
  let linearizedCostChange := fl (self.state_.error - newlinearizedError)
  if linearizedCostChange ≥ 0 then
    let newValues := env.retract self.state_.values delta
    let newError := env.graphError newValues
    let costChange := fl (self.state_.error - newError)
    let absolute_function_tolerance := fl (self.params_.relativeErrorTol * self.state_.error)
    if |costChange| ≥ absolute_function_tolerance then
      if linearizedCostChange > 1 / 10 ^ 15 then
        let modelFidelity := fl (costChange / linearizedCostChange)
        if modelFidelity > self.params_.minModelFidelity then
          .successful newValues newError modelFidelity
        else .unsuccessful
      else .successful newValues newError 0
    else .stopSearchingLambda
  else .unsuccessful

/-- The end of a trial in the arithmetic of `double`. -/
def finishTrialRounded (fl : K → K) (self : LevenbergMarquardtOptimizer K V)
    (evaluation : StepEvaluation K V) : TrialOutcome × LevenbergMarquardtOptimizer K V :=
  match evaluation with
  | .successful newValues newError modelFidelity =>
    (.accepted,
      decreaseLambdaRounded fl
        { self with state_ := { self.state_ with values := newValues, error := newError } }
        modelFidelity)
  | .unsuccessful =>
    let increased := self.increaseLambdaRounded fl
    if increased.state_.lambda ≥ increased.params_.lambdaUpperBound then (.givingUp, increased)
    else (.retry, increased)
  | .stopSearchingLambda => (.stopSearching, self)

/-- One pass of the `while (true)` loop of `iterate()` in the arithmetic of `double`. -/
def trialRounded (fl : K → K) (env : Collaborators K V) (linear : GaussianFactorGraph K)
    (self : LevenbergMarquardtOptimizer K V) :
    Except Exception (TrialOutcome × LevenbergMarquardtOptimizer K V) :=
  let dampedSystem := (self.buildDampedSystem env linear).1
  let self1 := self.beforeSolve env linear
  match env.solve dampedSystem self1.state_.values self1.params_ with
  | .ok delta =>
    let self2 := self.afterSolve env linear
    .ok (finishTrialRounded fl self2 (evaluateStepRounded fl env linear self2 delta))
  | .error (.indeterminant_linear_system _) => .ok (finishTrialRounded fl self1 .unsuccessful)
  | .error e => .error e

/-- The `while (true)` loop of `iterate()` in the arithmetic of `double`, for at most
`fuel` trials: `none` if the loop has not ended by then. -/
def iterateLoopRounded (fl : K → K) (env : Collaborators K V) (linear : GaussianFactorGraph K) :
    Nat → LevenbergMarquardtOptimizer K V →
      Except Exception (Option (TrialOutcome × LevenbergMarquardtOptimizer K V))
  | 0, _ => .ok none
  | fuel + 1, self =>
    match self.trialRounded fl env linear with
    | .error e => .error e
    | .ok (.retry, next) => iterateLoopRounded fl env linear fuel next
    | .ok (outcome, next) => .ok (some (outcome, next))

/-- `iterate()` in the arithmetic of `double`: the optimizer when the call returns,
`none` if the loop has not ended within `fuel` trials. -/
def iterateRounded (fl : K → K) (env : Collaborators K V) (fuel : Nat)
    (self : LevenbergMarquardtOptimizer K V) :
    Except Exception (Option (LevenbergMarquardtOptimizer K V)) :=
  match iterateLoopRounded fl env (env.linearize self.state_.values) fuel self with
  | .error e => .error e
  | .ok none => .ok none
  | .ok (some (_, last)) =>
    .ok (some
      { last with state_ := { last.state_ with iterations := last.state_.iterations + 1 } })

end LevenbergMarquardtOptimizer

/-- The levels `LevenbergMarquardtParams::VerbosityLM`. -/
inductive VerbosityLM where
  | SILENT
  | TERMINATION
  | LAMBDA
  | TRYLAMBDA
  | TRYCONFIG
  | TRYDELTA
  | DAMPED
  deriving DecidableEq, Repr

/-- Modelled from the spec: `boost::algorithm::to_upper` is declared outside the sources
at hand; every letter is replaced by its upper-case form. -/
def to_upper (s : String) : String := String.mk (s.data.map Char.toUpper)

/-- `verbosityLMTranslator(const std::string& src)`: the level of a name. -/
def verbosityLMTranslator (src : String) : VerbosityLM :=
  let s := to_upper src
  if s = "SILENT" then .SILENT
  else if s = "LAMBDA" then .LAMBDA
  else if s = "TRYLAMBDA" then .TRYLAMBDA
  else if s = "TRYCONFIG" then .TRYCONFIG
  else if s = "TRYDELTA" then .TRYDELTA
  else if s = "DAMPED" then .DAMPED
  /- default is silent -/
  else .SILENT

/-- `verbosityLMTranslator(VerbosityLM value)`, the overload that prints a level; its
`default:` case (`"UNDEFINED"`) is for values outside the enumeration. -/
def verbosityLMName (value : VerbosityLM) : String :=
  match value with
  | .SILENT => "SILENT"
  | .TERMINATION => "TERMINATION"
  | .LAMBDA => "LAMBDA"
  | .TRYLAMBDA => "TRYLAMBDA"
  | .TRYCONFIG => "TRYCONFIG"
  | .TRYDELTA => "TRYDELTA"
  | .DAMPED => "DAMPED"

/-! ### Maps of vectors (`linear/VectorMap.cpp`) -/

namespace VectorXd

variable {K : Type}

/-- Sum of two vectors (`vj + dj`). -/
def add [Add K] (a b : VectorXd K) : VectorXd K := ⟨a.size, fun i => a.coeff i + b.coeff i⟩

/-- Modelled from the spec: `axpy(alpha, x, y)` on vectors is declared outside the
sources at hand; `y += alpha * x`. -/
def axpy [Add K] [Mul K] (alpha : K) (x y : VectorXd K) : VectorXd K :=
  ⟨y.size, fun i => y.coeff i + alpha * x.coeff i⟩

/-- Modelled from the spec: `dot(a, b)` on vectors is declared outside the sources at
hand; the sum of the products of the entries. -/
def dot [Field K] (a b : VectorXd K) : K := ∑ i ∈ Finset.range a.size, a.coeff i * b.coeff i

/-- Modelled from the spec: `equal_with_abs_tol` on vectors is declared outside the
sources at hand; the sizes agree and no pair of entries is further apart than `tol`. -/
def equal_with_abs_tol [LinearOrderedField K] (vec1 vec2 : VectorXd K) (tol : K) : Bool :=
  if vec1.size ≠ vec2.size then false
  else (List.range vec1.size).all fun i => !decide (|vec1.coeff i - vec2.coeff i| > tol)

/-- Modelled from the spec: `sub(v, i1, i2)` is declared outside the sources at hand; the
entries `i1 .. i2 - 1` of `v`. -/
def sub (v : VectorXd K) (i1 i2 : Nat) : VectorXd K := ⟨i2 - i1, fun r => v.coeff (i1 + r)⟩

/-- Modelled from the spec: `subInsert(big, small, i)` is declared outside the sources at
hand; `small` is written into `big` from position `i` on. -/
def subInsert (big small : VectorXd K) (i : Nat) : VectorXd K :=
  ⟨big.size, fun r => if i ≤ r ∧ r < i + small.size then small.coeff (r - i) else big.coeff r⟩

end VectorXd

/-- `VectorMap`: its member `values`, a `std::map<Index, Vector>`, kept as the list of
its entries in the order of iteration (ascending keys). -/
structure VectorMap (K : Type) where
  values : List (Nat × VectorXd K)

/-- `check_size(key, vj, dj)`. -/
def check_size {K : Type} (_key : Nat) (vj dj : VectorXd K) : Except Exception Unit :=
  if dj.size ≠ vj.size then .error (.invalid_argument "VectorMap::+ mismatched dimensions")
  else .ok ()

namespace VectorMap

variable {K : Type}

/-- The invariant of `std::map`: the keys ascend strictly in the order of iteration. -/
def WellFormed (m : VectorMap K) : Prop := (m.values.map Prod.fst).Sorted (· < ·)

instance (m : VectorMap K) : Decidable m.WellFormed := by
  unfold WellFormed; infer_instance

/-- `size()`. -/
def size (m : VectorMap K) : Nat := m.values.length

/-- `contains(name)`. -/
def contains (m : VectorMap K) (name : Nat) : Bool := m.values.any fun e => e.1 == name

/-- `operator[](name)`: `values.at(name)`, which throws `std::out_of_range` for a
missing key. -/
def get (m : VectorMap K) (name : Nat) : Except Exception (VectorXd K) :=
  match m.values.find? (fun e => e.1 == name) with
  | some e => .ok e.2
  | none => .error (.out_of_range "map::at")

/-- `std::map::insert` on the list of entries: the entry is put at its place in the
order of the keys, and nothing is done if the key is present. -/
def insertEntry : List (Nat × VectorXd K) → Nat → VectorXd K → List (Nat × VectorXd K)
  | [], name, v => [(name, v)]
  | e :: rest, name, v =>
    if name < e.1 then (name, v) :: e :: rest
    else if name = e.1 then e :: rest
    else e :: insertEntry rest name v

/-- `insert(name, v)`. -/
def insert (m : VectorMap K) (name : Nat) (v : VectorXd K) : VectorMap K :=
  ⟨insertEntry m.values name v⟩

/-- `dim()`. -/
def dim (m : VectorMap K) : Nat := m.values.foldl (fun result it => result + it.2.size) 0

/-- `vector()`; `fresh` is the unspecified content of the newly allocated `result`. -/
def vector (fresh : Nat → K) (m : VectorMap K) : VectorXd K :=
  let result : VectorXd K := ⟨m.dim, fresh⟩
  (m.values.foldl (fun (st : VectorXd K × Nat) jv =>
    (st.1.subInsert jv.2 st.2, st.2 + jv.2.size)) (result, 0)).1

/-- `expmap(const VectorMap& original, const VectorMap& delta)`. -/
def expmap [Add K] (original delta : VectorMap K) : Except Exception (VectorMap K) :=
  original.values.foldlM (fun (newValues : VectorMap K) jv =>
    if delta.contains jv.1 then
      match delta.get jv.1 with
      | .error e => .error e
      | .ok dj =>
        match check_size jv.1 jv.2 dj with
        | .error e => .error e
        | .ok _ => .ok (newValues.insert jv.1 (jv.2.add dj))
    else .ok (newValues.insert jv.1 jv.2)) ⟨[]⟩

/-- `expmap(const VectorMap& original, const Vector& delta)`, the overload with a
vector. -/
def expmapVector [Add K] (original : VectorMap K) (delta : VectorXd K) : VectorMap K :=
  (original.values.foldl (fun (st : VectorMap K × Nat) jv =>
    let mj := jv.2.size
    let dj := delta.sub st.2 (st.2 + mj)
    (st.1.insert jv.1 (jv.2.add dj), st.2 + mj)) (⟨[]⟩, 0)).1

/-- The loop of `equals`, over the entries of `*this` still to be compared. -/
def equalsLoop [LinearOrderedField K] (expected : VectorMap K) (tol : K) :
    List (Nat × VectorXd K) → Except Exception Bool
  | [] => .ok true
  | it :: rest =>
    match expected.get it.1 with
    | .error e => .error e
    | .ok vExpected =>
      if !vExpected.equal_with_abs_tol it.2 tol then .ok false
      else equalsLoop expected tol rest

/-- `equals(expected, tol)`. -/
def equals [LinearOrderedField K] (self expected : VectorMap K) (tol : K) :
    Except Exception Bool :=
  if self.values.length ≠ expected.size then .ok false
  else equalsLoop expected tol self.values

/-- `dot(b)`. -/
def dot [Field K] (self b : VectorMap K) : Except Exception K :=
  self.values.foldlM (fun result it =>
    match b.get it.1 with
    | .error e => .error e
    | .ok bv => .ok (result + it.2.dot bv)) 0

/-- The loop of `axpy(alpha, x, y)` over the entries of `y`, with the iterator `xj` of
`x` advanced along; the source dereferences `xj` without a test, so `x` is assumed to
have an entry for every entry of `y`, and the loop is cut short here if it has not. -/
def axpyLoop [Add K] [Mul K] (alpha : K) :
    List (Nat × VectorXd K) → List (Nat × VectorXd K) → List (Nat × VectorXd K)
  | xj :: xs, yj :: ys => (yj.1, VectorXd.axpy alpha xj.2 yj.2) :: axpyLoop alpha xs ys
  | [], ys => ys
  | _, [] => []

/-- `axpy(alpha, x, y)`: the map `y` afterwards. -/
def axpy [Add K] [Mul K] (alpha : K) (x y : VectorMap K) : VectorMap K :=
  ⟨axpyLoop alpha x.values y.values⟩

end VectorMap

/-! ### Concrete inputs -/

/-- A `1 x 1` matrix with the given entry. -/
def scalarMatrix (a : ℚ) : MatrixXd ℚ := ⟨1, 1, fun _ _ => a⟩

/-- A vector of length one. -/
def scalarVector (a : ℚ) : VectorXd ℚ := ⟨1, fun _ => a⟩

/-- A `2 x 1` matrix: two rows, one column, hence not square. -/
def tallMatrix : MatrixXd ℚ := ⟨2, 1, fun _ _ => 1⟩

/-- Scatter map of the keys `5` (slot `0`, dimension `1`) and `7` (slot `1`,
dimension `2`). -/
def scatter57 : Scatter := [(5, ⟨0, 1⟩), (7, ⟨1, 2⟩)]

/-- Joint factor over the keys `5` and `7` with blocks of dimensions `1`, `2`, `1`. -/
def joint57 : HessianFactor ℚ :=
  { keys_ := [5, 7]
    matrix_ := ⟨4, 4, fun i j => (i : ℚ) - 2 * j⟩
    info_ := SymmetricBlockView.ofDims [1, 2, 1] }

/-- Factor over the keys `7` and `5`, in that order, with blocks of dimensions
`2`, `1`, `1`. -/
def update75 : HessianFactor ℚ :=
  { keys_ := [7, 5]
    matrix_ := ⟨4, 4, fun i j => 4 * (i : ℚ) + j + 1⟩
    info_ := SymmetricBlockView.ofDims [2, 1, 1] }

/-- A measurement factor has one block of columns per key plus the single column `b`,
and ascending block offsets. -/
def JacobianFactor.WellFormed {K : Type} (jf : JacobianFactor K) : Prop :=
  jf.Ab_.variableColOffsets.Sorted (· ≤ ·) ∧
  jf.Ab_.nBlocks = jf.size + 1 ∧
  jf.Ab_.blockCols jf.size = 1

instance {K : Type} (jf : JacobianFactor K) : Decidable jf.WellFormed := by
  unfold JacobianFactor.WellFormed; infer_instance

/-- Measurement factor on the key `5` with `[A | b] = [2 | 3]` and a unit noise model. -/
def jacobian5 : JacobianFactor ℚ :=
  { keys_ := [5]
    matrix_ := ⟨1, 2, fun _ j => if j = 0 then 2 else 3⟩
    Ab_ := { variableColOffsets := [0, 1, 2], rowStart := 0, rowEnd := 1, blockStart := 0 }
    model_ := .Unit 1 }

/-- Factor over one variable of dimension `1` with `G = [4]`, `g = [2]`, `f = 3`. -/
def positiveFactor (K : Type) [Field K] : HessianFactor K :=
  { keys_ := [0]
    matrix_ := ⟨2, 2, fun i j => if i = 0 ∧ j = 0 then 4 else if i = 0 then 2 else 3⟩
    info_ := SymmetricBlockView.ofDims [1, 1] }

/-- Factor over one variable of dimension `1` whose matrix is zero. -/
def zeroFactor (K : Type) [Field K] : HessianFactor K :=
  { keys_ := [0]
    matrix_ := MatrixXd.zero 2 2
    info_ := SymmetricBlockView.ofDims [1, 1] }

/-- Collaborators over the rationals whose answers do not depend on the question: the
estimate is a counter that `retract` advances, its cost is `cost`, every solve ends as
`solved` and every linearized error is `predicted`. -/
def oracle (solved : Except Exception (VectorValues ℚ)) (predicted : ℚ) (cost : Nat → ℚ) :
    Collaborators ℚ Nat :=
  { sqrt := id
    linearize := fun _ => []
    graphError := cost
    retract := fun v _ => v + 1
    valueDims := fun _ => []
    solve := fun _ _ _ => solved
    linearError := fun _ _ => predicted
    hessianDiagonal := fun _ => [] }

/-- An optimizer over the rationals at estimate `0` with the given damping parameters
and current cost, without diagonal damping. -/
def optimizerAt (lambda lambdaFactor lambdaUpperBound lambdaLowerBound minModelFidelity
    relativeErrorTol error : ℚ) (fixed : Bool) : LevenbergMarquardtOptimizer ℚ Nat :=
  { params_ :=
      { lambdaInitial := lambda, lambdaFactor := lambdaFactor,
        lambdaUpperBound := lambdaUpperBound, lambdaLowerBound := lambdaLowerBound,
        minModelFidelity := minModelFidelity, relativeErrorTol := relativeErrorTol,
        diagonalDamping := false, useFixedLambdaFactor_ := fixed, reuse_diagonal_ := false }
    state_ :=
      { values := 0, error := error, lambda := lambda, iterations := 0,
        totalNumberInnerIterations := 0, hessianDiagonal := [] } }

/-- The cost of the counter estimates used below: `start` at estimate `0` and `next`
after one step. -/
def costTable (start next : ℚ) : Nat → ℚ := fun v => if v = 0 then start else next

/-- The upper triangular matrix `[2 1; 0 4]`. -/
def upper2 : MatrixXd ℚ :=
  ⟨2, 2, fun i j => if i = 0 ∧ j = 0 then 2 else if i = 0 ∧ j = 1 then 1
    else if i = 1 ∧ j = 1 then 4 else 0⟩

/-- The vector `(4, 8)`. -/
def rhs48 : VectorXd ℚ := ⟨2, fun i => if i = 0 then 4 else 8⟩

/-- Collaborators over a field with the square root `sqrt`, like `oracle`, with one
variable of key `3` and dimension `2` in the estimate and the Hessian diagonal
`(1/10^8, 4)` for it. -/
def dampingOracle (K : Type) [Field K] (sqrt : K → K) : Collaborators K Nat :=
  { sqrt := sqrt
    linearize := fun _ => []
    graphError := fun _ => 0
    retract := fun v _ => v + 1
    valueDims := fun _ => [(3, 2)]
    solve := fun _ _ _ => .ok []
    linearError := fun _ _ => 0
    hessianDiagonal := fun _ => [(3, ⟨2, fun aa => if aa = 0 then 1 / 10 ^ 8 else 4⟩)] }

/-- An optimizer over a field at estimate `0` and cost `1` with the given lambda, with
or without diagonal damping, whose diagonal cache is empty and not to be reused. -/
def dampedOptimizer (K : Type) [Field K] (lambda : K) (diagonalDamping : Bool) :
    LevenbergMarquardtOptimizer K Nat :=
  { params_ :=
      { lambdaInitial := lambda, lambdaFactor := 10, lambdaUpperBound := 100,
        lambdaLowerBound := 0, minModelFidelity := 0, relativeErrorTol := 0,
        diagonalDamping := diagonalDamping, useFixedLambdaFactor_ := false,
        reuse_diagonal_ := false }
    state_ :=
      { values := 0, error := 1, lambda := lambda, iterations := 0,
        totalNumberInnerIterations := 0, hessianDiagonal := [] } }

/-- The map of the test of the arithmetic of errors: `(1, 2)` at key `0` and
`(3, 4, 5)` at key `1`. -/
def errors12345 : VectorMap ℚ :=
  ⟨[(0, ⟨2, fun i => if i = 0 then 1 else 2⟩),
    (1, ⟨3, fun i => if i = 0 then 3 else if i = 1 then 4 else 5⟩)]⟩

/-- A map with the single entry `(0)` at the given key. -/
def singleton0 (key : Nat) : VectorMap ℚ := ⟨[(key, ⟨1, fun _ => 0⟩)]⟩

/-- The test `isfinite` on the rationals that stand for doubles: a value of magnitude
`2^1024` or more is beyond the range of `double`, where it is held as an infinity. -/
def doubleFinite (x : ℚ) : Bool := decide (|x| < 2 ^ 1024)

section Constructors

variable {K : Type}

theorem SymmetricBlockView.offset_ofDims_pair (n : Nat) :
    (SymmetricBlockView.ofDims [n, 1]).offset 0 = 0 ∧
      (SymmetricBlockView.ofDims [n, 1]).offset 1 = n ∧
      (SymmetricBlockView.ofDims [n, 1]).offset 2 = n + 1 := by
  simp [SymmetricBlockView.offset, SymmetricBlockView.ofDims, fillOffsets]

/-- The loop of `assertInvariants()` finds nothing iff every entry on or above the
diagonal of the matrix is finite. -/
theorem HessianFactor.hasNonFinite_eq_false_iff (isfinite : K → Bool) (M : MatrixXd K) :
    HessianFactor.hasNonFinite isfinite M = false ↔
      ∀ i j, i < M.rows → i ≤ j → j < M.cols → isfinite (M.coeff i j) = true := by
  have key : HessianFactor.hasNonFinite isfinite M = false ↔
      ∀ i, i < M.rows → ∀ t, t < M.cols - i → isfinite (M.coeff i (i + t)) = true := by
    simp [HessianFactor.hasNonFinite]
  rw [key]
  constructor
  · intro h i j hi hij hj
    have := h i hi (j - i) (by omega)
    rwa [Nat.add_sub_cancel' hij] at this
  · intro h i hi t ht
    exact h i (i + t) hi (Nat.le_add_right _ _) (by omega)

/-- A constructor returns the assembled factor if the checks are compiled out or no
entry on or above the diagonal is non-finite. -/
theorem HessianFactor.constructed_ok (NDEBUG : Bool) (isfinite : K → Bool) (h : HessianFactor K)
    (hfin : NDEBUG = false → HessianFactor.hasNonFinite isfinite h.matrix_ = false) :
    HessianFactor.constructed NDEBUG isfinite h = .ok h := by
  cases NDEBUG with
  | true => rfl
  | false => simp [HessianFactor.constructed, HessianFactor.assertInvariants, hfin rfl]

/-- A constructor throws at its end if the checks are compiled in and some entry on or
above the diagonal is non-finite. -/
theorem HessianFactor.constructed_error (isfinite : K → Bool) (h : HessianFactor K)
    (hbad : HessianFactor.hasNonFinite isfinite h.matrix_ = true) :
    HessianFactor.constructed false isfinite h =
      .error (.invalid_argument "HessianFactor contains non-finite matrix entries.") := by
  simp [HessianFactor.constructed, HessianFactor.assertInvariants, hbad]

/-- In exact arithmetic, where every scalar is finite, the loop of `assertInvariants()`
finds nothing. -/
theorem HessianFactor.hasNonFinite_of_finite (isfinite : K → Bool) (M : MatrixXd K)
    (hfin : ∀ x, isfinite x = true) : HessianFactor.hasNonFinite isfinite M = false :=
  (HessianFactor.hasNonFinite_eq_false_iff isfinite M).mpr fun _ _ _ _ _ => hfin _

/-- The factor that the single-variable constructor assembles on consistent dimensions,
before `assertInvariants()`. -/
theorem HessianFactor.ofUnary_assembled (NDEBUG : Bool) (isfinite : K → Bool)
    (fresh : Nat → Nat → K) (j1 : Nat) (G : MatrixXd K) (g : VectorXd K) (f : K)
    (hG : G.rows = G.cols) (hg : g.size = G.rows) :
    ∃ h : HessianFactor K,
      HessianFactor.ofUnary NDEBUG isfinite fresh j1 G g f
        = HessianFactor.constructed NDEBUG isfinite h ∧
      h.keys_ = [j1] ∧ h.matrix_.rows = G.rows + 1 ∧ h.matrix_.cols = G.rows + 1 ∧
      h.info_ = SymmetricBlockView.ofDims [G.rows, 1] ∧
      (∀ r c, r < G.rows → c < G.rows → h.matrix_.coeff r c = G.coeff r c) ∧
      (∀ r, r < G.rows → h.matrix_.coeff r G.rows = g.coeff r) ∧
      h.matrix_.coeff G.rows G.rows = f := by
  have hguard : HessianFactor.unaryDimsInconsistent G g = false := by
    simp [HessianFactor.unaryDimsInconsistent, ← hG, hg]
  obtain ⟨o0, o1, -⟩ := SymmetricBlockView.offset_ofDims_pair G.rows
  refine ⟨_, by simp only [HessianFactor.ofUnary, hguard]; rfl, rfl, rfl, rfl, rfl, ?_, ?_, ?_⟩
  · intro r c hr hc
    simp only [MatrixXd.assignBlock, SymmetricBlockView.blockDim, o0, o1]
    split_ifs <;> first | rfl | omega
  · intro r hr
    simp only [MatrixXd.assignBlock, SymmetricBlockView.blockDim, o0, o1]
    split_ifs <;> first | rfl | omega
  · simp only [MatrixXd.assignBlock, SymmetricBlockView.blockDim, o0, o1]
    split_ifs <;> first | rfl | omega

/-- The loop of `assertInvariants()` on the factor of the single-variable constructor
finds nothing iff the entries of `G` on or above its diagonal, the entries of `g` and
`f` are finite. -/
theorem HessianFactor.unary_hasNonFinite (isfinite : K → Bool) (h : HessianFactor K)
    (G : MatrixXd K) (g : VectorXd K) (f : K)
    (hr : h.matrix_.rows = G.rows + 1) (hc : h.matrix_.cols = G.rows + 1)
    (hGc : ∀ r c, r < G.rows → c < G.rows → h.matrix_.coeff r c = G.coeff r c)
    (hgc : ∀ r, r < G.rows → h.matrix_.coeff r G.rows = g.coeff r)
    (hf : h.matrix_.coeff G.rows G.rows = f) :
    HessianFactor.hasNonFinite isfinite h.matrix_ = false ↔
      (∀ r c, r ≤ c → c < G.rows → isfinite (G.coeff r c) = true) ∧
      (∀ r, r < G.rows → isfinite (g.coeff r) = true) ∧ isfinite f = true := by
  rw [HessianFactor.hasNonFinite_eq_false_iff, hr, hc]
  constructor
  · intro hall
    refine ⟨fun r c hrc hcn => ?_, fun r hrn => ?_, ?_⟩
    · rw [← hGc r c (by omega) hcn]
      exact hall r c (by omega) hrc (by omega)
    · rw [← hgc r hrn]
      exact hall r G.rows (by omega) (by omega) (by omega)
    · rw [← hf]
      exact hall G.rows G.rows (by omega) (le_refl _) (by omega)
  · rintro ⟨h1, h2, h3⟩ i j hi hij hj
    rcases Nat.lt_or_ge j G.rows with hjn | hjn
    · rw [hGc i j (by omega) hjn]
      exact h1 i j hij hjn
    · have hje : j = G.rows := by omega
      subst hje
      rcases Nat.lt_or_ge i G.rows with hin | hin
      · rw [hgc i hin]
        exact h2 i hin
      · have hie : i = G.rows := by omega
        rw [hie, hf]
        exact h3

/-- What the single-variable constructor returns on consistent dimensions, when the
checks are compiled out or `G` on and above its diagonal, `g` and `f` are finite. -/
theorem HessianFactor.ofUnary_ok (NDEBUG : Bool) (isfinite : K → Bool)
    (fresh : Nat → Nat → K) (j1 : Nat)
    (G : MatrixXd K) (g : VectorXd K) (f : K)
    (hG : G.rows = G.cols) (hg : g.size = G.rows)
    (hfin : NDEBUG = false →
      (∀ r c, r ≤ c → c < G.rows → isfinite (G.coeff r c) = true) ∧
      (∀ r, r < G.rows → isfinite (g.coeff r) = true) ∧ isfinite f = true) :
    ∃ h : HessianFactor K, HessianFactor.ofUnary NDEBUG isfinite fresh j1 G g f = .ok h ∧
      h.keys_ = [j1] ∧ h.matrix_.rows = G.rows + 1 ∧ h.matrix_.cols = G.rows + 1 ∧
      h.info_ = SymmetricBlockView.ofDims [G.rows, 1] ∧
      (∀ r c, r < G.rows → c < G.rows → h.matrix_.coeff r c = G.coeff r c) ∧
      (∀ r, r < G.rows → h.matrix_.coeff r G.rows = g.coeff r) ∧
      h.matrix_.coeff G.rows G.rows = f := by
  obtain ⟨h, hctor, hk, hr, hc, hinfo, hGc, hgc, hf⟩ :=
    HessianFactor.ofUnary_assembled NDEBUG isfinite fresh j1 G g f hG hg
  refine ⟨h, ?_, hk, hr, hc, hinfo, hGc, hgc, hf⟩
  rw [hctor]
  exact HessianFactor.constructed_ok NDEBUG isfinite h fun hN =>
    (HessianFactor.unary_hasNonFinite isfinite h G g f hr hc hGc hgc hf).mpr (hfin hN)

/-- C9, counterexample. In a build without `NDEBUG` the single-variable constructor at
`G = [1]`, `g = (0)` and an `f` beyond the range of `double` (`2^1024`, an infinity as a
double) throws `invalid_argument`, although `G` is square and `g` has the length of the
rows of `G`: `assertInvariants()` finds the non-finite entry. -/
theorem HessianFactor.ofUnary_rejects_non_finite :
    (scalarMatrix 1).rows = (scalarMatrix 1).cols ∧
    (scalarVector 0).size = (scalarMatrix 1).rows ∧
    HessianFactor.ofUnary false doubleFinite (fun _ _ => 0) 0 (scalarMatrix 1) (scalarVector 0)
      (2 ^ 1024) =
      .error (.invalid_argument "HessianFactor contains non-finite matrix entries.") := by
  refine ⟨rfl, rfl, ?_⟩
  obtain ⟨h, hctor, -, hr, hc, -, hGc, hgc, hf⟩ :=
    HessianFactor.ofUnary_assembled false doubleFinite (fun _ _ => (0 : ℚ)) 0 (scalarMatrix 1)
      (scalarVector 0) (2 ^ 1024) rfl rfl
  rw [hctor]
  refine HessianFactor.constructed_error doubleFinite h ?_
  rw [← Bool.not_eq_false]
  intro hnone
  have h3 := ((HessianFactor.unary_hasNonFinite doubleFinite h (scalarMatrix 1) (scalarVector 0)
    (2 ^ 1024) hr hc hGc hgc hf).mp hnone).2.2
  simp [doubleFinite] at h3

/-- C9, amended. The single-variable constructor throws `invalid_argument` exactly when
`G` is not square or the length of `g` differs from the rows of `G`, or else, in a build
without `NDEBUG`, when an entry of `G` on or above its diagonal, an entry of `g`, or `f`
is not finite; otherwise it returns a factor over the key `j1` whose matrix has
`rows(G) + 1` rows and columns, with blocks of dimensions `rows(G)` and `1`, holding
every entry of `G`, every entry of `g` (last column) and `f` (last diagonal cell). -/
theorem HessianFactor.ofUnary_fails_iff (NDEBUG : Bool) (isfinite : K → Bool)
    (fresh : Nat → Nat → K) (j1 : Nat) (G : MatrixXd K) (g : VectorXd K) (f : K) :
    ((G.rows ≠ G.cols ∨ g.size ≠ G.rows) ∧
        HessianFactor.ofUnary NDEBUG isfinite fresh j1 G g f = .error (.invalid_argument
          "Inconsistent matrix and/or vector dimensions in HessianFactor constructor")) ∨
      (¬ (G.rows ≠ G.cols ∨ g.size ≠ G.rows) ∧ NDEBUG = false ∧
        ¬ ((∀ r c, r ≤ c → c < G.rows → isfinite (G.coeff r c) = true) ∧
          (∀ r, r < G.rows → isfinite (g.coeff r) = true) ∧ isfinite f = true) ∧
        HessianFactor.ofUnary NDEBUG isfinite fresh j1 G g f = .error (.invalid_argument
          "HessianFactor contains non-finite matrix entries.")) ∨
      (¬ (G.rows ≠ G.cols ∨ g.size ≠ G.rows) ∧
        (NDEBUG = true ∨
          ((∀ r c, r ≤ c → c < G.rows → isfinite (G.coeff r c) = true) ∧
            (∀ r, r < G.rows → isfinite (g.coeff r) = true) ∧ isfinite f = true)) ∧
        ∃ h : HessianFactor K, HessianFactor.ofUnary NDEBUG isfinite fresh j1 G g f = .ok h ∧
          h.keys_ = [j1] ∧ h.matrix_.rows = G.rows + 1 ∧ h.matrix_.cols = G.rows + 1 ∧
          h.info_.nBlocks = 2 ∧ h.info_.blockDim 0 = G.rows ∧ h.info_.blockDim 1 = 1 ∧
          (∀ r c, r < G.rows → c < G.cols → h.infoCoeff 0 0 r c = G.coeff r c) ∧
          (∀ r, r < g.size → h.infoCoeff 0 1 r 0 = g.coeff r) ∧
          h.infoCoeff 1 1 0 0 = f) := by
  by_cases hbad : G.rows ≠ G.cols ∨ g.size ≠ G.rows
  · left
    refine ⟨hbad, ?_⟩
    have : HessianFactor.unaryDimsInconsistent G g = true := by
      rcases hbad with h | h
      · simp [HessianFactor.unaryDimsInconsistent, h]
      · simp [HessianFactor.unaryDimsInconsistent, Ne.symm h]
    simp only [HessianFactor.ofUnary, this, if_true]
  · right
    have hbad' := hbad
    push_neg at hbad'
    obtain ⟨hG, hg⟩ := hbad'
    by_cases hfin : NDEBUG = true ∨
        ((∀ r c, r ≤ c → c < G.rows → isfinite (G.coeff r c) = true) ∧
          (∀ r, r < G.rows → isfinite (g.coeff r) = true) ∧ isfinite f = true)
    · right
      refine ⟨hbad, hfin, ?_⟩
      obtain ⟨h, hok, hk, hr, hc, hinfo, hGc, hgc, hf⟩ :=
        HessianFactor.ofUnary_ok NDEBUG isfinite fresh j1 G g f hG hg (fun hN => by
          rcases hfin with h | h
          · rw [hN] at h
            exact absurd h (by decide)
          · exact h)
      obtain ⟨o0, o1, o2⟩ := SymmetricBlockView.offset_ofDims_pair G.rows
      refine ⟨h, hok, hk, hr, hc, ?_, ?_, ?_, ?_, ?_, ?_⟩
      · rw [hinfo]
        simp [SymmetricBlockView.nBlocks, SymmetricBlockView.ofDims, fillOffsets]
      · rw [hinfo, SymmetricBlockView.blockDim, o0, o1]; rfl
      · rw [hinfo, SymmetricBlockView.blockDim, o1, o2]; omega
      · intro r c hr hc
        rw [HessianFactor.infoCoeff, hinfo, o0, Nat.zero_add, Nat.zero_add]
        exact hGc r c hr (hG ▸ hc)
      · intro r hr
        rw [HessianFactor.infoCoeff, hinfo, o0, o1, Nat.zero_add, Nat.add_zero]
        exact hgc r (hg ▸ hr)
      · rw [HessianFactor.infoCoeff, hinfo, o1, Nat.add_zero]
        exact hf
    · left
      push_neg at hfin
      have hN : NDEBUG = false := by
        cases NDEBUG with
        | true => exact absurd rfl hfin.1
        | false => rfl
      have hnf : ¬ ((∀ r c, r ≤ c → c < G.rows → isfinite (G.coeff r c) = true) ∧
          (∀ r, r < G.rows → isfinite (g.coeff r) = true) ∧ isfinite f = true) :=
        fun hall => by
          obtain ⟨h1, h2, h3⟩ := hall
          exact absurd h3 (hfin.2 h1 h2)
      refine ⟨hbad, hN, hnf, ?_⟩
      obtain ⟨h, hctor, -, hr, hc, -, hGc, hgc, hf⟩ :=
        HessianFactor.ofUnary_assembled NDEBUG isfinite fresh j1 G g f hG hg
      rw [hctor, hN]
      refine HessianFactor.constructed_error isfinite h ?_
      rw [← Bool.not_eq_false]
      exact fun hnone =>
        hnf ((HessianFactor.unary_hasNonFinite isfinite h G g f hr hc hGc hgc hf).mp hnone)

/-- C10. The two-variable constructor at `G11 = [1]`, `G12 = [0]`, `g1 = [0]`,
`G22` of size `2 x 1` (not square) and `g2 = [0]`: the guard does not fire and no
`invalid_argument` is thrown, because the rows of `G22` are never compared with
anything. -/
theorem HessianFactor.ofBinary_accepts_nonsquare_G22 :
    tallMatrix.rows ≠ tallMatrix.cols ∧
      HessianFactor.binaryDimsInconsistent (scalarMatrix 1) (scalarMatrix 0) (scalarVector 0)
        tallMatrix (scalarVector 0) = false ∧
      ∀ NDEBUG what, HessianFactor.ofBinary NDEBUG doubleFinite (fun _ _ => 0) 0 1
        (scalarMatrix 1) (scalarMatrix 0) (scalarVector 0) tallMatrix (scalarVector 0) 0
          ≠ .error (.invalid_argument what) := by
  refine ⟨by decide, by decide, ?_⟩
  intro NDEBUG what h
  have hg : HessianFactor.binaryDimsInconsistent (scalarMatrix 1) (scalarMatrix 0)
      (scalarVector 0) tallMatrix (scalarVector 0) = false := by decide
  have hval : ∀ q : ℚ, q = 0 ∨ q = 1 → doubleFinite q = true := by
    intro q hq
    rcases hq with rfl | rfl
    · simp [doubleFinite]
    · simp only [doubleFinite, abs_one, decide_eq_true_eq]
      exact one_lt_pow₀ one_lt_two (by norm_num)
  simp only [HessianFactor.ofBinary, hg, Bool.false_eq_true, if_false] at h
  rw [HessianFactor.constructed_ok NDEBUG doubleFinite _ fun _ =>
    (HessianFactor.hasNonFinite_eq_false_iff doubleFinite _).mpr fun i j _ _ _ => by
      refine hval _ ?_
      simp only [MatrixXd.assignBlock, scalarMatrix, scalarVector, tallMatrix]
      split_ifs <;> simp] at h
  cases h

/-- The cost of a factor whose variable blocks have scalar dimension `n`, with the sums
over `Fin n`. -/
theorem HessianFactor.error_eq_of_varDim [Field K] (h : HessianFactor K) (n : Nat)
    (hn : h.varDim = n) (x : Nat → K) :
    h.error x = (1 / 2) * (h.constant_term
      - 2 * ∑ i : Fin n, x i * h.linear_term i
      + ∑ j : Fin n, (∑ i : Fin n, x i *
          MatrixXd.selfadjointUpper (h.matrix_.block (h.info_.offset 0) (h.info_.offset 0)) i j)
          * x j) := by
  simp only [HessianFactor.error, hn, Finset.sum_range]

/-- C4. For `G` of size `n x n` and `g` of length `n` the constructor returns a factor
whose `error(x)` is `0.5 * (f - 2 xᵀg + xᵀSx)` for every `x`, `S` being the symmetric
matrix read from the upper triangle of `G`; its error at zero is `f / 2`, its
`constant_term()` is `f` and its `linear_term()` is `g`.  This holds in a build with
`NDEBUG`, and in one without it when the entries of `G` on and above its diagonal, the
entries of `g` and `f` are finite, so that `assertInvariants()` does not throw. -/
theorem HessianFactor.error_ofUnary [Field K] (NDEBUG : Bool) (isfinite : K → Bool)
    (fresh : Nat → Nat → K) (j1 : Nat)
    (G : MatrixXd K) (g : VectorXd K) (f : K)
    (hG : G.rows = G.cols) (hg : g.size = G.rows)
    (hfin : NDEBUG = false →
      (∀ r c, r ≤ c → c < G.rows → isfinite (G.coeff r c) = true) ∧
      (∀ r, r < G.rows → isfinite (g.coeff r) = true) ∧ isfinite f = true) :
    ∃ h : HessianFactor K, HessianFactor.ofUnary NDEBUG isfinite fresh j1 G g f = .ok h ∧
      (∀ x : Nat → K,
        h.error x = (1 / 2) * (f
          - 2 * Matrix.dotProduct (fun i : Fin G.rows => x i) (fun i : Fin G.rows => g.coeff i)
          + Matrix.dotProduct (fun i : Fin G.rows => x i)
              (Matrix.mulVec
                (Matrix.of fun i j : Fin G.rows =>
                  if i ≤ j then G.coeff i j else G.coeff j i)
                (fun i : Fin G.rows => x i)))) ∧
      h.error (fun _ => 0) = f / 2 ∧
      h.constant_term = f ∧
      ∀ i, i < G.rows → h.linear_term i = g.coeff i := by
  obtain ⟨h, hok, hk, -, -, hinfo, hGc, hgc, hf⟩ :=
    HessianFactor.ofUnary_ok NDEBUG isfinite fresh j1 G g f hG hg hfin
  obtain ⟨o0, o1, -⟩ := SymmetricBlockView.offset_ofDims_pair G.rows
  have hsize : h.size = 1 := by simp [HessianFactor.size, hk]
  have hvd : h.varDim = G.rows := by
    rw [HessianFactor.varDim, hsize, hinfo, o0, o1]; rfl
  have hct : h.constant_term = f := by
    rw [HessianFactor.constant_term, HessianFactor.infoCoeff, hsize, hinfo, o1]; exact hf
  have hlt : ∀ i, i < G.rows → h.linear_term i = g.coeff i := by
    intro i hi
    rw [HessianFactor.linear_term, hsize, hinfo, o0, o1, Nat.zero_add]; exact hgc i hi
  have hS : ∀ i j : Fin G.rows,
      MatrixXd.selfadjointUpper (h.matrix_.block (h.info_.offset 0) (h.info_.offset 0)) i j
        = if i ≤ j then G.coeff i j else G.coeff j i := by
    intro i j
    simp only [MatrixXd.selfadjointUpper, MatrixXd.block, hinfo, o0, Nat.zero_add,
      Fin.val_fin_le]
    split_ifs
    · exact hGc i j i.isLt j.isLt
    · exact hGc j i j.isLt i.isLt
  have herr : ∀ x : Nat → K,
      h.error x = (1 / 2) * (f
        - 2 * Matrix.dotProduct (fun i : Fin G.rows => x i) (fun i : Fin G.rows => g.coeff i)
        + Matrix.dotProduct (fun i : Fin G.rows => x i)
            (Matrix.mulVec
              (Matrix.of fun i j : Fin G.rows =>
                if i ≤ j then G.coeff i j else G.coeff j i)
              (fun i : Fin G.rows => x i))) := by
    intro x
    rw [HessianFactor.error_eq_of_varDim h G.rows hvd, hct]
    simp only [Matrix.dotProduct, Matrix.mulVec, Matrix.of_apply, hS]
    have e1 : ∑ i : Fin G.rows, x i * h.linear_term i = ∑ i : Fin G.rows, x i * g.coeff i :=
      Finset.sum_congr rfl fun i _ => by rw [hlt i i.isLt]
    rw [e1]
    congr 2
    simp only [Finset.sum_mul, Finset.mul_sum]
    rw [Finset.sum_comm]
    refine Finset.sum_congr rfl fun i _ => Finset.sum_congr rfl fun j _ => ?_
    ring
  refine ⟨h, hok, herr, ?_, hct, hlt⟩
  rw [herr]
  simp [Matrix.dotProduct, Matrix.mulVec]
  ring

/-- Witness of C4: `G = [2]`, `g = [3]`, `f = 5`. -/
theorem HessianFactor.error_ofUnary_witness :
    (scalarMatrix 2).rows = (scalarMatrix 2).cols ∧
    (scalarVector 3).size = (scalarMatrix 2).rows ∧
    doubleFinite 2 = true ∧ doubleFinite 3 = true ∧ doubleFinite 5 = true ∧
    ∃ h : HessianFactor ℚ,
      HessianFactor.ofUnary false doubleFinite (fun _ _ => 0) 0 (scalarMatrix 2)
        (scalarVector 3) 5 = .ok h ∧
      h.error (fun _ => 0) = 5 / 2 ∧ h.constant_term = 5 :=
  have h2 : doubleFinite 2 = true := by
    simp only [doubleFinite, decide_eq_true_eq]
    norm_num [abs_lt]
  have h3 : doubleFinite 3 = true := by
    simp only [doubleFinite, decide_eq_true_eq]
    norm_num [abs_lt]
  have h5 : doubleFinite 5 = true := by
    simp only [doubleFinite, decide_eq_true_eq]
    norm_num [abs_lt]
  have h := HessianFactor.error_ofUnary false doubleFinite (fun _ _ => (0 : ℚ)) 0
    (scalarMatrix 2) (scalarVector 3) 5 rfl rfl
    (fun _ => ⟨fun _ _ _ _ => h2, fun _ _ => h3, h5⟩)
  ⟨rfl, rfl, h2, h3, h5, h.choose, h.choose_spec.1, h.choose_spec.2.2.1,
    h.choose_spec.2.2.2.1⟩

end Constructors

section Shape

variable {K : Type}

/-- The shape of the joint matrix is not changed by a loop of shape-preserving steps. -/
theorem foldl_range_shape (step : MatrixXd K → Nat → MatrixXd K)
    (hstep : ∀ M k, (step M k).rows = M.rows ∧ (step M k).cols = M.cols) (n : Nat)
    (M : MatrixXd K) :
    ((List.range n).foldl step M).rows = M.rows ∧
      ((List.range n).foldl step M).cols = M.cols := by
  induction n with
  | zero => simp
  | succ n ih =>
    rw [List.range_succ, List.foldl_append, List.foldl_cons, List.foldl_nil]
    exact ⟨(hstep _ _).1.trans ih.1, (hstep _ _).2.trans ih.2⟩

theorem updateATABlock_shape [Add K] (info : SymmetricBlockView) (slot1 slot2 : Nat)
    (src : Nat → Nat → K) (M : MatrixXd K) :
    (updateATABlock info slot1 slot2 src M).rows = M.rows ∧
      (updateATABlock info slot1 slot2 src M).cols = M.cols := by
  simp only [updateATABlock]
  split_ifs <;> exact ⟨rfl, rfl⟩

theorem updateATALoop_shape [Add K] (info : SymmetricBlockView) (updateBlocks updateSize : Nat)
    (slots : List Nat) (srcBlock : Nat → Nat → Nat → Nat → K) (M : MatrixXd K) :
    (updateATALoop info updateBlocks updateSize slots srcBlock M).rows = M.rows ∧
      (updateATALoop info updateBlocks updateSize slots srcBlock M).cols = M.cols := by
  unfold updateATALoop
  refine foldl_range_shape _ ?_ _ _
  intro M j2
  exact foldl_range_shape _ (fun M j1 => updateATABlock_shape _ _ _ _ M) _ _

end Shape

section Sums

variable {K : Type} [Field K]

/-- A double sum over a square is the sum over its upper triangle of each term plus its
mirror image. -/
theorem sum_square_eq_sum_triangle (n : Nat) (T : Nat → Nat → K) :
    ∑ b1 ∈ Finset.range n, ∑ b2 ∈ Finset.range n, T b1 b2
      = ∑ j2 ∈ Finset.range n, ∑ j1 ∈ Finset.range (j2 + 1),
          (T j1 j2 + if j1 < j2 then T j2 j1 else 0) := by
  induction n with
  | zero => simp
  | succ n ih =>
    have h1 : ∑ b1 ∈ Finset.range (n + 1), ∑ b2 ∈ Finset.range (n + 1), T b1 b2
        = (∑ b1 ∈ Finset.range n, ∑ b2 ∈ Finset.range n, T b1 b2)
          + (∑ b1 ∈ Finset.range n, T b1 n) + (∑ b2 ∈ Finset.range n, T n b2) + T n n := by
      rw [Finset.sum_range_succ]
      simp only [Finset.sum_range_succ, Finset.sum_add_distrib]
      ring
    have h2 : ∑ j1 ∈ Finset.range (n + 1), (T j1 n + if j1 < n then T n j1 else 0)
        = (∑ b1 ∈ Finset.range n, T b1 n) + (∑ b2 ∈ Finset.range n, T n b2) + T n n := by
      rw [Finset.sum_range_succ, Finset.sum_add_distrib]
      have : ∑ j1 ∈ Finset.range n, (if j1 < n then T n j1 else 0)
          = ∑ b2 ∈ Finset.range n, T n b2 :=
        Finset.sum_congr rfl fun j1 hj1 => by rw [if_pos (Finset.mem_range.mp hj1)]
      rw [this]
      simp
    rw [h1, ih, Finset.sum_range_succ (fun j2 => ∑ j1 ∈ Finset.range (j2 + 1),
      (T j1 j2 + if j1 < j2 then T j2 j1 else 0)), h2]
    ring

/-- Picking the term of a sum over `range d` whose shifted index is `i`. -/
theorem sum_range_ite_add_eq (base d i : Nat) (G : Nat → K) :
    ∑ k ∈ Finset.range d, (if base + k = i then G k else 0)
      = if base ≤ i ∧ i < base + d then G (i - base) else 0 := by
  split_ifs with h
  · rw [Finset.sum_eq_single (i - base)]
    · rw [if_pos (by omega)]
    · intro k _ hk
      rw [if_neg (by omega)]
    · intro hk
      exact absurd (Finset.mem_range.mpr (by omega)) hk
  · refine Finset.sum_eq_zero fun k hk => ?_
    have := Finset.mem_range.mp hk
    rw [if_neg (by omega)]

/-- A sum over the concatenation of blocks is the sum over the blocks of the sums over
each block. -/
theorem sum_range_flatMap (d : Nat → Nat) (r : Nat → Nat → Nat) (off : Nat → Nat)
    (F : Nat → Nat → K) (nB : Nat) (hoff0 : off 0 = 0)
    (hoff : ∀ b, b < nB → off (b + 1) = off b + d b) :
    ((List.range nB).flatMap fun b => (List.range (d b)).map (r b)).length = off nB ∧
    ∑ u ∈ Finset.range (off nB),
        F u (((List.range nB).flatMap fun b => (List.range (d b)).map (r b)).getD u 0)
      = ∑ b ∈ Finset.range nB, ∑ k ∈ Finset.range (d b), F (off b + k) (r b k) := by
  induction nB with
  | zero => simp [hoff0]
  | succ n ih =>
    obtain ⟨hlen, hsum⟩ := ih fun b hb => hoff b (Nat.lt_succ_of_lt hb)
    have hL : ((List.range (n + 1)).flatMap fun b => (List.range (d b)).map (r b))
        = ((List.range n).flatMap fun b => (List.range (d b)).map (r b))
          ++ (List.range (d n)).map (r n) := by
      rw [List.range_succ, List.flatMap_append, List.flatMap_singleton]
    rw [hL]
    refine ⟨by simp [hlen, hoff n (Nat.lt_succ_self n)], ?_⟩
    rw [hoff n (Nat.lt_succ_self n), Finset.sum_range_add, Finset.sum_range_succ, ← hsum]
    congr 1
    · refine Finset.sum_congr rfl fun u hu => ?_
      rw [List.getD_append _ _ _ _ (by rw [hlen]; exact Finset.mem_range.mp hu)]
    · refine Finset.sum_congr rfl fun k hk => ?_
      have hk' := Finset.mem_range.mp hk
      rw [List.getD_append_right _ _ _ _ (by rw [hlen]; omega), hlen,
        Nat.add_sub_cancel_left, List.getD_eq_getElem _ _ (by simpa using hk')]
      simp

end Sums

section Accumulation

variable {K : Type} [Field K]

theorem SymmetricBlockView.offset_mono (v : SymmetricBlockView)
    (hs : v.variableColOffsets.Sorted (· ≤ ·)) {a b : Nat} (hab : a ≤ b)
    (hb : b ≤ v.nBlocks) : v.offset a ≤ v.offset b := by
  rcases Nat.eq_or_lt_of_le hab with rfl | hlt
  · exact le_refl _
  · have hlen : b + v.blockStart < v.variableColOffsets.length := by
      simp only [SymmetricBlockView.nBlocks] at hb; omega
    have hlen' : a + v.blockStart < v.variableColOffsets.length := by omega
    simp only [SymmetricBlockView.offset, List.getD_eq_getElem _ _ hlen,
      List.getD_eq_getElem _ _ hlen']
    exact hs.rel_get_of_le (a := ⟨a + v.blockStart, hlen'⟩) (b := ⟨b + v.blockStart, hlen⟩)
      (by simp; omega)

/-- One block update adds an increment that does not depend on the joint matrix. -/
theorem updateATABlock_coeff (info : SymmetricBlockView) (slot1 slot2 : Nat)
    (src : Nat → Nat → K) (M : MatrixXd K) (i j : Nat) :
    (updateATABlock info slot1 slot2 src M).coeff i j
      = M.coeff i j + (updateATABlock info slot1 slot2 src (MatrixXd.zero 0 0)).coeff i j := by
  simp only [updateATABlock, MatrixXd.zero]
  split_ifs <;> simp only [MatrixXd.addBlock, MatrixXd.addBlockUpper] <;>
    split_ifs <;> simp

/-- A loop of additive steps adds the sum of their increments. -/
theorem foldl_range_additive (step : MatrixXd K → Nat → MatrixXd K) (d : Nat → Nat → Nat → K)
    (hstep : ∀ M k i j, (step M k).coeff i j = M.coeff i j + d k i j) (n : Nat)
    (M : MatrixXd K) (i j : Nat) :
    ((List.range n).foldl step M).coeff i j = M.coeff i j + ∑ k ∈ Finset.range n, d k i j := by
  induction n with
  | zero => simp
  | succ n ih =>
    rw [List.range_succ, List.foldl_append, List.foldl_cons, List.foldl_nil, hstep, ih,
      Finset.sum_range_succ, add_assoc]

/-- The loops of `updateATA` add the sum of the increments of all block pairs. -/
theorem updateATALoop_coeff (info : SymmetricBlockView) (updateBlocks updateSize : Nat)
    (slots : List Nat) (srcBlock : Nat → Nat → Nat → Nat → K) (M : MatrixXd K) (i j : Nat) :
    (updateATALoop info updateBlocks updateSize slots srcBlock M).coeff i j
      = M.coeff i j + ∑ j2 ∈ Finset.range updateBlocks, ∑ j1 ∈ Finset.range (j2 + 1),
          (updateATABlock info
            (if j1 = updateSize then info.nBlocks - 1 else slots.getD j1 0)
            (if j2 = updateSize then info.nBlocks - 1 else slots.getD j2 0)
            (srcBlock j1 j2) (MatrixXd.zero 0 0)).coeff i j := by
  unfold updateATALoop
  refine foldl_range_additive (K := K) _
    (fun j2 i j => ∑ j1 ∈ Finset.range (j2 + 1),
      (updateATABlock info
        (if j1 = updateSize then info.nBlocks - 1 else slots.getD j1 0)
        (if j2 = updateSize then info.nBlocks - 1 else slots.getD j2 0)
        (srcBlock j1 j2) (MatrixXd.zero 0 0)).coeff i j) ?_ _ _ _ _
  intro M j2 i j
  exact foldl_range_additive (K := K) _
    (fun j1 i j => (updateATABlock info
        (if j1 = updateSize then info.nBlocks - 1 else slots.getD j1 0)
        (if j2 = updateSize then info.nBlocks - 1 else slots.getD j2 0)
        (srcBlock j1 j2) (MatrixXd.zero 0 0)).coeff i j)
    (fun M j1 i j => updateATABlock_coeff _ _ _ _ M i j) _ _ _ _

/-- The increment of a diagonal block pair, at an entry on or above the diagonal. -/
theorem updateATABlock_diag (info : SymmetricBlockView) (U : MatrixXd K) (base a s : Nat)
    (hmono : info.offset s ≤ info.offset (s + 1)) (hbase : base ≤ a)
    (i j : Nat) (hij : i ≤ j) :
    (updateATABlock info s s (U.block a a) (MatrixXd.zero 0 0)).coeff i j
      = scatteredBlock info (MatrixXd.selfadjointUpper (U.block base base)) s s
          (a - base) (a - base) i j := by
  have e : ∀ x, base + (a - base + x) = a + x := fun x => by omega
  simp only [updateATABlock, lt_irrefl, if_false, gt_iff_lt, MatrixXd.addBlockUpper,
    MatrixXd.zero, scatteredBlock, SymmetricBlockView.blockDim, MatrixXd.selfadjointUpper,
    MatrixXd.block, e, zero_add]
  split_ifs <;> first | rfl | omega

/-- The increment of an off-diagonal block pair `j1 < j2` of the update, at an entry on
or above the diagonal: the block itself if the slots are in the same order, its
transpose, which is the mirrored block of the symmetric matrix, otherwise. -/
theorem updateATABlock_offdiag (info : SymmetricBlockView) (U : MatrixXd K)
    (base a1 a2 s1 s2 : Nat)
    (hmono : ∀ a b, a ≤ b → b ≤ info.nBlocks → info.offset a ≤ info.offset b)
    (hs1 : s1 < info.nBlocks) (hs2 : s2 < info.nBlocks) (hne : s1 ≠ s2)
    (hbase : base ≤ a1) (ha : a1 + info.blockDim s1 ≤ a2)
    (i j : Nat) (hij : i ≤ j) :
    (updateATABlock info s1 s2 (U.block a1 a2) (MatrixXd.zero 0 0)).coeff i j
      = scatteredBlock info (MatrixXd.selfadjointUpper (U.block base base)) s1 s2
          (a1 - base) (a2 - base) i j
        + scatteredBlock info (MatrixXd.selfadjointUpper (U.block base base)) s2 s1
          (a2 - base) (a1 - base) i j := by
  have e1 : ∀ x, base + (a1 - base + x) = a1 + x := fun x => by omega
  have e2 : ∀ x, base + (a2 - base + x) = a2 + x := fun x => by omega
  have m1 := hmono s1 (s1 + 1) (Nat.le_succ _) hs1
  have m2 := hmono s2 (s2 + 1) (Nat.le_succ _) hs2
  rcases Nat.lt_or_gt_of_ne hne with hlt | hgt
  · have m12 := hmono (s1 + 1) s2 hlt (le_of_lt hs2)
    simp only [updateATABlock, gt_iff_lt, hlt, if_true, MatrixXd.addBlock,
      MatrixXd.zero, scatteredBlock, SymmetricBlockView.blockDim, MatrixXd.selfadjointUpper,
      MatrixXd.block, e1, e2, zero_add]
    simp only [SymmetricBlockView.blockDim] at ha
    split_ifs <;> first | omega | simp
  · have m21 := hmono (s2 + 1) s1 hgt (le_of_lt hs1)
    simp only [updateATABlock, gt_iff_lt, hgt, not_lt_of_gt hgt, if_true, if_false,
      MatrixXd.addBlock, MatrixXd.zero, scatteredBlock, SymmetricBlockView.blockDim,
      MatrixXd.selfadjointUpper, MatrixXd.block, e1, e2, zero_add]
    simp only [SymmetricBlockView.blockDim] at ha
    split_ifs <;> first | omega | simp

theorem Scatter.mem_of_find {scatter : Scatter} {k : Nat} {e : SlotEntry}
    (h : scatter.find k = some e) : (k, e) ∈ scatter := by
  simp only [Scatter.find, Option.map_eq_some'] at h
  obtain ⟨p, hp, rfl⟩ := h
  have h1 := List.find?_some hp
  have h2 := List.mem_of_find?_eq_some hp
  simp only [beq_iff_eq] at h1
  rw [← h1]
  exact h2

theorem Scatter.slotOf_of_find {scatter : Scatter} {k : Nat} {e : SlotEntry}
    (h : scatter.find k = some e) : scatter.slotOf k = e.slot := by
  simp [Scatter.slotOf, h]

namespace HessianFactor

omit [Field K] in
/-- The slot of a key block of the update is the scatter slot of its key. -/
theorem updateSlot_key (self update : HessianFactor K) (scatter : Scatter) {b : Nat}
    (hb : b < update.size) :
    self.updateSlot update scatter b = scatter.slotOf (update.keys_.get ⟨b, hb⟩) := by
  have hlen : b < (update.keys_.map scatter.slotOf).length := by simpa using hb
  simp only [updateSlot, if_neg (Nat.ne_of_lt hb), List.getD_eq_getElem _ _ hlen,
    List.getElem_map, List.get_eq_getElem]

omit [Field K] in
theorem ValidUpdate.slot_lt {self update : HessianFactor K} {scatter : Scatter}
    (hv : ValidUpdate self update scatter) {b : Nat} (hb : b < update.size + 1) :
    self.updateSlot update scatter b < self.info_.nBlocks := by
  obtain ⟨-, -, -, hJ, -, hlt, -, hfind, -⟩ := hv
  rcases Nat.eq_or_lt_of_le (Nat.le_of_lt_succ hb) with rfl | hb'
  · simp only [updateSlot, if_true]; omega
  · rw [updateSlot_key self update scatter hb']
    have hk := hfind _ (List.get_mem update.keys_ b hb')
    obtain ⟨e, he⟩ := Option.isSome_iff_exists.mp hk
    rw [Scatter.slotOf_of_find he]
    have := hlt _ (Scatter.mem_of_find he)
    simp only at this
    omega

omit [Field K] in
theorem ValidUpdate.slot_ne {self update : HessianFactor K} {scatter : Scatter}
    (hv : ValidUpdate self update scatter) {b1 b2 : Nat} (hb1 : b1 < update.size + 1)
    (hb2 : b2 < update.size + 1) (hne : b1 ≠ b2) :
    self.updateSlot update scatter b1 ≠ self.updateSlot update scatter b2 := by
  obtain ⟨-, -, -, hJ, hnd, hlt, hkeys, hfind, -⟩ := hv
  have key_lt : ∀ b (hb : b < update.size),
      self.updateSlot update scatter b < scatter.length := by
    intro b hb
    rw [updateSlot_key self update scatter hb]
    obtain ⟨e, he⟩ := Option.isSome_iff_exists.mp (hfind _ (List.get_mem update.keys_ b hb))
    rw [Scatter.slotOf_of_find he]
    exact hlt _ (Scatter.mem_of_find he)
  have last : self.updateSlot update scatter update.size = scatter.length := by
    simp only [updateSlot, if_true]; omega
  rcases Nat.eq_or_lt_of_le (Nat.le_of_lt_succ hb1) with h1 | h1
  · rcases Nat.eq_or_lt_of_le (Nat.le_of_lt_succ hb2) with h2 | h2
    · exact absurd (h1.trans h2.symm) hne
    · subst h1
      rw [last]
      exact Nat.ne_of_gt (key_lt b2 h2)
  · rcases Nat.eq_or_lt_of_le (Nat.le_of_lt_succ hb2) with h2 | h2
    · subst h2
      rw [last]
      exact Nat.ne_of_lt (key_lt b1 h1)
    · rw [updateSlot_key self update scatter h1, updateSlot_key self update scatter h2]
      obtain ⟨e1, he1⟩ :=
        Option.isSome_iff_exists.mp (hfind _ (List.get_mem update.keys_ b1 h1))
      obtain ⟨e2, he2⟩ :=
        Option.isSome_iff_exists.mp (hfind _ (List.get_mem update.keys_ b2 h2))
      rw [Scatter.slotOf_of_find he1, Scatter.slotOf_of_find he2]
      intro heq
      have hinj := List.inj_on_of_nodup_map hnd (Scatter.mem_of_find he1)
        (Scatter.mem_of_find he2) heq
      have hk : update.keys_.get ⟨b1, h1⟩ = update.keys_.get ⟨b2, h2⟩ := congrArg Prod.fst hinj
      have := (List.Nodup.get_inj_iff hkeys).mp hk
      exact hne (Fin.mk.inj_iff.mp this)

end HessianFactor

namespace HessianFactor

omit [Field K] in
/-- Offsets of the update relative to the start of its view add up block by block. -/
theorem ValidUpdate.offset_succ {self update : HessianFactor K} {scatter : Scatter}
    (hv : ValidUpdate self update scatter) {b : Nat} (hb : b < update.size + 1) :
    update.info_.offset 0 ≤ update.info_.offset b ∧
      update.info_.offset b ≤ update.info_.offset (b + 1) := by
  obtain ⟨-, hU, hnB, -⟩ := hv
  exact ⟨SymmetricBlockView.offset_mono _ hU (Nat.zero_le _) (by omega),
    SymmetricBlockView.offset_mono _ hU (Nat.le_succ _) (by omega)⟩

/-- With the sums over the rows of the update split into its blocks, `P * sym(U) * Pᵀ`
is the sum over all pairs of blocks of the update of the block of `sym(U)` placed at
the pair of slots. -/
theorem scatteredUpdate_eq_sum_blocks {self update : HessianFactor K} {scatter : Scatter}
    (hv : ValidUpdate self update scatter) (i j : Nat) :
    self.scatteredUpdate update scatter i j
      = ∑ b1 ∈ Finset.range (update.size + 1), ∑ b2 ∈ Finset.range (update.size + 1),
          scatteredBlock self.info_
            (MatrixXd.selfadjointUpper
              (update.matrix_.block (update.info_.offset 0) (update.info_.offset 0)))
            (self.updateSlot update scatter b1) (self.updateSlot update scatter b2)
            (update.info_.offset b1 - update.info_.offset 0)
            (update.info_.offset b2 - update.info_.offset 0) i j := by
  have hnB : update.info_.nBlocks = update.size + 1 := hv.2.2.1
  have hJs := hv.1
  have hdims := hv.2.2.2.2.2.2.2.2
  unfold scatteredUpdate scatterRows
  set S := MatrixXd.selfadjointUpper
    (update.matrix_.block (update.info_.offset 0) (update.info_.offset 0)) with hS
  set off : Nat → Nat := fun b => update.info_.offset b - update.info_.offset 0 with hoffdef
  have hoff0 : off 0 = 0 := by simp [hoffdef]
  have hoff : ∀ b, b < update.size + 1 → off (b + 1) = off b + update.info_.blockDim b := by
    intro b hb
    have := hv.offset_succ hb
    simp only [hoffdef, SymmetricBlockView.blockDim]
    omega
  have hfull : update.fullDim = off (update.size + 1) := by
    simp only [fullDim, hnB, hoffdef]
  have hsplit := fun F => (sum_range_flatMap (K := K) (fun b => update.info_.blockDim b)
    (fun b k => self.info_.offset (self.updateSlot update scatter b) + k) off F
    (update.size + 1) hoff0 hoff).2
  have hblock : ∀ b1 b2, b1 < update.size + 1 → b2 < update.size + 1 →
      ∑ k2 ∈ Finset.range (update.info_.blockDim b2),
        (∑ k1 ∈ Finset.range (update.info_.blockDim b1),
          (if self.info_.offset (self.updateSlot update scatter b1) + k1 = i then (1 : K)
            else 0) * S (off b1 + k1) (off b2 + k2)) *
          (if self.info_.offset (self.updateSlot update scatter b2) + k2 = j then (1 : K)
            else 0)
        = scatteredBlock self.info_ S (self.updateSlot update scatter b1)
            (self.updateSlot update scatter b2) (off b1) (off b2) i j := by
    intro b1 b2 hb1 hb2
    have d1 : update.info_.blockDim b1
        = self.info_.offset (self.updateSlot update scatter b1 + 1)
          - self.info_.offset (self.updateSlot update scatter b1) := (hdims b1 hb1).symm
    have d2 : update.info_.blockDim b2
        = self.info_.offset (self.updateSlot update scatter b2 + 1)
          - self.info_.offset (self.updateSlot update scatter b2) := (hdims b2 hb2).symm
    have m1 : self.info_.offset (self.updateSlot update scatter b1)
        ≤ self.info_.offset (self.updateSlot update scatter b1 + 1) :=
      SymmetricBlockView.offset_mono _ hJs (Nat.le_add_right _ 1) (hv.slot_lt hb1)
    have m2 : self.info_.offset (self.updateSlot update scatter b2)
        ≤ self.info_.offset (self.updateSlot update scatter b2 + 1) :=
      SymmetricBlockView.offset_mono _ hJs (Nat.le_add_right _ 1) (hv.slot_lt hb2)
    simp only [ite_mul, one_mul, zero_mul, mul_ite, mul_one, mul_zero, sum_range_ite_add_eq]
    simp only [scatteredBlock, d1, d2]
    split_ifs <;> first | rfl | omega
  have hinner : ∀ v, ∑ u ∈ Finset.range (off (update.size + 1)),
      (if ((List.range (update.size + 1)).flatMap fun b =>
          (List.range (update.info_.blockDim b)).map fun k =>
            self.info_.offset (self.updateSlot update scatter b) + k).getD u 0 = i
        then (1 : K) else 0) * S u v
      = ∑ b ∈ Finset.range (update.size + 1), ∑ k ∈ Finset.range (update.info_.blockDim b),
          (if self.info_.offset (self.updateSlot update scatter b) + k = i then (1 : K)
            else 0) * S (off b + k) v :=
    fun v => hsplit fun u ru => (if ru = i then (1 : K) else 0) * S u v
  have houter : ∀ G : Nat → K, ∑ v ∈ Finset.range (off (update.size + 1)),
      G v * (if ((List.range (update.size + 1)).flatMap fun b =>
          (List.range (update.info_.blockDim b)).map fun k =>
            self.info_.offset (self.updateSlot update scatter b) + k).getD v 0 = j
        then (1 : K) else 0)
      = ∑ b ∈ Finset.range (update.size + 1), ∑ k ∈ Finset.range (update.info_.blockDim b),
          G (off b + k) *
            (if self.info_.offset (self.updateSlot update scatter b) + k = j then (1 : K)
              else 0) :=
    fun G => hsplit fun v rv => G v * (if rv = j then (1 : K) else 0)
  rw [hfull]
  simp only [hinner]
  rw [houter]
  conv_rhs => rw [Finset.sum_comm]
  refine Finset.sum_congr rfl fun b2 hb2 => ?_
  rw [Finset.sum_congr rfl fun b1 hb1 =>
    (hblock b1 b2 (Finset.mem_range.mp hb1) (Finset.mem_range.mp hb2)).symm]
  conv_rhs => rw [Finset.sum_comm]
  refine Finset.sum_congr rfl fun k2 _ => ?_
  rw [Finset.sum_mul]

end HessianFactor

namespace HessianFactor

omit [Field K] in
theorem selfadjointUpper_symm (a : Nat → Nat → K) (u v : Nat) :
    MatrixXd.selfadjointUpper a u v = MatrixXd.selfadjointUpper a v u := by
  simp only [MatrixXd.selfadjointUpper]
  rcases Nat.lt_trichotomy u v with h | h | h
  · rw [if_pos (le_of_lt h), if_neg (not_le_of_gt h)]
  · subst h; rfl
  · rw [if_neg (not_le_of_gt h), if_pos (le_of_lt h)]

theorem scatteredUpdate_symm (self update : HessianFactor K) (scatter : Scatter)
    (i j : Nat) :
    self.scatteredUpdate update scatter i j = self.scatteredUpdate update scatter j i := by
  unfold scatteredUpdate
  simp only [Finset.sum_mul]
  rw [Finset.sum_comm]
  refine Finset.sum_congr rfl fun u _ => Finset.sum_congr rfl fun v _ => ?_
  rw [selfadjointUpper_symm _ u v]
  ring

/-- On and above the diagonal `updateATA` adds the entries of `P * sym(U) * Pᵀ`. -/
theorem updateATA_coeff_upper {self update : HessianFactor K} {scatter : Scatter}
    (hv : ValidUpdate self update scatter) (i j : Nat) (hij : i ≤ j) :
    (self.updateATA update scatter).matrix_.coeff i j
      = self.matrix_.coeff i j + self.scatteredUpdate update scatter i j := by
  have hnB : update.info_.nBlocks = update.size + 1 := hv.2.2.1
  have hJs := hv.1
  have hdims := hv.2.2.2.2.2.2.2.2
  have hmono : ∀ a b, a ≤ b → b ≤ self.info_.nBlocks →
      self.info_.offset a ≤ self.info_.offset b :=
    fun a b hab hb => SymmetricBlockView.offset_mono _ hJs hab hb
  unfold updateATA
  simp only
  rw [updateATALoop_coeff, scatteredUpdate_eq_sum_blocks hv, sum_square_eq_sum_triangle, hnB]
  congr 1
  refine Finset.sum_congr rfl fun j2 hj2 => Finset.sum_congr rfl fun j1 hj1 => ?_
  have hj2' := Finset.mem_range.mp hj2
  have hj1' : j1 < update.size + 1 := by have := Finset.mem_range.mp hj1; omega
  change (updateATABlock self.info_ (self.updateSlot update scatter j1)
    (self.updateSlot update scatter j2) _ _).coeff i j = _
  rcases Nat.eq_or_lt_of_le (Nat.le_of_lt_succ (Finset.mem_range.mp hj1)) with h | h
  · subst h
    rw [if_neg (lt_irrefl _), add_zero]
    exact updateATABlock_diag _ _ _ _ _
      (hmono _ _ (Nat.le_add_right _ 1) (hv.slot_lt hj1')) (hv.offset_succ hj1').1 i j hij
  · rw [if_pos h]
    refine updateATABlock_offdiag _ _ _ _ _ _ _ hmono (hv.slot_lt hj1') (hv.slot_lt hj2')
      (hv.slot_ne hj1' hj2' (Nat.ne_of_lt h)) (hv.offset_succ hj1').1 ?_ i j hij
    rw [hdims j1 hj1', SymmetricBlockView.blockDim]
    have h1 := (hv.offset_succ hj1').2
    have h2 : update.info_.offset (j1 + 1) ≤ update.info_.offset j2 :=
      SymmetricBlockView.offset_mono _ hv.2.1 h (by omega)
    omega

end HessianFactor

/-- C1. For a joint factor `J`, an update `U` and a scatter map that are valid together
(distinct keys, all present in the scatter, matching block dimensions, the constant block
mapped to the last block of `J`), `updateATA` keeps the keys, the block view and the
shape of `J`, and the symmetric matrix read from the upper triangle of `J` afterwards is
the one read before plus `P * sym(U) * Pᵀ`, with `P` the scatter embedding and `sym(U)`
the symmetric matrix read from the upper triangle of the view of `U`. -/
theorem HessianFactor.updateATA_adds_scattered_update (self update : HessianFactor K)
    (scatter : Scatter) (hv : HessianFactor.ValidUpdate self update scatter) :
    (self.updateATA update scatter).keys_ = self.keys_ ∧
      (self.updateATA update scatter).info_ = self.info_ ∧
      (self.updateATA update scatter).matrix_.rows = self.matrix_.rows ∧
      (self.updateATA update scatter).matrix_.cols = self.matrix_.cols ∧
      MatrixXd.toSelfadjoint self.matrix_.rows (self.updateATA update scatter).matrix_.coeff
        = MatrixXd.toSelfadjoint self.matrix_.rows self.matrix_.coeff
          + self.scatterEmbedding update scatter
            * MatrixXd.toSelfadjoint update.fullDim
                (update.matrix_.block (update.info_.offset 0) (update.info_.offset 0))
            * (self.scatterEmbedding update scatter).transpose := by
  refine ⟨rfl, rfl, (updateATALoop_shape _ _ _ _ _ _).1, (updateATALoop_shape _ _ _ _ _ _).2, ?_⟩
  ext i j
  have hP : (self.scatterEmbedding update scatter
            * MatrixXd.toSelfadjoint update.fullDim
                (update.matrix_.block (update.info_.offset 0) (update.info_.offset 0))
            * (self.scatterEmbedding update scatter).transpose) i j
      = self.scatteredUpdate update scatter i j := by
    simp only [Matrix.mul_apply, Matrix.transpose_apply, HessianFactor.scatterEmbedding,
      MatrixXd.toSelfadjoint, Matrix.of_apply, HessianFactor.scatteredUpdate]
    rw [Finset.sum_range fun v => (∑ u ∈ Finset.range update.fullDim,
      (if (self.scatterRows update scatter).getD u 0 = (i : Nat) then (1 : K) else 0) *
        MatrixXd.selfadjointUpper
          (update.matrix_.block (update.info_.offset 0) (update.info_.offset 0)) u v) *
      (if (self.scatterRows update scatter).getD v 0 = (j : Nat) then (1 : K) else 0)]
    refine Finset.sum_congr rfl fun v _ => ?_
    rw [Finset.sum_range fun u =>
      (if (self.scatterRows update scatter).getD u 0 = (i : Nat) then (1 : K) else 0) *
        MatrixXd.selfadjointUpper
          (update.matrix_.block (update.info_.offset 0) (update.info_.offset 0)) u v]
  rw [Matrix.add_apply, hP]
  simp only [MatrixXd.toSelfadjoint, Matrix.of_apply, MatrixXd.selfadjointUpper]
  by_cases hij : (i : Nat) ≤ j
  · rw [if_pos hij, if_pos hij]
    exact HessianFactor.updateATA_coeff_upper hv i j hij
  · rw [if_neg hij, if_neg hij, HessianFactor.scatteredUpdate_symm]
    exact HessianFactor.updateATA_coeff_upper hv j i (le_of_lt (not_le.mp hij))

/-- Witness of C1: the update over the keys `7, 5` scattered into the joint factor over
the keys `5, 7`. -/
theorem HessianFactor.updateATA_adds_scattered_update_witness :
    HessianFactor.ValidUpdate joint57 update75 scatter57 ∧
      MatrixXd.toSelfadjoint joint57.matrix_.rows
          (joint57.updateATA update75 scatter57).matrix_.coeff
        = MatrixXd.toSelfadjoint joint57.matrix_.rows joint57.matrix_.coeff
          + joint57.scatterEmbedding update75 scatter57
            * MatrixXd.toSelfadjoint update75.fullDim
                (update75.matrix_.block (update75.info_.offset 0) (update75.info_.offset 0))
            * (joint57.scatterEmbedding update75 scatter57).transpose :=
  ⟨by decide,
    (HessianFactor.updateATA_adds_scattered_update joint57 update75 scatter57
      (by decide)).2.2.2.2⟩

end Accumulation

section OrderIndependence

variable {K : Type} [Field K]

omit [Field K] in
theorem MatrixXd.ext_fields {A B : MatrixXd K} (hr : A.rows = B.rows) (hc : A.cols = B.cols)
    (h : ∀ i j, A.coeff i j = B.coeff i j) : A = B := by
  cases A; cases B
  simp only at hr hc h
  subst hr; subst hc
  congr
  funext i j
  exact h i j

/-- The loops of `updateATA` add to the joint matrix what they add to the zero matrix. -/
theorem updateATALoop_eq_add_zero (info : SymmetricBlockView) (updateBlocks updateSize : Nat)
    (slots : List Nat) (srcBlock : Nat → Nat → Nat → Nat → K) (M : MatrixXd K) :
    updateATALoop info updateBlocks updateSize slots srcBlock M
      = ⟨M.rows, M.cols, fun i j => M.coeff i j +
          (updateATALoop info updateBlocks updateSize slots srcBlock
            (MatrixXd.zero 0 0)).coeff i j⟩ := by
  refine MatrixXd.ext_fields (updateATALoop_shape _ _ _ _ _ _).1
    (updateATALoop_shape _ _ _ _ _ _).2 fun i j => ?_
  rw [updateATALoop_coeff]
  show _ = M.coeff i j +
    (updateATALoop info updateBlocks updateSize slots srcBlock (MatrixXd.zero 0 0)).coeff i j
  rw [updateATALoop_coeff info updateBlocks updateSize slots srcBlock (MatrixXd.zero 0 0)]
  simp [MatrixXd.zero]

namespace HessianFactor

/-- Accumulating an accepted factor succeeds and adds its increment, which depends on
the block view of the joint factor, not on its matrix. -/
theorem updateWith_eq_accumulated (self : HessianFactor K) (factor : GaussianFactor K)
    (scatter : Scatter) (hF : factor.Accumulable) :
    self.updateWith factor scatter = .ok (accumulated scatter self factor) := by
  cases factor with
  | Hessian hf =>
    simp only [updateWith, accumulated, increment, updateATA]
    rw [updateATALoop_eq_add_zero]
  | Jacobian jf =>
    have hc : jf.model_.isConstrained = false := hF
    cases hu : jf.model_.isUnit
    · simp only [updateWith, accumulated, increment, updateATAJacobian, hc, hu,
        NoiseModel.isDiagonal, Bool.false_eq_true, if_false, if_true]
      rw [updateATALoop_eq_add_zero]
    · simp only [updateWith, accumulated, increment, updateATAJacobian, hc, hu,
        NoiseModel.isDiagonal, Bool.false_eq_true, if_false, if_true]
      rw [updateATALoop_eq_add_zero]
  | Other ks => exact absurd hF (by simp [GaussianFactor.Accumulable])

theorem accumulated_comm (scatter : Scatter) (self : HessianFactor K)
    (F1 F2 : GaussianFactor K) :
    accumulated scatter (accumulated scatter self F1) F2
      = accumulated scatter (accumulated scatter self F2) F1 := by
  simp only [accumulated, add_right_comm]

theorem foldlM_updateWith (scatter : Scatter) (factors : List (GaussianFactor K))
    (hF : ∀ F ∈ factors, F.Accumulable) (init : HessianFactor K) :
    factors.foldlM (fun self factor => self.updateWith factor scatter) init
      = .ok (factors.foldl (accumulated scatter) init) := by
  induction factors generalizing init with
  | nil => rfl
  | cons F rest ih =>
    rw [List.foldlM_cons, updateWith_eq_accumulated _ _ _ (hF F (List.mem_cons_self _ _))]
    exact ih (fun G hG => hF G (List.mem_cons_of_mem _ hG)) _

end HessianFactor

/-- C2. Accumulation is order-independent: for a joint factor, a scatter map and two
factors that `updateATA` accepts (information factors, measurement factors with a noise
model that is not constrained), accumulating `F1` then `F2` succeeds and gives exactly
the joint factor that accumulating `F2` then `F1` gives; hence the combined constructor
ends in the same way for every permutation of a list of accepted factors (with the same
factor, or with the same exception of `assertInvariants()`), and it succeeds with the
same factor in a build with `NDEBUG`, and in one without it when every scalar is finite,
as it is in exact arithmetic. -/
theorem HessianFactor.updateATA_order_independent (NDEBUG : Bool) (isfinite : K → Bool)
    (self : HessianFactor K)
    (scatter : Scatter) (F1 F2 : GaussianFactor K) (factors factors' : List (GaussianFactor K))
    (dimensions : List Nat)
    (h1 : F1.Accumulable) (h2 : F2.Accumulable)
    (hF : ∀ F ∈ factors, F.Accumulable) (hperm : factors.Perm factors')
    (hfin : NDEBUG = false → ∀ x, isfinite x = true) :
    (∃ joint : HessianFactor K,
      (self.updateWith F1 scatter >>= fun J => J.updateWith F2 scatter) = .ok joint ∧
      (self.updateWith F2 scatter >>= fun J => J.updateWith F1 scatter) = .ok joint) ∧
    (∃ joint : HessianFactor K,
      HessianFactor.ofFactors NDEBUG isfinite factors dimensions scatter = .ok joint ∧
      HessianFactor.ofFactors NDEBUG isfinite factors' dimensions scatter = .ok joint) ∧
    (∀ (debug : Bool) (finite : K → Bool),
      HessianFactor.ofFactors debug finite factors dimensions scatter =
        HessianFactor.ofFactors debug finite factors' dimensions scatter) := by
  have hF' : ∀ F ∈ factors', F.Accumulable := fun F hF0 => hF F (hperm.mem_iff.mpr hF0)
  have hsame : ∀ init : HessianFactor K,
      factors'.foldl (HessianFactor.accumulated scatter) init
        = factors.foldl (HessianFactor.accumulated scatter) init := fun init =>
    (hperm.foldl_eq' (fun x _ y _ z => HessianFactor.accumulated_comm scatter z x y) _).symm
  refine ⟨?_, ?_, ?_⟩
  · refine ⟨HessianFactor.accumulated scatter (HessianFactor.accumulated scatter self F1) F2,
      ?_, ?_⟩
    · rw [HessianFactor.updateWith_eq_accumulated _ _ _ h1]
      exact HessianFactor.updateWith_eq_accumulated _ _ _ h2
    · rw [HessianFactor.updateWith_eq_accumulated _ _ _ h2, HessianFactor.accumulated_comm]
      exact HessianFactor.updateWith_eq_accumulated _ _ _ h1
  · have hfirst : ∃ joint : HessianFactor K,
        HessianFactor.ofFactors NDEBUG isfinite factors dimensions scatter = .ok joint := by
      unfold HessianFactor.ofFactors
      simp only [HessianFactor.foldlM_updateWith scatter factors hF _]
      exact ⟨_, HessianFactor.constructed_ok NDEBUG isfinite _ fun hN =>
        HessianFactor.hasNonFinite_of_finite isfinite _ (hfin hN)⟩
    obtain ⟨joint, hjoint⟩ := hfirst
    refine ⟨joint, hjoint, ?_⟩
    rw [← hjoint]
    unfold HessianFactor.ofFactors
    simp only [HessianFactor.foldlM_updateWith scatter factors hF _,
      HessianFactor.foldlM_updateWith scatter factors' hF' _, hsame]
  · intro debug finite
    unfold HessianFactor.ofFactors
    simp only [HessianFactor.foldlM_updateWith scatter factors hF _,
      HessianFactor.foldlM_updateWith scatter factors' hF' _, hsame]

end OrderIndependence

section Conversion

variable {K : Type} [Field K]

/-- Witness of C2: the information factor over the keys `7, 5` and the measurement factor
on the key `5`, accumulated into the joint factor over the keys `5, 7` in both orders. -/
theorem HessianFactor.updateATA_order_independent_witness :
    (GaussianFactor.Hessian update75).Accumulable ∧
    (GaussianFactor.Jacobian jacobian5).Accumulable ∧
    (∃ joint : HessianFactor ℚ,
      (joint57.updateWith (.Hessian update75) scatter57 >>= fun J =>
        J.updateWith (.Jacobian jacobian5) scatter57) = .ok joint ∧
      (joint57.updateWith (.Jacobian jacobian5) scatter57 >>= fun J =>
        J.updateWith (.Hessian update75) scatter57) = .ok joint) ∧
    (∃ joint : HessianFactor ℚ,
      HessianFactor.ofFactors false (fun _ => true)
        [.Hessian update75, .Jacobian jacobian5] [1, 2, 1] scatter57 = .ok joint ∧
      HessianFactor.ofFactors false (fun _ => true)
        [.Jacobian jacobian5, .Hessian update75] [1, 2, 1] scatter57 = .ok joint) :=
  have h1 : (GaussianFactor.Hessian update75).Accumulable := trivial
  have h2 : (GaussianFactor.Jacobian jacobian5).Accumulable := rfl
  have h := HessianFactor.updateATA_order_independent false (fun _ => true) joint57 scatter57
    (.Hessian update75) (.Jacobian jacobian5)
    [.Hessian update75, .Jacobian jacobian5] [.Jacobian jacobian5, .Hessian update75]
    [1, 2, 1] h1 h2
    (fun F hF => by
      rcases List.mem_cons.mp hF with rfl | hF
      · exact h1
      · rcases List.mem_cons.mp hF with rfl | hF
        · exact h2
        · cases hF)
    (List.Perm.swap _ _ []) (fun _ _ => rfl)
  ⟨h1, h2, h.1, h.2.1⟩

theorem SymmetricBlockView.copyStructureFrom_offset (rhs : VerticalBlockView) (b : Nat) :
    (SymmetricBlockView.copyStructureFrom rhs).offset b = rhs.offset b - rhs.offset 0 := by
  simp only [SymmetricBlockView.offset, SymmetricBlockView.copyStructureFrom,
    VerticalBlockView.offset, Nat.add_zero, List.getD_eq_getElem?_getD, List.getElem?_map,
    List.getElem?_drop, Nat.add_comm rhs.blockStart b]
  cases rhs.variableColOffsets[b + rhs.blockStart]? <;> simp

/-- What the conversion constructor assembles for a measurement factor whose noise
model is not constrained, before `assertInvariants()`. -/
theorem HessianFactor.ofGaussianFactor_assembled (NDEBUG : Bool) (isfinite : K → Bool)
    (jf : JacobianFactor K) (hc : jf.model_.isConstrained = false) :
    HessianFactor.ofGaussianFactor NDEBUG isfinite (.Jacobian jf) =
      HessianFactor.constructed NDEBUG isfinite
        { keys_ := jf.keys_
          matrix_ := ⟨jf.Ab_.cols, jf.Ab_.cols, fun i j =>
            ∑ r ∈ Finset.range jf.Ab_.rows,
              (jf.full r i * (jf.model_.invsigmas r * jf.model_.invsigmas r)) * jf.full r j⟩
          info_ := SymmetricBlockView.copyStructureFrom jf.Ab_ } := by
  simp only [HessianFactor.ofGaussianFactor, hc, Bool.false_eq_true, if_false]

/-- What the conversion constructor returns for a measurement factor whose noise model
is not constrained, when the checks are compiled out or the entries of
`Abᵀ * diag(w_i ^ 2) * Ab` on and above its diagonal are finite. -/
theorem HessianFactor.ofGaussianFactor_jacobian (NDEBUG : Bool) (isfinite : K → Bool)
    (jf : JacobianFactor K) (hc : jf.model_.isConstrained = false)
    (hfin : NDEBUG = false → ∀ i j, i ≤ j → j < jf.Ab_.cols →
      isfinite (∑ r ∈ Finset.range jf.Ab_.rows,
        (jf.full r i * (jf.model_.invsigmas r * jf.model_.invsigmas r)) * jf.full r j) = true) :
    HessianFactor.ofGaussianFactor NDEBUG isfinite (.Jacobian jf) = .ok
      { keys_ := jf.keys_
        matrix_ := ⟨jf.Ab_.cols, jf.Ab_.cols, fun i j =>
          ∑ r ∈ Finset.range jf.Ab_.rows,
            (jf.full r i * (jf.model_.invsigmas r * jf.model_.invsigmas r)) * jf.full r j⟩
        info_ := SymmetricBlockView.copyStructureFrom jf.Ab_ } := by
  rw [HessianFactor.ofGaussianFactor_assembled NDEBUG isfinite jf hc]
  exact HessianFactor.constructed_ok NDEBUG isfinite _ fun hN =>
    (HessianFactor.hasNonFinite_eq_false_iff isfinite _).mpr fun i j _ hij hj =>
      hfin hN i j hij hj

end Conversion

section Split

variable {K : Type} [Field K]

namespace HessianFactor

/-- Invariant of the loop of `splitEliminatedFactor` after `k` iterations. -/
theorem splitLoop_invariant (self : HessianFactor K) (keys : List Nat)
    (hs : self.Splittable keys) (k : Nat) (hk : k ≤ keys.length) :
    let st := (List.range k).foldl (splitStep keys)
      ⟨self.matrix_, ⟨self.info_.variableColOffsets, 0, self.matrix_.rows, 0⟩, []⟩
    st.Ab.variableColOffsets = self.info_.variableColOffsets ∧
    st.Ab.blockStart = k ∧
    st.Ab.rowStart = self.info_.offset k ∧
    st.matrix.rows = self.matrix_.rows ∧ st.matrix.cols = self.matrix_.cols ∧
    (∀ i j, i ≤ j ∨ self.info_.offset k ≤ i → st.matrix.coeff i j = self.matrix_.coeff i j) ∧
    st.conditionals.length = k ∧
    ∀ b c, st.conditionals[b]? = some c → IsSplitConditional self keys b st.matrix c := by
  obtain ⟨hbs, h0, hsorted, hnB⟩ := hs
  have hoff : ∀ b, self.info_.offset b = self.info_.variableColOffsets.getD b 0 := by
    intro b; simp [SymmetricBlockView.offset, hbs]
  have hmono : ∀ a b, a ≤ b → b ≤ self.info_.nBlocks →
      self.info_.offset a ≤ self.info_.offset b :=
    fun a b hab hb => SymmetricBlockView.offset_mono _ hsorted hab hb
  have hlen : self.info_.variableColOffsets.length - 1 = self.info_.nBlocks := by
    simp [SymmetricBlockView.nBlocks, hbs]
  induction k with
  | zero =>
    refine ⟨rfl, rfl, ?_, rfl, rfl, fun _ _ _ => rfl, rfl, ?_⟩
    · exact h0.symm
    · intro b c hc
      simp at hc
  | succ k ih =>
    obtain ⟨ia, ib, ic, ir, icl, ie, il, ig⟩ := ih (Nat.le_of_succ_le hk)
    rw [List.range_succ, List.foldl_append, List.foldl_cons, List.foldl_nil]
    set st := (List.range k).foldl (splitStep keys)
      ⟨self.matrix_, ⟨self.info_.variableColOffsets, 0, self.matrix_.rows, 0⟩, []⟩ with hst
    have hkB : k + 1 ≤ self.info_.nBlocks := by omega
    have hAboff : ∀ b, st.Ab.offset b = self.info_.offset (b + k) := by
      intro b; rw [hoff]; simp [VerticalBlockView.offset, ia, ib]
    have hvar : st.Ab.blockCols 0 = self.info_.blockDim k := by
      simp only [VerticalBlockView.blockCols, SymmetricBlockView.blockDim, hAboff]
      simp [Nat.add_comm]
    have hnBk : st.Ab.nBlocks + k = self.info_.nBlocks := by
      simp only [VerticalBlockView.nBlocks, ia, ib]
      omega
    have m1 := hmono k (k + 1) (Nat.le_succ k) hkB
    have m2 := hmono (k + 1) self.info_.nBlocks hkB (le_refl _)
    have hd : self.info_.blockDim k = self.info_.offset (k + 1) - self.info_.offset k := rfl
    have hM : ∀ i j, (splitStep keys st k).matrix.coeff i j
        = if self.info_.offset k ≤ i ∧ i < self.info_.offset (k + 1) ∧
            self.info_.offset k ≤ j ∧ j < self.info_.offset self.info_.nBlocks ∧ j < i
          then 0 else st.matrix.coeff i j := by
      intro i j
      simp only [splitStep, MatrixXd.zeroBelowDiagonal, VerticalBlockView.rows,
        VerticalBlockView.cols, VerticalBlockView.offset, VerticalBlockView.nBlocks, ia, ib, ic,
        hvar, hd]
      have e1 : self.info_.variableColOffsets.getD (0 + k) 0 = self.info_.offset k := by
        rw [hoff]; simp
      have e2 : self.info_.variableColOffsets.getD
          (self.info_.variableColOffsets.length - 1 - k + k) 0
            = self.info_.offset self.info_.nBlocks := by
        rw [hoff, ← hlen]; congr 1; omega
      rw [e1, e2]
      by_cases hc : self.info_.offset k ≤ i ∧ i < self.info_.offset (k + 1) ∧
          self.info_.offset k ≤ j ∧ j < self.info_.offset self.info_.nBlocks ∧ j < i
      · rw [if_pos hc, if_pos (by omega)]
      · rw [if_neg hc, if_neg (by omega)]
    refine ⟨ia, ?_, ?_, ir, icl, ?_, ?_, ?_⟩
    · simp [splitStep, ib]
    · simp only [splitStep, ic, hvar, hd]
      omega
    · intro i j hij
      rw [hM, if_neg (by omega)]
      exact ie i j (by omega)
    · simp [splitStep, il]
    · intro b c hc
      have hcond : (splitStep keys st k).conditionals
          = st.conditionals ++ [GaussianConditional.ofView (keys.drop k) 1
              (splitStep keys st k).matrix
              { st.Ab with rowEnd := st.Ab.rowStart + st.Ab.blockCols 0 }
              ⟨st.Ab.blockCols 0, fun _ => 1⟩] := rfl
      rw [hcond] at hc
      rcases Nat.lt_or_ge b st.conditionals.length with hb | hb
      · rw [List.getElem?_append_left hb] at hc
        obtain ⟨c1, c2, c3, c4, c5, c6, c7⟩ := ig b c hc
        refine ⟨c1, c2, c3, c4, c5, c6, fun r c' hr hc' => ?_⟩
        obtain ⟨d1, d2⟩ := c7 r c' hr hc'
        refine ⟨?_, d2⟩
        rw [d1, hM, if_neg]
        have hb' : b + 1 ≤ k := by omega
        have := hmono (b + 1) k hb' (by omega)
        have hdb : self.info_.blockDim b
            = self.info_.offset (b + 1) - self.info_.offset b := rfl
        omega
      · rw [List.getElem?_append_right hb] at hc
        have hbk : b = k := by
          rcases Nat.eq_or_lt_of_le hb with h | h
          · omega
          · have : b - st.conditionals.length ≠ 0 := by omega
            obtain ⟨n, hn⟩ := Nat.exists_eq_succ_of_ne_zero this
            rw [hn] at hc
            simp at hc
        subst hbk
        rw [il, Nat.sub_self] at hc
        simp only [List.getElem?_cons_zero, Option.some.injEq] at hc
        subst hc
        refine ⟨rfl, rfl, hvar, fun _ => rfl, ?_, ?_, ?_⟩
        · simp only [GaussianConditional.ofView, VerticalBlockView.rows, ic, hvar]
          omega
        · simp only [GaussianConditional.ofView, VerticalBlockView.cols,
            VerticalBlockView.offset, VerticalBlockView.nBlocks, ia, ib]
          rw [hoff, hoff, ← hlen]
          congr 2 <;> omega
        · intro r c' hr hc'
          have hval : (GaussianConditional.ofView (keys.drop b) 1
              (splitStep keys st b).matrix
              { st.Ab with rowEnd := st.Ab.rowStart + st.Ab.blockCols 0 }
              ⟨st.Ab.blockCols 0, fun _ => 1⟩).matrix_.coeff r c'
              = (splitStep keys st b).matrix.coeff (self.info_.offset b + r)
                  (self.info_.offset b + c') := by
            simp only [GaussianConditional.ofView, MatrixXd.block, ic, VerticalBlockView.offset,
              ia, ib, Nat.zero_add, ← hoff]
          refine ⟨hval, ?_⟩
          rw [hval, hM]
          by_cases hlt : c' < r
          · rw [if_pos hlt, if_pos (by omega)]
          · rw [if_neg hlt, if_neg (by omega)]
            exact ie _ _ (Or.inr (by omega))

end HessianFactor

/-- C7. For a factor whose view starts at block `0`, with one block per key of `keys`
plus the constant block, and `nrFrontals` at most the number of keys,
`splitEliminatedFactor(nrFrontals, keys)` returns exactly `nrFrontals` conditionals; the
one at position `j` has the single frontal variable `keys[j]` and the parents
`keys[j+1..]`, unit sigmas, and as `[R S d]` the row band of block `j` of the matrix of
the factor after the call, from the diagonal block rightwards (the entries at entry of
the call on and right of the diagonal, zero below it).  Afterwards the factor has the
keys `keys[nrFrontals..]`, its block view starts at block `nrFrontals`, and its matrix
is unchanged on and above the diagonal and in the rows of the remainder. -/
theorem HessianFactor.splitEliminatedFactor_by_position (self : HessianFactor K)
    (nrFrontals : Nat) (keys : List Nat) (hs : self.Splittable keys)
    (hn : nrFrontals ≤ keys.length) :
    (self.splitEliminatedFactor nrFrontals keys).1.length = nrFrontals ∧
    (∀ j c, (self.splitEliminatedFactor nrFrontals keys).1[j]? = some c →
      (∃ key, keys[j]? = some key ∧ c.frontals = [key]) ∧
      c.parents = keys.drop (j + 1) ∧
      HessianFactor.IsSplitConditional self keys j
        (self.splitEliminatedFactor nrFrontals keys).2.matrix_ c) ∧
    (self.splitEliminatedFactor nrFrontals keys).2.keys_ = keys.drop nrFrontals ∧
    (self.splitEliminatedFactor nrFrontals keys).2.info_.blockStart = nrFrontals ∧
    (self.splitEliminatedFactor nrFrontals keys).2.info_.variableColOffsets
      = self.info_.variableColOffsets ∧
    (self.splitEliminatedFactor nrFrontals keys).2.info_.offset 0
      = self.info_.offset nrFrontals ∧
    (self.splitEliminatedFactor nrFrontals keys).2.info_.nBlocks
      = self.info_.nBlocks - nrFrontals ∧
    (self.splitEliminatedFactor nrFrontals keys).2.matrix_.rows = self.matrix_.rows ∧
    (self.splitEliminatedFactor nrFrontals keys).2.matrix_.cols = self.matrix_.cols ∧
    ∀ i j, i ≤ j ∨ self.info_.offset nrFrontals ≤ i →
      (self.splitEliminatedFactor nrFrontals keys).2.matrix_.coeff i j
        = self.matrix_.coeff i j := by
  obtain ⟨ia, ib, ic, ir, icl, ie, il, ig⟩ :=
    HessianFactor.splitLoop_invariant self keys hs nrFrontals hn
  have hbs : self.info_.blockStart = 0 := hs.1
  refine ⟨il, ?_, rfl, rfl, rfl, ?_, ?_, ir, icl, ie⟩
  · intro j c hc
    have hspec := ig j c hc
    have hj : j < nrFrontals := by
      have := (List.getElem?_eq_some_iff.mp hc).1
      exact il ▸ this
    have hjk : j < keys.length := lt_of_lt_of_le hj hn
    refine ⟨⟨keys[j], List.getElem?_eq_getElem hjk, ?_⟩, ?_, hspec⟩
    · rw [GaussianConditional.frontals, hspec.1, hspec.2.1, List.drop_eq_getElem_cons hjk]
      rfl
    · rw [GaussianConditional.parents, hspec.1, hspec.2.1, List.drop_drop]
  · simp [HessianFactor.splitEliminatedFactor, SymmetricBlockView.offset, hbs]
  · simp only [HessianFactor.splitEliminatedFactor, SymmetricBlockView.nBlocks, hbs]
    omega

/-- Witness of C7: the factor over the keys `5, 7` split after its first variable. -/
theorem HessianFactor.splitEliminatedFactor_by_position_witness :
    joint57.Splittable [5, 7] ∧ 1 ≤ [5, 7].length ∧
    (joint57.splitEliminatedFactor 1 [5, 7]).1.length = 1 ∧
    (joint57.splitEliminatedFactor 1 [5, 7]).2.keys_ = [7] ∧
    (joint57.splitEliminatedFactor 1 [5, 7]).2.info_.blockStart = 1 :=
  have h := HessianFactor.splitEliminatedFactor_by_position joint57 1 [5, 7] (by decide)
    (by decide)
  ⟨by decide, by decide, h.1, h.2.2.1, h.2.2.2.1⟩

end Split

section Cholesky

variable {K : Type} [LinearOrderedField K]

/-- A fold over `range (k + 1)` succeeds exactly when the fold over `range k` succeeds
and the last step succeeds on its result. -/
theorem foldlM_range_succ_ok {α : Type} (f : α → Nat → Except Exception α) (k : Nat)
    (a a' : α) :
    (List.range (k + 1)).foldlM f a = .ok a' ↔
      ∃ b, (List.range k).foldlM f a = .ok b ∧ f b k = .ok a' := by
  rw [List.range_succ, List.foldlM_append]
  cases h : (List.range k).foldlM f a with
  | error e =>
    simp [bind, Except.bind]
  | ok b =>
    simp [bind, Except.bind, pure, Except.pure]
    cases f b k <;> simp

/-- What a successful step of the elimination does. -/
theorem choleskyStep_ok (sqrt : K → K) (n k : Nat) (ABC M' : MatrixXd K)
    (h : choleskyStep sqrt n k ABC = .ok M') :
    0 < ABC.coeff k k ∧ M'.rows = ABC.rows ∧ M'.cols = ABC.cols ∧
    ∀ i j, M'.coeff i j =
      if i = k ∧ j = k then sqrt (ABC.coeff k k)
      else if i = k ∧ k < j ∧ j < n then ABC.coeff k j / sqrt (ABC.coeff k k)
      else if k < i ∧ i ≤ j ∧ j < n then
        ABC.coeff i j - ABC.coeff k i / sqrt (ABC.coeff k k)
          * (ABC.coeff k j / sqrt (ABC.coeff k k))
      else ABC.coeff i j := by
  unfold choleskyStep at h
  by_cases hp : ABC.coeff k k ≤ 0
  · simp [hp] at h
  · simp only [hp, if_false, Except.ok.injEq] at h
    subst h
    exact ⟨not_le.mp hp, rfl, rfl, fun _ _ => rfl⟩

/-- The invariant of the elimination holds after every successful prefix of pivots. -/
theorem choleskyInvariant_of_ok (sqrt : K → K)
    (hsqrt : ∀ x : K, 0 < x → 0 < sqrt x ∧ sqrt x * sqrt x = x) (n : Nat) (M : MatrixXd K)
    (k : Nat) (Mk : MatrixXd K)
    (h : (List.range k).foldlM (fun A l => choleskyStep sqrt n l A) M = .ok Mk) :
    CholeskyInvariant n M Mk k := by
  induction k generalizing Mk with
  | zero =>
    simp only [List.range_zero, List.foldlM_nil, pure, Except.pure, Except.ok.injEq] at h
    subst h
    refine ⟨rfl, rfl, fun l hl => absurd hl (Nat.not_lt_zero l), fun _ _ _ => rfl, ?_⟩
    intro i j _ _
    simp
  | succ k ih =>
    obtain ⟨A, hA, hstep⟩ := (foldlM_range_succ_ok _ k M Mk).mp h
    obtain ⟨ir, ic, ipos, ilow, ifac⟩ := ih A hA
    obtain ⟨hp, sr, sc, sval⟩ := choleskyStep_ok sqrt n k A Mk hstep
    obtain ⟨hβ, hββ⟩ := hsqrt _ hp
    have hβ0 : sqrt (A.coeff k k) ≠ 0 := ne_of_gt hβ
    have hrow : ∀ l j, l < k → Mk.coeff l j = A.coeff l j := by
      intro l j hl
      rw [sval, if_neg (by omega), if_neg (by omega), if_neg (by omega)]
    refine ⟨sr.trans ir, sc.trans ic, ?_, ?_, ?_⟩
    · intro l hl
      rcases Nat.eq_or_lt_of_le (Nat.le_of_lt_succ hl) with rfl | hl'
      · rw [sval, if_pos ⟨rfl, rfl⟩]; exact hβ
      · rw [hrow l l hl']; exact ipos l hl'
    · intro i j hji
      rw [sval, if_neg (by omega), if_neg (by omega), if_neg (by omega)]
      exact ilow i j hji
    · intro i j hij hjn
      rw [ifac i j hij hjn, Finset.sum_range_succ]
      have hsum : ∑ l ∈ Finset.range k,
          (if l ≤ i then Mk.coeff l i * Mk.coeff l j else 0)
          = ∑ l ∈ Finset.range k, (if l ≤ i then A.coeff l i * A.coeff l j else 0) :=
        Finset.sum_congr rfl fun l hl => by
          rw [hrow l i (Finset.mem_range.mp hl), hrow l j (Finset.mem_range.mp hl)]
      rw [hsum, add_assoc]
      congr 1
      rcases Nat.lt_trichotomy i k with hik | hik | hik
      · rw [if_neg (by omega), if_neg (by omega), if_neg (by omega), add_zero]
      · subst hik
        rw [if_pos (le_refl _), if_pos (le_refl _), if_neg (by omega), add_zero,
          sval i i, if_pos ⟨rfl, rfl⟩]
        rcases Nat.eq_or_lt_of_le hij with hj | hj
        · subst hj
          rw [sval i i, if_pos ⟨rfl, rfl⟩, hββ]
        · rw [sval i j, if_neg (by omega), if_pos ⟨rfl, hj, hjn⟩]
          field_simp
      · rw [if_pos (by omega), if_pos (by omega), if_pos (by omega),
          sval k i, if_neg (by omega), if_pos ⟨rfl, hik, by omega⟩,
          sval k j, if_neg (by omega), if_pos ⟨rfl, by omega, hjn⟩,
          sval i j, if_neg (by omega), if_neg (by omega), if_pos ⟨hik, hij, hjn⟩]
        ring

/-- The symmetric matrix at entry is the Gram matrix of the rows already factored plus
the symmetric remainder. -/
theorem CholeskyInvariant.selfadjoint_eq {n k : Nat} {M Mk : MatrixXd K}
    (h : CholeskyInvariant n M Mk k) (i j : Nat) (hi : i < n) (hj : j < n) :
    MatrixXd.selfadjointUpper M.coeff i j
      = ∑ l ∈ Finset.range k,
          (if l ≤ i then Mk.coeff l i else 0) * (if l ≤ j then Mk.coeff l j else 0)
        + (if k ≤ i ∧ k ≤ j then MatrixXd.selfadjointUpper Mk.coeff i j else 0) := by
  obtain ⟨-, -, -, -, hfac⟩ := h
  simp only [MatrixXd.selfadjointUpper]
  by_cases hij : i ≤ j
  · rw [if_pos hij, hfac i j hij hj]
    congr 1
    · refine Finset.sum_congr rfl fun l _ => ?_
      by_cases hl : l ≤ i
      · rw [if_pos hl, if_pos hl, if_pos (le_trans hl hij)]
      · rw [if_neg hl, if_neg hl, zero_mul]
    · by_cases hk : k ≤ i
      · rw [if_pos hk, if_pos ⟨hk, le_trans hk hij⟩, if_pos hij]
      · rw [if_neg hk, if_neg (fun h => hk h.1)]
  · have hji : j ≤ i := le_of_lt (not_le.mp hij)
    rw [if_neg hij, hfac j i hji hi]
    congr 1
    · refine Finset.sum_congr rfl fun l _ => ?_
      by_cases hl : l ≤ j
      · rw [if_pos hl, if_pos hl, if_pos (le_trans hl hji), mul_comm]
      · rw [if_neg hl, if_neg hl, mul_zero]
    · by_cases hk : k ≤ j
      · rw [if_pos hk, if_pos ⟨le_trans hk hji, hk⟩, if_neg hij]
      · rw [if_neg hk, if_neg (fun h => hk h.2)]

/-- An upper triangular system with nonzero diagonal has a solution of
`U x = 0` on its first `k` rows with `x k = 1` and `x j = 0` beyond `k`. -/
theorem exists_triangular_kernel (U : Nat → Nat → K) (nF k : Nat) (hk : k < nF)
    (hupper : ∀ l i, i < l → U l i = 0) (hdiag : ∀ l, l < k → U l l ≠ 0) :
    ∃ x : Nat → K, x k = 1 ∧ (∀ j, k < j → x j = 0) ∧
      ∀ l, l < k → ∑ i ∈ Finset.range nF, U l i * x i = 0 := by
  have key : ∀ m, m ≤ k → ∃ x : Nat → K, x k = 1 ∧ (∀ j, k < j → x j = 0) ∧
      ∀ l, k - m ≤ l → l < k → ∑ i ∈ Finset.range nF, U l i * x i = 0 := by
    intro m
    induction m with
    | zero =>
      intro _
      refine ⟨fun i => if i = k then 1 else 0, by simp, ?_, ?_⟩
      · intro j hj
        simp [Nat.ne_of_gt hj]
      · intro l h1 h2
        omega
    | succ m ih =>
      intro hm
      obtain ⟨x, hxk, hxz, hx⟩ := ih (Nat.le_of_succ_le hm)
      have hl0 : k - (m + 1) < k := by omega
      have hmem : k - (m + 1) ∈ Finset.range nF := Finset.mem_range.mpr (by omega)
      refine ⟨Function.update x (k - (m + 1))
        (-(∑ i ∈ (Finset.range nF).erase (k - (m + 1)), U (k - (m + 1)) i * x i)
          / U (k - (m + 1)) (k - (m + 1))), ?_, ?_, ?_⟩
      · rw [Function.update_noteq (by omega)]; exact hxk
      · intro j hj
        rw [Function.update_noteq (by omega)]; exact hxz j hj
      · intro l h1 h2
        rcases Nat.eq_or_lt_of_le h1 with h | h
        · subst h
          rw [← Finset.add_sum_erase _ _ hmem, Function.update_same]
          have hrest : ∑ i ∈ (Finset.range nF).erase (k - (m + 1)),
              U (k - (m + 1)) i * Function.update x (k - (m + 1))
                (-(∑ i ∈ (Finset.range nF).erase (k - (m + 1)), U (k - (m + 1)) i * x i)
                  / U (k - (m + 1)) (k - (m + 1))) i
              = ∑ i ∈ (Finset.range nF).erase (k - (m + 1)), U (k - (m + 1)) i * x i :=
            Finset.sum_congr rfl fun i hi => by
              rw [Function.update_noteq (Finset.ne_of_mem_erase hi)]
          rw [hrest]
          field_simp [hdiag _ hl0]
        · rw [← hx l (by omega) h2]
          refine Finset.sum_congr rfl fun i _ => ?_
          by_cases hi : i = k - (m + 1)
          · subst hi
            rw [hupper l _ h, zero_mul, zero_mul]
          · rw [Function.update_noteq hi]
  obtain ⟨x, h1, h2, h3⟩ := key k (le_refl k)
  exact ⟨x, h1, h2, fun l hl => h3 l (by omega) hl⟩

/-- With a positive definite leading block the next pivot is positive. -/
theorem CholeskyInvariant.pivot_pos {n nF k : Nat} {M Mk : MatrixXd K}
    (h : CholeskyInvariant n M Mk k) (hpd : PositiveDefinite (M.leading nF))
    (hk : k < nF) (hn : nF ≤ n) : 0 < Mk.coeff k k := by
  obtain ⟨x, hxk, hxz, hx⟩ := exists_triangular_kernel
    (fun l i => if l ≤ i then Mk.coeff l i else 0) nF k hk
    (fun l i hil => if_neg (by omega))
    (fun l hl => by
      simp only [le_refl, if_true]
      exact ne_of_gt (h.2.2.1 l hl))
  have hne : (fun i : Fin nF => x i) ≠ 0 := by
    intro h0
    have := congrFun h0 ⟨k, hk⟩
    simp only [hxk, Pi.zero_apply] at this
    exact one_ne_zero this
  have hq := hpd (fun i : Fin nF => x i) hne
  simp only [Matrix.dotProduct, Matrix.mulVec, MatrixXd.leading, MatrixXd.toSelfadjoint,
    Matrix.of_apply] at hq
  rw [← Finset.sum_range fun i => x i * ∑ j : Fin nF,
    MatrixXd.selfadjointUpper M.coeff i j * x j] at hq
  have hinner : ∀ i, ∑ j : Fin nF, MatrixXd.selfadjointUpper M.coeff i j * x j
      = ∑ j ∈ Finset.range nF, MatrixXd.selfadjointUpper M.coeff i j * x j :=
    fun i => (Finset.sum_range fun j => MatrixXd.selfadjointUpper M.coeff i j * x j).symm
  simp only [hinner] at hq
  have hval : ∑ i ∈ Finset.range nF, x i * ∑ j ∈ Finset.range nF,
      MatrixXd.selfadjointUpper M.coeff i j * x j = Mk.coeff k k := by
    have e1 : ∑ i ∈ Finset.range nF, x i * ∑ j ∈ Finset.range nF,
        MatrixXd.selfadjointUpper M.coeff i j * x j
        = ∑ l ∈ Finset.range k,
            (∑ i ∈ Finset.range nF, (if l ≤ i then Mk.coeff l i else 0) * x i)
              * (∑ j ∈ Finset.range nF, (if l ≤ j then Mk.coeff l j else 0) * x j)
          + ∑ i ∈ Finset.range nF, ∑ j ∈ Finset.range nF,
              x i * (if k ≤ i ∧ k ≤ j then MatrixXd.selfadjointUpper Mk.coeff i j else 0)
                * x j := by
      have e0 : ∀ i ∈ Finset.range nF, x i * ∑ j ∈ Finset.range nF,
          MatrixXd.selfadjointUpper M.coeff i j * x j
          = ∑ l ∈ Finset.range k, ∑ j ∈ Finset.range nF,
              ((if l ≤ i then Mk.coeff l i else 0) * x i)
                * ((if l ≤ j then Mk.coeff l j else 0) * x j)
            + ∑ j ∈ Finset.range nF,
              x i * (if k ≤ i ∧ k ≤ j then MatrixXd.selfadjointUpper Mk.coeff i j else 0)
                * x j := by
        intro i hi
        rw [Finset.mul_sum, Finset.sum_comm, ← Finset.sum_add_distrib]
        refine Finset.sum_congr rfl fun j hj => ?_
        rw [h.selfadjoint_eq i j (lt_of_lt_of_le (Finset.mem_range.mp hi) hn)
          (lt_of_lt_of_le (Finset.mem_range.mp hj) hn), add_mul, mul_add, Finset.sum_mul,
          Finset.mul_sum]
        congr 1
        · refine Finset.sum_congr rfl fun l _ => ?_
          ring
        · ring
      rw [Finset.sum_congr rfl e0, Finset.sum_add_distrib, Finset.sum_comm]
      congr 1
      refine Finset.sum_congr rfl fun l _ => ?_
      rw [Finset.sum_mul]
      refine Finset.sum_congr rfl fun i _ => ?_
      rw [Finset.mul_sum]
    rw [e1]
    have e2 : ∑ l ∈ Finset.range k,
        (∑ i ∈ Finset.range nF, (if l ≤ i then Mk.coeff l i else 0) * x i)
          * (∑ j ∈ Finset.range nF, (if l ≤ j then Mk.coeff l j else 0) * x j) = 0 :=
      Finset.sum_eq_zero fun l hl => by
        rw [hx l (Finset.mem_range.mp hl), zero_mul]
    rw [e2, zero_add, Finset.sum_eq_single k]
    · rw [Finset.sum_eq_single k]
      · simp [hxk, MatrixXd.selfadjointUpper]
      · intro j _ hjk
        rcases Nat.lt_or_gt_of_ne hjk with hlt | hgt
        · rw [if_neg (by omega), mul_zero, zero_mul]
        · rw [hxz j hgt, mul_zero]
      · intro hk'
        exact absurd (Finset.mem_range.mpr hk) hk'
    · intro i _ hik
      refine Finset.sum_eq_zero fun j _ => ?_
      rcases Nat.lt_or_gt_of_ne hik with hlt | hgt
      · rw [if_neg (by omega), mul_zero, zero_mul]
      · rw [hxz i hgt, zero_mul, zero_mul]
    · intro hk'
      exact absurd (Finset.mem_range.mpr hk) hk'
  rw [hval] at hq
  exact hq

/-- With a positive definite leading block every prefix of the elimination succeeds. -/
theorem choleskyPartial_prefix_ok (sqrt : K → K)
    (hsqrt : ∀ x : K, 0 < x → 0 < sqrt x ∧ sqrt x * sqrt x = x) (M : MatrixXd K) (nF : Nat)
    (hn : nF ≤ M.rows) (hpd : PositiveDefinite (M.leading nF)) (k : Nat) (hk : k ≤ nF) :
    ∃ Mk, choleskyPartial sqrt M k = .ok Mk := by
  induction k with
  | zero => exact ⟨M, rfl⟩
  | succ k ih =>
    obtain ⟨Mk, hMk⟩ := ih (Nat.le_of_succ_le hk)
    have hinv := choleskyInvariant_of_ok sqrt hsqrt M.rows M k Mk hMk
    have hp := hinv.pivot_pos hpd (Nat.lt_of_succ_le hk) hn
    have hstep : ∃ M', choleskyStep sqrt M.rows k Mk = .ok M' := by
      rw [choleskyStep, if_neg (not_le.mpr hp)]
      exact ⟨_, rfl⟩
    obtain ⟨M', hM'⟩ := hstep
    exact ⟨M', (foldlM_range_succ_ok _ k M M').mpr ⟨Mk, hMk, hM'⟩⟩

/-- The three blocks of the factored matrix, from the invariant after all frontal
pivots: `Rᵀ R = G11`, `Rᵀ S = [G12 g1]`, and the remainder is the trailing block minus
`Sᵀ S`. -/
theorem CholeskyInvariant.blocks {n nF : Nat} {M M' : MatrixXd K}
    (h : CholeskyInvariant n M M' nF) (hn : nF ≤ n) :
    (M'.upperFactor nF).transpose * M'.upperFactor nF = M.leading nF ∧
    (M'.upperFactor nF).transpose * M'.topRight n nF = M.topRight n nF ∧
    M'.trailing n nF = M.trailing n nF - (M'.topRight n nF).transpose * M'.topRight n nF := by
  have hfac := h.2.2.2.2
  refine ⟨?_, ?_, ?_⟩
  · ext i j
    rw [Matrix.mul_apply]
    simp only [Matrix.transpose_apply, MatrixXd.upperFactor, Matrix.of_apply,
      MatrixXd.leading, MatrixXd.toSelfadjoint, Fin.val_fin_le]
    rw [h.selfadjoint_eq i j (lt_of_lt_of_le i.isLt hn) (lt_of_lt_of_le j.isLt hn),
      if_neg (fun hc => absurd hc.1 (not_le.mpr i.isLt)), add_zero,
      Finset.sum_range fun l => (if l ≤ (i : Nat) then M'.coeff l i else 0)
        * (if l ≤ (j : Nat) then M'.coeff l j else 0)]
    simp only [Fin.val_fin_le]
  · ext i j
    rw [Matrix.mul_apply]
    simp only [Matrix.transpose_apply, MatrixXd.upperFactor, Matrix.of_apply,
      MatrixXd.topRight, Fin.val_fin_le]
    have hj : nF + (j : Nat) < n := by have := j.isLt; omega
    rw [hfac i (nF + j) (by have := i.isLt; omega) hj,
      if_neg (not_le.mpr i.isLt), add_zero,
      Finset.sum_range fun l => if l ≤ (i : Nat) then M'.coeff l i * M'.coeff l (nF + j)
        else 0]
    refine Finset.sum_congr rfl fun l _ => ?_
    rw [ite_mul, zero_mul]
    simp only [Fin.val_fin_le]
  · have key : ∀ a b : Nat, a ≤ b → nF + b < n →
        M'.coeff (nF + a) (nF + b) = M.coeff (nF + a) (nF + b)
          - ∑ l ∈ Finset.range nF, M'.coeff l (nF + a) * M'.coeff l (nF + b) := by
      intro a b hab hb
      rw [hfac (nF + a) (nF + b) (by omega) hb, if_pos (Nat.le_add_right _ _)]
      have : ∑ l ∈ Finset.range nF,
          (if l ≤ nF + a then M'.coeff l (nF + a) * M'.coeff l (nF + b) else 0)
          = ∑ l ∈ Finset.range nF, M'.coeff l (nF + a) * M'.coeff l (nF + b) :=
        Finset.sum_congr rfl fun l hl => by
          rw [if_pos (by have := Finset.mem_range.mp hl; omega)]
      rw [this]
      ring
    ext a b
    rw [Matrix.sub_apply, Matrix.mul_apply]
    simp only [Matrix.transpose_apply, MatrixXd.trailing, MatrixXd.toSelfadjoint,
      MatrixXd.selfadjointUpper, MatrixXd.block, MatrixXd.topRight, Matrix.of_apply,
      Fin.val_fin_le]
    have ha : nF + (a : Nat) < n := by have := a.isLt; omega
    have hb : nF + (b : Nat) < n := by have := b.isLt; omega
    rw [← Finset.sum_range fun l => M'.coeff l (nF + a) * M'.coeff l (nF + b)]
    by_cases hab : a ≤ b
    · rw [if_pos hab, if_pos hab]
      exact key a b hab hb
    · rw [if_neg hab, if_neg hab, key b a (le_of_lt (not_le.mp hab)) ha]
      congr 1
      refine Finset.sum_congr rfl fun l _ => ?_
      ring

/-- The factor `R` has positive diagonal, hence is invertible. -/
theorem upperFactor_isUnit_det (M' : MatrixXd K) (nF : Nat)
    (hpos : ∀ l, l < nF → 0 < M'.coeff l l) : IsUnit (M'.upperFactor nF).det := by
  have htri : (M'.upperFactor nF).BlockTriangular id := by
    intro i j hji
    simp only [MatrixXd.upperFactor, Matrix.of_apply]
    exact if_neg (not_le.mpr hji)
  rw [Matrix.det_of_upperTriangular htri, isUnit_iff_ne_zero, Finset.prod_ne_zero_iff]
  intro i _
  simp only [MatrixXd.upperFactor, Matrix.of_apply, le_refl, if_true]
  exact ne_of_gt (hpos i i.isLt)

/-- From `Rᵀ R = G` and `Rᵀ S = B` with `R` invertible: `S = R⁻ᵀ B` and
`Sᵀ S = Bᵀ G⁻¹ B`. -/
theorem schur_of_factor {p q : Nat} (R G : Matrix (Fin p) (Fin p) K)
    (S B : Matrix (Fin p) (Fin q) K) (hR : IsUnit R.det) (hG : R.transpose * R = G)
    (hS : R.transpose * S = B) :
    S = R.transpose⁻¹ * B ∧ S.transpose * S = B.transpose * G⁻¹ * B := by
  have hRt : IsUnit R.transpose.det := by rw [Matrix.det_transpose]; exact hR
  have h1 : S = R.transpose⁻¹ * B := by
    rw [← hS, ← Matrix.mul_assoc, Matrix.nonsing_inv_mul _ hRt, Matrix.one_mul]
  refine ⟨h1, ?_⟩
  have h2 : G⁻¹ = R⁻¹ * R.transpose⁻¹ := by rw [← hG, Matrix.mul_inv_rev]
  have h3 : (R.transpose⁻¹).transpose = R⁻¹ := by
    rw [Matrix.transpose_nonsing_inv, Matrix.transpose_transpose]
  rw [h2]
  conv_lhs => rw [h1]
  rw [Matrix.transpose_mul, h3]
  simp only [Matrix.mul_assoc]

/-- C5. Partial elimination produces the exact Schur complement: for a factor whose
leading block `G11` (the first `info_.offset(nrFrontals)` rows and columns, read from
the upper triangle) is positive definite, `partialCholesky(nrFrontals)` succeeds, keeps
keys, block view and shape, and leaves in the leading rows `R` (upper triangular with
positive diagonal, `Rᵀ R = G11`) and `R⁻ᵀ [G12 g1]`, and in the upper triangle of the
trailing block `[G22 g2; g2ᵀ f] - [G12 g1]ᵀ G11⁻¹ [G12 g1]`. -/
theorem HessianFactor.partialCholesky_schur_complement (sqrt : K → K)
    (hsqrt : ∀ x : K, 0 < x → 0 < sqrt x ∧ sqrt x * sqrt x = x) (self : HessianFactor K)
    (nrFrontals : Nat) (hn : self.info_.offset nrFrontals ≤ self.matrix_.rows)
    (hpd : PositiveDefinite (self.matrix_.leading (self.info_.offset nrFrontals))) :
    ∃ h : HessianFactor K, self.partialCholesky sqrt nrFrontals = .ok h ∧
      h.keys_ = self.keys_ ∧ h.info_ = self.info_ ∧
      h.matrix_.rows = self.matrix_.rows ∧ h.matrix_.cols = self.matrix_.cols ∧
      (∀ i : Fin (self.info_.offset nrFrontals),
        0 < h.matrix_.upperFactor (self.info_.offset nrFrontals) i i) ∧
      (h.matrix_.upperFactor (self.info_.offset nrFrontals)).BlockTriangular id ∧
      (h.matrix_.upperFactor (self.info_.offset nrFrontals)).transpose
          * h.matrix_.upperFactor (self.info_.offset nrFrontals)
        = self.matrix_.leading (self.info_.offset nrFrontals) ∧
      h.matrix_.topRight self.matrix_.rows (self.info_.offset nrFrontals)
        = (h.matrix_.upperFactor (self.info_.offset nrFrontals)).transpose⁻¹
          * self.matrix_.topRight self.matrix_.rows (self.info_.offset nrFrontals) ∧
      h.matrix_.trailing self.matrix_.rows (self.info_.offset nrFrontals)
        = self.matrix_.trailing self.matrix_.rows (self.info_.offset nrFrontals)
          - (self.matrix_.topRight self.matrix_.rows (self.info_.offset nrFrontals)).transpose
            * (self.matrix_.leading (self.info_.offset nrFrontals))⁻¹
            * self.matrix_.topRight self.matrix_.rows (self.info_.offset nrFrontals) := by
  obtain ⟨M', hM'⟩ := choleskyPartial_prefix_ok sqrt hsqrt self.matrix_ _ hn hpd _ (le_refl _)
  have hinv := choleskyInvariant_of_ok sqrt hsqrt self.matrix_.rows self.matrix_ _ M' hM'
  obtain ⟨b1, b2, b3⟩ := hinv.blocks hn
  have hunit := upperFactor_isUnit_det M' (self.info_.offset nrFrontals) hinv.2.2.1
  obtain ⟨s1, s2⟩ := schur_of_factor _ _ _ _ hunit b1 b2
  refine ⟨{ self with matrix_ := M' }, ?_, rfl, rfl, hinv.1, hinv.2.1, ?_, ?_, b1, s1, ?_⟩
  · simp only [HessianFactor.partialCholesky, hM']
  · intro i
    simp only [MatrixXd.upperFactor, Matrix.of_apply, le_refl, if_true]
    exact hinv.2.2.1 i i.isLt
  · intro i j hji
    simp only [MatrixXd.upperFactor, Matrix.of_apply]
    exact if_neg (not_le.mpr hji)
  · rw [b3, s2]

/-- The real square root is a square root of the positive reals. -/
theorem real_sqrt_spec : ∀ x : ℝ, 0 < x → 0 < Real.sqrt x ∧ Real.sqrt x * Real.sqrt x = x :=
  fun _ hx => ⟨Real.sqrt_pos.mpr hx, Real.mul_self_sqrt (le_of_lt hx)⟩

theorem positiveFactor_leading_posDef (n : Nat) (hn : n = 1) :
    PositiveDefinite ((positiveFactor ℝ).matrix_.leading n) := by
  subst hn
  intro x hx
  have hx0 : x 0 ≠ 0 := by
    intro h0
    apply hx
    funext i
    rw [Fin.fin_one_eq_zero i]
    exact h0
  simp only [Matrix.dotProduct, Matrix.mulVec, MatrixXd.leading, MatrixXd.toSelfadjoint,
    MatrixXd.selfadjointUpper, positiveFactor, Matrix.of_apply, Finset.univ_unique,
    Fin.default_eq_zero, Fin.isValue, Finset.sum_singleton, Fin.val_zero, le_refl, if_true,
    and_self]
  have := mul_self_pos.mpr hx0
  linarith

/-- Witness of C5: the factor with `G = [4]`, `g = [2]`, `f = 3` over the reals. -/
theorem HessianFactor.partialCholesky_schur_complement_witness :
    (∀ x : ℝ, 0 < x → 0 < Real.sqrt x ∧ Real.sqrt x * Real.sqrt x = x) ∧
    (positiveFactor ℝ).info_.offset 1 ≤ (positiveFactor ℝ).matrix_.rows ∧
    PositiveDefinite ((positiveFactor ℝ).matrix_.leading ((positiveFactor ℝ).info_.offset 1)) ∧
    ∃ h : HessianFactor ℝ, (positiveFactor ℝ).partialCholesky Real.sqrt 1 = .ok h ∧
      h.keys_ = (positiveFactor ℝ).keys_ ∧ h.info_ = (positiveFactor ℝ).info_ :=
  have hn : (positiveFactor ℝ).info_.offset 1 ≤ (positiveFactor ℝ).matrix_.rows := by decide
  have hpd := positiveFactor_leading_posDef ((positiveFactor ℝ).info_.offset 1) (by decide)
  have h := HessianFactor.partialCholesky_schur_complement Real.sqrt real_sqrt_spec
    (positiveFactor ℝ) 1 hn hpd
  ⟨real_sqrt_spec, hn, hpd, h.choose, h.choose_spec.1, h.choose_spec.2.1, h.choose_spec.2.2.1⟩

/-- The only exception of the elimination is the indeterminate-system one. -/
theorem choleskyPartial_error_eq (sqrt : K → K) (M : MatrixXd K) (k : Nat) (e : Exception)
    (h : choleskyPartial sqrt M k = .error e) :
    e = .indeterminant_linear_system "choleskyPartial: non-positive pivot" := by
  induction k with
  | zero => cases h
  | succ k ih =>
    unfold choleskyPartial at h ih
    rw [List.range_succ, List.foldlM_append] at h
    cases hA : (List.range k).foldlM (fun M_1 k => choleskyStep sqrt M.rows k M_1) M with
    | error e' =>
      rw [hA] at h
      have : e' = e := by simpa [bind, Except.bind] using h
      subst this
      exact ih hA
    | ok A =>
      rw [hA] at h
      simp only [bind, Except.bind, List.foldlM_cons, List.foldlM_nil] at h
      unfold choleskyStep at h
      by_cases hp : A.coeff k k ≤ 0
      · simp only [hp, if_true] at h
        cases h
        rfl
      · simp [hp, pure, Except.pure] at h

/-- Once a prefix of the elimination has failed, every longer one fails the same way. -/
theorem choleskyPartial_error_mono (sqrt : K → K) (M : MatrixXd K) (k m : Nat) (e : Exception)
    (h : choleskyPartial sqrt M k = .error e) (hkm : k ≤ m) :
    choleskyPartial sqrt M m = .error e := by
  induction m with
  | zero =>
    have : k = 0 := Nat.le_zero.mp hkm
    subst this
    exact h
  | succ m ih =>
    rcases Nat.eq_or_lt_of_le hkm with rfl | hlt
    · exact h
    · have hm := ih (Nat.le_of_lt_succ hlt)
      unfold choleskyPartial at hm ⊢
      rw [List.range_succ, List.foldlM_append, hm]
      rfl

/-- A non-positive pivot makes the elimination fail. -/
theorem choleskyPartial_pivot_fails (sqrt : K → K) (M Mk : MatrixXd K) (k : Nat)
    (h : choleskyPartial sqrt M k = .ok Mk) (hp : Mk.coeff k k ≤ 0) :
    choleskyPartial sqrt M (k + 1)
      = .error (.indeterminant_linear_system "choleskyPartial: non-positive pivot") := by
  unfold choleskyPartial at h ⊢
  rw [List.range_succ, List.foldlM_append, h]
  simp only [bind, Except.bind, List.foldlM_cons, List.foldlM_nil]
  unfold choleskyStep
  simp only [hp, if_true]

/-- C6. Singular-system detection: if the leading block of the factor is rank-deficient
(its determinant is zero) or the elimination meets a non-positive pivot (the diagonal
entry `(k, k)` reached after `k < info_.offset(nrFrontals)` successful pivots),
`partialCholesky(nrFrontals)` fails with the indeterminate-system exception; it returns
no matrix. -/
theorem HessianFactor.partialCholesky_singular_fails (sqrt : K → K)
    (hsqrt : ∀ x : K, 0 < x → 0 < sqrt x ∧ sqrt x * sqrt x = x) (self : HessianFactor K)
    (nrFrontals : Nat) (hn : self.info_.offset nrFrontals ≤ self.matrix_.rows)
    (hbad : (self.matrix_.leading (self.info_.offset nrFrontals)).det = 0 ∨
      ∃ k Mk, k < self.info_.offset nrFrontals ∧
        choleskyPartial sqrt self.matrix_ k = .ok Mk ∧ Mk.coeff k k ≤ 0) :
    self.partialCholesky sqrt nrFrontals
      = .error (.indeterminant_linear_system "choleskyPartial: non-positive pivot") := by
  have herr : choleskyPartial sqrt self.matrix_ (self.info_.offset nrFrontals)
      = .error (.indeterminant_linear_system "choleskyPartial: non-positive pivot") := by
    rcases hbad with hdet | ⟨k, Mk, hk, hMk, hp⟩
    · cases hres : choleskyPartial sqrt self.matrix_ (self.info_.offset nrFrontals) with
      | error e => rw [choleskyPartial_error_eq sqrt _ _ e hres]
      | ok M' =>
        exfalso
        have hinv := choleskyInvariant_of_ok sqrt hsqrt self.matrix_.rows self.matrix_ _ M' hres
        obtain ⟨b1, -, -⟩ := hinv.blocks hn
        have hunit := upperFactor_isUnit_det M' (self.info_.offset nrFrontals) hinv.2.2.1
        rw [← b1, Matrix.det_mul, Matrix.det_transpose] at hdet
        exact hunit.ne_zero (mul_self_eq_zero.mp hdet)
    · exact choleskyPartial_error_mono sqrt _ (k + 1) _ _
        (choleskyPartial_pivot_fails sqrt _ Mk k hMk hp) hk
  simp only [HessianFactor.partialCholesky, herr]

/-- Witness of C6: the factor whose matrix is zero, over the reals. -/
theorem HessianFactor.partialCholesky_singular_fails_witness :
    (∀ x : ℝ, 0 < x → 0 < Real.sqrt x ∧ Real.sqrt x * Real.sqrt x = x) ∧
    (zeroFactor ℝ).info_.offset 1 ≤ (zeroFactor ℝ).matrix_.rows ∧
    (∃ k Mk, k < (zeroFactor ℝ).info_.offset 1 ∧
      choleskyPartial Real.sqrt (zeroFactor ℝ).matrix_ k = .ok Mk ∧ Mk.coeff k k ≤ 0) ∧
    (zeroFactor ℝ).partialCholesky Real.sqrt 1
      = .error (.indeterminant_linear_system "choleskyPartial: non-positive pivot") :=
  have hn : (zeroFactor ℝ).info_.offset 1 ≤ (zeroFactor ℝ).matrix_.rows := by decide
  have hp : ∃ k Mk, k < (zeroFactor ℝ).info_.offset 1 ∧
      choleskyPartial Real.sqrt (zeroFactor ℝ).matrix_ k = .ok Mk ∧ Mk.coeff k k ≤ 0 :=
    ⟨0, (zeroFactor ℝ).matrix_, by decide, rfl, le_refl (0 : ℝ)⟩
  ⟨real_sqrt_spec, hn, hp,
    HessianFactor.partialCholesky_singular_fails Real.sqrt real_sqrt_spec (zeroFactor ℝ) 1 hn
      (Or.inr hp)⟩

end Cholesky

section Equality

variable {K : Type} [LinearOrderedField K]

/-- What `equal_with_abs_tol` decides. -/
theorem equal_with_abs_tol_iff (A B : MatrixXd K) (tol : K) :
    equal_with_abs_tol A B tol = true ↔
      A.rows = B.rows ∧ A.cols = B.cols ∧
        ∀ i j, i < A.rows → j < A.cols → |A.coeff i j - B.coeff i j| ≤ tol := by
  unfold equal_with_abs_tol
  by_cases h : A.rows ≠ B.rows ∨ A.cols ≠ B.cols
  · rw [if_pos h]
    constructor
    · intro hc; cases hc
    · rintro ⟨h1, h2, -⟩
      rcases h with h | h
      · exact absurd h1 h
      · exact absurd h2 h
  · rw [if_neg h]
    push_neg at h
    simp only [List.all_eq_true, List.mem_range, Bool.not_eq_true', decide_eq_false_iff_not,
      not_lt, gt_iff_lt]
    exact ⟨fun hall => ⟨h.1, h.2, fun i j hi hj => hall i hi j hj⟩,
      fun hall i hi j hj => hall.2.2 i j hi hj⟩

/-- C11. `equals` ignores the constant-term cell: for information factors `A`, `B` and
`tol ≥ 0`, `A.equals(B, tol)` holds exactly when the symmetric matrices read from the
upper triangles of their views have the same size and every entry other than the last
cell (last row, last column) differs by at most `tol`; a factor equals every factor that
differs from it in the constant term only; and `equals` is false on a factor that is not
in information form. -/
theorem HessianFactor.equals_ignores_constant (A B : HessianFactor K) (tol : K)
    (htol : 0 ≤ tol) :
    (A.equals (.Hessian B) tol = true ↔
      A.fullDim = B.fullDim ∧
        ∀ i j, i < A.fullDim → j < A.fullDim → ¬ (i = A.fullDim - 1 ∧ j = A.fullDim - 1) →
          |MatrixXd.selfadjointUpper
              (A.matrix_.block (A.info_.offset 0) (A.info_.offset 0)) i j
            - MatrixXd.selfadjointUpper
              (B.matrix_.block (B.info_.offset 0) (B.info_.offset 0)) i j| ≤ tol) ∧
    (∀ f : K, A.equals (.Hessian (A.withConstant f)) tol = true) ∧
    (∀ jf : JacobianFactor K, A.equals (.Jacobian jf) tol = false) ∧
    (∀ keys : List Nat, A.equals (.Other keys) tol = false) := by
  have hcoeff : ∀ (h : HessianFactor K) i j, h.comparedMatrix.coeff i j =
      if i = h.fullDim - 1 ∧ j = h.fullDim - 1 then 0
      else MatrixXd.selfadjointUpper
        (h.matrix_.block (h.info_.offset 0) (h.info_.offset 0)) i j := by
    intro h i j
    simp only [HessianFactor.comparedMatrix, MatrixXd.assignBlock]
    by_cases hc : i = h.fullDim - 1 ∧ j = h.fullDim - 1
    · rw [if_pos hc, if_pos (by omega)]
    · rw [if_neg hc, if_neg (by omega)]
  have hiff : ∀ B' : HessianFactor K, (A.equals (.Hessian B') tol = true ↔
      A.fullDim = B'.fullDim ∧
        ∀ i j, i < A.fullDim → j < A.fullDim → ¬ (i = A.fullDim - 1 ∧ j = A.fullDim - 1) →
          |MatrixXd.selfadjointUpper
              (A.matrix_.block (A.info_.offset 0) (A.info_.offset 0)) i j
            - MatrixXd.selfadjointUpper
              (B'.matrix_.block (B'.info_.offset 0) (B'.info_.offset 0)) i j| ≤ tol) := by
    intro B'
    simp only [HessianFactor.equals, equal_with_abs_tol_iff]
    have hr : ∀ h : HessianFactor K, h.comparedMatrix.rows = h.fullDim := fun _ => rfl
    have hcl : ∀ h : HessianFactor K, h.comparedMatrix.cols = h.fullDim := fun _ => rfl
    rw [hr, hr, hcl, hcl]
    constructor
    · rintro ⟨h1, -, h3⟩
      refine ⟨h1, fun i j hi hj hne => ?_⟩
      have := h3 i j hi hj
      rw [hcoeff, hcoeff, if_neg hne, if_neg (h1 ▸ hne)] at this
      exact this
    · rintro ⟨h1, h3⟩
      refine ⟨h1, h1, fun i j hi hj => ?_⟩
      rw [hcoeff, hcoeff]
      by_cases hc : i = A.fullDim - 1 ∧ j = A.fullDim - 1
      · rw [if_pos hc, if_pos (h1 ▸ hc), sub_self, abs_zero]
        exact htol
      · rw [if_neg hc, if_neg (h1 ▸ hc)]
        exact h3 i j hi hj hc
  refine ⟨hiff B, ?_, fun _ => rfl, fun _ => rfl⟩
  intro f
  rw [hiff]
  refine ⟨rfl, fun i j hi hj hne => ?_⟩
  have hsame : MatrixXd.selfadjointUpper
      ((A.withConstant f).matrix_.block ((A.withConstant f).info_.offset 0)
        ((A.withConstant f).info_.offset 0)) i j
      = MatrixXd.selfadjointUpper
        (A.matrix_.block (A.info_.offset 0) (A.info_.offset 0)) i j := by
    simp only [HessianFactor.withConstant, MatrixXd.selfadjointUpper, MatrixXd.block,
      MatrixXd.assignBlock]
    split_ifs <;> first | rfl | omega
  rw [hsame, sub_self, abs_zero]
  exact htol

/-- Witness of C11: the factor with `G = [4]`, `g = [2]`, `f = 3` compared with itself
and with a copy whose constant term is `7`, at tolerance `0`. -/
theorem HessianFactor.equals_ignores_constant_witness :
    (0 : ℚ) ≤ 0 ∧
    (positiveFactor ℚ).equals (.Hessian ((positiveFactor ℚ).withConstant 7)) 0 = true ∧
    (positiveFactor ℚ).equals (.Jacobian jacobian5) 0 = false :=
  have h := HessianFactor.equals_ignores_constant (positiveFactor ℚ) (positiveFactor ℚ) 0
    (le_refl 0)
  ⟨le_refl 0, h.2.1 7, h.2.2.1 jacobian5⟩

end Equality

/-! ### The damped optimization loop -/

section LevenbergMarquardt

namespace LevenbergMarquardtOptimizer

variable {K V : Type} [LinearOrderedField K]

/-- What `buildDampedSystem` leaves alone: the parameters and every state field except
the diagonal cache. -/
lemma buildDampedSystem_frame (env : Collaborators K V) (linear : GaussianFactorGraph K)
    (self : LevenbergMarquardtOptimizer K V) :
    (self.buildDampedSystem env linear).2.params_ = self.params_ ∧
    (self.buildDampedSystem env linear).2.state_.values = self.state_.values ∧
    (self.buildDampedSystem env linear).2.state_.error = self.state_.error ∧
    (self.buildDampedSystem env linear).2.state_.lambda = self.state_.lambda ∧
    (self.buildDampedSystem env linear).2.state_.iterations = self.state_.iterations ∧
    (self.buildDampedSystem env linear).2.state_.totalNumberInnerIterations =
      self.state_.totalNumberInnerIterations := by
  simp only [buildDampedSystem]
  split_ifs <;> exact ⟨rfl, rfl, rfl, rfl, rfl, rfl⟩

lemma beforeSolve_params (env : Collaborators K V) (linear : GaussianFactorGraph K)
    (self : LevenbergMarquardtOptimizer K V) :
    (self.beforeSolve env linear).params_ = self.params_ :=
  (buildDampedSystem_frame env linear self).1

lemma beforeSolve_values (env : Collaborators K V) (linear : GaussianFactorGraph K)
    (self : LevenbergMarquardtOptimizer K V) :
    (self.beforeSolve env linear).state_.values = self.state_.values :=
  (buildDampedSystem_frame env linear self).2.1

lemma beforeSolve_error (env : Collaborators K V) (linear : GaussianFactorGraph K)
    (self : LevenbergMarquardtOptimizer K V) :
    (self.beforeSolve env linear).state_.error = self.state_.error :=
  (buildDampedSystem_frame env linear self).2.2.1

lemma beforeSolve_lambda (env : Collaborators K V) (linear : GaussianFactorGraph K)
    (self : LevenbergMarquardtOptimizer K V) :
    (self.beforeSolve env linear).state_.lambda = self.state_.lambda :=
  (buildDampedSystem_frame env linear self).2.2.2.1

lemma beforeSolve_iterations (env : Collaborators K V) (linear : GaussianFactorGraph K)
    (self : LevenbergMarquardtOptimizer K V) :
    (self.beforeSolve env linear).state_.iterations = self.state_.iterations :=
  (buildDampedSystem_frame env linear self).2.2.2.2.1

lemma beforeSolve_inner (env : Collaborators K V) (linear : GaussianFactorGraph K)
    (self : LevenbergMarquardtOptimizer K V) :
    (self.beforeSolve env linear).state_.totalNumberInnerIterations =
      self.state_.totalNumberInnerIterations + 1 := by
  show (self.buildDampedSystem env linear).2.state_.totalNumberInnerIterations + 1 = _
  rw [(buildDampedSystem_frame env linear self).2.2.2.2.2]

lemma afterSolve_state (env : Collaborators K V) (linear : GaussianFactorGraph K)
    (self : LevenbergMarquardtOptimizer K V) :
    (self.afterSolve env linear).state_ = (self.beforeSolve env linear).state_ := rfl

lemma afterSolve_params (env : Collaborators K V) (linear : GaussianFactorGraph K)
    (self : LevenbergMarquardtOptimizer K V) :
    (self.afterSolve env linear).params_ = { self.params_ with reuse_diagonal_ := true } := by
  show ({ (self.beforeSolve env linear).params_ with reuse_diagonal_ := true } :
    LevenbergMarquardtParams K) = _
  rw [beforeSolve_params]

/-- The frame of `decreaseLambda`: the estimate, the cost, the counters and the bounds. -/
lemma decreaseLambda_frame (self : LevenbergMarquardtOptimizer K V) (q : K) :
    (self.decreaseLambda q).state_.values = self.state_.values ∧
    (self.decreaseLambda q).state_.error = self.state_.error ∧
    (self.decreaseLambda q).params_.lambdaUpperBound = self.params_.lambdaUpperBound ∧
    (self.decreaseLambda q).params_.lambdaLowerBound = self.params_.lambdaLowerBound := by
  unfold decreaseLambda
  split_ifs <;> exact ⟨rfl, rfl, rfl, rfl⟩

/-- The frame of `increaseLambda`: the estimate, the cost, the counters and the bounds. -/
lemma increaseLambda_frame (self : LevenbergMarquardtOptimizer K V) :
    self.increaseLambda.state_.values = self.state_.values ∧
    self.increaseLambda.state_.error = self.state_.error ∧
    self.increaseLambda.params_.lambdaUpperBound = self.params_.lambdaUpperBound ∧
    self.increaseLambda.state_.lambda = self.state_.lambda * self.params_.lambdaFactor ∧
    self.increaseLambda.params_.useFixedLambdaFactor_ = self.params_.useFixedLambdaFactor_ := by
  unfold increaseLambda
  split_ifs <;> exact ⟨rfl, rfl, rfl, rfl, rfl⟩

/-- A trial whose solve succeeds evaluates the step and finishes. -/
lemma trial_of_solved (env : Collaborators K V) (linear : GaussianFactorGraph K)
    (self : LevenbergMarquardtOptimizer K V) (delta : VectorValues K)
    (hsolve : env.solve (self.buildDampedSystem env linear).1 self.state_.values self.params_
      = .ok delta) :
    self.trial env linear = .ok (finishTrial (self.afterSolve env linear)
      (evaluateStep env linear (self.afterSolve env linear) delta)) := by
  simp only [trial, beforeSolve_values, beforeSolve_params, hsolve]

/-- A trial whose solve raises the indeterminate-system exception finishes as an
unsuccessful one. -/
lemma trial_of_indeterminant (env : Collaborators K V) (linear : GaussianFactorGraph K)
    (self : LevenbergMarquardtOptimizer K V) (what : String)
    (hsolve : env.solve (self.buildDampedSystem env linear).1 self.state_.values self.params_
      = .error (.indeterminant_linear_system what)) :
    self.trial env linear = .ok (finishTrial (self.beforeSolve env linear) .unsuccessful) := by
  simp only [trial, beforeSolve_values, beforeSolve_params, hsolve]

/-- The end of an unsuccessful trial. -/
lemma finishTrial_unsuccessful (self : LevenbergMarquardtOptimizer K V) :
    finishTrial self .unsuccessful =
      if self.increaseLambda.params_.lambdaUpperBound ≤ self.increaseLambda.state_.lambda then
        (.givingUp, self.increaseLambda)
      else (.retry, self.increaseLambda) := rfl

/-- The evaluation of a solved trial in terms of the predicted reduction `L` and the true
cost change `C`. -/
lemma evaluateStep_eq (env : Collaborators K V) (linear : GaussianFactorGraph K)
    (self : LevenbergMarquardtOptimizer K V) (delta : VectorValues K) :
    evaluateStep env linear self delta =
      if 0 ≤ self.state_.error - env.linearError linear delta then
        if self.params_.relativeErrorTol * self.state_.error ≤
            |self.state_.error - env.graphError (env.retract self.state_.values delta)| then
          if 1 / 10 ^ 15 < self.state_.error - env.linearError linear delta then
            if self.params_.minModelFidelity <
                (self.state_.error - env.graphError (env.retract self.state_.values delta)) /
                  (self.state_.error - env.linearError linear delta) then
              .successful (env.retract self.state_.values delta)
                (env.graphError (env.retract self.state_.values delta))
                ((self.state_.error - env.graphError (env.retract self.state_.values delta)) /
                  (self.state_.error - env.linearError linear delta))
            else .unsuccessful
          else .successful (env.retract self.state_.values delta)
            (env.graphError (env.retract self.state_.values delta)) 0
        else .stopSearchingLambda
      else .unsuccessful := rfl

/-- A trial that does not accept leaves the estimate and the cost alone. -/
lemma finishTrial_frame (self : LevenbergMarquardtOptimizer K V) (evaluation : StepEvaluation K V)
    (h : (finishTrial self evaluation).1 ≠ .accepted) :
    (finishTrial self evaluation).2.state_.values = self.state_.values ∧
    (finishTrial self evaluation).2.state_.error = self.state_.error := by
  cases evaluation with
  | successful v e q => exact absurd rfl h
  | stopSearchingLambda => exact ⟨rfl, rfl⟩
  | unsuccessful =>
    rw [finishTrial_unsuccessful]
    split_ifs <;> exact ⟨(increaseLambda_frame self).1, (increaseLambda_frame self).2.1⟩

/-- A trial that does not accept leaves the estimate and the cost alone. -/
lemma trial_frame (env : Collaborators K V) (linear : GaussianFactorGraph K)
    (self : LevenbergMarquardtOptimizer K V) (outcome : TrialOutcome)
    (next : LevenbergMarquardtOptimizer K V)
    (htrial : self.trial env linear = .ok (outcome, next)) (h : outcome ≠ .accepted) :
    next.state_.values = self.state_.values ∧ next.state_.error = self.state_.error := by
  cases hsolve : env.solve (self.buildDampedSystem env linear).1 self.state_.values
      self.params_ with
  | ok delta =>
    rw [trial_of_solved env linear self delta hsolve] at htrial
    injection htrial with htrial
    have h1 := finishTrial_frame (self.afterSolve env linear)
      (evaluateStep env linear (self.afterSolve env linear) delta) (by rw [htrial]; exact h)
    rw [htrial] at h1
    rw [h1.1, h1.2, afterSolve_state, beforeSolve_values, beforeSolve_error]
    exact ⟨rfl, rfl⟩
  | error e =>
    cases e with
    | indeterminant_linear_system what =>
      rw [trial_of_indeterminant env linear self what hsolve] at htrial
      injection htrial with htrial
      have h1 := finishTrial_frame (self.beforeSolve env linear) .unsuccessful
        (by rw [htrial]; exact h)
      rw [htrial] at h1
      rw [h1.1, h1.2, beforeSolve_values, beforeSolve_error]
      exact ⟨rfl, rfl⟩
    | invalid_argument what =>
      simp [trial, beforeSolve_values, beforeSolve_params, hsolve] at htrial
    | out_of_range what =>
      simp [trial, beforeSolve_values, beforeSolve_params, hsolve] at htrial

/-- The fields of the optimizer after a successful solve that the evaluation reads. -/
lemma afterSolve_reads (env : Collaborators K V) (linear : GaussianFactorGraph K)
    (self : LevenbergMarquardtOptimizer K V) :
    (self.afterSolve env linear).state_.error = self.state_.error ∧
    (self.afterSolve env linear).state_.values = self.state_.values ∧
    (self.afterSolve env linear).state_.lambda = self.state_.lambda ∧
    (self.afterSolve env linear).params_.relativeErrorTol = self.params_.relativeErrorTol ∧
    (self.afterSolve env linear).params_.minModelFidelity = self.params_.minModelFidelity ∧
    (self.afterSolve env linear).params_.lambdaFactor = self.params_.lambdaFactor ∧
    (self.afterSolve env linear).params_.lambdaUpperBound = self.params_.lambdaUpperBound ∧
    (self.afterSolve env linear).params_.lambdaLowerBound = self.params_.lambdaLowerBound ∧
    (self.afterSolve env linear).params_.useFixedLambdaFactor_ =
      self.params_.useFixedLambdaFactor_ := by
  refine ⟨?_, ?_, ?_, ?_, ?_, ?_, ?_, ?_, ?_⟩
  · rw [afterSolve_state, beforeSolve_error]
  · rw [afterSolve_state, beforeSolve_values]
  · rw [afterSolve_state, beforeSolve_lambda]
  all_goals rw [afterSolve_params]

/-- The evaluation of a solved trial, read from the optimizer at the start of the
trial. -/
lemma evaluateStep_afterSolve (env : Collaborators K V) (linear : GaussianFactorGraph K)
    (self : LevenbergMarquardtOptimizer K V) (delta : VectorValues K) :
    evaluateStep env linear (self.afterSolve env linear) delta =
      if 0 ≤ self.state_.error - env.linearError linear delta then
        if self.params_.relativeErrorTol * self.state_.error ≤
            |self.state_.error - env.graphError (env.retract self.state_.values delta)| then
          if 1 / 10 ^ 15 < self.state_.error - env.linearError linear delta then
            if self.params_.minModelFidelity <
                (self.state_.error - env.graphError (env.retract self.state_.values delta)) /
                  (self.state_.error - env.linearError linear delta) then
              .successful (env.retract self.state_.values delta)
                (env.graphError (env.retract self.state_.values delta))
                ((self.state_.error - env.graphError (env.retract self.state_.values delta)) /
                  (self.state_.error - env.linearError linear delta))
            else .unsuccessful
          else .successful (env.retract self.state_.values delta)
            (env.graphError (env.retract self.state_.values delta)) 0
        else .stopSearchingLambda
      else .unsuccessful := by
  obtain ⟨he, hv, -, hr, hm, -⟩ := afterSolve_reads env linear self
  rw [evaluateStep_eq, he, hv, hr, hm]

/-- An unsuccessful trial never ends as an accepted one. -/
lemma finishTrial_unsuccessful_ne (self : LevenbergMarquardtOptimizer K V) :
    (finishTrial self .unsuccessful).1 ≠ .accepted := by
  rw [finishTrial_unsuccessful]
  split_ifs <;> simp

/-- The optimizer an accepted trial leaves: `decreaseLambda` applied, with the model
fidelity, to the optimizer holding the new estimate and cost. -/
lemma trial_accepted (env : Collaborators K V) (linear : GaussianFactorGraph K)
    (self : LevenbergMarquardtOptimizer K V) (delta : VectorValues K)
    (hsolve : env.solve (self.buildDampedSystem env linear).1 self.state_.values self.params_
      = .ok delta)
    (hL : 0 ≤ self.state_.error - env.linearError linear delta)
    (hC : self.params_.relativeErrorTol * self.state_.error ≤
      |self.state_.error - env.graphError (env.retract self.state_.values delta)|)
    (hacc : self.state_.error - env.linearError linear delta ≤ 1 / 10 ^ 15 ∨
      self.params_.minModelFidelity <
        (self.state_.error - env.graphError (env.retract self.state_.values delta)) /
          (self.state_.error - env.linearError linear delta)) :
    self.trial env linear = .ok (.accepted, decreaseLambda
      { params_ := (self.afterSolve env linear).params_
        state_ := { (self.afterSolve env linear).state_ with
          values := env.retract self.state_.values delta
          error := env.graphError (env.retract self.state_.values delta) } }
      (if 1 / 10 ^ 15 < self.state_.error - env.linearError linear delta then
        (self.state_.error - env.graphError (env.retract self.state_.values delta)) /
          (self.state_.error - env.linearError linear delta)
       else 0)) := by
  rw [trial_of_solved env linear self delta hsolve, evaluateStep_afterSolve, if_pos hL,
    if_pos hC]
  by_cases hdeg : 1 / 10 ^ 15 < self.state_.error - env.linearError linear delta
  · rw [if_pos hdeg, if_pos hdeg]
    rcases hacc with h | h
    · exact absurd hdeg (not_lt.mpr h)
    · rw [if_pos h]
      rfl
  · rw [if_neg hdeg, if_neg hdeg]
    rfl

/-- The lambda `decreaseLambda` leaves in variable-factor mode. -/
lemma decreaseLambda_variable (self : LevenbergMarquardtOptimizer K V) (q : K)
    (hmode : self.params_.useFixedLambdaFactor_ = false) :
    (self.decreaseLambda q).state_.lambda =
      max self.params_.lambdaLowerBound
        (self.state_.lambda * max (1 / 3) (1 - (2 * q - 1) ^ 3)) := by
  unfold decreaseLambda
  rw [if_neg (by rw [hmode]; exact Bool.false_ne_true)]

/-- The lambda `decreaseLambda` leaves in fixed-factor mode. -/
lemma decreaseLambda_fixed (self : LevenbergMarquardtOptimizer K V) (q : K)
    (hmode : self.params_.useFixedLambdaFactor_ = true) :
    (self.decreaseLambda q).state_.lambda =
      max self.params_.lambdaLowerBound (self.state_.lambda / self.params_.lambdaFactor) := by
  unfold decreaseLambda
  rw [if_pos hmode]

/-- C12. Step acceptance in `iterate()`: a trial whose solve succeeds with predicted
reduction `L = error - linear.error(delta) >= 0` and true cost change
`C = error - graph.error(retract(delta))` with `|C| >= relativeErrorTol * error` ends, and
it accepts the step exactly when `L <= 1e-15` or `C / L > minModelFidelity`; on
acceptance the estimate is `retract(delta)`, the cost is the new nonlinear error, and the
optimizer is the one `decreaseLambda` leaves when called with the model fidelity `C / L`
(`0` in the degenerate case). -/
theorem trial_accepts_iff (env : Collaborators K V) (linear : GaussianFactorGraph K)
    (self : LevenbergMarquardtOptimizer K V) (delta : VectorValues K)
    (hsolve : env.solve (self.buildDampedSystem env linear).1 self.state_.values self.params_
      = .ok delta)
    (hL : 0 ≤ self.state_.error - env.linearError linear delta)
    (hC : self.params_.relativeErrorTol * self.state_.error ≤
      |self.state_.error - env.graphError (env.retract self.state_.values delta)|) :
    ∃ outcome next, self.trial env linear = .ok (outcome, next) ∧
      (outcome = .accepted ↔
        (self.state_.error - env.linearError linear delta ≤ 1 / 10 ^ 15 ∨
          self.params_.minModelFidelity <
            (self.state_.error - env.graphError (env.retract self.state_.values delta)) /
              (self.state_.error - env.linearError linear delta))) ∧
      (outcome = .accepted →
        next.state_.values = env.retract self.state_.values delta ∧
        next.state_.error = env.graphError (env.retract self.state_.values delta) ∧
        next = decreaseLambda
          { params_ := (self.afterSolve env linear).params_
            state_ := { (self.afterSolve env linear).state_ with
              values := env.retract self.state_.values delta
              error := env.graphError (env.retract self.state_.values delta) } }
          (if 1 / 10 ^ 15 < self.state_.error - env.linearError linear delta then
            (self.state_.error - env.graphError (env.retract self.state_.values delta)) /
              (self.state_.error - env.linearError linear delta)
           else 0)) := by
  rw [trial_of_solved env linear self delta hsolve, evaluateStep_afterSolve, if_pos hL,
    if_pos hC]
  by_cases hdeg : 1 / 10 ^ 15 < self.state_.error - env.linearError linear delta
  · rw [if_pos hdeg, if_pos hdeg]
    by_cases hfid : self.params_.minModelFidelity <
        (self.state_.error - env.graphError (env.retract self.state_.values delta)) /
          (self.state_.error - env.linearError linear delta)
    · rw [if_pos hfid]
      exact ⟨.accepted, _, rfl, ⟨fun _ => Or.inr hfid, fun _ => rfl⟩,
        fun _ => ⟨(decreaseLambda_frame _ _).1, (decreaseLambda_frame _ _).2.1, rfl⟩⟩
    · rw [if_neg hfid]
      have hne := finishTrial_unsuccessful_ne (self.afterSolve env linear)
      refine ⟨_, _, rfl, ⟨fun h => absurd h hne, fun h => ?_⟩, fun h => absurd h hne⟩
      rcases h with h | h
      · exact absurd hdeg (not_lt.mpr h)
      · exact absurd h hfid
  · rw [if_neg hdeg, if_neg hdeg]
    exact ⟨.accepted, _, rfl, ⟨fun _ => Or.inl (not_lt.mp hdeg), fun _ => rfl⟩,
      fun _ => ⟨(decreaseLambda_frame _ _).1, (decreaseLambda_frame _ _).2.1, rfl⟩⟩

/-- Witness of C12: cost 1, predicted cost 0 and new cost 0 give fidelity 1, above the
threshold 1/2. -/
theorem trial_accepts_iff_witness :
    ∃ outcome next,
      (optimizerAt 1 10 100 (1 / 10) (1 / 2) 0 1 false).trial
        (oracle (.ok []) 0 (costTable 1 0)) [] = .ok (outcome, next) ∧
      (outcome = .accepted ↔ ((1 : ℚ) - 0 ≤ 1 / 10 ^ 15 ∨ (1 / 2 : ℚ) < (1 - 0) / (1 - 0))) ∧
      (outcome = .accepted → next.state_.values = 1 ∧ next.state_.error = 0) := by
  obtain ⟨outcome, next, h1, h2, h3⟩ := trial_accepts_iff (oracle (.ok []) 0 (costTable 1 0)) []
    (optimizerAt 1 10 100 (1 / 10) (1 / 2) 0 1 false) [] rfl
    (by norm_num [optimizerAt, oracle]) (by norm_num [optimizerAt, oracle, costTable])
  exact ⟨outcome, next, h1, h2, fun h => ⟨(h3 h).1, (h3 h).2.1⟩⟩

/-- C13, counterexample. Two trials whose solve succeeds with predicted reduction at most
`1e-15` and positive true cost reduction, neither of which accepts the step: with
predicted reduction `1 - 2 < 0` the trial is rejected (the guard
`linearizedCostChange >= 0` fails) and another trial follows; with predicted reduction
`1 - 1 = 0`, true reduction `1 - 1/2` and `relativeErrorTol = 1` the search for lambda is
stopped. The estimate and the cost stay as they were. -/
theorem degenerate_step_not_always_accepted :
    ((1 : ℚ) - 2 ≤ 1 / 10 ^ 15 ∧ (0 : ℚ) < 1 - 0 ∧
      ∃ next, (optimizerAt 1 10 100 (1 / 10) 0 0 1 false).trial
          (oracle (.ok []) 2 (costTable 1 0)) [] = .ok (.retry, next) ∧
        next.state_.values = 0 ∧ next.state_.error = 1) ∧
    ((1 : ℚ) - 1 ≤ 1 / 10 ^ 15 ∧ (0 : ℚ) < 1 - 1 / 2 ∧
      ∃ next, (optimizerAt 1 10 100 (1 / 10) 0 1 1 false).trial
          (oracle (.ok []) 1 (costTable 1 (1 / 2))) [] = .ok (.stopSearching, next) ∧
        next.state_.values = 0 ∧ next.state_.error = 1) := by
  refine ⟨⟨by norm_num, by norm_num, ?_⟩, ⟨by norm_num, by norm_num, ?_⟩⟩
  · rw [trial_of_solved _ _ _ [] rfl, evaluateStep_afterSolve,
      if_neg (by norm_num [optimizerAt, oracle]), finishTrial_unsuccessful,
      if_neg (by norm_num [(increaseLambda_frame _).2.2.1, (increaseLambda_frame _).2.2.2.1,
        (afterSolve_reads _ _ _).2.2.1, (afterSolve_reads _ _ _).2.2.2.2.2.1,
        (afterSolve_reads _ _ _).2.2.2.2.2.2.1, optimizerAt])]
    exact ⟨_, rfl, rfl, rfl⟩
  · rw [trial_of_solved _ _ _ [] rfl, evaluateStep_afterSolve,
      if_pos (by norm_num [optimizerAt, oracle]),
      if_neg (by norm_num [optimizerAt, oracle, costTable, abs_lt])]
    exact ⟨_, rfl, rfl, rfl⟩

/-- C13, amended. Degenerate-fidelity acceptance: a trial whose solve succeeds with
predicted reduction `0 <= L <= 1e-15` and true cost change `C` with
`|C| >= relativeErrorTol * error` accepts the step whatever `minModelFidelity` is: the
estimate becomes `retract(delta)` and the cost the new nonlinear error. -/
theorem degenerate_step_accepted (env : Collaborators K V) (linear : GaussianFactorGraph K)
    (self : LevenbergMarquardtOptimizer K V) (delta : VectorValues K)
    (hsolve : env.solve (self.buildDampedSystem env linear).1 self.state_.values self.params_
      = .ok delta)
    (hL0 : 0 ≤ self.state_.error - env.linearError linear delta)
    (hL : self.state_.error - env.linearError linear delta ≤ 1 / 10 ^ 15)
    (hC : self.params_.relativeErrorTol * self.state_.error ≤
      |self.state_.error - env.graphError (env.retract self.state_.values delta)|) :
    ∃ next, self.trial env linear = .ok (.accepted, next) ∧
      next.state_.values = env.retract self.state_.values delta ∧
      next.state_.error = env.graphError (env.retract self.state_.values delta) := by
  rw [trial_of_solved env linear self delta hsolve, evaluateStep_afterSolve, if_pos hL0,
    if_pos hC, if_neg (not_lt.mpr hL)]
  exact ⟨_, rfl, (decreaseLambda_frame _ _).1, (decreaseLambda_frame _ _).2.1⟩

/-- Witness of the amended C13: predicted reduction `0`, cost `1` falling to `0`, and a
fidelity threshold of `1000`. -/
theorem degenerate_step_accepted_witness :
    ∃ next, (optimizerAt 1 10 100 (1 / 10) 1000 0 1 false).trial
        (oracle (.ok []) 1 (costTable 1 0)) [] = .ok (.accepted, next) ∧
      next.state_.values = 1 ∧ next.state_.error = 0 :=
  degenerate_step_accepted (oracle (.ok []) 1 (costTable 1 0)) []
    (optimizerAt 1 10 100 (1 / 10) 1000 0 1 false) [] rfl
    (by norm_num [optimizerAt, oracle]) (by norm_num [optimizerAt, oracle])
    (by norm_num [optimizerAt, oracle, costTable])

/-- C14. Cubic damping schedule: in variable-factor mode `decreaseLambda(q)` sets lambda
to `max(lambdaLowerBound, lambda * max(1/3, 1 - (2q - 1)^3))` and resets `lambdaFactor`
to 2; the bounds, the estimate and the cost are untouched. -/
theorem decreaseLambda_cubic_schedule (self : LevenbergMarquardtOptimizer K V) (q : K)
    (hmode : self.params_.useFixedLambdaFactor_ = false) :
    (self.decreaseLambda q).state_.lambda =
      max self.params_.lambdaLowerBound
        (self.state_.lambda * max (1 / 3) (1 - (2 * q - 1) ^ 3)) ∧
    (self.decreaseLambda q).params_.lambdaFactor = 2 ∧
    (self.decreaseLambda q).params_.lambdaLowerBound = self.params_.lambdaLowerBound ∧
    (self.decreaseLambda q).state_.values = self.state_.values ∧
    (self.decreaseLambda q).state_.error = self.state_.error := by
  unfold decreaseLambda
  rw [if_neg (by rw [hmode]; exact Bool.false_ne_true)]
  exact ⟨rfl, rfl, rfl, rfl, rfl⟩

/-- Witness of C14: lambda `1`, lower bound `1/10` and step quality `1` give
`max(1/10, 1 * max(1/3, 0)) = 1/3`. -/
theorem decreaseLambda_cubic_schedule_witness :
    ((optimizerAt 1 10 100 (1 / 10) 0 0 1 false).decreaseLambda 1).state_.lambda = 1 / 3 ∧
    ((optimizerAt 1 10 100 (1 / 10) 0 0 1 false).decreaseLambda 1).params_.lambdaFactor = 2 := by
  obtain ⟨h1, h2, -⟩ := decreaseLambda_cubic_schedule
    (optimizerAt 1 10 100 (1 / 10) 0 0 1 false) 1 rfl
  refine ⟨?_, h2⟩
  rw [h1]
  norm_num [optimizerAt]

/-- C15, counterexample. Two accepted steps from `lambda = 1 >= lambdaLowerBound = 1/2 > 0`
in variable-factor mode after which lambda is larger: the degenerate case (predicted
reduction `0`) passes fidelity `0` to `decreaseLambda`, which doubles lambda; a step of
fidelity `1/4` multiplies lambda by `9/8`. -/
theorem accepted_step_may_raise_lambda :
    (∃ next, (optimizerAt 1 10 100 (1 / 2) 0 0 1 false).trial
        (oracle (.ok []) 1 (costTable 1 0)) [] = .ok (.accepted, next) ∧
      next.state_.lambda = 2 ∧
      ¬ next.state_.lambda ≤ (optimizerAt 1 10 100 (1 / 2) 0 0 1 false).state_.lambda) ∧
    (∃ next, (optimizerAt 1 10 100 (1 / 2) 0 0 1 false).trial
        (oracle (.ok []) 0 (costTable 1 (3 / 4))) [] = .ok (.accepted, next) ∧
      next.state_.lambda = 9 / 8 ∧
      ¬ next.state_.lambda ≤ (optimizerAt 1 10 100 (1 / 2) 0 0 1 false).state_.lambda) := by
  constructor
  · have hl : ∀ n : LevenbergMarquardtOptimizer ℚ Nat, n.state_.lambda = 2 →
        n.state_.lambda = 2 ∧
          ¬ n.state_.lambda ≤ (optimizerAt 1 10 100 (1 / 2) 0 0 1 false).state_.lambda :=
      fun n h => ⟨h, by rw [h]; norm_num [optimizerAt]⟩
    refine ⟨_, trial_accepted _ _ _ [] rfl (by norm_num [optimizerAt, oracle])
      (by norm_num [optimizerAt, oracle, costTable])
      (Or.inl (by norm_num [optimizerAt, oracle])), hl _ ?_⟩
    rw [decreaseLambda_variable _ _ rfl]
    norm_num [afterSolve, beforeSolve, buildDampedSystem, optimizerAt, oracle, costTable]
  · have hl : ∀ n : LevenbergMarquardtOptimizer ℚ Nat, n.state_.lambda = 9 / 8 →
        n.state_.lambda = 9 / 8 ∧
          ¬ n.state_.lambda ≤ (optimizerAt 1 10 100 (1 / 2) 0 0 1 false).state_.lambda :=
      fun n h => ⟨h, by rw [h]; norm_num [optimizerAt]⟩
    refine ⟨_, trial_accepted _ _ _ [] rfl (by norm_num [optimizerAt, oracle])
      (by norm_num [optimizerAt, oracle, costTable])
      (Or.inr (by norm_num [optimizerAt, oracle, costTable])), hl _ ?_⟩
    rw [decreaseLambda_variable _ _ rfl]
    norm_num [afterSolve, beforeSolve, buildDampedSystem, optimizerAt, oracle, costTable]

/-- C15, amended. On acceptance lambda does not grow when the step is good enough: for
every accepted step of `iterate()` from `lambda >= lambdaLowerBound > 0`, if in
variable-factor mode the predicted reduction `L` exceeds `1e-15` and the model fidelity
`C / L` is at least `1/2`, or in fixed-factor mode `lambdaFactor >= 1`, then lambda after
the step is at most lambda before it. -/
theorem accepted_step_lowers_lambda (env : Collaborators K V) (linear : GaussianFactorGraph K)
    (self next : LevenbergMarquardtOptimizer K V) (delta : VectorValues K)
    (hsolve : env.solve (self.buildDampedSystem env linear).1 self.state_.values self.params_
      = .ok delta)
    (htrial : self.trial env linear = .ok (.accepted, next))
    (hlow0 : 0 < self.params_.lambdaLowerBound)
    (hlow : self.params_.lambdaLowerBound ≤ self.state_.lambda)
    (hvar : self.params_.useFixedLambdaFactor_ = false →
      1 / 10 ^ 15 < self.state_.error - env.linearError linear delta ∧
      1 / 2 ≤ (self.state_.error - env.graphError (env.retract self.state_.values delta)) /
        (self.state_.error - env.linearError linear delta))
    (hfix : self.params_.useFixedLambdaFactor_ = true → 1 ≤ self.params_.lambdaFactor) :
    next.state_.lambda ≤ self.state_.lambda := by
  have hpos : 0 < self.state_.lambda := lt_of_lt_of_le hlow0 hlow
  obtain ⟨-, -, hlam, -, -, hfac, -, hlb, hmode⟩ := afterSolve_reads env linear self
  -- the optimizer `decreaseLambda` is applied to, and the fidelity it is given
  have key : ∀ (v : V) (e q : K),
      (self.params_.useFixedLambdaFactor_ = false → 1 / 2 ≤ q) →
      (decreaseLambda
        { params_ := (self.afterSolve env linear).params_
          state_ := { (self.afterSolve env linear).state_ with values := v, error := e } }
        q).state_.lambda ≤ self.state_.lambda := by
    intro v e q hq
    cases hm : self.params_.useFixedLambdaFactor_ with
    | false =>
      rw [decreaseLambda_variable _ _ (by rw [← hm]; exact hmode)]
      have h2 : 0 ≤ (2 * q - 1) ^ 3 := pow_nonneg (by linarith [hq hm]) 3
      have h3 : max (1 / 3) (1 - (2 * q - 1) ^ 3) ≤ 1 :=
        max_le (by norm_num) (by linarith)
      refine max_le ?_ ?_
      · show (self.afterSolve env linear).params_.lambdaLowerBound ≤ _
        rw [hlb]; exact hlow
      · show (self.afterSolve env linear).state_.lambda * _ ≤ _
        rw [hlam]
        exact mul_le_of_le_one_right hpos.le h3
    | true =>
      rw [decreaseLambda_fixed _ _ (by rw [← hm]; exact hmode)]
      refine max_le ?_ ?_
      · show (self.afterSolve env linear).params_.lambdaLowerBound ≤ _
        rw [hlb]; exact hlow
      · show (self.afterSolve env linear).state_.lambda /
          (self.afterSolve env linear).params_.lambdaFactor ≤ _
        rw [hlam, hfac]
        exact div_le_self hpos.le (hfix hm)
  rw [trial_of_solved env linear self delta hsolve, evaluateStep_afterSolve] at htrial
  injection htrial with htrial
  split_ifs at htrial with h1 h2 h3 h4
  · rw [← (Prod.mk.inj htrial).2]
    exact key _ _ _ (fun hm => (hvar hm).2)
  · exact absurd (congrArg Prod.fst htrial) (finishTrial_unsuccessful_ne _)
  · cases hm : self.params_.useFixedLambdaFactor_ with
    | false => exact absurd (hvar hm).1 h3
    | true =>
      rw [← (Prod.mk.inj htrial).2]
      exact key _ _ _ (fun h => absurd h (by rw [hm]; exact Bool.noConfusion))
  · exact absurd (congrArg Prod.fst htrial) (by simp [finishTrial])
  · exact absurd (congrArg Prod.fst htrial) (finishTrial_unsuccessful_ne _)

/-- Witness of the amended C15: cost `1`, predicted cost `0` and new cost `0` give
fidelity `1`, and lambda `1` falls to `1/3`. -/
theorem accepted_step_lowers_lambda_witness :
    (decreaseLambda
      { params_ := ((optimizerAt 1 10 100 (1 / 2) 0 0 1 false).afterSolve
          (oracle (.ok []) 0 (costTable 1 0)) []).params_
        state_ := { ((optimizerAt 1 10 100 (1 / 2) 0 0 1 false).afterSolve
          (oracle (.ok []) 0 (costTable 1 0)) []).state_ with values := 1, error := 0 } }
      (if (1 : ℚ) / 10 ^ 15 < 1 - 0 then (1 - 0) / (1 - 0) else 0)).state_.lambda ≤
      (optimizerAt 1 10 100 (1 / 2) 0 0 1 false).state_.lambda :=
  accepted_step_lowers_lambda (oracle (.ok []) 0 (costTable 1 0)) []
    (optimizerAt 1 10 100 (1 / 2) 0 0 1 false) _ [] rfl
    (trial_accepted _ _ _ [] rfl (by norm_num [optimizerAt, oracle])
      (by norm_num [optimizerAt, oracle, costTable])
      (Or.inr (by norm_num [optimizerAt, oracle, costTable])))
    (by norm_num [optimizerAt]) (by norm_num [optimizerAt])
    (fun _ => by norm_num [optimizerAt, oracle, costTable])
    (fun h => absurd h (by simp [optimizerAt]))

/-- The counters are not touched by `increaseLambda`. -/
lemma increaseLambda_inner (self : LevenbergMarquardtOptimizer K V) :
    self.increaseLambda.state_.totalNumberInnerIterations =
      self.state_.totalNumberInnerIterations := by
  unfold increaseLambda
  split_ifs <;> rfl

/-- The multiplier `increaseLambda` leaves: doubled in variable-factor mode, kept in
fixed-factor mode. -/
lemma increaseLambda_lambdaFactor (self : LevenbergMarquardtOptimizer K V) :
    self.increaseLambda.params_.lambdaFactor =
      if self.params_.useFixedLambdaFactor_ then self.params_.lambdaFactor
      else self.params_.lambdaFactor * 2 := by
  unfold increaseLambda
  split_ifs <;> rfl

/-- After `n` calls of `increaseLambda` in variable-factor mode. -/
lemma iterate_increaseLambda_variable (self : LevenbergMarquardtOptimizer K V)
    (hmode : self.params_.useFixedLambdaFactor_ = false) (n : Nat) :
    (Nat.iterate increaseLambda n self).params_.useFixedLambdaFactor_ = false ∧
    (Nat.iterate increaseLambda n self).state_.lambda =
      self.state_.lambda * self.params_.lambdaFactor ^ n * 2 ^ (n * (n - 1) / 2) ∧
    (Nat.iterate increaseLambda n self).params_.lambdaFactor =
      self.params_.lambdaFactor * 2 ^ n := by
  induction n with
  | zero => exact ⟨hmode, by simp, by simp⟩
  | succ n ih =>
    obtain ⟨h1, h2, h3⟩ := ih
    rw [Function.iterate_succ_apply']
    obtain ⟨-, -, -, hl, hm⟩ := increaseLambda_frame (Nat.iterate increaseLambda n self)
    refine ⟨by rw [hm, h1], ?_, ?_⟩
    · rw [hl, h2, h3, Nat.triangle_succ, pow_add, pow_succ]
      ring
    · rw [increaseLambda_lambdaFactor, h1, if_neg Bool.false_ne_true, h3, pow_succ]
      ring

/-- After `n` calls of `increaseLambda` in fixed-factor mode. -/
lemma iterate_increaseLambda_fixed (self : LevenbergMarquardtOptimizer K V)
    (hmode : self.params_.useFixedLambdaFactor_ = true) (n : Nat) :
    (Nat.iterate increaseLambda n self).params_.useFixedLambdaFactor_ = true ∧
    (Nat.iterate increaseLambda n self).state_.lambda =
      self.state_.lambda * self.params_.lambdaFactor ^ n ∧
    (Nat.iterate increaseLambda n self).params_.lambdaFactor = self.params_.lambdaFactor := by
  induction n with
  | zero => exact ⟨hmode, by simp, rfl⟩
  | succ n ih =>
    obtain ⟨h1, h2, h3⟩ := ih
    rw [Function.iterate_succ_apply']
    obtain ⟨-, -, -, hl, hm⟩ := increaseLambda_frame (Nat.iterate increaseLambda n self)
    refine ⟨by rw [hm, h1], ?_, ?_⟩
    · rw [hl, h2, h3, pow_succ]
      ring
    · rw [increaseLambda_lambdaFactor, h1, if_pos rfl, h3]

/-- C16. Rejection schedule closed form: after `n` consecutive `increaseLambda` calls
from `lambda0 > 0` and `lambdaFactor = c`, in variable-factor mode
`lambda = lambda0 * c^n * 2^(n(n-1)/2)` and `lambdaFactor = c * 2^n` (for `n = 3`,
`lambda = 8 * c^3 * lambda0`; with `c > 1` each further call strictly increases lambda
and doubles the multiplier), while in fixed-factor mode `lambda = lambda0 * c^n` and
`lambdaFactor` stays `c`. -/
theorem increaseLambda_closed_form (self : LevenbergMarquardtOptimizer K V) (n : Nat)
    (h0 : 0 < self.state_.lambda) :
    (self.params_.useFixedLambdaFactor_ = false →
      (Nat.iterate increaseLambda n self).state_.lambda =
        self.state_.lambda * self.params_.lambdaFactor ^ n * 2 ^ (n * (n - 1) / 2) ∧
      (Nat.iterate increaseLambda n self).params_.lambdaFactor =
        self.params_.lambdaFactor * 2 ^ n ∧
      (Nat.iterate increaseLambda 3 self).state_.lambda =
        8 * self.params_.lambdaFactor ^ 3 * self.state_.lambda ∧
      (1 < self.params_.lambdaFactor →
        (Nat.iterate increaseLambda n self).state_.lambda <
          (Nat.iterate increaseLambda (n + 1) self).state_.lambda ∧
        (Nat.iterate increaseLambda (n + 1) self).params_.lambdaFactor =
          2 * (Nat.iterate increaseLambda n self).params_.lambdaFactor)) ∧
    (self.params_.useFixedLambdaFactor_ = true →
      (Nat.iterate increaseLambda n self).state_.lambda =
        self.state_.lambda * self.params_.lambdaFactor ^ n ∧
      (Nat.iterate increaseLambda n self).params_.lambdaFactor = self.params_.lambdaFactor) := by
  constructor
  · intro hmode
    obtain ⟨-, h2, h3⟩ := iterate_increaseLambda_variable self hmode n
    obtain ⟨-, h4, h5⟩ := iterate_increaseLambda_variable self hmode (n + 1)
    refine ⟨h2, h3, ?_, fun hc => ⟨?_, ?_⟩⟩
    · rw [(iterate_increaseLambda_variable self hmode 3).2.1]
      norm_num
      ring
    · have hc0 : 0 < self.params_.lambdaFactor := lt_trans one_pos hc
      have hpos : 0 < self.state_.lambda * self.params_.lambdaFactor ^ n *
          2 ^ (n * (n - 1) / 2) := by positivity
      have hmul : 1 < self.params_.lambdaFactor * 2 ^ n :=
        lt_of_lt_of_le hc (le_mul_of_one_le_right hc0.le (one_le_pow₀ (by norm_num)))
      rw [h4, h2, Nat.triangle_succ, pow_add, pow_succ]
      calc self.state_.lambda * self.params_.lambdaFactor ^ n * 2 ^ (n * (n - 1) / 2)
          = self.state_.lambda * self.params_.lambdaFactor ^ n * 2 ^ (n * (n - 1) / 2) * 1 := by
            ring
        _ < self.state_.lambda * self.params_.lambdaFactor ^ n * 2 ^ (n * (n - 1) / 2) *
              (self.params_.lambdaFactor * 2 ^ n) := mul_lt_mul_of_pos_left hmul hpos
        _ = _ := by ring
    · rw [h5, h3, pow_succ]
      ring
  · intro hmode
    exact (iterate_increaseLambda_fixed self hmode n).2

/-- Witness of C16: from `lambda = 1/1000` and `lambdaFactor = 10`, three calls in
variable-factor mode give `lambda = 8` and `lambdaFactor = 80`. -/
theorem increaseLambda_closed_form_witness :
    (Nat.iterate increaseLambda 3 (optimizerAt (1 / 1000) 10 100 0 0 0 1 false)).state_.lambda
      = 8 ∧
    (Nat.iterate increaseLambda 3
      (optimizerAt (1 / 1000) 10 100 0 0 0 1 false)).params_.lambdaFactor = 80 := by
  obtain ⟨h1, h2, -⟩ := (increaseLambda_closed_form
    (optimizerAt (1 / 1000) 10 100 0 0 0 1 false) 3 (by norm_num [optimizerAt])).1 rfl
  rw [h1, h2]
  norm_num [optimizerAt]

/-- A rejected trial that is followed by another one: the loop goes on from the
optimizer the trial leaves. -/
lemma iterateLoop_succ_of_retry (env : Collaborators K V) (linear : GaussianFactorGraph K)
    (fuel : Nat) (self next : LevenbergMarquardtOptimizer K V)
    (htrial : self.trial env linear = .ok (.retry, next)) :
    iterateLoop env linear (fuel + 1) self = iterateLoop env linear fuel next := by
  rw [iterateLoop, htrial]

/-- A trial that ends with `break` ends the loop. -/
lemma iterateLoop_succ_of_break (env : Collaborators K V) (linear : GaussianFactorGraph K)
    (fuel : Nat) (self next : LevenbergMarquardtOptimizer K V) (outcome : TrialOutcome)
    (htrial : self.trial env linear = .ok (outcome, next)) (hne : outcome ≠ .retry) :
    iterateLoop env linear (fuel + 1) self = .ok (some (outcome, next)) := by
  rw [iterateLoop, htrial]
  cases outcome with
  | retry => exact absurd rfl hne
  | accepted => rfl
  | givingUp => rfl
  | stopSearching => rfl

/-- The upper bound is not changed by the end of a trial, and lambda is compared with it
after `increaseLambda` only. -/
lemma finishTrial_bounds (self : LevenbergMarquardtOptimizer K V)
    (evaluation : StepEvaluation K V) :
    (finishTrial self evaluation).2.params_.lambdaUpperBound = self.params_.lambdaUpperBound ∧
    ((finishTrial self evaluation).1 = .retry →
      (finishTrial self evaluation).2.state_.lambda < self.params_.lambdaUpperBound ∧
      (finishTrial self evaluation).2.state_.lambda =
        self.state_.lambda * self.params_.lambdaFactor) ∧
    ((finishTrial self evaluation).1 = .givingUp →
      self.params_.lambdaUpperBound ≤ (finishTrial self evaluation).2.state_.lambda ∧
      (finishTrial self evaluation).2.state_.lambda =
        self.state_.lambda * self.params_.lambdaFactor) := by
  cases evaluation with
  | successful v e q =>
    exact ⟨(decreaseLambda_frame _ q).2.2.1, fun h => by simp [finishTrial] at h,
      fun h => by simp [finishTrial] at h⟩
  | stopSearchingLambda =>
    exact ⟨rfl, fun h => by simp [finishTrial] at h, fun h => by simp [finishTrial] at h⟩
  | unsuccessful =>
    obtain ⟨-, -, hu, hl, -⟩ := increaseLambda_frame self
    rw [finishTrial_unsuccessful]
    split_ifs with h
    · rw [hu] at h
      exact ⟨hu, fun h1 => by simp at h1, fun _ => ⟨h, hl⟩⟩
    · rw [hu] at h
      exact ⟨hu, fun _ => ⟨not_le.mp h, hl⟩, fun h1 => by simp at h1⟩

/-- The trial in which the solver fails from lambda `1` with multiplier `10` and upper
bound `5`: lambda becomes `10` and the loop gives up. -/
lemma failing_trial :
    (optimizerAt 1 10 5 (1 / 10) 0 0 1 false).trial
        (oracle (.error (.indeterminant_linear_system "")) 0 (costTable 1 1)) [] =
      .ok (.givingUp, ((optimizerAt 1 10 5 (1 / 10) 0 0 1 false).beforeSolve
        (oracle (.error (.indeterminant_linear_system "")) 0 (costTable 1 1)) []).increaseLambda)
      := by
  rw [trial_of_indeterminant _ _ _ "" rfl, finishTrial_unsuccessful,
    if_pos (by norm_num [(increaseLambda_frame _).2.2.1, (increaseLambda_frame _).2.2.2.1,
      beforeSolve_lambda, beforeSolve_params, optimizerAt])]

/-- C17, counterexample. From lambda `1 <= lambdaUpperBound = 5` with multiplier `10`, a
call of `iterate()` whose solve fails returns with lambda `10`, above the upper bound:
`increaseLambda` multiplies lambda and the comparison that follows only ends the
loop. -/
theorem lambda_exceeds_upper_bound :
    (optimizerAt 1 10 5 (1 / 10) 0 0 1 false).state_.lambda ≤
      (optimizerAt 1 10 5 (1 / 10) 0 0 1 false).params_.lambdaUpperBound ∧
    ∃ next, (optimizerAt 1 10 5 (1 / 10) 0 0 1 false).iterate
        (oracle (.error (.indeterminant_linear_system "")) 0 (costTable 1 1)) 1 = .ok (some next) ∧
      next.params_.lambdaUpperBound = 5 ∧ next.state_.lambda = 10 ∧
      ¬ next.state_.lambda ≤ next.params_.lambdaUpperBound := by
  refine ⟨by norm_num [optimizerAt], ?_⟩
  have hloop := iterateLoop_succ_of_break _ _ 0 _ _ _ failing_trial (by simp)
  have hl : (((optimizerAt 1 10 5 (1 / 10) 0 0 1 false).beforeSolve
      (oracle (.error (.indeterminant_linear_system "")) 0 (costTable 1 1))
      []).increaseLambda).state_.lambda = 10 := by
    norm_num [(increaseLambda_frame _).2.2.2.1, beforeSolve_lambda, beforeSolve_params,
      optimizerAt]
  have hu : (((optimizerAt 1 10 5 (1 / 10) 0 0 1 false).beforeSolve
      (oracle (.error (.indeterminant_linear_system "")) 0 (costTable 1 1))
      []).increaseLambda).params_.lambdaUpperBound = 5 := by
    rw [(increaseLambda_frame _).2.2.1, beforeSolve_params]
    rfl
  have hret : (optimizerAt 1 10 5 (1 / 10) 0 0 1 false).iterate
      (oracle (.error (.indeterminant_linear_system "")) 0 (costTable 1 1)) 1 =
      .ok (some
        { params_ := (((optimizerAt 1 10 5 (1 / 10) 0 0 1 false).beforeSolve
            (oracle (.error (.indeterminant_linear_system "")) 0 (costTable 1 1))
            []).increaseLambda).params_
          state_ := { (((optimizerAt 1 10 5 (1 / 10) 0 0 1 false).beforeSolve
            (oracle (.error (.indeterminant_linear_system "")) 0 (costTable 1 1))
            []).increaseLambda).state_ with
            iterations := (((optimizerAt 1 10 5 (1 / 10) 0 0 1 false).beforeSolve
              (oracle (.error (.indeterminant_linear_system "")) 0 (costTable 1 1))
              []).increaseLambda).state_.iterations + 1 } }) := by
    simp only [iterate, iterateTrace]
    rw [show (oracle (.error (.indeterminant_linear_system "")) 0 (costTable 1 1)).linearize
      (optimizerAt 1 10 5 (1 / 10) 0 0 1 false).state_.values = [] from rfl, hloop]
    rfl
  refine ⟨_, hret, hu, hl, ?_⟩
  show ¬ (((optimizerAt 1 10 5 (1 / 10) 0 0 1 false).beforeSolve
    (oracle (.error (.indeterminant_linear_system "")) 0 (costTable 1 1))
    []).increaseLambda).state_.lambda ≤ (((optimizerAt 1 10 5 (1 / 10) 0 0 1 false).beforeSolve
    (oracle (.error (.indeterminant_linear_system "")) 0 (costTable 1 1))
    []).increaseLambda).params_.lambdaUpperBound
  rw [hl, hu]
  norm_num

/-- C17, amended. Lambda is compared with the configured upper bound only after a
rejected trial and is never clamped to it: a trial of `iterate()` leaves
`lambdaUpperBound` as it was; a rejected trial multiplies lambda by `lambdaFactor`, and
another trial follows only if the new lambda is below the upper bound, otherwise the
inner loop ends (giving up) with lambda at or above the upper bound. -/
theorem lambda_checked_after_rejection (env : Collaborators K V)
    (linear : GaussianFactorGraph K) (self next : LevenbergMarquardtOptimizer K V)
    (outcome : TrialOutcome) (htrial : self.trial env linear = .ok (outcome, next)) :
    next.params_.lambdaUpperBound = self.params_.lambdaUpperBound ∧
    (outcome = .retry →
      next.state_.lambda < self.params_.lambdaUpperBound ∧
      next.state_.lambda = self.state_.lambda * self.params_.lambdaFactor) ∧
    (outcome = .givingUp →
      self.params_.lambdaUpperBound ≤ next.state_.lambda ∧
      next.state_.lambda = self.state_.lambda * self.params_.lambdaFactor) := by
  cases hsolve : env.solve (self.buildDampedSystem env linear).1 self.state_.values
      self.params_ with
  | ok delta =>
    rw [trial_of_solved env linear self delta hsolve] at htrial
    injection htrial with htrial
    have h1 := finishTrial_bounds (self.afterSolve env linear)
      (evaluateStep env linear (self.afterSolve env linear) delta)
    obtain ⟨-, -, hlam, -, -, hfac, hup, -, -⟩ := afterSolve_reads env linear self
    rw [htrial, hlam, hfac, hup] at h1
    exact h1
  | error e =>
    cases e with
    | indeterminant_linear_system what =>
      rw [trial_of_indeterminant env linear self what hsolve] at htrial
      injection htrial with htrial
      have h1 := finishTrial_bounds (self.beforeSolve env linear) .unsuccessful
      rw [htrial, beforeSolve_lambda, beforeSolve_params] at h1
      exact h1
    | invalid_argument what =>
      simp [trial, beforeSolve_values, beforeSolve_params, hsolve] at htrial
    | out_of_range what =>
      simp [trial, beforeSolve_values, beforeSolve_params, hsolve] at htrial

/-- Witness of the amended C17: the failing solve from lambda `1` with multiplier `10`
and upper bound `5` gives up with lambda `1 * 10`. -/
theorem lambda_checked_after_rejection_witness :
    (5 : ℚ) ≤ (((optimizerAt 1 10 5 (1 / 10) 0 0 1 false).beforeSolve
        (oracle (.error (.indeterminant_linear_system "")) 0 (costTable 1 1))
        []).increaseLambda).state_.lambda ∧
      (((optimizerAt 1 10 5 (1 / 10) 0 0 1 false).beforeSolve
        (oracle (.error (.indeterminant_linear_system "")) 0 (costTable 1 1))
        []).increaseLambda).state_.lambda = 1 * 10 :=
  (lambda_checked_after_rejection _ _ _ _ _ failing_trial).2.2 rfl

/-- C18. A failed solve is a rejected trial, never an error: a trial in which `solve`
raises the indeterminate-linear-system exception ends without raising; it leaves the
estimate and the cost unchanged and applies `increaseLambda` once (to the optimizer with
the inner-iteration counter advanced); then the inner loop either ends, if
`lambda >= lambdaUpperBound`, or goes on with another trial. -/
theorem failed_solve_is_rejected_trial (env : Collaborators K V)
    (linear : GaussianFactorGraph K) (self : LevenbergMarquardtOptimizer K V) (what : String)
    (fuel : Nat)
    (hsolve : env.solve (self.buildDampedSystem env linear).1 self.state_.values self.params_
      = .error (.indeterminant_linear_system what)) :
    self.trial env linear =
      .ok (if self.params_.lambdaUpperBound ≤ self.state_.lambda * self.params_.lambdaFactor
            then .givingUp else .retry,
          (self.beforeSolve env linear).increaseLambda) ∧
    (self.beforeSolve env linear).increaseLambda.state_.values = self.state_.values ∧
    (self.beforeSolve env linear).increaseLambda.state_.error = self.state_.error ∧
    (self.beforeSolve env linear).increaseLambda.state_.lambda =
      self.state_.lambda * self.params_.lambdaFactor ∧
    (self.beforeSolve env linear).increaseLambda.state_.totalNumberInnerIterations =
      self.state_.totalNumberInnerIterations + 1 ∧
    iterateLoop env linear (fuel + 1) self =
      if self.params_.lambdaUpperBound ≤ self.state_.lambda * self.params_.lambdaFactor then
        .ok (some (.givingUp, (self.beforeSolve env linear).increaseLambda))
      else iterateLoop env linear fuel (self.beforeSolve env linear).increaseLambda := by
  obtain ⟨hv, he, hu, hl, -⟩ := increaseLambda_frame (self.beforeSolve env linear)
  rw [beforeSolve_lambda, beforeSolve_params] at hl
  rw [beforeSolve_params] at hu
  have htrial : self.trial env linear =
      .ok (if self.params_.lambdaUpperBound ≤ self.state_.lambda * self.params_.lambdaFactor
            then .givingUp else .retry,
          (self.beforeSolve env linear).increaseLambda) := by
    rw [trial_of_indeterminant env linear self what hsolve, finishTrial_unsuccessful, hu, hl]
    split_ifs <;> rfl
  refine ⟨htrial, by rw [hv, beforeSolve_values], by rw [he, beforeSolve_error], hl, ?_, ?_⟩
  · rw [increaseLambda_inner, beforeSolve_inner]
  · split_ifs with h
    · rw [if_pos h] at htrial
      exact iterateLoop_succ_of_break env linear fuel self _ _ htrial (by simp)
    · rw [if_neg h] at htrial
      exact iterateLoop_succ_of_retry env linear fuel self _ htrial

/-- Witness of C18: the failing solve from lambda `1` with multiplier `10` and upper
bound `100` is followed by another trial; with one trial of fuel the loop has not ended. -/
theorem failed_solve_is_rejected_trial_witness :
    (optimizerAt 1 10 100 (1 / 10) 0 0 1 false).trial
        (oracle (.error (.indeterminant_linear_system "")) 0 (costTable 1 1)) [] =
      .ok (if (100 : ℚ) ≤ 1 * 10 then .givingUp else .retry,
        ((optimizerAt 1 10 100 (1 / 10) 0 0 1 false).beforeSolve
          (oracle (.error (.indeterminant_linear_system "")) 0 (costTable 1 1))
          []).increaseLambda) :=
  (failed_solve_is_rejected_trial
    (oracle (.error (.indeterminant_linear_system "")) 0 (costTable 1 1)) []
    (optimizerAt 1 10 100 (1 / 10) 0 0 1 false) "" 0 rfl).1

/-- The inner loop leaves the estimate and the cost alone unless it ends with an
accepted step. -/
lemma iterateLoop_frame (env : Collaborators K V) (linear : GaussianFactorGraph K) :
    ∀ (fuel : Nat) (self next : LevenbergMarquardtOptimizer K V) (outcome : TrialOutcome),
      iterateLoop env linear fuel self = .ok (some (outcome, next)) → outcome ≠ .accepted →
      next.state_.values = self.state_.values ∧ next.state_.error = self.state_.error := by
  intro fuel
  induction fuel with
  | zero =>
    intro self next outcome h
    simp [iterateLoop] at h
  | succ fuel ih =>
    intro self next outcome h hne
    cases htrial : self.trial env linear with
    | error e => simp [iterateLoop, htrial] at h
    | ok r =>
      obtain ⟨o, nx⟩ := r
      by_cases ho : o = .retry
      · subst ho
        rw [iterateLoop_succ_of_retry env linear fuel self nx htrial] at h
        obtain ⟨h1, h2⟩ := ih nx next outcome h hne
        obtain ⟨h3, h4⟩ := trial_frame env linear self .retry nx htrial (by simp)
        exact ⟨h1.trans h3, h2.trans h4⟩
      · rw [iterateLoop_succ_of_break env linear fuel self nx o htrial ho] at h
        injection h with h
        injection h with h
        obtain ⟨h1, h2⟩ := Prod.mk.inj h
        subst h1 h2
        exact trial_frame env linear self o nx htrial hne

/-- C19. The estimate and the cost change only on accepted steps: for every call of
`iterate()` that returns without accepting a step (giving up because lambda reached the
upper bound, or early stop), `state.values` and `state.error` on return are those on
entry, whatever the collaborators return. -/
theorem iterate_frame_without_acceptance (env : Collaborators K V) (fuel : Nat)
    (self next : LevenbergMarquardtOptimizer K V) (outcome : TrialOutcome)
    (hret : self.iterateTrace env fuel = .ok (some (outcome, next)))
    (hne : outcome ≠ .accepted) :
    next.state_.values = self.state_.values ∧ next.state_.error = self.state_.error := by
  simp only [iterateTrace] at hret
  cases hloop : iterateLoop env (env.linearize self.state_.values) fuel self with
  | error e => simp [hloop] at hret
  | ok r =>
    cases r with
    | none => simp [hloop] at hret
    | some p =>
      obtain ⟨o, last⟩ := p
      rw [hloop] at hret
      injection hret with hret
      injection hret with hret
      obtain ⟨h1, h2⟩ := Prod.mk.inj hret
      subst h1 h2
      exact iterateLoop_frame env _ fuel self last o hloop hne

/-- Witness of C19: the call of `iterate()` whose solve fails from lambda `1` with
multiplier `10` and upper bound `5` gives up and returns the estimate `0` and the cost
`1` it started from. -/
theorem iterate_frame_without_acceptance_witness :
    ∃ next, (optimizerAt 1 10 5 (1 / 10) 0 0 1 false).iterateTrace
        (oracle (.error (.indeterminant_linear_system "")) 0 (costTable 1 1)) 1 =
          .ok (some (.givingUp, next)) ∧
      next.state_.values = 0 ∧ next.state_.error = 1 := by
  have hret : (optimizerAt 1 10 5 (1 / 10) 0 0 1 false).iterateTrace
      (oracle (.error (.indeterminant_linear_system "")) 0 (costTable 1 1)) 1 =
      .ok (some (.givingUp,
        { params_ := (((optimizerAt 1 10 5 (1 / 10) 0 0 1 false).beforeSolve
            (oracle (.error (.indeterminant_linear_system "")) 0 (costTable 1 1))
            []).increaseLambda).params_
          state_ := { (((optimizerAt 1 10 5 (1 / 10) 0 0 1 false).beforeSolve
            (oracle (.error (.indeterminant_linear_system "")) 0 (costTable 1 1))
            []).increaseLambda).state_ with
            iterations := (((optimizerAt 1 10 5 (1 / 10) 0 0 1 false).beforeSolve
              (oracle (.error (.indeterminant_linear_system "")) 0 (costTable 1 1))
              []).increaseLambda).state_.iterations + 1 } })) := by
    simp only [iterateTrace]
    rw [show (oracle (.error (.indeterminant_linear_system "")) 0 (costTable 1 1)).linearize
      (optimizerAt 1 10 5 (1 / 10) 0 0 1 false).state_.values = [] from rfl,
      iterateLoop_succ_of_break _ _ 0 _ _ _ failing_trial (by simp)]
  exact ⟨_, hret, iterate_frame_without_acceptance _ 1 _ _ _ hret (by simp)⟩

/-- C20. Early stop inside the inner loop: a trial whose solve succeeds with predicted
reduction `>= 0` and whose true cost change `C` has `|C| < relativeErrorTol * error`
ends the inner loop with no step accepted: no further lambda is tried, the call returns,
and the estimate, the cost, lambda and `lambdaFactor` are as they were before the
trial. -/
theorem early_stop_ends_inner_loop (env : Collaborators K V) (linear : GaussianFactorGraph K)
    (self : LevenbergMarquardtOptimizer K V) (delta : VectorValues K) (fuel : Nat)
    (hsolve : env.solve (self.buildDampedSystem env linear).1 self.state_.values self.params_
      = .ok delta)
    (hL : 0 ≤ self.state_.error - env.linearError linear delta)
    (hC : |self.state_.error - env.graphError (env.retract self.state_.values delta)| <
      self.params_.relativeErrorTol * self.state_.error) :
    self.trial env linear = .ok (.stopSearching, self.afterSolve env linear) ∧
    iterateLoop env linear (fuel + 1) self =
      .ok (some (.stopSearching, self.afterSolve env linear)) ∧
    (self.afterSolve env linear).state_.values = self.state_.values ∧
    (self.afterSolve env linear).state_.error = self.state_.error ∧
    (self.afterSolve env linear).state_.lambda = self.state_.lambda ∧
    (self.afterSolve env linear).params_.lambdaFactor = self.params_.lambdaFactor := by
  have htrial : self.trial env linear = .ok (.stopSearching, self.afterSolve env linear) := by
    rw [trial_of_solved env linear self delta hsolve, evaluateStep_afterSolve, if_pos hL,
      if_neg (not_le.mpr hC)]
    rfl
  obtain ⟨he, hv, hlam, -, -, hfac, -⟩ := afterSolve_reads env linear self
  exact ⟨htrial, iterateLoop_succ_of_break env linear fuel self _ _ htrial (by simp),
    hv, he, hlam, hfac⟩

/-- Witness of C20: cost `1`, predicted cost `1`, new cost `1/2` and
`relativeErrorTol = 1`: the true change `1/2` is below the tolerance `1`. -/
theorem early_stop_ends_inner_loop_witness :
    (optimizerAt 1 10 100 (1 / 10) 0 1 1 false).trial
        (oracle (.ok []) 1 (costTable 1 (1 / 2))) [] =
      .ok (.stopSearching, (optimizerAt 1 10 100 (1 / 10) 0 1 1 false).afterSolve
        (oracle (.ok []) 1 (costTable 1 (1 / 2))) []) ∧
    ((optimizerAt 1 10 100 (1 / 10) 0 1 1 false).afterSolve
      (oracle (.ok []) 1 (costTable 1 (1 / 2))) []).state_.lambda = 1 := by
  obtain ⟨h1, -, -, -, h2, -⟩ := early_stop_ends_inner_loop
    (oracle (.ok []) 1 (costTable 1 (1 / 2))) [] (optimizerAt 1 10 100 (1 / 10) 0 1 1 false)
    [] 0 rfl (by norm_num [optimizerAt, oracle])
    (by norm_num [optimizerAt, oracle, costTable, abs_lt])
  exact ⟨h1, h2⟩

end LevenbergMarquardtOptimizer

end LevenbergMarquardt

/-! ### Counters of the optimization loop -/

section Counters

namespace LevenbergMarquardtOptimizer

variable {K V : Type} [LinearOrderedField K]

/-- The counters are not touched by `decreaseLambda` and `increaseLambda`. -/
lemma lambda_updates_counters (self : LevenbergMarquardtOptimizer K V) (q : K) :
    (self.decreaseLambda q).state_.iterations = self.state_.iterations ∧
    (self.decreaseLambda q).state_.totalNumberInnerIterations =
      self.state_.totalNumberInnerIterations ∧
    self.increaseLambda.state_.iterations = self.state_.iterations ∧
    self.increaseLambda.state_.totalNumberInnerIterations =
      self.state_.totalNumberInnerIterations := by
  unfold decreaseLambda increaseLambda
  split_ifs <;> exact ⟨rfl, rfl, rfl, rfl⟩

/-- The counters are not touched by the end of a trial. -/
lemma finishTrial_counters (self : LevenbergMarquardtOptimizer K V)
    (evaluation : StepEvaluation K V) :
    (finishTrial self evaluation).2.state_.iterations = self.state_.iterations ∧
    (finishTrial self evaluation).2.state_.totalNumberInnerIterations =
      self.state_.totalNumberInnerIterations := by
  cases evaluation with
  | successful v e q =>
    exact ⟨(lambda_updates_counters _ q).1, (lambda_updates_counters _ q).2.1⟩
  | stopSearchingLambda => exact ⟨rfl, rfl⟩
  | unsuccessful =>
    rw [finishTrial_unsuccessful]
    split_ifs <;>
      exact ⟨(lambda_updates_counters self 0).2.2.1, (lambda_updates_counters self 0).2.2.2⟩

/-- A trial that ends leaves the iteration counter alone and advances the
inner-iteration counter by one. -/
lemma trial_counters (env : Collaborators K V) (linear : GaussianFactorGraph K)
    (self next : LevenbergMarquardtOptimizer K V) (outcome : TrialOutcome)
    (htrial : self.trial env linear = .ok (outcome, next)) :
    next.state_.iterations = self.state_.iterations ∧
    next.state_.totalNumberInnerIterations = self.state_.totalNumberInnerIterations + 1 := by
  cases hsolve : env.solve (self.buildDampedSystem env linear).1 self.state_.values
      self.params_ with
  | ok delta =>
    rw [trial_of_solved env linear self delta hsolve] at htrial
    injection htrial with htrial
    have h1 := finishTrial_counters (self.afterSolve env linear)
      (evaluateStep env linear (self.afterSolve env linear) delta)
    rw [htrial, afterSolve_state, beforeSolve_iterations, beforeSolve_inner] at h1
    exact h1
  | error e =>
    cases e with
    | indeterminant_linear_system what =>
      rw [trial_of_indeterminant env linear self what hsolve] at htrial
      injection htrial with htrial
      have h1 := finishTrial_counters (self.beforeSolve env linear) .unsuccessful
      rw [htrial, beforeSolve_iterations, beforeSolve_inner] at h1
      exact h1
    | invalid_argument what =>
      simp [trial, beforeSolve_values, beforeSolve_params, hsolve] at htrial
    | out_of_range what =>
      simp [trial, beforeSolve_values, beforeSolve_params, hsolve] at htrial

/-- The inner loop leaves the iteration counter alone and advances the inner-iteration
counter by the number of damped systems built. -/
lemma iterateLoop_counters (env : Collaborators K V) (linear : GaussianFactorGraph K) :
    ∀ (fuel : Nat) (self next : LevenbergMarquardtOptimizer K V) (outcome : TrialOutcome),
      iterateLoop env linear fuel self = .ok (some (outcome, next)) →
      next.state_.iterations = self.state_.iterations ∧
      next.state_.totalNumberInnerIterations =
        self.state_.totalNumberInnerIterations + dampedSystemsBuilt env linear fuel self ∧
      1 ≤ dampedSystemsBuilt env linear fuel self := by
  intro fuel
  induction fuel with
  | zero =>
    intro self next outcome h
    simp [iterateLoop] at h
  | succ fuel ih =>
    intro self next outcome h
    cases htrial : self.trial env linear with
    | error e => simp [iterateLoop, htrial] at h
    | ok r =>
      obtain ⟨o, nx⟩ := r
      obtain ⟨h3, h4⟩ := trial_counters env linear self nx o htrial
      by_cases ho : o = .retry
      · subst ho
        rw [iterateLoop_succ_of_retry env linear fuel self nx htrial] at h
        obtain ⟨h1, h2, -⟩ := ih nx next outcome h
        have hb : dampedSystemsBuilt env linear (fuel + 1) self =
            1 + dampedSystemsBuilt env linear fuel nx := by
          rw [dampedSystemsBuilt, htrial]
        rw [hb]
        exact ⟨h1.trans h3, by rw [h2, h4]; omega, by omega⟩
      · rw [iterateLoop_succ_of_break env linear fuel self nx o htrial ho] at h
        injection h with h
        injection h with h
        obtain ⟨h1, h2⟩ := Prod.mk.inj h
        subst h1 h2
        have hb : dampedSystemsBuilt env linear (fuel + 1) self = 1 := by
          rw [dampedSystemsBuilt, htrial]
          cases o with
          | retry => exact absurd rfl ho
          | accepted => rfl
          | givingUp => rfl
          | stopSearching => rfl
        rw [hb]
        exact ⟨h3, h4, le_refl 1⟩

/-- C21. Each call of `iterate()` that returns has incremented `state.iterations` by
exactly one, whatever the last trial was (accepted, giving up, early stop), and
`state.totalNumberInnerIterations` by exactly the number of damped systems it built,
which is at least one. -/
theorem iterate_increments_counters (env : Collaborators K V) (fuel : Nat)
    (self next : LevenbergMarquardtOptimizer K V) (outcome : TrialOutcome)
    (hret : self.iterateTrace env fuel = .ok (some (outcome, next))) :
    self.iterate env fuel = .ok (some next) ∧
    next.state_.iterations = self.state_.iterations + 1 ∧
    next.state_.totalNumberInnerIterations = self.state_.totalNumberInnerIterations +
      dampedSystemsBuilt env (env.linearize self.state_.values) fuel self ∧
    1 ≤ dampedSystemsBuilt env (env.linearize self.state_.values) fuel self := by
  refine ⟨by simp [iterate, hret], ?_⟩
  simp only [iterateTrace] at hret
  cases hloop : iterateLoop env (env.linearize self.state_.values) fuel self with
  | error e => simp [hloop] at hret
  | ok r =>
    cases r with
    | none => simp [hloop] at hret
    | some p =>
      obtain ⟨o, last⟩ := p
      rw [hloop] at hret
      injection hret with hret
      injection hret with hret
      obtain ⟨h1, h2⟩ := Prod.mk.inj hret
      subst h1 h2
      obtain ⟨h3, h4, h5⟩ := iterateLoop_counters env _ fuel self last o hloop
      exact ⟨by rw [← h3], h4, h5⟩

/-- The call of `iterate()` whose solve fails from lambda `1` with multiplier `10` and
upper bound `5`, with the optimizer it returns. -/
lemma failing_iterateTrace :
    (optimizerAt 1 10 5 (1 / 10) 0 0 1 false).iterateTrace
      (oracle (.error (.indeterminant_linear_system "")) 0 (costTable 1 1)) 1 =
      .ok (some (.givingUp,
        { params_ := (((optimizerAt 1 10 5 (1 / 10) 0 0 1 false).beforeSolve
            (oracle (.error (.indeterminant_linear_system "")) 0 (costTable 1 1))
            []).increaseLambda).params_
          state_ := { (((optimizerAt 1 10 5 (1 / 10) 0 0 1 false).beforeSolve
            (oracle (.error (.indeterminant_linear_system "")) 0 (costTable 1 1))
            []).increaseLambda).state_ with
            iterations := (((optimizerAt 1 10 5 (1 / 10) 0 0 1 false).beforeSolve
              (oracle (.error (.indeterminant_linear_system "")) 0 (costTable 1 1))
              []).increaseLambda).state_.iterations + 1 } })) := by
  simp only [iterateTrace]
  rw [show (oracle (.error (.indeterminant_linear_system "")) 0 (costTable 1 1)).linearize
    (optimizerAt 1 10 5 (1 / 10) 0 0 1 false).state_.values = [] from rfl,
    iterateLoop_succ_of_break _ _ 0 _ _ _ failing_trial (by simp)]

/-- Witness of C21: the call of `iterate()` whose solve fails from lambda `1` with
multiplier `10` and upper bound `5` returns with both counters advanced from `0` to
`1`. -/
theorem iterate_increments_counters_witness :
    ∃ next, (optimizerAt 1 10 5 (1 / 10) 0 0 1 false).iterate
        (oracle (.error (.indeterminant_linear_system "")) 0 (costTable 1 1)) 1 =
          .ok (some next) ∧
      next.state_.iterations = 0 + 1 ∧ next.state_.totalNumberInnerIterations = 0 + 1 := by
  obtain ⟨h1, h2, h3, -⟩ := iterate_increments_counters _ 1 _ _ _ failing_iterateTrace
  refine ⟨_, h1, h2, ?_⟩
  rw [h3]
  show 0 + dampedSystemsBuilt _ [] 1 _ = 0 + 1
  rw [dampedSystemsBuilt, failing_trial]

end LevenbergMarquardtOptimizer

end Counters

/-! ### The damped system -/

section Damping

namespace LevenbergMarquardtOptimizer

variable {K V : Type} [LinearOrderedField K]

omit [LinearOrderedField K] in
/-- Looking up the key of an entry of a `VectorValues` finds a vector. -/
lemma valueAt_isSome_of_mem (v : VectorValues K) (kv : Nat × VectorXd K) (h : kv ∈ v) :
    (v.valueAt kv.1).isSome = true := by
  unfold VectorValues.valueAt
  cases hf : List.find? (fun e => e.1 == kv.1) v with
  | none => exact absurd (List.find?_eq_none.mp hf kv h) (by simp)
  | some e => rfl

omit [LinearOrderedField K] in
/-- Looking up the key of an entry of a `VectorValues` without duplicate keys finds the
vector of that entry. -/
lemma valueAt_of_mem_nodup (v : VectorValues K) (hnd : (v.map Prod.fst).Nodup)
    (kv : Nat × VectorXd K) (h : kv ∈ v) : v.valueAt kv.1 = some kv.2 := by
  induction v with
  | nil => cases h
  | cons e rest ih =>
    rw [List.map_cons, List.nodup_cons] at hnd
    simp only [VectorValues.valueAt, List.find?_cons]
    rcases List.mem_cons.mp h with rfl | hmem
    · simp
    · have hne : e.1 ≠ kv.1 := fun heq =>
        hnd.1 (heq ▸ List.mem_map_of_mem Prod.fst hmem)
      have hb : (e.1 == kv.1) = false := by simpa using hne
      rw [hb]
      exact ih hnd.2 hmem

/-- A `filterMap` that succeeds on every element and whose results are mapped to a
function of the element is a `map`. -/
lemma map_filterMap_of_forall {α β γ : Type} (F : α → Option β) (g : β → γ) (h : α → γ)
    (l : List α) (hF : ∀ x ∈ l, ∃ y, F x = some y ∧ g y = h x) :
    (l.filterMap F).map g = l.map h := by
  induction l with
  | nil => rfl
  | cons x rest ih =>
    obtain ⟨y, hy, hg⟩ := hF x (List.mem_cons_self _ _)
    rw [List.filterMap_cons_some hy, List.map_cons, List.map_cons, hg,
      ih fun z hz => hF z (List.mem_cons_of_mem _ hz)]

/-- The diagonal cache that `buildDampedSystem` leaves. -/
lemma buildDampedSystem_cache (env : Collaborators K V) (linear : GaussianFactorGraph K)
    (self : LevenbergMarquardtOptimizer K V) :
    (self.buildDampedSystem env linear).2.state_.hessianDiagonal =
      if self.params_.diagonalDamping && self.params_.reuse_diagonal_ == false then
        (env.hessianDiagonal linear).map fun kv =>
          (kv.1, ⟨kv.2.size, fun aa => clampedSqrt env.sqrt (kv.2.coeff aa)⟩)
      else self.state_.hessianDiagonal := by
  simp only [buildDampedSystem]
  split_ifs <;> rfl

/-- The damped graph in plain mode: the linear graph followed by one factor per
variable of the estimate. -/
lemma buildDampedSystem_plain (env : Collaborators K V) (linear : GaussianFactorGraph K)
    (self : LevenbergMarquardtOptimizer K V) (hmode : self.params_.diagonalDamping = false) :
    (self.buildDampedSystem env linear).1 =
      linear ++ (env.valueDims self.state_.values).map fun key_value =>
        .Jacobian (JacobianFactor.ofUnary key_value.1
          ⟨key_value.2, key_value.2, fun r c => if r = c then 1 else 0⟩
          ⟨key_value.2, fun _ => 0⟩
          (.Isotropic key_value.2 (1 / (1 / env.sqrt self.state_.lambda)))) := by
  simp only [buildDampedSystem, hmode, Bool.false_and, Bool.false_eq_true, if_false,
    List.map_map]
  rfl

/-- The damped graph in diagonal mode: the linear graph followed by the factors of the
entries of the diagonal cache. -/
lemma buildDampedSystem_diagonal (env : Collaborators K V) (linear : GaussianFactorGraph K)
    (self : LevenbergMarquardtOptimizer K V) (hmode : self.params_.diagonalDamping = true) :
    (self.buildDampedSystem env linear).1 =
      linear ++ ((self.buildDampedSystem env linear).2.state_.hessianDiagonal.filterMap
        fun key_vector =>
          match (self.buildDampedSystem env linear).2.state_.hessianDiagonal.valueAt
              key_vector.1 with
          | some d =>
            some (JacobianFactor.ofUnary key_vector.1
              ⟨d.size, d.size, fun r c => if r = c then d.coeff r else 0⟩
              ⟨key_vector.2.size, fun _ => 0⟩
              (.Isotropic key_vector.2.size (1 / (1 / env.sqrt self.state_.lambda))))
          | none => none).map GaussianFactor.Jacobian := by
  simp only [buildDampedSystem, hmode, Bool.true_and, if_true]
  split_ifs <;> rfl

/-- C22. `buildDampedSystem` works on a copy: the first `|L|` factors of the graph it
returns are the factors of the linear graph `L` in the same order, and they are followed
by exactly one unary measurement factor per variable: one per variable of the current
estimate in plain mode, one per entry of the cached Hessian diagonal in diagonal-damping
mode, in the order of iteration. -/
theorem buildDampedSystem_appends_to_copy (env : Collaborators K V)
    (linear : GaussianFactorGraph K) (self : LevenbergMarquardtOptimizer K V) :
    (self.buildDampedSystem env linear).1.take linear.length = linear ∧
    ((self.buildDampedSystem env linear).1.drop linear.length).map GaussianFactor.keys =
      (if self.params_.diagonalDamping then
        (self.buildDampedSystem env linear).2.state_.hessianDiagonal.map fun kv => [kv.1]
       else (env.valueDims self.state_.values).map fun kv => [kv.1]) ∧
    (self.buildDampedSystem env linear).1.length = linear.length +
      (if self.params_.diagonalDamping then
        (self.buildDampedSystem env linear).2.state_.hessianDiagonal.length
       else (env.valueDims self.state_.values).length) ∧
    ∀ f ∈ (self.buildDampedSystem env linear).1.drop linear.length,
      ∃ jf, f = .Jacobian jf ∧ jf.size = 1 := by
  cases hmode : self.params_.diagonalDamping with
  | false =>
    rw [buildDampedSystem_plain env linear self hmode, List.take_left, List.drop_left]
    refine ⟨rfl, ?_, ?_, ?_⟩
    · simp [List.map_map, Function.comp_def, GaussianFactor.keys, JacobianFactor.ofUnary]
    · simp
    · intro f hf
      obtain ⟨kv, -, rfl⟩ := List.mem_map.mp hf
      exact ⟨_, rfl, rfl⟩
  | true =>
    have hsome : ∀ kv ∈ (self.buildDampedSystem env linear).2.state_.hessianDiagonal,
        ∃ y, (match (self.buildDampedSystem env linear).2.state_.hessianDiagonal.valueAt
              kv.1 with
          | some d =>
            some (JacobianFactor.ofUnary kv.1
              ⟨d.size, d.size, fun r c => if r = c then d.coeff r else 0⟩
              ⟨kv.2.size, fun _ => (0 : K)⟩
              (.Isotropic kv.2.size (1 / (1 / env.sqrt self.state_.lambda))))
          | none => none) = some y ∧ y.keys_ = [kv.1] := by
      intro kv hkv
      obtain ⟨d, hd⟩ := Option.isSome_iff_exists.mp (valueAt_isSome_of_mem _ kv hkv)
      rw [hd]
      exact ⟨_, rfl, rfl⟩
    have hkeys := map_filterMap_of_forall _ (fun y : JacobianFactor K => y.keys_)
      (fun kv : Nat × VectorXd K => [kv.1]) _ hsome
    rw [buildDampedSystem_diagonal env linear self hmode, List.take_left, List.drop_left]
    refine ⟨rfl, ?_, ?_, ?_⟩
    · rw [List.map_map]
      exact hkeys
    · have := congrArg List.length hkeys
      simp only [List.length_map] at this
      rw [List.length_append, List.length_map, this, if_pos rfl]
    · intro f hf
      obtain ⟨jf, hjf, rfl⟩ := List.mem_map.mp hf
      obtain ⟨kv, hkv, hF⟩ := List.mem_filterMap.mp hjf
      obtain ⟨y, hy, hk⟩ := hsome kv hkv
      rw [hy] at hF
      injection hF with hF
      subst hF
      exact ⟨_, rfl, by rw [JacobianFactor.size, hk]; rfl⟩

/-- Witness of C22: one variable of key `3` in the estimate and an empty linear graph
give a damped graph of one factor, on the key `3`. -/
theorem buildDampedSystem_appends_to_copy_witness :
    ((dampedOptimizer ℚ 1 false).buildDampedSystem (dampingOracle ℚ id)
      ([] : GaussianFactorGraph ℚ)).1.map GaussianFactor.keys = [[3]] :=
  (buildDampedSystem_appends_to_copy (dampingOracle ℚ id) [] (dampedOptimizer ℚ 1 false)).2.1

/-- The entries of `Abᵀ * diag(w_i ^ 2) * Ab` for a unary measurement factor with a
diagonal coefficient matrix `diag(a)`, zero right-hand side and an isotropic noise model
of inverse sigma `w`. -/
lemma diagonal_prior_entry (key n : Nat) (a : Nat → K) (w : K) (i j : Nat) :
    (∑ r ∈ Finset.range (JacobianFactor.ofUnary key
        ⟨n, n, fun r c => if r = c then a r else 0⟩ ⟨n, fun _ => 0⟩ (.Isotropic n w)).Ab_.rows,
      ((JacobianFactor.ofUnary key ⟨n, n, fun r c => if r = c then a r else 0⟩
          ⟨n, fun _ => 0⟩ (.Isotropic n w)).full r i *
        ((JacobianFactor.ofUnary key ⟨n, n, fun r c => if r = c then a r else 0⟩
            ⟨n, fun _ => 0⟩ (NoiseModel.Isotropic n w)).model_.invsigmas r *
          (JacobianFactor.ofUnary key ⟨n, n, fun r c => if r = c then a r else 0⟩
            ⟨n, fun _ => 0⟩ (NoiseModel.Isotropic n w)).model_.invsigmas r)) *
        (JacobianFactor.ofUnary key ⟨n, n, fun r c => if r = c then a r else 0⟩
          ⟨n, fun _ => 0⟩ (.Isotropic n w)).full r j)
      = if i = j ∧ i < n then w * w * (a i * a i) else 0 := by
  show ∑ r ∈ Finset.range (n - 0), _ = _
  simp only [JacobianFactor.full, JacobianFactor.ofUnary, MatrixXd.block,
    VerticalBlockView.offset, NoiseModel.invsigmas, Nat.sub_zero]
  simp only [List.getD_cons_zero, Nat.zero_add, Nat.add_zero]
  by_cases hi : i < n
  · by_cases hij : i = j
    · subst hij
      rw [if_pos ⟨rfl, hi⟩, Finset.sum_eq_single i]
      · simp only [if_pos hi, if_true]; ring
      · intro r _ hr
        simp only [if_pos hi, if_neg hr]; ring
      · intro hn
        exact absurd (Finset.mem_range.mpr hi) hn
    · rw [if_neg fun h => hij h.1]
      refine Finset.sum_eq_zero fun r _ => ?_
      by_cases hri : r = i
      · subst hri
        by_cases hj : j < n
        · simp only [if_pos hj, if_neg hij]; ring
        · simp only [if_neg hj]; ring
      · simp only [if_pos hi, if_neg hri]; ring
  · rw [if_neg fun h => hi h.2]
    refine Finset.sum_eq_zero fun r _ => ?_
    simp only [if_neg hi]; ring

/-- The conversion of a unary measurement factor with a diagonal coefficient matrix
`diag(a)`, zero right-hand side and an isotropic noise model of inverse sigma `w`: the
blocks of the information factor. -/
lemma diagonal_prior_blocks (NDEBUG : Bool) (isfinite : K → Bool)
    (key n : Nat) (a : Nat → K) (w : K)
    (hfin : NDEBUG = false →
      isfinite 0 = true ∧ ∀ i, i < n → isfinite (w * w * (a i * a i)) = true) :
    ∃ h, HessianFactor.ofGaussianFactor NDEBUG isfinite
        (.Jacobian (JacobianFactor.ofUnary key
        ⟨n, n, fun r c => if r = c then a r else 0⟩ ⟨n, fun _ => 0⟩ (.Isotropic n w))) = .ok h ∧
      h.keys_ = [key] ∧ h.varDim = n ∧ h.info_.offset 0 = 0 ∧
      (∀ i j, i < n → j < n →
        h.matrix_.coeff i j = if i = j then w * w * (a i * a i) else 0) ∧
      (∀ i, h.linear_term i = 0) ∧ h.constant_term = 0 := by
  refine ⟨_, HessianFactor.ofGaussianFactor_jacobian NDEBUG isfinite _ rfl fun hN i j _ _ => ?_,
    rfl, ?_, ?_, ?_, ?_, ?_⟩
  · rw [diagonal_prior_entry key n a w i j]
    split_ifs with hij
    · exact (hfin hN).2 i hij.2
    · exact (hfin hN).1
  · simp [HessianFactor.varDim, HessianFactor.size, SymmetricBlockView.copyStructureFrom_offset,
      JacobianFactor.ofUnary, VerticalBlockView.offset]
  · simp [SymmetricBlockView.copyStructureFrom_offset]
  · intro i j hi hj
    show ∑ r ∈ Finset.range (n - 0), _ = _
    simp only [JacobianFactor.full, JacobianFactor.ofUnary, MatrixXd.block,
      VerticalBlockView.offset, NoiseModel.invsigmas, Nat.sub_zero]
    simp only [List.getD_cons_zero, Nat.zero_add, Nat.add_zero, if_pos hi, if_pos hj]
    by_cases hij : i = j
    · subst hij
      rw [if_pos rfl, Finset.sum_eq_single i]
      · rw [if_pos rfl]; ring
      · intro r _ hr
        rw [if_neg hr]; ring
      · intro hn
        exact absurd (Finset.mem_range.mpr hi) hn
    · rw [if_neg hij]
      refine Finset.sum_eq_zero fun r _ => ?_
      by_cases hri : r = i
      · subst hri
        rw [if_neg hij]; ring
      · rw [if_neg hri]; ring
  · intro i
    show ∑ r ∈ Finset.range (n - 0), _ = _
    simp [HessianFactor.size, SymmetricBlockView.copyStructureFrom_offset,
      JacobianFactor.full, JacobianFactor.ofUnary, MatrixXd.block, VerticalBlockView.offset]
  · show ∑ r ∈ Finset.range (n - 0), _ = _
    simp [HessianFactor.size, SymmetricBlockView.copyStructureFrom_offset,
      JacobianFactor.full, JacobianFactor.ofUnary, MatrixXd.block, VerticalBlockView.offset]

/-- The error of an information factor whose matrix is `diag(c)` and whose linear and
constant terms are zero: `(1/2) * sum c_i * x_i^2`. -/
lemma error_of_diagonal (h : HessianFactor K) (n : Nat) (c : Nat → K) (hvar : h.varDim = n)
    (hoff : h.info_.offset 0 = 0)
    (hG : ∀ i j, i < n → j < n → h.matrix_.coeff i j = if i = j then c i else 0)
    (hlin : ∀ i, h.linear_term i = 0) (hf : h.constant_term = 0) (x : Nat → K) :
    h.error x = 1 / 2 * ∑ i ∈ Finset.range n, c i * x i ^ 2 := by
  simp only [HessianFactor.error, hvar, hoff, hlin, hf, mul_zero, Finset.sum_const_zero,
    sub_zero, zero_add]
  congr 1
  refine Finset.sum_congr rfl fun j hj => ?_
  have hj' := Finset.mem_range.mp hj
  rw [Finset.sum_eq_single j]
  · simp only [MatrixXd.selfadjointUpper, MatrixXd.block, le_refl, if_true, Nat.zero_add]
    rw [hG j j hj' hj', if_pos rfl]
    ring
  · intro i hi hij
    have hi' := Finset.mem_range.mp hi
    simp only [MatrixXd.selfadjointUpper, MatrixXd.block, Nat.zero_add]
    split_ifs
    · rw [hG i j hi' hj', if_neg hij, mul_zero]
    · rw [hG j i hj' hi', if_neg (Ne.symm hij), mul_zero]
  · intro hn
    exact absurd hj hn

/-- The information form of a unary measurement factor with a diagonal coefficient
matrix `diag(a)`, zero right-hand side and an isotropic noise model of inverse sigma
`w`: the matrix `w^2 * diag(a^2)`, zero linear and constant terms, and the error
`(w^2 / 2) * sum (a_i * x_i)^2`. -/
lemma information_of_diagonal_prior (NDEBUG : Bool) (isfinite : K → Bool)
    (key n : Nat) (a : Nat → K) (w : K)
    (hfin : NDEBUG = false →
      isfinite 0 = true ∧ ∀ i, i < n → isfinite (w * w * (a i * a i)) = true) :
    ∃ h, HessianFactor.ofGaussianFactor NDEBUG isfinite
        (.Jacobian (JacobianFactor.ofUnary key
        ⟨n, n, fun r c => if r = c then a r else 0⟩ ⟨n, fun _ => 0⟩ (.Isotropic n w))) = .ok h ∧
      h.keys_ = [key] ∧ h.varDim = n ∧
      (∀ i j, i < n → j < n →
        h.matrix_.coeff i j = if i = j then w * w * (a i * a i) else 0) ∧
      (∀ i, h.linear_term i = 0) ∧ h.constant_term = 0 ∧
      ∀ x : Nat → K, h.error x = w * w / 2 * ∑ i ∈ Finset.range n, (a i * x i) ^ 2 := by
  obtain ⟨h, hok, hk, hvar, hoff, hG, hlin, hf⟩ :=
    diagonal_prior_blocks NDEBUG isfinite key n a w hfin
  refine ⟨h, hok, hk, hvar, hG, hlin, hf, fun x => ?_⟩
  rw [error_of_diagonal h n (fun i => w * w * (a i * a i)) hvar hoff hG hlin hf x,
    Finset.mul_sum, Finset.mul_sum]
  refine Finset.sum_congr rfl fun i _ => ?_
  ring

/-- C29. Plain damping adds `lambda * I`: with `diagonalDamping` off and `lambda > 0`,
`buildDampedSystem` appends for every variable of the current estimate a unary factor
with `A` the identity of the dimension of the variable, `b = 0` and an isotropic noise
model of sigma `1 / sqrt(lambda)`; its information form has the matrix `lambda * I`, zero
linear and constant terms, and the error `(lambda / 2) * |x|^2`.  The information form is
built in a build with `NDEBUG`, and in one without it when `0` and `lambda` are finite,
so that `assertInvariants()` does not throw. -/
theorem plain_damping_adds_lambda_identity (NDEBUG : Bool) (isfinite : K → Bool)
    (env : Collaborators K V)
    (linear : GaussianFactorGraph K) (self : LevenbergMarquardtOptimizer K V)
    (hmode : self.params_.diagonalDamping = false) (hlam : 0 < self.state_.lambda)
    (hsqrt : ∀ x, 0 < x → 0 < env.sqrt x ∧ env.sqrt x * env.sqrt x = x)
    (hfin : NDEBUG = false → isfinite 0 = true ∧ isfinite self.state_.lambda = true) :
    (self.buildDampedSystem env linear).1 =
      linear ++ (env.valueDims self.state_.values).map (fun key_value =>
        .Jacobian (JacobianFactor.ofUnary key_value.1
          ⟨key_value.2, key_value.2, fun r c => if r = c then 1 else 0⟩
          ⟨key_value.2, fun _ => 0⟩
          (.Isotropic key_value.2 (1 / (1 / env.sqrt self.state_.lambda))))) ∧
    ∀ key_value ∈ env.valueDims self.state_.values,
      ∃ h, HessianFactor.ofGaussianFactor NDEBUG isfinite
          (.Jacobian (JacobianFactor.ofUnary key_value.1
          ⟨key_value.2, key_value.2, fun r c => if r = c then 1 else 0⟩
          ⟨key_value.2, fun _ => 0⟩
          (.Isotropic key_value.2 (1 / (1 / env.sqrt self.state_.lambda))))) = .ok h ∧
        h.keys_ = [key_value.1] ∧ h.varDim = key_value.2 ∧
        (∀ i j, i < key_value.2 → j < key_value.2 →
          h.matrix_.coeff i j = if i = j then self.state_.lambda else 0) ∧
        (∀ i, h.linear_term i = 0) ∧ h.constant_term = 0 ∧
        ∀ x : Nat → K, h.error x =
          self.state_.lambda / 2 * ∑ i ∈ Finset.range key_value.2, x i ^ 2 := by
  refine ⟨buildDampedSystem_plain env linear self hmode, fun key_value _ => ?_⟩
  obtain ⟨hpos, hsq⟩ := hsqrt _ hlam
  have hw : (1 / (1 / env.sqrt self.state_.lambda)) * (1 / (1 / env.sqrt self.state_.lambda))
      = self.state_.lambda := by rw [one_div_one_div, hsq]
  obtain ⟨h, hok, hk, hvar, hG, hlin, hf, herr⟩ := information_of_diagonal_prior
    NDEBUG isfinite key_value.1
    key_value.2 (fun _ => (1 : K)) (1 / (1 / env.sqrt self.state_.lambda))
    (fun hN => ⟨(hfin hN).1, fun _ _ => by rw [hw, mul_one, mul_one]; exact (hfin hN).2⟩)
  refine ⟨h, hok, hk, hvar, fun i j hi hj => ?_, hlin, hf, fun x => ?_⟩
  · rw [hG i j hi hj, hw, mul_one, mul_one]
  · rw [herr x, hw]
    simp only [one_mul]

/-- Witness of C29 over the reals: with lambda `4` the factor appended for the variable
of key `3` and dimension `2` has the error `(4 / 2) * (x_0^2 + x_1^2)`. -/
theorem plain_damping_adds_lambda_identity_witness :
    ∃ h, HessianFactor.ofGaussianFactor false (fun x : ℝ => decide (|x| < 2 ^ 1024))
        (.Jacobian (JacobianFactor.ofUnary 3
        ⟨2, 2, fun r c => if r = c then 1 else 0⟩ ⟨2, fun _ => 0⟩
        (.Isotropic 2 (1 / (1 / Real.sqrt 4))))) = .ok h ∧
      h.keys_ = [3] ∧
      ∀ x : Nat → ℝ, h.error x = 4 / 2 * ∑ i ∈ Finset.range 2, x i ^ 2 := by
  obtain ⟨h, hok, hk, -, -, -, -, herr⟩ := (plain_damping_adds_lambda_identity
    false (fun x : ℝ => decide (|x| < 2 ^ 1024))
    (dampingOracle ℝ Real.sqrt) [] (dampedOptimizer ℝ 4 false) rfl
    (by norm_num [dampedOptimizer]) real_sqrt_spec
    (fun _ => by
      refine ⟨?_, ?_⟩
      · simp only [decide_eq_true_eq, abs_zero]; positivity
      · simp only [decide_eq_true_eq, dampedOptimizer]
        rw [abs_of_pos (by norm_num)]
        exact lt_of_lt_of_le (by norm_num : (4 : ℝ) < 2 ^ 3)
          (pow_le_pow_right₀ one_le_two (by norm_num)))).2
    (3, 2) (List.mem_singleton.mpr rfl)
  exact ⟨h, hok, hk, herr⟩

/-- The clamped square root of an entry of the Hessian diagonal lies between `1e-3` and
`1e16` and squares to the clamped entry. -/
lemma clampedSqrt_spec (sqrt : K → K)
    (hsqrt : ∀ x, 0 < x → 0 < sqrt x ∧ sqrt x * sqrt x = x) (d : K) :
    clampedSqrt sqrt d * clampedSqrt sqrt d = min (max d (1 / 10 ^ 6)) (10 ^ 32) ∧
    1 / 10 ^ 3 ≤ clampedSqrt sqrt d ∧ clampedSqrt sqrt d ≤ 10 ^ 16 := by
  have hlow : (1 : K) / 10 ^ 6 ≤ min (max d (1 / 10 ^ 6)) (10 ^ 32) :=
    le_min (le_max_right _ _) (by norm_num)
  have hup : min (max d (1 / 10 ^ 6)) (10 ^ 32) ≤ (10 : K) ^ 32 := min_le_right _ _
  have hcpos : (0 : K) < min (max d (1 / 10 ^ 6)) (10 ^ 32) :=
    lt_of_lt_of_le (by norm_num) hlow
  obtain ⟨hpos, hsq⟩ := hsqrt _ hcpos
  refine ⟨hsq, ?_, ?_⟩
  · show 1 / 10 ^ 3 ≤ sqrt (min (max d (1 / 10 ^ 6)) (10 ^ 32))
    refine (mul_self_le_mul_self_iff (by norm_num) hpos.le).mpr ?_
    rw [hsq]
    refine le_trans (le_of_eq ?_) hlow
    norm_num
  · show sqrt (min (max d (1 / 10 ^ 6)) (10 ^ 32)) ≤ 10 ^ 16
    refine (mul_self_le_mul_self_iff hpos.le (by norm_num)).mpr ?_
    rw [hsq]
    refine le_trans hup (le_of_eq ?_)
    norm_num

/-- C30. Diagonal damping is clamped: with `diagonalDamping` on, when
`buildDampedSystem` recomputes the cache (`reuse_diagonal_` false), every cached entry is
`sqrt(min(max(d, 1e-6), 1e32))` for the corresponding entry `d` of the Hessian diagonal
of the linear graph, hence lies in `[1e-3, 1e16]`; the factor appended for a variable has
`A = diag(cached entries)`, `b = 0` and sigma `1 / sqrt(lambda)`, and its information
form has the matrix `lambda * diag(min(max(d, 1e-6), 1e32))` and zero linear and constant
terms.  The information form is built in a build with `NDEBUG`, and in one without it
when `0` and the entries `lambda * min(max(d, 1e-6), 1e32)` are finite, so that
`assertInvariants()` does not throw. -/
theorem diagonal_damping_clamped (NDEBUG : Bool) (isfinite : K → Bool)
    (env : Collaborators K V) (linear : GaussianFactorGraph K)
    (self : LevenbergMarquardtOptimizer K V)
    (hmode : self.params_.diagonalDamping = true)
    (hreuse : self.params_.reuse_diagonal_ = false) (hlam : 0 < self.state_.lambda)
    (hsqrt : ∀ x, 0 < x → 0 < env.sqrt x ∧ env.sqrt x * env.sqrt x = x)
    (hkeys : ((env.hessianDiagonal linear).map Prod.fst).Nodup)
    (hfin : NDEBUG = false → isfinite 0 = true ∧
      ∀ kv ∈ env.hessianDiagonal linear, ∀ i, i < kv.2.size →
        isfinite (self.state_.lambda * min (max (kv.2.coeff i) (1 / 10 ^ 6)) (10 ^ 32))
          = true) :
    (self.buildDampedSystem env linear).2.state_.hessianDiagonal =
      (env.hessianDiagonal linear).map (fun kv =>
        (kv.1, ⟨kv.2.size, fun aa =>
          env.sqrt (min (max (kv.2.coeff aa) (1 / 10 ^ 6)) (10 ^ 32))⟩)) ∧
    (∀ kv ∈ (self.buildDampedSystem env linear).2.state_.hessianDiagonal, ∀ aa,
      1 / 10 ^ 3 ≤ kv.2.coeff aa ∧ kv.2.coeff aa ≤ 10 ^ 16) ∧
    (self.buildDampedSystem env linear).1 =
      linear ++ (self.buildDampedSystem env linear).2.state_.hessianDiagonal.map (fun kv =>
        .Jacobian (JacobianFactor.ofUnary kv.1
          ⟨kv.2.size, kv.2.size, fun r c => if r = c then kv.2.coeff r else 0⟩
          ⟨kv.2.size, fun _ => 0⟩
          (.Isotropic kv.2.size (1 / (1 / env.sqrt self.state_.lambda))))) ∧
    ∀ kv ∈ env.hessianDiagonal linear,
      ∃ h, HessianFactor.ofGaussianFactor NDEBUG isfinite
          (.Jacobian (JacobianFactor.ofUnary kv.1
          ⟨kv.2.size, kv.2.size, fun r c =>
            if r = c then env.sqrt (min (max (kv.2.coeff r) (1 / 10 ^ 6)) (10 ^ 32)) else 0⟩
          ⟨kv.2.size, fun _ => 0⟩
          (.Isotropic kv.2.size (1 / (1 / env.sqrt self.state_.lambda))))) = .ok h ∧
        h.keys_ = [kv.1] ∧ h.varDim = kv.2.size ∧
        (∀ i j, i < kv.2.size → j < kv.2.size →
          h.matrix_.coeff i j =
            if i = j then
              self.state_.lambda * min (max (kv.2.coeff i) (1 / 10 ^ 6)) (10 ^ 32)
            else 0) ∧
        (∀ i, h.linear_term i = 0) ∧ h.constant_term = 0 := by
  have hcache : (self.buildDampedSystem env linear).2.state_.hessianDiagonal =
      (env.hessianDiagonal linear).map (fun kv =>
        (kv.1, ⟨kv.2.size, fun aa =>
          env.sqrt (min (max (kv.2.coeff aa) (1 / 10 ^ 6)) (10 ^ 32))⟩)) := by
    rw [buildDampedSystem_cache, hmode, hreuse]
    rfl
  obtain ⟨hpos, hsq⟩ := hsqrt _ hlam
  have hw : (1 / (1 / env.sqrt self.state_.lambda)) * (1 / (1 / env.sqrt self.state_.lambda))
      = self.state_.lambda := by rw [one_div_one_div, hsq]
  refine ⟨hcache, ?_, ?_, ?_⟩
  · intro kv hkv aa
    rw [hcache] at hkv
    obtain ⟨kv0, -, rfl⟩ := List.mem_map.mp hkv
    exact (clampedSqrt_spec env.sqrt hsqrt (kv0.2.coeff aa)).2
  · have hnd : ((self.buildDampedSystem env linear).2.state_.hessianDiagonal.map
        Prod.fst).Nodup := by
      rw [hcache, List.map_map]
      exact hkeys
    rw [buildDampedSystem_diagonal env linear self hmode]
    congr 1
    refine map_filterMap_of_forall _ _ _ _ fun kv hkv => ?_
    rw [valueAt_of_mem_nodup _ hnd kv hkv]
    exact ⟨_, rfl, rfl⟩
  · intro kv hkv
    have hclamp : ∀ i, env.sqrt (min (max (kv.2.coeff i) (1 / 10 ^ 6)) (10 ^ 32)) *
        env.sqrt (min (max (kv.2.coeff i) (1 / 10 ^ 6)) (10 ^ 32))
          = min (max (kv.2.coeff i) (1 / 10 ^ 6)) (10 ^ 32) := fun i =>
      (clampedSqrt_spec env.sqrt hsqrt (kv.2.coeff i)).1
    obtain ⟨h, hok, hk, hvar, hG, hlin, hf, -⟩ := information_of_diagonal_prior
      NDEBUG isfinite kv.1
      kv.2.size (fun r => env.sqrt (min (max (kv.2.coeff r) (1 / 10 ^ 6)) (10 ^ 32)))
      (1 / (1 / env.sqrt self.state_.lambda))
      (fun hN => ⟨(hfin hN).1, fun i hi => by
        rw [hw, hclamp i]
        exact (hfin hN).2 kv hkv i hi⟩)
    refine ⟨h, hok, hk, hvar, fun i j hi hj => ?_, hlin, hf⟩
    rw [hG i j hi hj, hw, hclamp i]

/-- Witness of C30 over the reals: the Hessian diagonal `(1/10^8, 4)` of the variable of
key `3` is cached as `(sqrt(1/10^6), sqrt(4))`, and both cached entries lie in
`[1e-3, 1e16]`. -/
theorem diagonal_damping_clamped_witness :
    ((dampedOptimizer ℝ 4 true).buildDampedSystem (dampingOracle ℝ Real.sqrt)
        []).2.state_.hessianDiagonal =
      [((3 : Nat), (⟨2, fun aa =>
        Real.sqrt (min (max (if aa = 0 then 1 / 10 ^ 8 else 4) (1 / 10 ^ 6)) (10 ^ 32))⟩ :
        VectorXd ℝ))] ∧
    ∀ kv ∈ ((dampedOptimizer ℝ 4 true).buildDampedSystem (dampingOracle ℝ Real.sqrt)
        []).2.state_.hessianDiagonal, ∀ aa,
      1 / 10 ^ 3 ≤ kv.2.coeff aa ∧ kv.2.coeff aa ≤ 10 ^ 16 := by
  obtain ⟨h1, h2, -⟩ := diagonal_damping_clamped false (fun x : ℝ => decide (|x| < 2 ^ 1024))
    (dampingOracle ℝ Real.sqrt) []
    (dampedOptimizer ℝ 4 true) rfl rfl (by norm_num [dampedOptimizer]) real_sqrt_spec
    (by simp [dampingOracle])
    (fun _ => by
      refine ⟨?_, fun kv _ i _ => ?_⟩
      · simp only [decide_eq_true_eq, abs_zero]; positivity
      · simp only [decide_eq_true_eq, dampedOptimizer]
        have hlow : (0 : ℝ) < min (max (kv.2.coeff i) (1 / 10 ^ 6)) (10 ^ 32) :=
          lt_min (lt_of_lt_of_le (by norm_num) (le_max_right _ _)) (by norm_num)
        have hup : min (max (kv.2.coeff i) (1 / 10 ^ 6)) (10 ^ 32) ≤ (10 : ℝ) ^ 32 :=
          min_le_right _ _
        rw [abs_of_pos (mul_pos (by norm_num) hlow)]
        calc (4 : ℝ) * min (max (kv.2.coeff i) (1 / 10 ^ 6)) (10 ^ 32)
            ≤ 4 * 10 ^ 32 := by nlinarith
          _ < 2 ^ 130 := by norm_num
          _ ≤ 2 ^ 1024 := pow_le_pow_right₀ one_le_two (by norm_num))
  exact ⟨h1, h2⟩

end LevenbergMarquardtOptimizer

end Damping

/-! ### Accumulation paths and frames -/

section Paths

variable {K : Type} [Field K]

omit [Field K] in
/-- A block whose end offset is not zero is a block of the view. -/
lemma SymmetricBlockView.succ_le_nBlocks_of_offset_ne (v : SymmetricBlockView) (b : Nat)
    (h : v.offset (b + 1) ≠ 0) : b + 1 ≤ v.nBlocks := by
  by_contra hlt
  apply h
  simp only [SymmetricBlockView.nBlocks] at hlt
  simp only [SymmetricBlockView.offset]
  exact List.getD_eq_default _ _ (by omega)

/-- Where one block update of `updateATA` can add something: inside the block of the
joint matrix it is aimed at, and on or above the diagonal if that block is a diagonal
one. -/
lemma updateATABlock_support (info : SymmetricBlockView) (slot1 slot2 : Nat)
    (src : Nat → Nat → K) (i j : Nat)
    (h : (updateATABlock info slot1 slot2 src (MatrixXd.zero 0 0)).coeff i j ≠ 0) :
    (slot1 < slot2 ∧ info.offset slot1 ≤ i ∧ i < info.offset (slot1 + 1) ∧
      info.offset slot2 ≤ j ∧ j < info.offset (slot2 + 1)) ∨
    (slot2 < slot1 ∧ info.offset slot2 ≤ i ∧ i < info.offset (slot2 + 1) ∧
      info.offset slot1 ≤ j ∧ j < info.offset (slot1 + 1)) ∨
    (slot1 = slot2 ∧ info.offset slot1 ≤ i ∧ i < info.offset (slot1 + 1) ∧
      info.offset slot1 ≤ j ∧ j < info.offset (slot1 + 1) ∧ i ≤ j) := by
  simp only [updateATABlock, MatrixXd.zero] at h
  split_ifs at h with h1 h2
  · simp only [MatrixXd.addBlock, SymmetricBlockView.blockDim] at h
    split_ifs at h with hr
    · exact Or.inl ⟨h1, by omega, by omega, by omega, by omega⟩
    · exact absurd rfl h
  · simp only [MatrixXd.addBlock, SymmetricBlockView.blockDim] at h
    split_ifs at h with hr
    · exact Or.inr (Or.inl ⟨h2, by omega, by omega, by omega, by omega⟩)
    · exact absurd rfl h
  · simp only [MatrixXd.addBlockUpper, SymmetricBlockView.blockDim] at h
    have heq : slot1 = slot2 := by omega
    subst heq
    split_ifs at h with hr
    · exact Or.inr (Or.inr ⟨rfl, by omega, by omega, by omega, by omega, by omega⟩)
    · exact absurd rfl h

/-- One block update of `updateATA` adds nothing strictly below the main diagonal of a
joint matrix whose block offsets ascend. -/
lemma updateATABlock_lower (info : SymmetricBlockView)
    (hs : info.variableColOffsets.Sorted (· ≤ ·)) (slot1 slot2 : Nat)
    (src : Nat → Nat → K) (i j : Nat) (hji : j < i) :
    (updateATABlock info slot1 slot2 src (MatrixXd.zero 0 0)).coeff i j = 0 := by
  by_contra h
  have key : ∀ a b, a < b → info.offset a ≤ i → i < info.offset (a + 1) →
      info.offset b ≤ j → j < info.offset (b + 1) → False := by
    intro a b hab h1 h2 h3 h4
    have hb : b + 1 ≤ info.nBlocks :=
      SymmetricBlockView.succ_le_nBlocks_of_offset_ne info b (by omega)
    have := SymmetricBlockView.offset_mono info hs (a := a + 1) (b := b) (by omega) (by omega)
    omega
  rcases updateATABlock_support info slot1 slot2 src i j h with
    ⟨h0, h1, h2, h3, h4⟩ | ⟨h0, h1, h2, h3, h4⟩ | ⟨-, -, -, -, -, h5⟩
  · exact key _ _ h0 h1 h2 h3 h4
  · exact key _ _ h0 h1 h2 h3 h4
  · omega

/-- The loops of `updateATA` change no entry strictly below the main diagonal, and no
entry outside the blocks `(s, t)`, `s <= t`, of the slots of the blocks of the update. -/
lemma updateATALoop_frame (info : SymmetricBlockView) (updateBlocks updateSize : Nat)
    (slots : List Nat) (srcBlock : Nat → Nat → Nat → Nat → K) (M : MatrixXd K) (i j : Nat)
    (h : (info.variableColOffsets.Sorted (· ≤ ·) ∧ j < i) ∨
      ∀ b1 b2, b1 < updateBlocks → b2 < updateBlocks →
        (if b1 = updateSize then info.nBlocks - 1 else slots.getD b1 0) ≤
          (if b2 = updateSize then info.nBlocks - 1 else slots.getD b2 0) →
        ¬ (info.offset (if b1 = updateSize then info.nBlocks - 1 else slots.getD b1 0) ≤ i ∧
          i < info.offset ((if b1 = updateSize then info.nBlocks - 1 else slots.getD b1 0) + 1) ∧
          info.offset (if b2 = updateSize then info.nBlocks - 1 else slots.getD b2 0) ≤ j ∧
          j < info.offset
            ((if b2 = updateSize then info.nBlocks - 1 else slots.getD b2 0) + 1))) :
    (updateATALoop info updateBlocks updateSize slots srcBlock M).coeff i j = M.coeff i j := by
  rw [updateATALoop_coeff, add_right_eq_self]
  refine Finset.sum_eq_zero fun j2 hj2 => Finset.sum_eq_zero fun j1 hj1 => ?_
  have hj2' := Finset.mem_range.mp hj2
  have hj1' := Finset.mem_range.mp hj1
  rcases h with ⟨hs, hji⟩ | h
  · exact updateATABlock_lower info hs _ _ _ i j hji
  · by_contra hne
    rcases updateATABlock_support info _ _ _ i j hne with
      ⟨h0, h1, h2, h3, h4⟩ | ⟨h0, h1, h2, h3, h4⟩ | ⟨h0, h1, h2, h3, h4, -⟩
    · exact h j1 j2 (by omega) hj2' h0.le ⟨h1, h2, h3, h4⟩
    · exact h j2 j1 hj2' (by omega) h0.le ⟨h1, h2, h3, h4⟩
    · exact h j1 j2 (by omega) hj2' h0.le ⟨h1, h2, by rw [← h0]; exact h3,
        by rw [← h0]; exact h4⟩

/-- C27. Accumulation writes only the upper triangle: for a joint factor whose block
offsets ascend, a scatter and an update factor in information or measurement form,
`updateATA` leaves every entry strictly below the main diagonal of the joint matrix
unchanged; and it changes no entry outside the blocks `(s, t)` with `s <= t` both among
the slots of the blocks of the update (the scatter slots of its keys and the constant
slot). -/
theorem HessianFactor.updateATA_writes_upper_blocks (self update : HessianFactor K)
    (jf : JacobianFactor K) (scatter : Scatter)
    (hs : self.info_.variableColOffsets.Sorted (· ≤ ·)) :
    (∀ i j, j < i →
      (self.updateATA update scatter).matrix_.coeff i j = self.matrix_.coeff i j ∧
      (self.updateATAJacobian jf scatter).1.matrix_.coeff i j = self.matrix_.coeff i j) ∧
    (∀ i j,
      (∀ b1 b2, b1 < update.info_.nBlocks → b2 < update.info_.nBlocks →
        self.updateSlot update scatter b1 ≤ self.updateSlot update scatter b2 →
        ¬ (self.info_.offset (self.updateSlot update scatter b1) ≤ i ∧
          i < self.info_.offset (self.updateSlot update scatter b1 + 1) ∧
          self.info_.offset (self.updateSlot update scatter b2) ≤ j ∧
          j < self.info_.offset (self.updateSlot update scatter b2 + 1))) →
      (self.updateATA update scatter).matrix_.coeff i j = self.matrix_.coeff i j) ∧
    (∀ i j,
      (∀ b1 b2, b1 < jf.Ab_.nBlocks → b2 < jf.Ab_.nBlocks →
        (if b1 = jf.size then self.info_.nBlocks - 1
          else (jf.keys_.map scatter.slotOf).getD b1 0) ≤
        (if b2 = jf.size then self.info_.nBlocks - 1
          else (jf.keys_.map scatter.slotOf).getD b2 0) →
        ¬ (self.info_.offset (if b1 = jf.size then self.info_.nBlocks - 1
              else (jf.keys_.map scatter.slotOf).getD b1 0) ≤ i ∧
          i < self.info_.offset ((if b1 = jf.size then self.info_.nBlocks - 1
              else (jf.keys_.map scatter.slotOf).getD b1 0) + 1) ∧
          self.info_.offset (if b2 = jf.size then self.info_.nBlocks - 1
              else (jf.keys_.map scatter.slotOf).getD b2 0) ≤ j ∧
          j < self.info_.offset ((if b2 = jf.size then self.info_.nBlocks - 1
              else (jf.keys_.map scatter.slotOf).getD b2 0) + 1))) →
      (self.updateATAJacobian jf scatter).1.matrix_.coeff i j = self.matrix_.coeff i j) := by
  have hjac : ∀ i j,
      ((self.info_.variableColOffsets.Sorted (· ≤ ·) ∧ j < i) ∨
        ∀ b1 b2, b1 < jf.Ab_.nBlocks → b2 < jf.Ab_.nBlocks →
          (if b1 = jf.size then self.info_.nBlocks - 1
            else (jf.keys_.map scatter.slotOf).getD b1 0) ≤
          (if b2 = jf.size then self.info_.nBlocks - 1
            else (jf.keys_.map scatter.slotOf).getD b2 0) →
          ¬ (self.info_.offset (if b1 = jf.size then self.info_.nBlocks - 1
                else (jf.keys_.map scatter.slotOf).getD b1 0) ≤ i ∧
            i < self.info_.offset ((if b1 = jf.size then self.info_.nBlocks - 1
                else (jf.keys_.map scatter.slotOf).getD b1 0) + 1) ∧
            self.info_.offset (if b2 = jf.size then self.info_.nBlocks - 1
                else (jf.keys_.map scatter.slotOf).getD b2 0) ≤ j ∧
            j < self.info_.offset ((if b2 = jf.size then self.info_.nBlocks - 1
                else (jf.keys_.map scatter.slotOf).getD b2 0) + 1))) →
      (self.updateATAJacobian jf scatter).1.matrix_.coeff i j = self.matrix_.coeff i j := by
    intro i j h
    cases hc : jf.model_.isConstrained
    · cases hu : jf.model_.isUnit
      · simp only [HessianFactor.updateATAJacobian, hc, hu, NoiseModel.isDiagonal,
          Bool.false_eq_true, if_false, if_true]
        exact updateATALoop_frame _ _ _ _ _ _ i j h
      · simp only [HessianFactor.updateATAJacobian, hc, hu, NoiseModel.isDiagonal,
          Bool.false_eq_true, if_false, if_true]
        exact updateATALoop_frame _ _ _ _ _ _ i j h
    · simp only [HessianFactor.updateATAJacobian, hc, if_true]
  refine ⟨fun i j hji => ⟨?_, hjac i j (Or.inl ⟨hs, hji⟩)⟩, fun i j h => ?_,
    fun i j h => hjac i j (Or.inr h)⟩
  · exact updateATALoop_frame _ _ _ _ _ _ i j (Or.inl ⟨hs, hji⟩)
  · exact updateATALoop_frame _ _ _ _ _ _ i j (Or.inr h)

/-- Witness of C27: accumulating the factor over the keys `7, 5` and the factor
`[2 | 3]` on the key `5` into the joint factor over the keys `5, 7` leaves the entry
`(1, 0)` below the diagonal as it was. -/
theorem HessianFactor.updateATA_writes_upper_blocks_witness :
    (joint57.updateATA update75 scatter57).matrix_.coeff 1 0 = joint57.matrix_.coeff 1 0 ∧
    (joint57.updateATAJacobian jacobian5 scatter57).1.matrix_.coeff 1 0 =
      joint57.matrix_.coeff 1 0 :=
  (HessianFactor.updateATA_writes_upper_blocks joint57 update75 jacobian5 scatter57
    (by decide)).1 1 0 (by decide)

/-- The matrix after `k` iterations of the loop of `splitEliminatedFactor`: zero
strictly below the diagonal inside the first `k` diagonal blocks, and as at entry
everywhere else. -/
lemma HessianFactor.splitLoop_matrix (self : HessianFactor K) (keys : List Nat)
    (hs : self.Splittable keys) (k : Nat) (hk : k ≤ keys.length) :
    (∀ b i j, b < k → self.info_.offset b ≤ j → j < i → i < self.info_.offset (b + 1) →
      ((List.range k).foldl (HessianFactor.splitStep keys)
        ⟨self.matrix_, ⟨self.info_.variableColOffsets, 0, self.matrix_.rows, 0⟩,
          []⟩).matrix.coeff i j = 0) ∧
    (∀ i j, (∀ b, b < k →
        ¬ (self.info_.offset b ≤ j ∧ j < i ∧ i < self.info_.offset (b + 1))) →
      ((List.range k).foldl (HessianFactor.splitStep keys)
        ⟨self.matrix_, ⟨self.info_.variableColOffsets, 0, self.matrix_.rows, 0⟩,
          []⟩).matrix.coeff i j = self.matrix_.coeff i j) := by
  have hs' := hs
  obtain ⟨hbs, h0, hsorted, hnB⟩ := hs
  have hoff : ∀ b, self.info_.offset b = self.info_.variableColOffsets.getD b 0 := by
    intro b; simp [SymmetricBlockView.offset, hbs]
  have hlen : self.info_.variableColOffsets.length - 1 = self.info_.nBlocks := by
    simp [SymmetricBlockView.nBlocks, hbs]
  induction k with
  | zero =>
    exact ⟨fun b i j hb => absurd hb (Nat.not_lt_zero b), fun i j _ => rfl⟩
  | succ k ih =>
    obtain ⟨ihA, ihB⟩ := ih (Nat.le_of_succ_le hk)
    obtain ⟨ia, ib, ic, -, -, -, -, -⟩ :=
      HessianFactor.splitLoop_invariant self keys hs' k (Nat.le_of_succ_le hk)
    rw [List.range_succ, List.foldl_append, List.foldl_cons, List.foldl_nil]
    generalize (List.range k).foldl (HessianFactor.splitStep keys)
      ⟨self.matrix_, ⟨self.info_.variableColOffsets, 0, self.matrix_.rows, 0⟩, []⟩ = st
      at ia ib ic ihA ihB ⊢
    have hkB : k + 1 ≤ self.info_.nBlocks := by omega
    have m1 := SymmetricBlockView.offset_mono _ hsorted (Nat.le_succ k) hkB
    have m2 := SymmetricBlockView.offset_mono _ hsorted hkB (le_refl _)
    have hM : ∀ i j, (HessianFactor.splitStep keys st k).matrix.coeff i j
        = if self.info_.offset k ≤ i ∧ i < self.info_.offset (k + 1) ∧
            self.info_.offset k ≤ j ∧ j < self.info_.offset self.info_.nBlocks ∧ j < i
          then 0 else st.matrix.coeff i j := by
      intro i j
      simp only [HessianFactor.splitStep, MatrixXd.zeroBelowDiagonal, VerticalBlockView.rows,
        VerticalBlockView.cols, VerticalBlockView.offset, VerticalBlockView.nBlocks,
        VerticalBlockView.blockCols, ia, ib, ic]
      have e1 : self.info_.variableColOffsets.getD (0 + k) 0 = self.info_.offset k := by
        rw [hoff]; simp
      have e3 : self.info_.variableColOffsets.getD (0 + 1 + k) 0
          = self.info_.offset (k + 1) := by
        rw [hoff]; congr 1; omega
      have e2 : self.info_.variableColOffsets.getD
          (self.info_.variableColOffsets.length - 1 - k + k) 0
            = self.info_.offset self.info_.nBlocks := by
        rw [hoff, ← hlen]; congr 1; omega
      rw [e1, e2, e3]
      by_cases hc : self.info_.offset k ≤ i ∧ i < self.info_.offset (k + 1) ∧
          self.info_.offset k ≤ j ∧ j < self.info_.offset self.info_.nBlocks ∧ j < i
      · rw [if_pos hc, if_pos (by omega)]
      · rw [if_neg hc, if_neg (by omega)]
    constructor
    · intro b i j hb h1 h2 h3
      rw [hM]
      split_ifs with hc
      · rfl
      · rcases Nat.lt_or_ge b k with hbk | hbk
        · exact ihA b i j hbk h1 h2 h3
        · have hbk' : b = k := by omega
          subst hbk'
          exact absurd ⟨by omega, h3, h1, by omega, h2⟩ hc
    · intro i j h
      rw [hM, if_neg]
      · exact ihB i j fun b hb => h b (Nat.lt_succ_of_lt hb)
      · intro hc
        exact h k (Nat.lt_succ_self k) ⟨hc.2.2.1, hc.2.2.2.2, hc.2.1⟩

/-- C28. `splitEliminatedFactor` enforces upper-triangular structure and nothing more:
after the call every entry strictly below the diagonal inside each of the `nrFrontals`
frontal diagonal blocks is `0`, so that the `R` block of every conditional returned is
upper triangular; every entry on or above the main diagonal and every entry of the rows
of the remainder has the value it had before the call, and so has every other entry
outside the strict lower triangles of the frontal diagonal blocks. -/
theorem HessianFactor.splitEliminatedFactor_zeroes_frontal_blocks (self : HessianFactor K)
    (nrFrontals : Nat) (keys : List Nat) (hs : self.Splittable keys)
    (hn : nrFrontals ≤ keys.length) :
    (∀ b i j, b < nrFrontals → self.info_.offset b ≤ j → j < i →
      i < self.info_.offset (b + 1) →
      (self.splitEliminatedFactor nrFrontals keys).2.matrix_.coeff i j = 0) ∧
    (∀ b c r c', (self.splitEliminatedFactor nrFrontals keys).1[b]? = some c →
      c' < r → r < self.info_.blockDim b → c.matrix_.coeff r c' = 0) ∧
    (∀ i j, i ≤ j →
      (self.splitEliminatedFactor nrFrontals keys).2.matrix_.coeff i j
        = self.matrix_.coeff i j) ∧
    (∀ i j, self.info_.offset nrFrontals ≤ i →
      (self.splitEliminatedFactor nrFrontals keys).2.matrix_.coeff i j
        = self.matrix_.coeff i j) ∧
    (∀ i j, (∀ b, b < nrFrontals →
        ¬ (self.info_.offset b ≤ j ∧ j < i ∧ i < self.info_.offset (b + 1))) →
      (self.splitEliminatedFactor nrFrontals keys).2.matrix_.coeff i j
        = self.matrix_.coeff i j) := by
  obtain ⟨hA, hB⟩ := HessianFactor.splitLoop_matrix self keys hs nrFrontals hn
  obtain ⟨-, -, -, -, -, ie, il, ig⟩ :=
    HessianFactor.splitLoop_invariant self keys hs nrFrontals hn
  refine ⟨hA, ?_, fun i j hij => ie i j (Or.inl hij), fun i j hi => ie i j (Or.inr hi), hB⟩
  intro b c r c' hc hlt hr
  have hb : b < nrFrontals := by
    have := (List.getElem?_eq_some_iff.mp hc).1
    exact il ▸ this
  obtain ⟨-, -, -, -, -, -, h7⟩ := ig b c hc
  have hmono := SymmetricBlockView.offset_mono self.info_ hs.2.2.1
    (a := b + 1) (b := self.info_.nBlocks) (by have := hs.2.2.2; omega) (le_refl _)
  have hd : self.info_.blockDim b = self.info_.offset (b + 1) - self.info_.offset b := rfl
  rw [(h7 r c' hr (by omega)).2, if_pos hlt]

/-- Witness of C28: the factor over the keys `5, 7` split after its first variable keeps
its entry `(0, 1)` above the diagonal. -/
theorem HessianFactor.splitEliminatedFactor_zeroes_frontal_blocks_witness :
    (joint57.splitEliminatedFactor 1 [5, 7]).2.matrix_.coeff 0 1 = joint57.matrix_.coeff 0 1 :=
  (HessianFactor.splitEliminatedFactor_zeroes_frontal_blocks joint57 1 [5, 7] (by decide)
    (by decide)).2.2.1 0 1 (by decide)

end Paths

/-! ### Back-substitution -/

section BackSubstitution

variable {K : Type} [LinearOrderedField K]

/-- A loop that subtracts one term at every step subtracts their sum. -/
lemma foldl_range_sub (g : Nat → K) (z : K) (m : Nat) :
    (List.range m).foldl (fun zi t => zi - g t) z = z - ∑ t ∈ Finset.range m, g t := by
  induction m with
  | zero => simp
  | succ m ih =>
    rw [List.range_succ, List.foldl_append, List.foldl_cons, List.foldl_nil, ih,
      Finset.sum_range_succ]
    ring

omit [LinearOrderedField K] in
/-- Two loops whose bodies agree on the indices visited agree. -/
lemma foldlM_range_congr {α : Type} (f g : α → Nat → Except Exception α) (n : Nat) (a : α)
    (h : ∀ k x, k < n → f x k = g x k) :
    (List.range n).foldlM f a = (List.range n).foldlM g a := by
  induction n with
  | zero => rfl
  | succ n ih =>
    rw [List.range_succ, List.foldlM_append, List.foldlM_append,
      ih fun k x hk => h k x (Nat.lt_succ_of_lt hk)]
    congr 1
    funext x
    simp only [List.foldlM_cons, List.foldlM_nil]
    rw [h n x (Nat.lt_succ_self n)]

omit [LinearOrderedField K] in
/-- A loop whose body succeeds and re-establishes an invariant at every step succeeds,
and what the invariant implies at its end holds of the result. -/
lemma foldlM_range_invariant {α : Type} (f : α → Nat → Except Exception α)
    (P : Nat → α → Prop) (n : Nat) (a : α) (Q : α → Prop) (h0 : P 0 a)
    (hstep : ∀ k x, k < n → P k x → ∃ y, f x k = .ok y ∧ P (k + 1) y)
    (hend : ∀ y, P n y → Q y) :
    ∃ y, (List.range n).foldlM f a = .ok y ∧ Q y := by
  suffices h : ∃ y, (List.range n).foldlM f a = .ok y ∧ P n y by
    obtain ⟨y, hy, hP⟩ := h
    exact ⟨y, hy, hend y hP⟩
  clear hend
  induction n with
  | zero => exact ⟨a, rfl, h0⟩
  | succ n ih =>
    obtain ⟨x, hx, hP⟩ := ih fun k x hk => hstep k x (Nat.lt_succ_of_lt hk)
    obtain ⟨y, hy, hQ⟩ := hstep n x (Nat.lt_succ_self n) hP
    exact ⟨y, (foldlM_range_succ_ok f n a y).mpr ⟨x, hx, hy⟩, hQ⟩

/-- The loop of `backSubstituteUpper(U, b, unit)` on a square matrix, with the inner loop
written as a sum: row `n - 1 - k` is solved at step `k`. -/
lemma backSubstituteUpper_eq (NDEBUG : Bool) (fresh : Nat → K) (U : MatrixXd K)
    (b : VectorXd K) (unit : Bool) (hsq : U.rows = U.cols) :
    backSubstituteUpper NDEBUG fresh U b unit =
      (List.range U.cols).foldlM (fun (result : VectorXd K) k =>
        if !NDEBUG && !unit &&
            decide (|U.coeff (U.cols - 1 - k) (U.cols - 1 - k)| ≤ epsilon K) then
          .error (.invalid_argument "backSubstituteUpper: U is singular")
        else
          .ok (result.set (U.cols - 1 - k)
            (if !unit then
              (b.coeff (U.cols - 1 - k) - ∑ t ∈ Finset.range k,
                U.coeff (U.cols - 1 - k) (U.cols - 1 - k + 1 + t) *
                  result.coeff (U.cols - 1 - k + 1 + t)) /
                U.coeff (U.cols - 1 - k) (U.cols - 1 - k)
             else
              b.coeff (U.cols - 1 - k) - ∑ t ∈ Finset.range k,
                U.coeff (U.cols - 1 - k) (U.cols - 1 - k + 1 + t) *
                  result.coeff (U.cols - 1 - k + 1 + t))))
        ⟨U.cols, fresh⟩ := by
  unfold backSubstituteUpper
  simp only [hsq, bne_self_eq_false, Bool.and_false, Bool.false_eq_true, if_false]
  refine foldlM_range_congr _ _ _ _ fun k x hk => ?_
  have e1 : U.cols - k - 1 = U.cols - 1 - k := by omega
  have e2 : U.cols - (U.cols - k) = k := by omega
  have e3 : ∀ t, U.cols - k + 1 + t - 1 = U.cols - 1 - k + 1 + t := fun t => by omega
  simp only [e1, e2, e3]
  rw [foldl_range_sub (fun t => U.coeff (U.cols - 1 - k) (U.cols - 1 - k + 1 + t) *
    x.coeff (U.cols - 1 - k + 1 + t))]

/-- The loop of `backSubstituteUpper(b, U, unit)` on a square matrix, with the inner loop
written as a sum: column `k` is solved at step `k`. -/
lemma backSubstituteUpperLeft_eq (NDEBUG : Bool) (fresh : Nat → K) (b : VectorXd K)
    (U : MatrixXd K) (unit : Bool) (hsq : U.rows = U.cols) :
    backSubstituteUpperLeft NDEBUG fresh b U unit =
      (List.range U.cols).foldlM (fun (result : VectorXd K) k =>
        if !NDEBUG && !unit && decide (|U.coeff k k| ≤ epsilon K) then
          .error (.invalid_argument "backSubstituteUpper: U is singular")
        else
          .ok (result.set k
            (if !unit then
              (b.coeff k - ∑ t ∈ Finset.range k, U.coeff t k * result.coeff t) / U.coeff k k
             else b.coeff k - ∑ t ∈ Finset.range k, U.coeff t k * result.coeff t)))
        ⟨U.cols, fresh⟩ := by
  unfold backSubstituteUpperLeft
  simp only [hsq, bne_self_eq_false, Bool.and_false, Bool.false_eq_true, if_false]
  refine foldlM_range_congr _ _ _ _ fun k x hk => ?_
  have e1 : k + 1 - 1 = k := by omega
  have e3 : ∀ t, 1 + t - 1 = t := fun t => by omega
  simp only [e1, e3]
  rw [foldl_range_sub (fun t => U.coeff t k * x.coeff t)]

/-- The part of a sum over `range n` on and after the index `r`. -/
lemma sum_range_from (f : Nat → K) (r n : Nat) (hr : r < n) :
    ∑ j ∈ Finset.range n, (if r ≤ j then f j else 0)
      = f r + ∑ t ∈ Finset.range (n - 1 - r), f (r + 1 + t) := by
  have hn : n = r + 1 + (n - 1 - r) := by omega
  conv_lhs => rw [hn]
  rw [Finset.sum_range_add, Finset.sum_range_succ]
  have h1 : ∑ x ∈ Finset.range r, (if r ≤ x then f x else 0) = 0 :=
    Finset.sum_eq_zero fun x hx => if_neg (by have := Finset.mem_range.mp hx; omega)
  rw [h1, zero_add, if_pos (le_refl r)]
  congr 1
  exact Finset.sum_congr rfl fun t _ => if_pos (by omega)

/-- A diagonal entry above the machine epsilon in magnitude is not zero and passes the
singularity check. -/
lemma diag_of_epsilon_lt (u : K) (h : epsilon K < |u|) (NDEBUG : Bool) :
    u ≠ 0 ∧ (!NDEBUG && !false && decide (|u| ≤ epsilon K)) = false := by
  have heps : (0 : K) < epsilon K := by unfold epsilon; positivity
  refine ⟨abs_pos.mp (lt_trans heps h), ?_⟩
  simp [not_le.mpr h]

/-- On a square matrix whose diagonal entries exceed the machine epsilon in magnitude,
`backSubstituteUpper(U, b)` returns a vector that satisfies every row equation of the
upper triangle of `U`. -/
lemma backSubstituteUpper_rows (NDEBUG : Bool) (fresh : Nat → K) (U : MatrixXd K)
    (b : VectorXd K) (hsq : U.rows = U.cols)
    (hdiag : ∀ i, i < U.cols → epsilon K < |U.coeff i i|) :
    ∃ x, backSubstituteUpper NDEBUG fresh U b false = .ok x ∧ x.size = U.cols ∧
      ∀ r, r < U.cols →
        x.coeff r * U.coeff r r + ∑ t ∈ Finset.range (U.cols - 1 - r),
          U.coeff r (r + 1 + t) * x.coeff (r + 1 + t) = b.coeff r := by
  rw [backSubstituteUpper_eq NDEBUG fresh U b false hsq]
  refine foldlM_range_invariant _
    (fun k (x : VectorXd K) => x.size = U.cols ∧ ∀ r, U.cols - k ≤ r → r < U.cols →
      x.coeff r * U.coeff r r + ∑ t ∈ Finset.range (U.cols - 1 - r),
        U.coeff r (r + 1 + t) * x.coeff (r + 1 + t) = b.coeff r)
    U.cols ⟨U.cols, fresh⟩ _ ⟨rfl, fun r h1 h2 => absurd h2 (by omega)⟩ ?_
    (fun x hx => ⟨hx.1, fun r hr => hx.2 r (by omega) hr⟩)
  intro k x hk ⟨hsz, hP⟩
  obtain ⟨hne, hcheck⟩ := diag_of_epsilon_lt _ (hdiag (U.cols - 1 - k) (by omega)) NDEBUG
  rw [if_neg (by rw [hcheck]; exact Bool.false_ne_true)]
  refine ⟨_, rfl, hsz, fun r h1 h2 => ?_⟩
  simp only [VectorXd.set, Bool.not_false, if_true]
  have hshift : ∀ t, ¬ (r + 1 + t = U.cols - 1 - k) := fun t => by omega
  simp only [hshift, if_false]
  by_cases hr : r = U.cols - 1 - k
  · rw [if_pos hr, hr, div_mul_cancel₀ _ hne]
    have hk' : U.cols - 1 - (U.cols - 1 - k) = k := by omega
    rw [hk']
    ring
  · rw [if_neg hr]
    exact hP r (by omega) h2

/-- On the upper triangle of a matrix `backSubstituteUpper(U, b, unit)` reads `U`
only: a matrix with the same upper triangle gives the same result. -/
lemma backSubstituteUpper_upper_only (NDEBUG : Bool) (fresh : Nat → K) (U U' : MatrixXd K)
    (b : VectorXd K) (unit : Bool) (hsq : U.rows = U.cols) (hr : U'.rows = U.rows)
    (hc : U'.cols = U.cols) (h : ∀ i j, i ≤ j → U'.coeff i j = U.coeff i j) :
    backSubstituteUpper NDEBUG fresh U' b unit = backSubstituteUpper NDEBUG fresh U b unit := by
  rw [backSubstituteUpper_eq NDEBUG fresh U b unit hsq,
    backSubstituteUpper_eq NDEBUG fresh U' b unit (by rw [hr, hc, hsq]), hc]
  refine foldlM_range_congr _ _ _ _ fun k x _ => ?_
  rw [h _ _ (le_refl _)]
  have hsum : ∑ t ∈ Finset.range k, U'.coeff (U.cols - 1 - k) (U.cols - 1 - k + 1 + t) *
        x.coeff (U.cols - 1 - k + 1 + t)
      = ∑ t ∈ Finset.range k, U.coeff (U.cols - 1 - k) (U.cols - 1 - k + 1 + t) *
        x.coeff (U.cols - 1 - k + 1 + t) :=
    Finset.sum_congr rfl fun t _ => by rw [h _ _ (by omega)]
  rw [hsum]

/-- C23. `backSubstituteUpper(U, b)` solves `U*x = b`: for a square `n x n` matrix `U`
whose diagonal entries all exceed the machine epsilon in magnitude and every `b`, the
call with `unit = false` returns a vector `x` of length `n` that solves the system of the
upper triangle of `U`; it solves `U*x = b` if `U` is upper triangular; and the entries
below the diagonal are never read: a matrix with the same upper triangle gives the same
`x`. -/
theorem backSubstituteUpper_solves (NDEBUG : Bool) (fresh : Nat → K) (U : MatrixXd K)
    (b : VectorXd K) (hsq : U.rows = U.cols)
    (hdiag : ∀ i, i < U.cols → epsilon K < |U.coeff i i|) :
    ∃ x, backSubstituteUpper NDEBUG fresh U b false = .ok x ∧ x.size = U.cols ∧
      (∀ i, i < U.cols →
        ∑ j ∈ Finset.range U.cols, (if i ≤ j then U.coeff i j * x.coeff j else 0)
          = b.coeff i) ∧
      ((∀ i j, j < i → U.coeff i j = 0) →
        Matrix.mulVec (Matrix.of fun (i j : Fin U.cols) => U.coeff i j)
          (fun (j : Fin U.cols) => x.coeff j) = fun (i : Fin U.cols) => b.coeff i) ∧
      ∀ U' : MatrixXd K, U'.rows = U.rows → U'.cols = U.cols →
        (∀ i j, i ≤ j → U'.coeff i j = U.coeff i j) →
        backSubstituteUpper NDEBUG fresh U' b false = .ok x := by
  obtain ⟨x, hx, hsize, hrows⟩ := backSubstituteUpper_rows NDEBUG fresh U b hsq hdiag
  have hsys : ∀ i, i < U.cols →
      ∑ j ∈ Finset.range U.cols, (if i ≤ j then U.coeff i j * x.coeff j else 0)
        = b.coeff i := by
    intro i hi
    rw [sum_range_from (fun j => U.coeff i j * x.coeff j) i U.cols hi, ← hrows i hi]
    ring
  refine ⟨x, hx, hsize, hsys, fun htri => ?_, fun U' hr hc h => ?_⟩
  · funext i
    simp only [Matrix.mulVec, Matrix.dotProduct, Matrix.of_apply]
    rw [← Finset.sum_range (fun j => U.coeff i j * x.coeff j), ← hsys i i.isLt]
    refine Finset.sum_congr rfl fun j _ => ?_
    split_ifs with hij
    · rfl
    · rw [htri i j (by omega), zero_mul]
  · rw [backSubstituteUpper_upper_only NDEBUG fresh U U' b false hsq hr hc h, hx]

/-- Witness of C23: `[2 1; 0 4] * x = (4, 8)` is solved by the vector returned, whose
second row reads `4 * x_1 = 8`. -/
theorem backSubstituteUpper_solves_witness :
    ∃ x, backSubstituteUpper false (fun _ => 0) upper2 rhs48 false = .ok x ∧ x.size = 2 ∧
      ∀ i, i < 2 →
        ∑ j ∈ Finset.range 2, (if i ≤ j then upper2.coeff i j * x.coeff j else 0)
          = rhs48.coeff i := by
  obtain ⟨x, h1, h2, h3, -⟩ := backSubstituteUpper_solves false (fun _ => 0) upper2 rhs48 rfl
    (by
      intro i hi
      have hi' : i < 2 := hi
      interval_cases i <;> norm_num [upper2, epsilon])
  exact ⟨x, h1, h2, h3⟩

/-- The loop of `backSubstituteUpper(b, U, unit)` with `unit = true`: neither the check
nor the division is reached. -/
lemma backSubstituteUpperLeft_unit_eq (NDEBUG : Bool) (fresh : Nat → K) (b : VectorXd K)
    (U : MatrixXd K) (hsq : U.rows = U.cols) :
    backSubstituteUpperLeft NDEBUG fresh b U true =
      (List.range U.cols).foldlM (fun (result : VectorXd K) k =>
        (.ok (result.set k
          (b.coeff k - ∑ t ∈ Finset.range k, U.coeff t k * result.coeff t)) :
          Except Exception (VectorXd K)))
        ⟨U.cols, fresh⟩ := by
  rw [backSubstituteUpperLeft_eq NDEBUG fresh b U true hsq]
  simp only [Bool.not_true, Bool.and_false, Bool.false_and, Bool.false_eq_true, if_false]

/-- C24. `backSubstituteUpper(b, U)` solves `xᵀ*U = bᵀ`: for a square `n x n` matrix `U`
and every `b`, if the diagonal entries of `U` all exceed the machine epsilon in magnitude
the call with `unit = false` returns a vector `x` of length `n` with
`sum_{j<=i} x_j * U_ji = b_i` for every `i`; the call with `unit = true` returns `x`
with `x_i + sum_{j<i} x_j * U_ji = b_i`, whatever the diagonal of `U` is: the diagonal is
neither read nor divided by, and a matrix with the same entries above the diagonal gives
the same `x`. -/
theorem backSubstituteUpperLeft_solves (NDEBUG : Bool) (fresh : Nat → K) (b : VectorXd K)
    (U : MatrixXd K) (hsq : U.rows = U.cols) :
    ((∀ i, i < U.cols → epsilon K < |U.coeff i i|) →
      ∃ x, backSubstituteUpperLeft NDEBUG fresh b U false = .ok x ∧ x.size = U.cols ∧
        ∀ i, i < U.cols →
          ∑ j ∈ Finset.range (i + 1), x.coeff j * U.coeff j i = b.coeff i) ∧
    ∃ x, backSubstituteUpperLeft NDEBUG fresh b U true = .ok x ∧ x.size = U.cols ∧
      (∀ i, i < U.cols →
        x.coeff i + ∑ j ∈ Finset.range i, x.coeff j * U.coeff j i = b.coeff i) ∧
      ∀ U' : MatrixXd K, U'.rows = U.rows → U'.cols = U.cols →
        (∀ j i, j < i → U'.coeff j i = U.coeff j i) →
        backSubstituteUpperLeft NDEBUG fresh b U' true = .ok x := by
  constructor
  · intro hdiag
    rw [backSubstituteUpperLeft_eq NDEBUG fresh b U false hsq]
    refine foldlM_range_invariant _
      (fun k (x : VectorXd K) => x.size = U.cols ∧ ∀ c, c < k →
        ∑ j ∈ Finset.range (c + 1), x.coeff j * U.coeff j c = b.coeff c)
      U.cols ⟨U.cols, fresh⟩ _ ⟨rfl, fun c hc => absurd hc (Nat.not_lt_zero c)⟩ ?_
      (fun x hx => hx)
    intro k x hk ⟨hsz, hP⟩
    obtain ⟨hne, hcheck⟩ := diag_of_epsilon_lt _ (hdiag k hk) NDEBUG
    rw [if_neg (by rw [hcheck]; exact Bool.false_ne_true)]
    refine ⟨_, rfl, hsz, fun c hc => ?_⟩
    simp only [VectorXd.set, Bool.not_false, if_true]
    by_cases hck : c = k
    · subst hck
      rw [Finset.sum_range_succ, if_pos rfl, div_mul_cancel₀ _ hne]
      have h1 : ∑ j ∈ Finset.range c,
            (if j = c then (b.coeff c - ∑ t ∈ Finset.range c, U.coeff t c * x.coeff t) /
              U.coeff c c else x.coeff j) * U.coeff j c
          = ∑ t ∈ Finset.range c, U.coeff t c * x.coeff t :=
        Finset.sum_congr rfl fun j hj => by
          rw [if_neg (by have := Finset.mem_range.mp hj; omega), mul_comm]
      rw [h1]
      ring
    · have h1 : ∑ j ∈ Finset.range (c + 1),
            (if j = k then (b.coeff k - ∑ t ∈ Finset.range k, U.coeff t k * x.coeff t) /
              U.coeff k k else x.coeff j) * U.coeff j c
          = ∑ j ∈ Finset.range (c + 1), x.coeff j * U.coeff j c :=
        Finset.sum_congr rfl fun j hj => by
          rw [if_neg (by have := Finset.mem_range.mp hj; omega)]
      rw [h1]
      exact hP c (by omega)
  · have hex : ∃ x, backSubstituteUpperLeft NDEBUG fresh b U true = .ok x ∧
        (x.size = U.cols ∧ ∀ i, i < U.cols →
          x.coeff i + ∑ j ∈ Finset.range i, x.coeff j * U.coeff j i = b.coeff i) := by
      rw [backSubstituteUpperLeft_unit_eq NDEBUG fresh b U hsq]
      refine foldlM_range_invariant _
        (fun k (x : VectorXd K) => x.size = U.cols ∧ ∀ c, c < k →
          x.coeff c + ∑ j ∈ Finset.range c, x.coeff j * U.coeff j c = b.coeff c)
        U.cols ⟨U.cols, fresh⟩ _ ⟨rfl, fun c hc => absurd hc (Nat.not_lt_zero c)⟩ ?_
        (fun x hx => hx)
      intro k x hk ⟨hsz, hP⟩
      refine ⟨_, rfl, hsz, fun c hc => ?_⟩
      simp only [VectorXd.set]
      have h1 : ∑ j ∈ Finset.range c,
            (if j = k then b.coeff k - ∑ t ∈ Finset.range k, U.coeff t k * x.coeff t
              else x.coeff j) * U.coeff j c
          = ∑ j ∈ Finset.range c, x.coeff j * U.coeff j c :=
        Finset.sum_congr rfl fun j hj => by
          rw [if_neg (by have := Finset.mem_range.mp hj; omega)]
      rw [h1]
      by_cases hck : c = k
      · subst hck
        rw [if_pos rfl]
        have h2 : ∑ j ∈ Finset.range c, x.coeff j * U.coeff j c
            = ∑ t ∈ Finset.range c, U.coeff t c * x.coeff t :=
          Finset.sum_congr rfl fun j _ => mul_comm _ _
        rw [h2]
        ring
      · rw [if_neg hck]
        exact hP c (by omega)
    obtain ⟨x, hx, hsize, hsol⟩ := hex
    refine ⟨x, hx, hsize, hsol, fun U' hr hc h => ?_⟩
    rw [← hx, backSubstituteUpperLeft_unit_eq NDEBUG fresh b U hsq,
      backSubstituteUpperLeft_unit_eq NDEBUG fresh b U' (by rw [hr, hc, hsq]), hc]
    refine foldlM_range_congr _ _ _ _ fun k y _ => ?_
    have hsum : ∑ t ∈ Finset.range k, U'.coeff t k * y.coeff t
        = ∑ t ∈ Finset.range k, U.coeff t k * y.coeff t :=
      Finset.sum_congr rfl fun t ht => by rw [h t k (Finset.mem_range.mp ht)]
    rw [hsum]

/-- Witness of C24: for `U = [2 1; 0 4]` and `b = (4, 8)` the call with `unit = true`
returns `x` with `x_0 = 4` and `x_1 + x_0 * 1 = 8`. -/
theorem backSubstituteUpperLeft_solves_witness :
    ∃ x, backSubstituteUpperLeft false (fun _ => 0) rhs48 upper2 true = .ok x ∧ x.size = 2 ∧
      ∀ i, i < 2 →
        x.coeff i + ∑ j ∈ Finset.range i, x.coeff j * upper2.coeff j i = rhs48.coeff i := by
  obtain ⟨x, h1, h2, h3, -⟩ :=
    (backSubstituteUpperLeft_solves false (fun _ => 0) rhs48 upper2 rfl).2
  exact ⟨x, h1, h2, h3⟩

/-- For an upper triangular matrix with diagonal entries above the machine epsilon in
magnitude, `backSubstituteUpper(U, b)` with `b = U*y` returns `y`. -/
lemma backSubstituteUpper_recovers (NDEBUG : Bool) (fresh : Nat → K) (U : MatrixXd K)
    (b y : VectorXd K) (hsq : U.rows = U.cols) (htri : ∀ i j, j < i → U.coeff i j = 0)
    (hdiag : ∀ i, i < U.cols → epsilon K < |U.coeff i i|)
    (hb : ∀ i, i < U.cols → b.coeff i = ∑ j ∈ Finset.range U.cols, U.coeff i j * y.coeff j) :
    ∃ x, backSubstituteUpper NDEBUG fresh U b false = .ok x ∧ x.size = U.cols ∧
      ∀ i, i < U.cols → x.coeff i = y.coeff i := by
  rw [backSubstituteUpper_eq NDEBUG fresh U b false hsq]
  refine foldlM_range_invariant _
    (fun k (x : VectorXd K) => x.size = U.cols ∧ ∀ r, U.cols - k ≤ r → r < U.cols →
      x.coeff r = y.coeff r)
    U.cols ⟨U.cols, fresh⟩ _ ⟨rfl, fun r h1 h2 => absurd h2 (by omega)⟩ ?_
    (fun x hx => ⟨hx.1, fun r hr => hx.2 r (by omega) hr⟩)
  intro k x hk ⟨hsz, hP⟩
  obtain ⟨hne, hcheck⟩ := diag_of_epsilon_lt _ (hdiag (U.cols - 1 - k) (by omega)) NDEBUG
  rw [if_neg (by rw [hcheck]; exact Bool.false_ne_true)]
  refine ⟨_, rfl, hsz, fun r h1 h2 => ?_⟩
  simp only [VectorXd.set, Bool.not_false, if_true]
  by_cases hr : r = U.cols - 1 - k
  · rw [if_pos hr, ← hr]
    have hrow : b.coeff r = U.coeff r r * y.coeff r + ∑ t ∈ Finset.range (U.cols - 1 - r),
        U.coeff r (r + 1 + t) * y.coeff (r + 1 + t) := by
      rw [hb r h2, ← sum_range_from (fun j => U.coeff r j * y.coeff j) r U.cols h2]
      refine Finset.sum_congr rfl fun j _ => ?_
      split_ifs with hrj
      · rfl
      · rw [htri r j (by omega), zero_mul]
    have hk' : U.cols - 1 - r = k := by omega
    have hsum : ∑ t ∈ Finset.range k, U.coeff r (r + 1 + t) * x.coeff (r + 1 + t)
        = ∑ t ∈ Finset.range k, U.coeff r (r + 1 + t) * y.coeff (r + 1 + t) :=
      Finset.sum_congr rfl fun t ht => by
        have := Finset.mem_range.mp ht
        rw [hP (r + 1 + t) (by omega) (by omega)]
    rw [hsum, hrow, hk', add_sub_cancel_right, mul_div_cancel_left₀ _ (hr ▸ hne)]
  · rw [if_neg hr]
    exact hP r (by omega) h2

/-- C25. Back-substitution round trip: for a square upper triangular matrix `U` whose
diagonal entries exceed the machine epsilon in magnitude and every vector `y`,
`backSubstituteUpper(U, U*y)` returns `y`; in particular a zero right-hand side gives the
zero vector. -/
theorem backSubstituteUpper_round_trip (NDEBUG : Bool) (fresh : Nat → K) (U : MatrixXd K)
    (hsq : U.rows = U.cols) (htri : ∀ i j, j < i → U.coeff i j = 0)
    (hdiag : ∀ i, i < U.cols → epsilon K < |U.coeff i i|) :
    (∀ y : VectorXd K,
      ∃ x, backSubstituteUpper NDEBUG fresh U
          ⟨U.cols, fun i => ∑ j ∈ Finset.range U.cols, U.coeff i j * y.coeff j⟩ false = .ok x ∧
        x.size = U.cols ∧ ∀ i, i < U.cols → x.coeff i = y.coeff i) ∧
    ∃ x, backSubstituteUpper NDEBUG fresh U ⟨U.cols, fun _ => 0⟩ false = .ok x ∧
      x.size = U.cols ∧ ∀ i, i < U.cols → x.coeff i = 0 := by
  refine ⟨fun y => backSubstituteUpper_recovers NDEBUG fresh U _ y hsq htri hdiag
    fun i _ => rfl, ?_⟩
  exact backSubstituteUpper_recovers NDEBUG fresh U _ ⟨U.cols, fun _ => 0⟩ hsq htri hdiag
    fun i _ => by simp

/-- Witness of C25: `[2 1; 0 4] * (1, 2) = (4, 8)`, and back-substitution of `(4, 8)`
returns `(1, 2)`. -/
theorem backSubstituteUpper_round_trip_witness :
    ∃ x, backSubstituteUpper false (fun _ => 0) upper2
        ⟨2, fun i => ∑ j ∈ Finset.range 2,
          upper2.coeff i j * (if j = 0 then (1 : ℚ) else 2)⟩ false = .ok x ∧
      x.size = 2 ∧ ∀ i, i < 2 → x.coeff i = if i = 0 then 1 else 2 :=
  (backSubstituteUpper_round_trip false (fun _ => 0) upper2 rfl
    (by
      intro i j hji
      simp only [upper2]
      split_ifs <;> first | rfl | omega)
    (by
      intro i hi
      have hi' : i < 2 := hi
      interval_cases i <;> norm_num [upper2, epsilon])).1 ⟨2, fun j => if j = 0 then 1 else 2⟩

end BackSubstitution

/-! ### Invariants of lambda and termination of the inner loop -/

section LambdaInvariants

namespace LevenbergMarquardtOptimizer

variable {K V : Type} [LinearOrderedField K]

/-- C37. In fixed-factor mode a decrease undoes an increase: with
`useFixedLambdaFactor_` true, `lambdaFactor != 0` and `lambda >= lambdaLowerBound`,
`increaseLambda` followed by `decreaseLambda(q)` returns lambda to its previous value for
every `q`, and neither operation changes `lambdaFactor`. -/
theorem fixed_decrease_undoes_increase (self : LevenbergMarquardtOptimizer K V) (q : K)
    (hmode : self.params_.useFixedLambdaFactor_ = true)
    (hfactor : self.params_.lambdaFactor ≠ 0)
    (hlow : self.params_.lambdaLowerBound ≤ self.state_.lambda) :
    (self.increaseLambda.decreaseLambda q).state_.lambda = self.state_.lambda ∧
    self.increaseLambda.params_.lambdaFactor = self.params_.lambdaFactor ∧
    (self.increaseLambda.decreaseLambda q).params_.lambdaFactor = self.params_.lambdaFactor ∧
    (self.decreaseLambda q).params_.lambdaFactor = self.params_.lambdaFactor := by
  have hinc : self.increaseLambda.params_.lambdaFactor = self.params_.lambdaFactor := by
    rw [increaseLambda_lambdaFactor, hmode, if_pos rfl]
  obtain ⟨-, -, -, hl, hm⟩ := increaseLambda_frame self
  have hm' : self.increaseLambda.params_.useFixedLambdaFactor_ = true := by rw [hm, hmode]
  have hfix : ∀ (o : LevenbergMarquardtOptimizer K V), o.params_.useFixedLambdaFactor_ = true →
      (o.decreaseLambda q).params_.lambdaFactor = o.params_.lambdaFactor := by
    intro o ho
    unfold decreaseLambda
    rw [if_pos ho]
  have hlb : self.increaseLambda.params_.lambdaLowerBound = self.params_.lambdaLowerBound := by
    unfold increaseLambda
    rw [if_pos hmode]
  refine ⟨?_, hinc, (hfix _ hm').trans hinc, hfix self hmode⟩
  rw [decreaseLambda_fixed _ q hm', hl, hinc, hlb, mul_div_cancel_right₀ _ hfactor]
  exact max_eq_right hlow

/-- Witness of C37: lambda `1` with multiplier `10` in fixed-factor mode goes to `10`
and back to `1`. -/
theorem fixed_decrease_undoes_increase_witness :
    (((optimizerAt 1 10 100 (1 / 10) 0 0 1 true).increaseLambda).decreaseLambda 0).state_.lambda
      = (optimizerAt 1 10 100 (1 / 10) 0 0 1 true).state_.lambda :=
  (fixed_decrease_undoes_increase (optimizerAt 1 10 100 (1 / 10) 0 0 1 true) 0 rfl
    (by norm_num [optimizerAt]) (by norm_num [optimizerAt])).1

/-- C32, failing input. A call of `iterate()` with `minModelFidelity = 0` that accepts
a step after which the cost is larger: cost `1`, predicted cost `1` (predicted reduction
`0`, the degenerate case) and new cost `2`, with `relativeErrorTol = 0`; the step is
accepted and `state.error` goes from `1` to `2`. -/
theorem accepted_step_may_increase_cost :
    (0 : ℚ) ≤ (optimizerAt 1 10 100 (1 / 10) 0 0 1 false).params_.minModelFidelity ∧
    ∃ next, (optimizerAt 1 10 100 (1 / 10) 0 0 1 false).iterateTrace
        (oracle (.ok []) 1 (costTable 1 2)) 1 = .ok (some (.accepted, next)) ∧
      next.state_.error = 2 ∧
      ¬ next.state_.error ≤ (optimizerAt 1 10 100 (1 / 10) 0 0 1 false).state_.error := by
  refine ⟨by norm_num [optimizerAt], ?_⟩
  have htrial := trial_accepted (oracle (.ok []) 1 (costTable 1 2)) []
    (optimizerAt 1 10 100 (1 / 10) 0 0 1 false) [] rfl (by norm_num [optimizerAt, oracle])
    (by norm_num [optimizerAt, oracle, costTable])
    (Or.inl (by norm_num [optimizerAt, oracle]))
  have hex : ∃ n, (optimizerAt 1 10 100 (1 / 10) 0 0 1 false).trial
      (oracle (.ok []) 1 (costTable 1 2)) [] = .ok (.accepted, n) ∧ n.state_.error = 2 :=
    ⟨_, htrial, by
      rw [(decreaseLambda_frame _ _).2.1]
      simp [oracle, costTable]⟩
  obtain ⟨n, hn, he⟩ := hex
  have hret : (optimizerAt 1 10 100 (1 / 10) 0 0 1 false).iterateTrace
      (oracle (.ok []) 1 (costTable 1 2)) 1 = .ok (some (.accepted,
        { n with state_ := { n.state_ with iterations := n.state_.iterations + 1 } })) := by
    simp only [iterateTrace]
    rw [show (oracle (.ok []) 1 (costTable 1 2)).linearize
      (optimizerAt 1 10 100 (1 / 10) 0 0 1 false).state_.values = [] from rfl,
      iterateLoop_succ_of_break _ _ 0 _ _ _ hn (by simp)]
  refine ⟨_, hret, he, ?_⟩
  show ¬ n.state_.error ≤ _
  rw [he]
  norm_num [optimizerAt]

end LevenbergMarquardtOptimizer

end LambdaInvariants

/-! ### The damping parameter in the arithmetic of `double` -/

section Rounding

namespace LevenbergMarquardtOptimizer

variable {K V : Type} [LinearOrderedField K]

/-- Without rounding, `increaseLambda()` in the arithmetic of `double` is
`increaseLambda`. -/
lemma increaseLambdaRounded_id (self : LevenbergMarquardtOptimizer K V) :
    self.increaseLambdaRounded id = self.increaseLambda := rfl

/-- Without rounding, `decreaseLambda(q)` in the arithmetic of `double` is
`decreaseLambda`. -/
lemma decreaseLambdaRounded_id (self : LevenbergMarquardtOptimizer K V) (q : K) :
    self.decreaseLambdaRounded id q = self.decreaseLambda q := rfl

/-- Without rounding, the evaluation of a solved trial is `evaluateStep`. -/
lemma evaluateStepRounded_id (env : Collaborators K V) (linear : GaussianFactorGraph K)
    (self : LevenbergMarquardtOptimizer K V) (delta : VectorValues K) :
    evaluateStepRounded id env linear self delta = evaluateStep env linear self delta := rfl

/-- Without rounding, the end of a trial is `finishTrial`. -/
lemma finishTrialRounded_id (self : LevenbergMarquardtOptimizer K V)
    (evaluation : StepEvaluation K V) :
    finishTrialRounded id self evaluation = finishTrial self evaluation := by
  cases evaluation <;> rfl

/-- Without rounding, a trial is `trial`. -/
lemma trialRounded_id (env : Collaborators K V) (linear : GaussianFactorGraph K)
    (self : LevenbergMarquardtOptimizer K V) :
    self.trialRounded id env linear = self.trial env linear := by
  unfold trialRounded trial
  simp only [finishTrialRounded_id, evaluateStepRounded_id]

/-- Without rounding, the loop is `iterateLoop`. -/
lemma iterateLoopRounded_id (env : Collaborators K V) (linear : GaussianFactorGraph K) :
    ∀ (fuel : Nat) (self : LevenbergMarquardtOptimizer K V),
      iterateLoopRounded id env linear fuel self = iterateLoop env linear fuel self := by
  intro fuel
  induction fuel with
  | zero => intro self; rfl
  | succ fuel ih =>
    intro self
    unfold iterateLoopRounded iterateLoop
    rw [trialRounded_id]
    cases self.trial env linear with
    | error e => rfl
    | ok r =>
      obtain ⟨o, nx⟩ := r
      cases o <;> simp only [ih]

/-- Without rounding, `iterate()` in the arithmetic of `double` is `iterate`. -/
lemma iterateRounded_id (env : Collaborators K V) (fuel : Nat)
    (self : LevenbergMarquardtOptimizer K V) :
    iterateRounded id env fuel self = self.iterate env fuel := by
  unfold iterateRounded iterate iterateTrace
  rw [iterateLoopRounded_id]
  dsimp only
  generalize iterateLoop env (env.linearize self.state_.values) fuel self = r
  rcases r with e | _ | p <;> rfl

end LevenbergMarquardtOptimizer

end Rounding

/-! ### The cache of the damping diagonal -/

section DiagonalCache

namespace LevenbergMarquardtOptimizer

variable {K V : Type} [LinearOrderedField K]

/-- What `increaseLambda` does to the cache: it is to be reused, and it is not touched. -/
lemma increaseLambda_cache (self : LevenbergMarquardtOptimizer K V) :
    self.increaseLambda.params_.reuse_diagonal_ = true ∧
    self.increaseLambda.params_.diagonalDamping = self.params_.diagonalDamping ∧
    self.increaseLambda.state_.hessianDiagonal = self.state_.hessianDiagonal := by
  unfold increaseLambda
  split_ifs <;> exact ⟨rfl, rfl, rfl⟩

/-- What `decreaseLambda` does to the cache: it is not to be reused. -/
lemma decreaseLambda_cache (self : LevenbergMarquardtOptimizer K V) (q : K) :
    (self.decreaseLambda q).params_.reuse_diagonal_ = false ∧
    (self.decreaseLambda q).params_.diagonalDamping = self.params_.diagonalDamping := by
  unfold decreaseLambda
  split_ifs <;> exact ⟨rfl, rfl⟩

/-- The cache at the end of a trial: an accepted step leaves `reuse_diagonal_` false, a
trial that is not accepted leaves the cache and the estimate alone, and a rejected one
leaves `reuse_diagonal_` true. -/
lemma finishTrial_cache (self : LevenbergMarquardtOptimizer K V)
    (evaluation : StepEvaluation K V) :
    (finishTrial self evaluation).2.params_.diagonalDamping = self.params_.diagonalDamping ∧
    ((finishTrial self evaluation).1 = .accepted →
      (finishTrial self evaluation).2.params_.reuse_diagonal_ = false) ∧
    ((finishTrial self evaluation).1 ≠ .accepted →
      (finishTrial self evaluation).2.state_.hessianDiagonal = self.state_.hessianDiagonal ∧
      (finishTrial self evaluation).2.state_.values = self.state_.values) ∧
    ((finishTrial self evaluation).1 = .retry →
      (finishTrial self evaluation).2.params_.reuse_diagonal_ = true) := by
  cases evaluation with
  | successful v e q =>
    refine ⟨(decreaseLambda_cache _ q).2, fun _ => (decreaseLambda_cache _ q).1,
      fun h => absurd rfl h, fun h => ?_⟩
    simp [finishTrial] at h
  | stopSearchingLambda =>
    refine ⟨rfl, fun h => ?_, fun _ => ⟨rfl, rfl⟩, fun h => ?_⟩
    · simp [finishTrial] at h
    · simp [finishTrial] at h
  | unsuccessful =>
    rw [finishTrial_unsuccessful]
    obtain ⟨h1, h2, h3⟩ := increaseLambda_cache self
    split_ifs
    · exact ⟨h2, fun h => by simp at h, fun _ => ⟨h3, (increaseLambda_frame self).1⟩,
        fun _ => h1⟩
    · exact ⟨h2, fun h => by simp at h, fun _ => ⟨h3, (increaseLambda_frame self).1⟩,
        fun _ => h1⟩

/-- The cache after a trial, in terms of the cache `buildDampedSystem` has left. -/
lemma trial_cache (env : Collaborators K V) (linear : GaussianFactorGraph K)
    (self : LevenbergMarquardtOptimizer K V) (outcome : TrialOutcome)
    (next : LevenbergMarquardtOptimizer K V)
    (htrial : self.trial env linear = .ok (outcome, next)) :
    next.params_.diagonalDamping = self.params_.diagonalDamping ∧
    (outcome = .accepted → next.params_.reuse_diagonal_ = false) ∧
    (outcome ≠ .accepted →
      next.state_.hessianDiagonal = (self.buildDampedSystem env linear).2.state_.hessianDiagonal ∧
      next.state_.values = self.state_.values) ∧
    (outcome = .retry → next.params_.reuse_diagonal_ = true) := by
  have key : ∀ s : LevenbergMarquardtOptimizer K V, ∀ ev,
      s.params_.diagonalDamping = self.params_.diagonalDamping →
      s.state_.hessianDiagonal = (self.buildDampedSystem env linear).2.state_.hessianDiagonal →
      s.state_.values = self.state_.values →
      finishTrial s ev = (outcome, next) →
      next.params_.diagonalDamping = self.params_.diagonalDamping ∧
      (outcome = .accepted → next.params_.reuse_diagonal_ = false) ∧
      (outcome ≠ .accepted →
        next.state_.hessianDiagonal =
          (self.buildDampedSystem env linear).2.state_.hessianDiagonal ∧
        next.state_.values = self.state_.values) ∧
      (outcome = .retry → next.params_.reuse_diagonal_ = true) := by
    intro s ev hd hh hv hf
    have h := finishTrial_cache s ev
    rw [hf] at h
    obtain ⟨h1, h2, h3, h4⟩ := h
    exact ⟨h1.trans hd, h2, fun hne => ⟨(h3 hne).1.trans hh, (h3 hne).2.trans hv⟩, h4⟩
  cases hsolve : env.solve (self.buildDampedSystem env linear).1 self.state_.values
      self.params_ with
  | ok delta =>
    rw [trial_of_solved env linear self delta hsolve] at htrial
    injection htrial with htrial
    refine key _ _ ?_ ?_ ?_ htrial
    · rw [afterSolve_params]
    · rw [afterSolve_state]; rfl
    · rw [afterSolve_state]; exact beforeSolve_values env linear self
  | error e =>
    cases e with
    | indeterminant_linear_system what =>
      rw [trial_of_indeterminant env linear self what hsolve] at htrial
      injection htrial with htrial
      refine key (self.beforeSolve env linear) .unsuccessful ?_ rfl
        (beforeSolve_values env linear self) htrial
      rw [beforeSolve_params]
    | invalid_argument what =>
      simp [trial, beforeSolve_values, beforeSolve_params, hsolve] at htrial
    | out_of_range what =>
      simp [trial, beforeSolve_values, beforeSolve_params, hsolve] at htrial

/-- A trial at the linearization of the current estimate keeps the cache fresh. -/
lemma trial_fresh (env : Collaborators K V) (linear : GaussianFactorGraph K)
    (self : LevenbergMarquardtOptimizer K V) (outcome : TrialOutcome)
    (next : LevenbergMarquardtOptimizer K V)
    (hdamp : self.params_.diagonalDamping = true) (hfresh : CacheFresh env self)
    (hlin : linear = env.linearize self.state_.values)
    (htrial : self.trial env linear = .ok (outcome, next)) :
    next.params_.diagonalDamping = true ∧ CacheFresh env next ∧
    (outcome ≠ .accepted → linear = env.linearize next.state_.values) := by
  obtain ⟨h1, h2, h3, -⟩ := trial_cache env linear self outcome next htrial
  refine ⟨h1.trans hdamp, ?_, fun hne => by rw [(h3 hne).2]; exact hlin⟩
  by_cases hacc : outcome = .accepted
  · intro hre
    rw [h2 hacc] at hre
    exact absurd hre (by simp)
  · intro _
    obtain ⟨hh, hv⟩ := h3 hacc
    rw [hh, hv, buildDampedSystem_cache, hdamp]
    cases hre : self.params_.reuse_diagonal_ with
    | false => simp [hlin]
    | true => simpa using hfresh hre

/-- Once the cache is to be reused, the loop does not recompute it. -/
lemma diagonalsComputed_of_reuse (env : Collaborators K V) (linear : GaussianFactorGraph K) :
    ∀ (fuel : Nat) (self : LevenbergMarquardtOptimizer K V),
      self.params_.reuse_diagonal_ = true → diagonalsComputed env linear fuel self = 0 := by
  intro fuel
  induction fuel with
  | zero => intro self _; rfl
  | succ fuel ih =>
    intro self hre
    have hc : (self.params_.diagonalDamping && self.params_.reuse_diagonal_ == false) = false := by
      rw [hre]
      simp
    rw [diagonalsComputed, hc]
    simp only [Bool.false_eq_true, if_false, zero_add]
    split
    · rename_i next htrial
      exact ih next ((trial_cache env linear self .retry next htrial).2.2.2 rfl)
    · rfl

/-- The loop of one `iterate()` call recomputes the cache at most once. -/
lemma diagonalsComputed_le_one (env : Collaborators K V) (linear : GaussianFactorGraph K)
    (fuel : Nat) (self : LevenbergMarquardtOptimizer K V) :
    diagonalsComputed env linear fuel self ≤ 1 := by
  cases fuel with
  | zero => exact Nat.zero_le 1
  | succ fuel =>
    rw [diagonalsComputed]
    have h2 : ∀ next, self.trial env linear = .ok (.retry, next) →
        diagonalsComputed env linear fuel next = 0 := fun next htrial =>
      diagonalsComputed_of_reuse env linear fuel next
        ((trial_cache env linear self .retry next htrial).2.2.2 rfl)
    split_ifs
    · split
      · rename_i next htrial
        rw [h2 next htrial]
      · exact le_refl 1
    · split
      · rename_i next htrial
        rw [h2 next htrial]
        omega
      · omega

/-- At the start of every trial of a run from an optimizer with diagonal damping on and
`reuse_diagonal_` false: damping is on, the cache is fresh, and the linearization of the
call is that of the current estimate. -/
lemma trialStart_fresh (env : Collaborators K V) (start : LevenbergMarquardtOptimizer K V)
    (hreuse : start.params_.reuse_diagonal_ = false)
    (hdamp : start.params_.diagonalDamping = true)
    (self : LevenbergMarquardtOptimizer K V) (linear : GaussianFactorGraph K)
    (h : TrialStart env start self linear) :
    self.params_.diagonalDamping = true ∧ CacheFresh env self ∧
    linear = env.linearize self.state_.values := by
  induction h with
  | first =>
    refine ⟨hdamp, fun hre => ?_, rfl⟩
    rw [hreuse] at hre
    exact absurd hre (by simp)
  | again s next linear _ htrial ih =>
    obtain ⟨h1, h2, h3⟩ := ih
    obtain ⟨g1, g2, g3⟩ := trial_fresh env linear s .retry next h1 h2 h3 htrial
    exact ⟨g1, g2, g3 (by simp)⟩
  | call s last linear outcome _ htrial _ ih =>
    obtain ⟨h1, h2, h3⟩ := ih
    obtain ⟨g1, g2, -⟩ := trial_fresh env linear s outcome last h1 h2 h3 htrial
    exact ⟨g1, g2, rfl⟩

/-- C31. The damping-diagonal cache is never stale: in a run of `iterate()` calls from an
optimizer with `reuse_diagonal_ = false` and diagonal damping on, at the start of every
trial the linearization of the call is that of the current estimate; if the cache is
reused (`reuse_diagonal_` true), `buildDampedSystem` leaves it as it is and it is the
clamped square root of the Hessian diagonal at the current estimate; an accepted step
leaves `reuse_diagonal_ = false`; and the loop of the call recomputes the diagonal at
most once. -/
theorem diagonal_cache_never_stale (env : Collaborators K V)
    (start : LevenbergMarquardtOptimizer K V)
    (hreuse : start.params_.reuse_diagonal_ = false)
    (hdamp : start.params_.diagonalDamping = true) :
    ∀ self linear, TrialStart env start self linear →
      self.params_.diagonalDamping = true ∧
      linear = env.linearize self.state_.values ∧
      (self.params_.reuse_diagonal_ = true →
        (self.buildDampedSystem env linear).2.state_.hessianDiagonal =
          self.state_.hessianDiagonal ∧
        self.state_.hessianDiagonal =
          (env.hessianDiagonal (env.linearize self.state_.values)).map fun kv =>
            (kv.1, ⟨kv.2.size, fun aa => clampedSqrt env.sqrt (kv.2.coeff aa)⟩)) ∧
      (self.params_.reuse_diagonal_ = false →
        (self.buildDampedSystem env linear).2.state_.hessianDiagonal =
          (env.hessianDiagonal (env.linearize self.state_.values)).map fun kv =>
            (kv.1, ⟨kv.2.size, fun aa => clampedSqrt env.sqrt (kv.2.coeff aa)⟩)) ∧
      (∀ next, self.trial env linear = .ok (.accepted, next) →
        next.params_.reuse_diagonal_ = false) ∧
      (∀ fuel, diagonalsComputed env linear fuel self ≤ 1) := by
  intro self linear h
  obtain ⟨h1, h2, h3⟩ := trialStart_fresh env start hreuse hdamp self linear h
  refine ⟨h1, h3, fun hre => ⟨?_, h2 hre⟩, fun hre => ?_,
    fun next htrial => (trial_cache env linear self .accepted next htrial).2.1 rfl,
    fun fuel => diagonalsComputed_le_one env linear fuel self⟩
  · rw [buildDampedSystem_cache, hre]
    simp
  · rw [buildDampedSystem_cache, hre, h1, ← h3]
    simp

/-- Witness of C31: the run from the optimizer with diagonal damping on and an empty
cache that is not to be reused, with collaborators whose solve succeeds. -/
theorem diagonal_cache_never_stale_witness :
    (dampedOptimizer ℚ 1 true).params_.reuse_diagonal_ = false ∧
    (dampedOptimizer ℚ 1 true).params_.diagonalDamping = true ∧
    ∀ self linear, TrialStart (dampingOracle ℚ id) (dampedOptimizer ℚ 1 true) self linear →
      self.params_.diagonalDamping = true ∧
      linear = (dampingOracle ℚ id).linearize self.state_.values ∧
      (self.params_.reuse_diagonal_ = true →
        (self.buildDampedSystem (dampingOracle ℚ id) linear).2.state_.hessianDiagonal =
          self.state_.hessianDiagonal ∧
        self.state_.hessianDiagonal =
          ((dampingOracle ℚ id).hessianDiagonal
            ((dampingOracle ℚ id).linearize self.state_.values)).map fun kv =>
            (kv.1, ⟨kv.2.size, fun aa => clampedSqrt (dampingOracle ℚ id).sqrt (kv.2.coeff aa)⟩)) ∧
      (self.params_.reuse_diagonal_ = false →
        (self.buildDampedSystem (dampingOracle ℚ id) linear).2.state_.hessianDiagonal =
          ((dampingOracle ℚ id).hessianDiagonal
            ((dampingOracle ℚ id).linearize self.state_.values)).map fun kv =>
            (kv.1, ⟨kv.2.size, fun aa => clampedSqrt (dampingOracle ℚ id).sqrt (kv.2.coeff aa)⟩)) ∧
      (∀ next, self.trial (dampingOracle ℚ id) linear = .ok (.accepted, next) →
        next.params_.reuse_diagonal_ = false) ∧
      (∀ fuel, diagonalsComputed (dampingOracle ℚ id) linear fuel self ≤ 1) :=
  ⟨rfl, rfl, diagonal_cache_never_stale (dampingOracle ℚ id) (dampedOptimizer ℚ 1 true) rfl rfl⟩

end LevenbergMarquardtOptimizer

end DiagonalCache

/-! ### Names of the verbosity levels -/

section VerbosityNames

/-- C40, failing input. The name printed for `TERMINATION` is parsed as `SILENT`, not as
`TERMINATION`: the translator from names has no case for it.  The names of the other six
levels are parsed back to their level, also in lower case. -/
theorem termination_name_parses_as_silent :
    verbosityLMName .TERMINATION = "TERMINATION" ∧
    verbosityLMTranslator (verbosityLMName .TERMINATION) = .SILENT ∧
    verbosityLMTranslator (verbosityLMName .TERMINATION) ≠ .TERMINATION ∧
    (∀ v : VerbosityLM, v ≠ .TERMINATION → verbosityLMTranslator (verbosityLMName v) = v) ∧
    verbosityLMTranslator "trylambda" = .TRYLAMBDA ∧
    verbosityLMTranslator "termination" = .SILENT := by
  refine ⟨rfl, by decide, by decide, ?_, by decide, by decide⟩
  intro v hv
  cases v <;> first | exact absurd rfl hv | decide

end VerbosityNames

/-! ### Maps of vectors -/

section VectorMaps

namespace VectorMap

variable {K : Type}

/-- C38, failing input. Two maps with one entry each, at the keys `1` and `2`: `equals`
passes the test of the sizes and then throws `std::out_of_range` from `expected[1]`
instead of returning `false`. -/
theorem equals_throws_on_key_mismatch :
    (singleton0 1).size = (singleton0 2).size ∧
    (singleton0 1).WellFormed ∧ (singleton0 2).WellFormed ∧
    (singleton0 1).contains 1 = true ∧ (singleton0 2).contains 1 = false ∧
    (singleton0 1).equals (singleton0 2) 0 = .error (.out_of_range "map::at") ∧
    (singleton0 1).equals (singleton0 2) 0 ≠ .ok false := by
  refine ⟨rfl, by decide, by decide, by decide, by decide, rfl, ?_⟩
  intro h
  have h2 : (singleton0 1).equals (singleton0 2) 0 = .error (.out_of_range "map::at") := rfl
  rw [h2] at h
  exact absurd h (by simp)

/-- A key is contained in a map iff it is among the keys of the entries. -/
lemma contains_iff (m : VectorMap K) (k : Nat) :
    m.contains k = true ↔ k ∈ m.values.map Prod.fst := by
  simp [contains]

lemma get_nil (k : Nat) :
    (⟨[]⟩ : VectorMap K).get k = .error (.out_of_range "map::at") := rfl

/-- Lookup in a map with a first entry. -/
lemma get_cons (e : Nat × VectorXd K) (rest : List (Nat × VectorXd K)) (k : Nat) :
    (⟨e :: rest⟩ : VectorMap K).get k =
      if e.1 = k then .ok e.2 else (⟨rest⟩ : VectorMap K).get k := by
  unfold get
  simp only [List.find?_cons]
  by_cases h : e.1 = k
  · simp [h]
  · have hb : (e.1 == k) = false := by simpa using h
    simp only [hb, if_neg h]

/-- With the keys pairwise different, every entry is found at its key. -/
lemma get_of_mem : ∀ (l : List (Nat × VectorXd K)), (l.map Prod.fst).Nodup →
    ∀ e ∈ l, (⟨l⟩ : VectorMap K).get e.1 = .ok e.2 := by
  intro l
  induction l with
  | nil => intro _ e he; exact absurd he (List.not_mem_nil e)
  | cons a rest ih =>
    intro hn e he
    rw [List.map_cons, List.nodup_cons] at hn
    rw [get_cons]
    rcases List.mem_cons.mp he with h | h
    · subst h
      rw [if_pos rfl]
    · have hne : a.1 ≠ e.1 := fun heq => hn.1 (heq ▸ List.mem_map_of_mem Prod.fst h)
      rw [if_neg hne]
      exact ih hn.2 e h

/-- What a lookup finds is an entry of the map. -/
lemma mem_of_get : ∀ (l : List (Nat × VectorXd K)) (k : Nat) (v : VectorXd K),
    (⟨l⟩ : VectorMap K).get k = .ok v → (k, v) ∈ l := by
  intro l
  induction l with
  | nil => intro k v h; rw [get_nil] at h; exact absurd h (by simp)
  | cons a rest ih =>
    intro k v h
    rw [get_cons] at h
    by_cases hk : a.1 = k
    · rw [if_pos hk] at h
      injection h with h
      rw [← hk, ← h]
      exact List.mem_cons_self _ _
    · rw [if_neg hk] at h
      exact List.mem_cons_of_mem _ (ih k v h)

/-- A key at which a lookup succeeds is contained. -/
lemma contains_of_get (m : VectorMap K) (k : Nat) (v : VectorXd K) (h : m.get k = .ok v) :
    m.contains k = true := by
  rw [contains_iff]
  exact List.mem_map_of_mem Prod.fst (mem_of_get m.values k v h)

/-- Well-formed maps with the same keys have the same list of keys. -/
lemma keys_eq_of_contains (x y : VectorMap K) (hx : x.WellFormed) (hy : y.WellFormed)
    (hkeys : ∀ k, x.contains k = y.contains k) :
    x.values.map Prod.fst = y.values.map Prod.fst := by
  refine List.eq_of_perm_of_sorted ((List.perm_ext_iff_of_nodup hx.nodup hy.nodup).2 ?_) hx hy
  intro k
  rw [← contains_iff, ← contains_iff, hkeys]

/-- Lists of entries with the same keys, and the same dimension at every key, have the
same layout. -/
lemma layout_eq_of_keys : ∀ (lx ly : List (Nat × VectorXd K)),
    lx.map Prod.fst = ly.map Prod.fst →
    (∀ ex ∈ lx, ∀ ey ∈ ly, ex.1 = ey.1 → ex.2.size = ey.2.size) →
    lx.map (fun e => (e.1, e.2.size)) = ly.map (fun e => (e.1, e.2.size)) := by
  intro lx
  induction lx with
  | nil =>
    intro ly hk _
    cases ly with
    | nil => rfl
    | cons b ly => simp at hk
  | cons a lx ih =>
    intro ly hk hd
    cases ly with
    | nil => simp at hk
    | cons b ly =>
      simp only [List.map_cons, List.cons.injEq] at hk ⊢
      refine ⟨?_, ih ly hk.2 fun ex hex ey hey =>
        hd ex (List.mem_cons_of_mem _ hex) ey (List.mem_cons_of_mem _ hey)⟩
      rw [hk.1, hd a (List.mem_cons_self _ _) b (List.mem_cons_self _ _) hk.1]

/-- Lookup in two maps with the same keys and in the map that combines their entries
pairwise. -/
lemma get_zipWith (g : VectorXd K → VectorXd K → VectorXd K) :
    ∀ (xs ys : List (Nat × VectorXd K)), xs.map Prod.fst = ys.map Prod.fst →
    ∀ (k : Nat) (xv : VectorXd K), (⟨xs⟩ : VectorMap K).get k = .ok xv →
    ∃ yv, (⟨ys⟩ : VectorMap K).get k = .ok yv ∧
      (⟨List.zipWith (fun a b => (a.1, g a.2 b.2)) xs ys⟩ : VectorMap K).get k =
        .ok (g xv yv) := by
  intro xs
  induction xs with
  | nil => intro ys _ k xv h; rw [get_nil] at h; exact absurd h (by simp)
  | cons a xs ih =>
    intro ys hk k xv h
    cases ys with
    | nil => simp at hk
    | cons b ys =>
      simp only [List.map_cons, List.cons.injEq] at hk
      rw [get_cons] at h
      rw [List.zipWith_cons_cons, get_cons, get_cons, ← hk.1]
      by_cases hak : a.1 = k
      · rw [if_pos hak] at h ⊢
        injection h with h
        rw [if_pos hak, h]
        exact ⟨b.2, rfl, rfl⟩
      · rw [if_neg hak] at h ⊢
        rw [if_neg hak]
        exact ih ys hk.2 k xv h

/-- The keys of the pairwise combination of two lists of the same length. -/
lemma keys_zipWith (g : VectorXd K → VectorXd K → VectorXd K) :
    ∀ (xs ys : List (Nat × VectorXd K)), xs.length = ys.length →
    (List.zipWith (fun a b => (a.1, g a.2 b.2)) xs ys).map Prod.fst = xs.map Prod.fst := by
  intro xs
  induction xs with
  | nil => intro ys _; rfl
  | cons a xs ih =>
    intro ys hl
    cases ys with
    | nil => simp at hl
    | cons b ys =>
      simp only [List.length_cons, add_left_inj] at hl
      rw [List.zipWith_cons_cons, List.map_cons, List.map_cons, ih ys hl]

/-- On maps with the same keys the loop of `axpy` combines the entries pairwise. -/
lemma axpyLoop_eq_zipWith [Add K] [Mul K] (alpha : K) :
    ∀ (xs ys : List (Nat × VectorXd K)), xs.map Prod.fst = ys.map Prod.fst →
    axpyLoop alpha xs ys =
      List.zipWith (fun a b => (a.1, VectorXd.axpy alpha a.2 b.2)) xs ys := by
  intro xs
  induction xs with
  | nil =>
    intro ys hk
    cases ys with
    | nil => rfl
    | cons b ys => simp at hk
  | cons a xs ih =>
    intro ys hk
    cases ys with
    | nil => simp at hk
    | cons b ys =>
      simp only [List.map_cons, List.cons.injEq] at hk
      rw [axpyLoop, List.zipWith_cons_cons, ih ys hk.2, hk.1]

/-- A loop that adds a term for every entry returns the sum of the terms. -/
lemma foldlM_ok_sum [Field K] {α : Type} (f : K → α → Except Exception K) (g : α → K) :
    ∀ (l : List α), (∀ e ∈ l, ∀ acc, f acc e = .ok (acc + g e)) →
    ∀ init, l.foldlM f init = .ok (init + (l.map g).sum) := by
  intro l
  induction l with
  | nil => intro _ init; simp [pure, Except.pure]
  | cons a l ih =>
    intro h init
    rw [List.foldlM_cons, h a (List.mem_cons_self _ _) init]
    show l.foldlM f (init + g a) = _
    rw [ih (fun e he => h e (List.mem_cons_of_mem _ he)), List.map_cons, List.sum_cons, add_assoc]

/-- The dot product of a well-formed map with itself is the sum of the squares of all
entries. -/
lemma dot_self [Field K] (x : VectorMap K) (hx : x.WellFormed) :
    x.dot x = .ok ((x.values.map fun e => ∑ i ∈ Finset.range e.2.size, e.2.coeff i ^ 2).sum) := by
  unfold dot
  rw [foldlM_ok_sum _ (fun e => ∑ i ∈ Finset.range e.2.size, e.2.coeff i ^ 2), zero_add]
  intro e he acc
  rw [get_of_mem x.values hx.nodup e he]
  simp [VectorXd.dot, sq]

/-- C34. `axpy(alpha, x, y)` computes `y <- alpha*x + y`: for well-formed maps `x` and
`y` with the same keys and the same dimension at every key, `y` afterwards has the keys
of `y`, and at every key `k` the vector `alpha*x[k] + y[k]` of the dimension of `y[k]`
and `x[k]`; with `x` for `y` the result at `k` is `(1 + alpha)*x[k]`; and `dot(x, x)` is
the sum of the squares of all entries (`x` is a `const` reference, and is no part of the
result). -/
theorem axpy_adds_scaled [Field K] (alpha : K) (x y : VectorMap K)
    (hx : x.WellFormed) (hy : y.WellFormed)
    (hkeys : ∀ k, x.contains k = y.contains k)
    (hdims : ∀ ex ∈ x.values, ∀ ey ∈ y.values, ex.1 = ey.1 → ex.2.size = ey.2.size) :
    (axpy alpha x y).values.map Prod.fst = y.values.map Prod.fst ∧
    (∀ k yv, y.get k = .ok yv → ∃ xv rv, x.get k = .ok xv ∧
      (axpy alpha x y).get k = .ok rv ∧ rv.size = yv.size ∧ rv.size = xv.size ∧
      ∀ i, rv.coeff i = alpha * xv.coeff i + yv.coeff i) ∧
    (∀ k xv, x.get k = .ok xv → ∃ rv, (axpy alpha x x).get k = .ok rv ∧
      rv.size = xv.size ∧ ∀ i, rv.coeff i = (1 + alpha) * xv.coeff i) ∧
    x.dot x = .ok ((x.values.map fun e => ∑ i ∈ Finset.range e.2.size, e.2.coeff i ^ 2).sum) := by
  have hk := keys_eq_of_contains x y hx hy hkeys
  have hlen : x.values.length = y.values.length := by
    have := congrArg List.length hk
    simpa using this
  refine ⟨?_, ?_, ?_, dot_self x hx⟩
  · show (axpyLoop alpha x.values y.values).map Prod.fst = _
    rw [axpyLoop_eq_zipWith alpha _ _ hk, keys_zipWith _ _ _ hlen, hk]
  · intro k yv hyv
    obtain ⟨xv, hxv, -⟩ := get_zipWith (fun _ b => b) y.values x.values hk.symm k yv hyv
    obtain ⟨yv2, hyv2, hr⟩ := get_zipWith (VectorXd.axpy alpha) x.values y.values hk k xv hxv
    have hyy : yv2 = yv := by
      have h := hyv2.symm.trans hyv
      injection h
    subst hyy
    refine ⟨xv, VectorXd.axpy alpha xv yv2, hxv, ?_, rfl, ?_, fun i => ?_⟩
    · show (⟨axpyLoop alpha x.values y.values⟩ : VectorMap K).get k = _
      rw [axpyLoop_eq_zipWith alpha _ _ hk]
      exact hr
    · exact (hdims (k, xv) (mem_of_get x.values k xv hxv) (k, yv2)
        (mem_of_get y.values k yv2 hyv) rfl).symm
    · show yv2.coeff i + alpha * xv.coeff i = _
      ring
  · intro k xv hxv
    obtain ⟨xv2, hxv2, hr⟩ := get_zipWith (VectorXd.axpy alpha) x.values x.values rfl k xv hxv
    have hxx : xv2 = xv := by
      have h := hxv2.symm.trans hxv
      injection h
    subst hxx
    refine ⟨VectorXd.axpy alpha xv2 xv2, ?_, rfl, fun i => ?_⟩
    · show (⟨axpyLoop alpha x.values x.values⟩ : VectorMap K).get k = _
      rw [axpyLoop_eq_zipWith alpha _ _ rfl]
      exact hr
    · show xv2.coeff i + alpha * xv2.coeff i = _
      ring

/-- Witness of C34: the test of the arithmetic of errors, with `e = ((1, 2), (3, 4, 5))`:
`dot(e, e)` is `55` and `axpy(2, e, e)` gives `3e`. -/
theorem axpy_adds_scaled_witness :
    errors12345.WellFormed ∧
    errors12345.dot errors12345 = .ok 55 ∧
    ∀ k xv, errors12345.get k = .ok xv → ∃ rv, (axpy 2 errors12345 errors12345).get k = .ok rv ∧
      rv.size = xv.size ∧ ∀ i, rv.coeff i = (1 + 2) * xv.coeff i := by
  have h := axpy_adds_scaled 2 errors12345 errors12345 (by decide) (by decide) (fun _ => rfl)
    (by
      intro ex hex ey hey hk
      simp only [errors12345, List.mem_cons, List.mem_singleton, List.not_mem_nil, or_false]
        at hex hey
      rcases hex with rfl | rfl <;> rcases hey with rfl | rfl <;> first | rfl | simp at hk)
  refine ⟨by decide, h.2.2.2.trans ?_, h.2.2.1⟩
  simp [errors12345, Finset.sum_range_succ]
  norm_num

/-- An entry whose key is above all keys of the map is inserted at the end. -/
lemma insertEntry_append : ∀ (l : List (Nat × VectorXd K)) (k : Nat) (v : VectorXd K),
    (∀ e ∈ l, e.1 < k) → insertEntry l k v = l ++ [(k, v)] := by
  intro l
  induction l with
  | nil => intro k v _; rfl
  | cons a l ih =>
    intro k v h
    have ha : a.1 < k := h a (List.mem_cons_self _ _)
    rw [insertEntry, if_neg (not_lt.mpr ha.le), if_neg (ne_of_gt ha),
      ih k v (fun e he => h e (List.mem_cons_of_mem _ he)), List.cons_append]

/-- The loop of `expmap(original, VectorMap delta)` over entries that `delta` has at the
same keys with the same dimensions: the sums are appended in order. -/
lemma expmap_loop [Add K] (delta : VectorMap K) :
    ∀ (xs ds acc : List (Nat × VectorXd K)),
    xs.map (fun e => (e.1, e.2.size)) = ds.map (fun e => (e.1, e.2.size)) →
    (∀ a ∈ acc, ∀ e ∈ xs, a.1 < e.1) → (xs.map Prod.fst).Sorted (· < ·) →
    (∀ d ∈ ds, delta.get d.1 = .ok d.2) →
    (xs.foldlM (fun (newValues : VectorMap K) jv =>
      if delta.contains jv.1 then
        match delta.get jv.1 with
        | .error e => .error e
        | .ok dj =>
          match check_size jv.1 jv.2 dj with
          | .error e => .error e
          | .ok _ => .ok (newValues.insert jv.1 (jv.2.add dj))
      else .ok (newValues.insert jv.1 jv.2)) (⟨acc⟩ : VectorMap K) :
        Except Exception (VectorMap K)) =
      .ok ⟨acc ++ List.zipWith (fun a b => (a.1, a.2.add b.2)) xs ds⟩ := by
  intro xs
  induction xs with
  | nil =>
    intro ds acc _ _ _ _
    simp [pure, Except.pure]
  | cons e xs ih =>
    intro ds acc hlay hacc hsort hget
    cases ds with
    | nil => simp at hlay
    | cons d ds =>
      simp only [List.map_cons, List.cons.injEq, Prod.mk.injEq] at hlay
      obtain ⟨⟨hkey, hsize⟩, hlay⟩ := hlay
      have hd : delta.get e.1 = .ok d.2 := by
        rw [hkey]
        exact hget d (List.mem_cons_self _ _)
      have hcheck : check_size e.1 e.2 d.2 = .ok () := by
        unfold check_size
        rw [if_neg (not_not.mpr hsize.symm)]
      rw [List.foldlM_cons]
      simp only [contains_of_get delta e.1 d.2 hd, if_true, hd, hcheck]
      show xs.foldlM _ ((⟨acc⟩ : VectorMap K).insert e.1 (e.2.add d.2)) = _
      have hins : (⟨acc⟩ : VectorMap K).insert e.1 (e.2.add d.2) =
          ⟨acc ++ [(e.1, e.2.add d.2)]⟩ := by
        unfold insert
        rw [insertEntry_append acc e.1 _ fun a ha => hacc a ha e (List.mem_cons_self _ _)]
      rw [hins]
      rw [List.map_cons, List.sorted_cons] at hsort
      rw [ih ds _ hlay ?_ hsort.2 fun d2 hd2 => hget d2 (List.mem_cons_of_mem _ hd2)]
      · simp
      · intro a ha e2 he2
        rcases List.mem_append.mp ha with h | h
        · exact hacc a h e2 (List.mem_cons_of_mem _ he2)
        · rw [List.mem_singleton.mp h]
          exact hsort.1 e2.1 (List.mem_map_of_mem Prod.fst he2)

/-- The loop of `expmap(original, Vector delta)` when the vector holds, from position
`i` on, the entries `ds` one after the other: the entries appended agree with the sums
in key, dimension and coefficients. -/
lemma expmapVector_loop [Add K] (v : VectorXd K) :
    ∀ (xs ds acc : List (Nat × VectorXd K)) (i : Nat),
    xs.map (fun e => (e.1, e.2.size)) = ds.map (fun e => (e.1, e.2.size)) →
    (∀ a ∈ acc, ∀ e ∈ xs, a.1 < e.1) → (xs.map Prod.fst).Sorted (· < ·) →
    (∀ pre d post, ds = pre ++ d :: post → ∀ r, r < d.2.size →
      v.coeff (i + (pre.map fun e => e.2.size).sum + r) = d.2.coeff r) →
    ∃ tail, (xs.foldl (fun (st : VectorMap K × Nat) jv =>
        (st.1.insert jv.1 (jv.2.add (v.sub st.2 (st.2 + jv.2.size))), st.2 + jv.2.size))
        ((⟨acc⟩ : VectorMap K), i)).1.values = acc ++ tail ∧
      List.Forall₂ (fun a b => a.1 = b.1 ∧ a.2.size = b.2.size ∧
        ∀ r, r < a.2.size → a.2.coeff r = b.2.coeff r) tail
        (List.zipWith (fun a b => (a.1, a.2.add b.2)) xs ds) := by
  intro xs
  induction xs with
  | nil =>
    intro ds acc i _ _ _ _
    exact ⟨[], by simp, by simp⟩
  | cons e xs ih =>
    intro ds acc i hlay hacc hsort hv
    cases ds with
    | nil => simp at hlay
    | cons d ds =>
      simp only [List.map_cons, List.cons.injEq, Prod.mk.injEq] at hlay
      obtain ⟨⟨_, hsize⟩, hlay⟩ := hlay
      rw [List.foldl_cons]
      have hins : (⟨acc⟩ : VectorMap K).insert e.1 (e.2.add (v.sub i (i + e.2.size))) =
          ⟨acc ++ [(e.1, e.2.add (v.sub i (i + e.2.size)))]⟩ := by
        unfold insert
        rw [insertEntry_append acc e.1 _ fun a ha => hacc a ha e (List.mem_cons_self _ _)]
      simp only [hins]
      rw [List.map_cons, List.sorted_cons] at hsort
      obtain ⟨tail, h1, h2⟩ := ih ds (acc ++ [(e.1, e.2.add (v.sub i (i + e.2.size)))])
        (i + e.2.size) hlay
        (by
          intro a ha e2 he2
          rcases List.mem_append.mp ha with h | h
          · exact hacc a h e2 (List.mem_cons_of_mem _ he2)
          · rw [List.mem_singleton.mp h]
            exact hsort.1 e2.1 (List.mem_map_of_mem Prod.fst he2))
        hsort.2
        (by
          intro pre d2 post hds r hr
          have := hv (d :: pre) d2 post (by rw [hds, List.cons_append]) r hr
          rw [List.map_cons, List.sum_cons, ← hsize] at this
          rw [← this]
          congr 1
          omega)
      refine ⟨(e.1, e.2.add (v.sub i (i + e.2.size))) :: tail, ?_, ?_⟩
      · rw [h1, List.append_assoc, List.singleton_append]
      · rw [List.zipWith_cons_cons]
        refine List.Forall₂.cons ⟨rfl, rfl, fun r hr => ?_⟩ h2
        show e.2.coeff r + v.coeff (i + r) = e.2.coeff r + d.2.coeff r
        have := hv [] d ds rfl r (by rw [← hsize]; exact hr)
        rw [List.map_nil, List.sum_nil, add_zero] at this
        rw [this]

/-- Lookup in two maps whose entries correspond in order, with the same keys. -/
lemma get_forall2 {P : VectorXd K → VectorXd K → Prop} :
    ∀ (l1 l2 : List (Nat × VectorXd K)),
    List.Forall₂ (fun a b => a.1 = b.1 ∧ P a.2 b.2) l1 l2 →
    ∀ (k : Nat) (v2 : VectorXd K), (⟨l2⟩ : VectorMap K).get k = .ok v2 →
    ∃ v1, (⟨l1⟩ : VectorMap K).get k = .ok v1 ∧ P v1 v2 := by
  intro l1 l2 h
  induction h with
  | nil => intro k v2 hg; rw [get_nil] at hg; exact absurd hg (by simp)
  | @cons a b l1 l2 hab _ ih =>
    intro k v2 hg
    rw [get_cons] at hg ⊢
    rw [hab.1]
    by_cases hk : b.1 = k
    · rw [if_pos hk] at hg ⊢
      injection hg with hg
      exact ⟨a.2, rfl, hg ▸ hab.2⟩
    · rw [if_neg hk] at hg ⊢
      exact ih k v2 hg

/-- Lists of entries that correspond in order with the same keys have the same keys. -/
lemma keys_forall2 {P : VectorXd K → VectorXd K → Prop} :
    ∀ (l1 l2 : List (Nat × VectorXd K)),
    List.Forall₂ (fun a b => a.1 = b.1 ∧ P a.2 b.2) l1 l2 →
    l1.map Prod.fst = l2.map Prod.fst := by
  intro l1 l2 h
  induction h with
  | nil => rfl
  | cons hab _ ih => rw [List.map_cons, List.map_cons, hab.1, ih]

/-- The loop of `vector()` keeps the size of `result`, and its entries below the
current position. -/
lemma vector_loop_below : ∀ (l : List (Nat × VectorXd K)) (v0 : VectorXd K) (c0 : Nat),
    (l.foldl (fun (st : VectorXd K × Nat) jv =>
      (st.1.subInsert jv.2 st.2, st.2 + jv.2.size)) (v0, c0)).1.size = v0.size ∧
    ∀ p, p < c0 → (l.foldl (fun (st : VectorXd K × Nat) jv =>
      (st.1.subInsert jv.2 st.2, st.2 + jv.2.size)) (v0, c0)).1.coeff p = v0.coeff p := by
  intro l
  induction l with
  | nil => intro v0 c0; exact ⟨rfl, fun _ _ => rfl⟩
  | cons a l ih =>
    intro v0 c0
    rw [List.foldl_cons]
    obtain ⟨h1, h2⟩ := ih (v0.subInsert a.2 c0) (c0 + a.2.size)
    refine ⟨h1, fun p hp => ?_⟩
    rw [h2 p (by omega)]
    show (if c0 ≤ p ∧ p < c0 + a.2.size then _ else _) = _
    rw [if_neg (by omega)]

/-- The loop of `vector()` writes every entry at the sum of the dimensions of the
entries before it. -/
lemma vector_loop_at : ∀ (pre : List (Nat × VectorXd K)) (d : Nat × VectorXd K)
    (post : List (Nat × VectorXd K)) (v0 : VectorXd K) (c0 r : Nat), r < d.2.size →
    ((pre ++ d :: post).foldl (fun (st : VectorXd K × Nat) jv =>
      (st.1.subInsert jv.2 st.2, st.2 + jv.2.size)) (v0, c0)).1.coeff
        (c0 + (pre.map fun e => e.2.size).sum + r) = d.2.coeff r := by
  intro pre
  induction pre with
  | nil =>
    intro d post v0 c0 r hr
    rw [List.nil_append, List.foldl_cons, List.map_nil, List.sum_nil, add_zero,
      (vector_loop_below post _ _).2 (c0 + r) (by omega)]
    show (if c0 ≤ c0 + r ∧ c0 + r < c0 + d.2.size then d.2.coeff (c0 + r - c0) else _) = _
    rw [if_pos ⟨by omega, by omega⟩, Nat.add_sub_cancel_left]
  | cons a pre ih =>
    intro d post v0 c0 r hr
    rw [List.cons_append, List.foldl_cons, List.map_cons, List.sum_cons]
    have := ih d post (v0.subInsert a.2 c0) (c0 + a.2.size) r hr
    rw [← this]
    congr 1
    omega

/-- The value of `dim()`: the sum of the dimensions of the entries. -/
lemma dim_eq_sum (m : VectorMap K) : m.dim = (m.values.map fun e => e.2.size).sum := by
  have h : ∀ (l : List (Nat × VectorXd K)) (init : Nat),
      l.foldl (fun result it => result + it.2.size) init
        = init + (l.map fun e => e.2.size).sum := by
    intro l
    induction l with
    | nil => intro init; simp
    | cons a l ih => intro init; rw [List.foldl_cons, ih, List.map_cons, List.sum_cons, add_assoc]
  unfold dim
  rw [h, zero_add]

/-- C39. The two overloads of `expmap` agree: for well-formed maps `x` and `delta` with
the same keys and the same dimension at every key, `expmap(x, delta)` returns a map, it
and `expmap(x, delta.vector())` have the keys of `x`, and at every key `k` both hold a
vector of the dimension of `x[k]` with the coefficients of `x[k] + delta[k]`;
`delta.vector()` has length `dim()`, the sum of the dimensions, and holds every entry of
`delta` at the sum of the dimensions of the entries before it. -/
theorem expmap_overloads_agree [Add K] (fresh : Nat → K) (x delta : VectorMap K)
    (hx : x.WellFormed) (hd : delta.WellFormed)
    (hkeys : ∀ k, x.contains k = delta.contains k)
    (hdims : ∀ ex ∈ x.values, ∀ ed ∈ delta.values, ex.1 = ed.1 → ex.2.size = ed.2.size) :
    ∃ r, expmap x delta = .ok r ∧
      r.values.map Prod.fst = x.values.map Prod.fst ∧
      (expmapVector x (delta.vector fresh)).values.map Prod.fst = x.values.map Prod.fst ∧
      (∀ k xv dv, x.get k = .ok xv → delta.get k = .ok dv →
        ∃ rv vv, r.get k = .ok rv ∧ (expmapVector x (delta.vector fresh)).get k = .ok vv ∧
          rv.size = xv.size ∧ vv.size = xv.size ∧
          ∀ i, i < xv.size →
            rv.coeff i = xv.coeff i + dv.coeff i ∧ vv.coeff i = xv.coeff i + dv.coeff i) ∧
      (delta.vector fresh).size = delta.dim ∧
      delta.dim = (delta.values.map fun e => e.2.size).sum ∧
      (∀ pre d post, delta.values = pre ++ d :: post → ∀ i, i < d.2.size →
        (delta.vector fresh).coeff ((pre.map fun e => e.2.size).sum + i) = d.2.coeff i) := by
  have hk := keys_eq_of_contains x delta hx hd hkeys
  have hlay := layout_eq_of_keys x.values delta.values hk hdims
  have hlen : x.values.length = delta.values.length := by
    have := congrArg List.length hk
    simpa using this
  have hvec : ∀ pre d post, delta.values = pre ++ d :: post → ∀ i, i < d.2.size →
      (delta.vector fresh).coeff ((pre.map fun e => e.2.size).sum + i) = d.2.coeff i := by
    intro pre d post hsplit i hi
    have := vector_loop_at pre d post ⟨delta.dim, fresh⟩ 0 i hi
    rw [zero_add] at this
    unfold vector
    rw [hsplit]
    exact this
  have h1 := expmap_loop delta x.values delta.values [] hlay
    (fun a ha => absurd ha (List.not_mem_nil a)) hx
    (fun d hdm => get_of_mem delta.values hd.nodup d hdm)
  obtain ⟨tail, h2, h3⟩ := expmapVector_loop (delta.vector fresh) x.values delta.values [] 0
    hlay (fun a ha => absurd ha (List.not_mem_nil a)) hx
    (by
      intro pre d post hsplit r hr
      rw [zero_add]
      exact hvec pre d post hsplit r hr)
  rw [List.nil_append] at h1 h2
  have h2' : (expmapVector x (delta.vector fresh)).values = tail := h2
  refine ⟨_, h1, keys_zipWith _ _ _ hlen, ?_, ?_, (vector_loop_below _ _ _).1,
    dim_eq_sum delta, hvec⟩
  · rw [h2', keys_forall2 (P := fun a b => a.size = b.size ∧
      ∀ r, r < a.size → a.coeff r = b.coeff r) _ _ h3, keys_zipWith _ _ _ hlen]
  · intro k xv dv hxv hdv
    obtain ⟨dv2, hdv2, hr⟩ := get_zipWith VectorXd.add x.values delta.values hk k xv hxv
    have hdd : dv2 = dv := by
      have h := hdv2.symm.trans hdv
      injection h
    subst hdd
    obtain ⟨vv, hvv, hs, hc⟩ := get_forall2 (P := fun a b => a.size = b.size ∧
      ∀ r, r < a.size → a.coeff r = b.coeff r) _ _ h3 k _ hr
    refine ⟨xv.add dv2, vv, hr, ?_, rfl, hs, fun i hi => ⟨rfl, ?_⟩⟩
    · rw [← hvv]
      show (⟨(expmapVector x (delta.vector fresh)).values⟩ : VectorMap K).get k = _
      rw [h2']
    · rw [hc i (by rw [hs]; exact hi)]
      rfl

/-- Witness of C39: `x` and `delta` both the map `((1, 2), (3, 4, 5))`. -/
theorem expmap_overloads_agree_witness :
    errors12345.WellFormed ∧
    ∃ r, expmap errors12345 errors12345 = .ok r ∧
      r.values.map Prod.fst = errors12345.values.map Prod.fst ∧
      (expmapVector errors12345 (errors12345.vector fun _ => 0)).values.map Prod.fst =
        errors12345.values.map Prod.fst ∧
      (∀ k xv dv, errors12345.get k = .ok xv → errors12345.get k = .ok dv →
        ∃ rv vv, r.get k = .ok rv ∧
          (expmapVector errors12345 (errors12345.vector fun _ => 0)).get k = .ok vv ∧
          rv.size = xv.size ∧ vv.size = xv.size ∧
          ∀ i, i < xv.size →
            rv.coeff i = xv.coeff i + dv.coeff i ∧ vv.coeff i = xv.coeff i + dv.coeff i) ∧
      (errors12345.vector fun _ => 0).size = errors12345.dim ∧
      errors12345.dim = (errors12345.values.map fun e => e.2.size).sum ∧
      (∀ pre d post, errors12345.values = pre ++ d :: post → ∀ i, i < d.2.size →
        (errors12345.vector fun _ => 0).coeff ((pre.map fun e => e.2.size).sum + i)
          = d.2.coeff i) :=
  ⟨by decide, expmap_overloads_agree (fun _ => 0) errors12345 errors12345 (by decide)
    (by decide) (fun _ => rfl)
    (by
      intro ex hex ey hey hk
      simp only [errors12345, List.mem_cons, List.mem_singleton, List.not_mem_nil, or_false]
        at hex hey
      rcases hex with rfl | rfl <;> rcases hey with rfl | rfl <;> first | rfl | simp at hk)⟩

end VectorMap

end VectorMaps

/-! ### Cost of the joint factor -/

section JointCost

variable {K : Type} [Field K]

omit [Field K] in
/-- Every row of a concatenation of blocks is a row of one of the blocks. -/
lemma getD_flatMap_blocks (d : Nat → Nat) (r : Nat → Nat → Nat) (off : Nat → Nat) (nB : Nat)
    (hoff0 : off 0 = 0) (hoff : ∀ b, b < nB → off (b + 1) = off b + d b) :
    ((List.range nB).flatMap fun b => (List.range (d b)).map (r b)).length = off nB ∧
    ∀ u, u < off nB → ∃ b, b < nB ∧ ∃ k, k < d b ∧ u = off b + k ∧
      ((List.range nB).flatMap fun b => (List.range (d b)).map (r b)).getD u 0 = r b k := by
  induction nB with
  | zero => simp [hoff0]
  | succ n ih =>
    obtain ⟨hlen, hget⟩ := ih fun b hb => hoff b (Nat.lt_succ_of_lt hb)
    have hL : ((List.range (n + 1)).flatMap fun b => (List.range (d b)).map (r b))
        = ((List.range n).flatMap fun b => (List.range (d b)).map (r b))
          ++ (List.range (d n)).map (r n) := by
      rw [List.range_succ, List.flatMap_append, List.flatMap_singleton]
    rw [hL]
    refine ⟨by simp [hlen, hoff n (Nat.lt_succ_self n)], fun u hu => ?_⟩
    rw [hoff n (Nat.lt_succ_self n)] at hu
    by_cases hlt : u < off n
    · obtain ⟨b, hb, k, hk, hu2, hr⟩ := hget u hlt
      refine ⟨b, Nat.lt_succ_of_lt hb, k, hk, hu2, ?_⟩
      rw [List.getD_append _ _ _ _ (by rw [hlen]; exact hlt)]
      exact hr
    · refine ⟨n, Nat.lt_succ_self n, u - off n, by omega, by omega, ?_⟩
      rw [List.getD_append_right _ _ _ _ (by rw [hlen]; omega), hlen,
        List.getD_eq_getElem _ _ (by simp; omega)]
      simp

/-- The quadratic form of a matrix scattered by a map of the rows is the quadratic form
of the matrix at the vector read through the map. -/
lemma sum_scatter_quadratic (n m : Nat) (r : Nat → Nat) (hr : ∀ a, a < n → r a < m)
    (S : Nat → Nat → K) (z : Nat → K) :
    ∑ u ∈ Finset.range m, ∑ v ∈ Finset.range m,
      z u * (∑ b ∈ Finset.range n, (∑ a ∈ Finset.range n,
        (if r a = u then 1 else 0) * S a b) * (if r b = v then 1 else 0)) * z v
      = ∑ a ∈ Finset.range n, ∑ b ∈ Finset.range n, z (r a) * S a b * z (r b) := by
  have e1 : ∀ (f : Nat → K) (a : Nat), a < n →
      ∑ u ∈ Finset.range m, (if r a = u then 1 else 0) * f u = f (r a) := by
    intro f a ha
    simp only [ite_mul, one_mul, zero_mul]
    rw [Finset.sum_ite_eq, if_pos (Finset.mem_range.mpr (hr a ha))]
  have e2 : ∀ u, ∑ v ∈ Finset.range m,
      z u * (∑ b ∈ Finset.range n, (∑ a ∈ Finset.range n,
        (if r a = u then 1 else 0) * S a b) * (if r b = v then 1 else 0)) * z v
      = ∑ b ∈ Finset.range n,
          z u * (∑ a ∈ Finset.range n, (if r a = u then 1 else 0) * S a b) * z (r b) := by
    intro u
    calc ∑ v ∈ Finset.range m,
          z u * (∑ b ∈ Finset.range n, (∑ a ∈ Finset.range n,
            (if r a = u then 1 else 0) * S a b) * (if r b = v then 1 else 0)) * z v
        = ∑ v ∈ Finset.range m, ∑ b ∈ Finset.range n, (if r b = v then 1 else 0) *
            (z u * (∑ a ∈ Finset.range n, (if r a = u then 1 else 0) * S a b) * z v) := by
          refine Finset.sum_congr rfl fun v _ => ?_
          rw [Finset.mul_sum, Finset.sum_mul]
          refine Finset.sum_congr rfl fun b _ => ?_
          ring
      _ = ∑ b ∈ Finset.range n, ∑ v ∈ Finset.range m, (if r b = v then 1 else 0) *
            (z u * (∑ a ∈ Finset.range n, (if r a = u then 1 else 0) * S a b) * z v) :=
          Finset.sum_comm
      _ = _ := Finset.sum_congr rfl fun b hb =>
          e1 (fun v => z u * (∑ a ∈ Finset.range n, (if r a = u then 1 else 0) * S a b) * z v)
            b (Finset.mem_range.mp hb)
  calc ∑ u ∈ Finset.range m, ∑ v ∈ Finset.range m,
        z u * (∑ b ∈ Finset.range n, (∑ a ∈ Finset.range n,
          (if r a = u then 1 else 0) * S a b) * (if r b = v then 1 else 0)) * z v
      = ∑ u ∈ Finset.range m, ∑ b ∈ Finset.range n,
          z u * (∑ a ∈ Finset.range n, (if r a = u then 1 else 0) * S a b) * z (r b) :=
        Finset.sum_congr rfl fun u _ => e2 u
    _ = ∑ u ∈ Finset.range m, ∑ b ∈ Finset.range n, ∑ a ∈ Finset.range n,
          (if r a = u then 1 else 0) * (z u * S a b * z (r b)) := by
        refine Finset.sum_congr rfl fun u _ => Finset.sum_congr rfl fun b _ => ?_
        rw [Finset.mul_sum, Finset.sum_mul]
        refine Finset.sum_congr rfl fun a _ => ?_
        ring
    _ = ∑ b ∈ Finset.range n, ∑ u ∈ Finset.range m, ∑ a ∈ Finset.range n,
          (if r a = u then 1 else 0) * (z u * S a b * z (r b)) := Finset.sum_comm
    _ = ∑ b ∈ Finset.range n, ∑ a ∈ Finset.range n, ∑ u ∈ Finset.range m,
          (if r a = u then 1 else 0) * (z u * S a b * z (r b)) :=
        Finset.sum_congr rfl fun b _ => Finset.sum_comm
    _ = ∑ b ∈ Finset.range n, ∑ a ∈ Finset.range n, z (r a) * S a b * z (r b) :=
        Finset.sum_congr rfl fun b _ => Finset.sum_congr rfl fun a ha =>
          e1 (fun u => z u * S a b * z (r b)) a (Finset.mem_range.mp ha)
    _ = _ := Finset.sum_comm

/-- A quadratic form of a sum of matrices is the sum of the quadratic forms. -/
lemma quadratic_list_sum {α : Type} (m : Nat) (z : Nat → K) (g : α → Nat → Nat → K) :
    ∀ (l : List α),
    1 / 2 * ∑ u ∈ Finset.range m, ∑ v ∈ Finset.range m,
        z u * (l.map fun F => g F u v).sum * z v
      = (l.map fun F => 1 / 2 * ∑ u ∈ Finset.range m, ∑ v ∈ Finset.range m,
          z u * g F u v * z v).sum := by
  intro l
  induction l with
  | nil => simp
  | cons F l ih =>
    rw [List.map_cons, List.sum_cons, ← ih]
    simp only [List.map_cons, List.sum_cons, mul_add, add_mul, Finset.sum_add_distrib]

namespace HessianFactor

omit [Field K] in
lemma ofDims_offset_zero (dims : List Nat) : (SymmetricBlockView.ofDims dims).offset 0 = 0 := by
  cases dims <;> rfl

omit [Field K] in
/-- Validity of an update depends on the joint factor through its block view only. -/
lemma ValidUpdate.of_info {self other update : HessianFactor K} {scatter : Scatter}
    (h : other.info_ = self.info_) (hv : ValidUpdate self update scatter) :
    ValidUpdate other update scatter := by
  unfold ValidUpdate updateSlot at *
  rw [h]
  exact hv

omit [Field K] in
lemma scatterRows_of_info {self other : HessianFactor K} (update : HessianFactor K)
    (scatter : Scatter) (h : other.info_ = self.info_) :
    other.scatterRows update scatter = self.scatterRows update scatter := by
  unfold scatterRows updateSlot
  rw [h]

lemma scatteredUpdate_of_info {self other : HessianFactor K} (update : HessianFactor K)
    (scatter : Scatter) (h : other.info_ = self.info_) (i j : Nat) :
    other.scatteredUpdate update scatter i j = self.scatteredUpdate update scatter i j := by
  unfold scatteredUpdate
  rw [scatterRows_of_info update scatter h]

/-- The cost of a factor whose variable blocks are followed by one more row: half the
quadratic form of the symmetric matrix of its view at the vector `(x, -1)`. -/
lemma error_eq_quadratic (h : HessianFactor K) (x : Nat → K)
    (hoff : h.info_.offset 0 ≤ h.info_.offset h.size) :
    h.error x = 1 / 2 * ∑ u ∈ Finset.range (h.varDim + 1), ∑ v ∈ Finset.range (h.varDim + 1),
      (if u < h.varDim then x u else -1) *
        MatrixXd.selfadjointUpper (h.matrix_.block (h.info_.offset 0) (h.info_.offset 0)) u v *
        (if v < h.varDim then x v else -1) := by
  have hm : h.info_.offset 0 + h.varDim = h.info_.offset h.size := by
    unfold varDim
    omega
  have hf : h.constant_term = MatrixXd.selfadjointUpper
      (h.matrix_.block (h.info_.offset 0) (h.info_.offset 0)) h.varDim h.varDim := by
    simp [constant_term, infoCoeff, MatrixXd.selfadjointUpper, MatrixXd.block, hm]
  have hg : ∀ i, i < h.varDim → h.linear_term i = MatrixXd.selfadjointUpper
      (h.matrix_.block (h.info_.offset 0) (h.info_.offset 0)) i h.varDim := by
    intro i hi
    simp [linear_term, MatrixXd.selfadjointUpper, MatrixXd.block, hm, hi.le]
  have hinner : ∀ (c : K) (u : Nat), ∑ v ∈ Finset.range (h.varDim + 1),
      c * MatrixXd.selfadjointUpper
        (h.matrix_.block (h.info_.offset 0) (h.info_.offset 0)) u v *
        (if v < h.varDim then x v else -1)
      = (∑ v ∈ Finset.range h.varDim, c * MatrixXd.selfadjointUpper
          (h.matrix_.block (h.info_.offset 0) (h.info_.offset 0)) u v * x v)
        - c * MatrixXd.selfadjointUpper
          (h.matrix_.block (h.info_.offset 0) (h.info_.offset 0)) u h.varDim := by
    intro c u
    rw [Finset.sum_range_succ, if_neg (lt_irrefl _)]
    rw [Finset.sum_congr rfl fun v hv => by rw [if_pos (Finset.mem_range.mp hv)]]
    ring
  simp only [hinner]
  rw [Finset.sum_range_succ, if_neg (lt_irrefl _)]
  rw [Finset.sum_congr rfl fun u hu => by rw [if_pos (Finset.mem_range.mp hu)]]
  unfold error
  simp only
  rw [hf, Finset.sum_congr rfl fun i hi => by rw [hg i (Finset.mem_range.mp hi)]]
  have hsym : ∑ v ∈ Finset.range h.varDim, -1 * MatrixXd.selfadjointUpper
      (h.matrix_.block (h.info_.offset 0) (h.info_.offset 0)) h.varDim v * x v
      = - ∑ i ∈ Finset.range h.varDim, x i * MatrixXd.selfadjointUpper
          (h.matrix_.block (h.info_.offset 0) (h.info_.offset 0)) i h.varDim := by
    rw [← Finset.sum_neg_distrib]
    refine Finset.sum_congr rfl fun v _ => ?_
    rw [selfadjointUpper_symm _ h.varDim v]
    ring
  have hquad : ∑ j ∈ Finset.range h.varDim, (∑ i ∈ Finset.range h.varDim, x i *
        MatrixXd.selfadjointUpper
          (h.matrix_.block (h.info_.offset 0) (h.info_.offset 0)) i j) * x j
      = ∑ u ∈ Finset.range h.varDim, ∑ v ∈ Finset.range h.varDim, x u *
        MatrixXd.selfadjointUpper
          (h.matrix_.block (h.info_.offset 0) (h.info_.offset 0)) u v * x v := by
    rw [Finset.sum_comm]
    refine Finset.sum_congr rfl fun j _ => ?_
    rw [Finset.sum_mul]
  rw [hsym, hquad, Finset.sum_sub_distrib]
  ring

omit [Field K] in
/-- The rows that a valid update is scattered to, when the last block of the joint
factor has one row: the update has one row after its variable blocks, the rows of its
variable blocks go to rows before the last block of the joint factor, and its last row
goes to the row of that block. -/
lemma scatterRows_bounds {self update : HessianFactor K} {scatter : Scatter}
    (hv : ValidUpdate self update scatter)
    (hlast : self.info_.blockDim (self.info_.nBlocks - 1) = 1) :
    update.info_.offset 0 ≤ update.info_.offset update.size ∧
    update.fullDim = update.varDim + 1 ∧
    (∀ a, a < update.varDim → (self.scatterRows update scatter).getD a 0
      < self.info_.offset (self.info_.nBlocks - 1)) ∧
    (self.scatterRows update scatter).getD update.varDim 0
      = self.info_.offset (self.info_.nBlocks - 1) := by
  have hJs := hv.1
  have hUs := hv.2.1
  have hnB := hv.2.2.1
  have hdims := hv.2.2.2.2.2.2.2.2
  have hslot_last : self.updateSlot update scatter update.size = self.info_.nBlocks - 1 := by
    simp [updateSlot]
  have hmonoU : ∀ a b, a ≤ b → b ≤ update.info_.nBlocks →
      update.info_.offset a ≤ update.info_.offset b :=
    fun a b hab hb => SymmetricBlockView.offset_mono _ hUs hab hb
  have hmonoJ : ∀ a b, a ≤ b → b ≤ self.info_.nBlocks →
      self.info_.offset a ≤ self.info_.offset b :=
    fun a b hab hb => SymmetricBlockView.offset_mono _ hJs hab hb
  have hd_last : update.info_.blockDim update.size = 1 := by
    rw [← hdims update.size (by omega), hslot_last, hlast]
  have h0s : update.info_.offset 0 ≤ update.info_.offset update.size :=
    hmonoU 0 _ (Nat.zero_le _) (by omega)
  have hs1 : update.info_.offset (update.size + 1) = update.info_.offset update.size + 1 := by
    have h1 := hd_last
    unfold SymmetricBlockView.blockDim at h1
    have h2 := hmonoU update.size (update.size + 1) (Nat.le_succ _) (by omega)
    omega
  have hfd : update.fullDim = update.varDim + 1 := by
    unfold fullDim varDim
    rw [hnB]
    omega
  have hoff : ∀ b, b < update.size + 1 →
      update.info_.offset (b + 1) - update.info_.offset 0
        = update.info_.offset b - update.info_.offset 0 + update.info_.blockDim b := by
    intro b hb
    have := hv.offset_succ hb
    simp only [SymmetricBlockView.blockDim]
    omega
  have hspec : ∀ u, u < update.info_.offset (update.size + 1) - update.info_.offset 0 →
      ∃ b, b < update.size + 1 ∧ ∃ k, k < update.info_.blockDim b ∧
        u = update.info_.offset b - update.info_.offset 0 + k ∧
        (self.scatterRows update scatter).getD u 0
          = self.info_.offset (self.updateSlot update scatter b) + k :=
    (getD_flatMap_blocks (fun b => update.info_.blockDim b)
      (fun b k => self.info_.offset (self.updateSlot update scatter b) + k)
      (fun b => update.info_.offset b - update.info_.offset 0) (update.size + 1)
      (by simp) hoff).2
  have hfull : update.info_.offset (update.size + 1) - update.info_.offset 0
      = update.varDim + 1 := by
    unfold varDim
    omega
  refine ⟨h0s, hfd, fun a ha => ?_, ?_⟩
  · obtain ⟨b, hb, k, hk, hu, hr⟩ := hspec a (by omega)
    have hb' : b < update.size := by
      rcases Nat.eq_or_lt_of_le (Nat.le_of_lt_succ hb) with h | h
      · subst h
        unfold varDim at ha
        omega
      · exact h
    have hlt := hv.slot_lt hb
    have hne := hv.slot_ne hb (Nat.lt_succ_self update.size) (Nat.ne_of_lt hb')
    rw [hslot_last] at hne
    have hd := hdims b hb
    unfold SymmetricBlockView.blockDim at hd hk
    have h1 := hmonoJ (self.updateSlot update scatter b) (self.updateSlot update scatter b + 1)
      (Nat.le_succ _) (by omega)
    have h2 := hmonoJ (self.updateSlot update scatter b + 1) (self.info_.nBlocks - 1)
      (by omega) (by omega)
    rw [hr]
    omega
  · obtain ⟨b, hb, k, hk, hu, hr⟩ := hspec update.varDim (by omega)
    have hb' : b = update.size := by
      rcases Nat.eq_or_lt_of_le (Nat.le_of_lt_succ hb) with h | h
      · exact h
      · exfalso
        have h1 := hmonoU (b + 1) update.size h (by omega)
        have h2 := hv.offset_succ hb
        unfold SymmetricBlockView.blockDim at hk
        unfold varDim at hu
        omega
    subst hb'
    have hk0 : k = 0 := by
      unfold varDim at hu
      omega
    rw [hr, hslot_last, hk0, add_zero]

/-- Half the quadratic form, at `(x, -1)`, of what a valid update adds to the joint
factor is the cost of the update at `x` read at the rows the update is scattered to. -/
lemma scattered_quadratic {self update : HessianFactor K} {scatter : Scatter}
    (hv : ValidUpdate self update scatter)
    (hlast : self.info_.blockDim (self.info_.nBlocks - 1) = 1) (x : Nat → K) :
    1 / 2 * ∑ u ∈ Finset.range (self.info_.offset (self.info_.nBlocks - 1) + 1),
      ∑ v ∈ Finset.range (self.info_.offset (self.info_.nBlocks - 1) + 1),
        (if u < self.info_.offset (self.info_.nBlocks - 1) then x u else -1) *
          self.scatteredUpdate update scatter u v *
          (if v < self.info_.offset (self.info_.nBlocks - 1) then x v else -1)
      = update.error fun a => x ((self.scatterRows update scatter).getD a 0) := by
  obtain ⟨h0s, hfd, hlt, heq⟩ := scatterRows_bounds hv hlast
  have hr : ∀ a, a < update.fullDim → (self.scatterRows update scatter).getD a 0
      < self.info_.offset (self.info_.nBlocks - 1) + 1 := by
    intro a ha
    rcases Nat.eq_or_lt_of_le (Nat.le_of_lt_succ (hfd ▸ ha)) with h | h
    · rw [h, heq]
      exact Nat.lt_succ_self _
    · exact Nat.lt_succ_of_lt (hlt a h)
  unfold scatteredUpdate
  rw [sum_scatter_quadratic update.fullDim _ _ hr, error_eq_quadratic update _ h0s, hfd]
  congr 1
  have hz : ∀ a, a < update.varDim + 1 →
      (if (self.scatterRows update scatter).getD a 0 < self.info_.offset (self.info_.nBlocks - 1)
        then x ((self.scatterRows update scatter).getD a 0) else -1)
      = if a < update.varDim then x ((self.scatterRows update scatter).getD a 0) else -1 := by
    intro a ha
    rcases Nat.eq_or_lt_of_le (Nat.le_of_lt_succ ha) with h | h
    · rw [h, heq, if_neg (lt_irrefl _), if_neg (lt_irrefl _)]
    · rw [if_pos (hlt a h), if_pos h]
  refine Finset.sum_congr rfl fun a ha => Finset.sum_congr rfl fun b hb => ?_
  rw [hz a (Finset.mem_range.mp ha), hz b (Finset.mem_range.mp hb)]

/-- The combined constructor on information factors: the updates are applied in
order, and `assertInvariants()` ends the constructor. -/
lemma ofFactors_hessians (NDEBUG : Bool) (isfinite : K → Bool)
    (hs : List (HessianFactor K)) (dimensions : List Nat)
    (scatter : Scatter) :
    ofFactors NDEBUG isfinite (hs.map GaussianFactor.Hessian) dimensions scatter =
      constructed NDEBUG isfinite (hs.foldl (fun J F => J.updateATA F scatter)
        { keys_ := [],
          matrix_ := MatrixXd.zero
            ((SymmetricBlockView.ofDims dimensions).offset
              (SymmetricBlockView.ofDims dimensions).nBlocks)
            ((SymmetricBlockView.ofDims dimensions).offset
              (SymmetricBlockView.ofDims dimensions).nBlocks),
          info_ := SymmetricBlockView.ofDims dimensions }) := by
  have key : ∀ (l : List (HessianFactor K)) (init : HessianFactor K),
      (l.map GaussianFactor.Hessian).foldlM
        (fun self factor => self.updateWith factor scatter) init
        = (.ok (l.foldl (fun J F => J.updateATA F scatter) init) :
            Except Exception (HessianFactor K)) := by
    intro l
    induction l with
    | nil => intro init; rfl
    | cons F rest ih =>
      intro init
      rw [List.map_cons, List.foldlM_cons, List.foldl_cons]
      exact ih _
  unfold ofFactors
  simp only [key]

/-- The joint factor after a list of valid updates: keys and block view are kept, and on
and above the diagonal the scattered updates are added. -/
lemma foldl_updateATA (scatter : Scatter) :
    ∀ (hs : List (HessianFactor K)) (J : HessianFactor K),
    (∀ F ∈ hs, ValidUpdate J F scatter) →
    (hs.foldl (fun J F => J.updateATA F scatter) J).info_ = J.info_ ∧
    (hs.foldl (fun J F => J.updateATA F scatter) J).keys_ = J.keys_ ∧
    ∀ i j, i ≤ j → (hs.foldl (fun J F => J.updateATA F scatter) J).matrix_.coeff i j
      = J.matrix_.coeff i j + (hs.map fun F => J.scatteredUpdate F scatter i j).sum := by
  intro hs
  induction hs with
  | nil => intro J _; simp
  | cons F rest ih =>
    intro J hvalid
    rw [List.foldl_cons]
    obtain ⟨h1, h2, h3⟩ := ih (J.updateATA F scatter) fun G hG =>
      (hvalid G (List.mem_cons_of_mem _ hG)).of_info rfl
    refine ⟨h1, h2, fun i j hij => ?_⟩
    rw [h3 i j hij, updateATA_coeff_upper (hvalid F (List.mem_cons_self _ _)) i j hij,
      List.map_cons, List.sum_cons, add_assoc]
    rfl

/-- The cost of a joint factor with its keys assigned, whose entries on and above the
diagonal are the sums of the scattered updates: the sum of the costs of the updates. -/
lemma error_with_keys_of_coeff (H J : HessianFactor K) (l : List (HessianFactor K))
    (scatter : Scatter) (ks : List Nat) (x : Nat → K)
    (hinfo : H.info_ = J.info_) (hoff0 : J.info_.offset 0 = 0)
    (hcoeff : ∀ i j, i ≤ j →
      H.matrix_.coeff i j = (l.map fun F => J.scatteredUpdate F scatter i j).sum)
    (hnB : J.info_.nBlocks = scatter.length + 1)
    (hlast : J.info_.blockDim (J.info_.nBlocks - 1) = 1)
    (hks : ks.length = scatter.length)
    (hvalid : ∀ F ∈ l, ValidUpdate J F scatter) :
    ({ H with keys_ := ks } : HessianFactor K).error x =
      (l.map fun F => F.error fun a => x ((J.scatterRows F scatter).getD a 0)).sum := by
  have hvar : ({ H with keys_ := ks } : HessianFactor K).varDim
      = J.info_.offset (J.info_.nBlocks - 1) := by
    show H.info_.offset ks.length - H.info_.offset 0 = _
    rw [hinfo, hoff0, hks, hnB]
    simp
  have hS : ∀ u v, MatrixXd.selfadjointUpper
      (H.matrix_.block (H.info_.offset 0) (H.info_.offset 0)) u v
      = (l.map fun F => J.scatteredUpdate F scatter u v).sum := by
    intro u v
    rw [hinfo, hoff0]
    simp only [MatrixXd.selfadjointUpper, MatrixXd.block, zero_add]
    split_ifs with huv
    · exact hcoeff u v huv
    · rw [hcoeff v u (le_of_not_le huv)]
      refine congrArg List.sum (List.map_congr_left fun F _ => ?_)
      rw [scatteredUpdate_symm]
  rw [error_eq_quadratic _ x (by
    show H.info_.offset 0 ≤ _
    rw [hinfo, hoff0]
    exact Nat.zero_le _), hvar]
  show 1 / 2 * ∑ u ∈ Finset.range (J.info_.offset (J.info_.nBlocks - 1) + 1),
    ∑ v ∈ Finset.range (J.info_.offset (J.info_.nBlocks - 1) + 1),
      (if u < J.info_.offset (J.info_.nBlocks - 1) then x u else -1) *
        MatrixXd.selfadjointUpper
          (H.matrix_.block (H.info_.offset 0) (H.info_.offset 0)) u v *
        (if v < J.info_.offset (J.info_.nBlocks - 1) then x v else -1) = _
  simp only [hS]
  rw [quadratic_list_sum (J.info_.offset (J.info_.nBlocks - 1) + 1)
    (fun u => if u < J.info_.offset (J.info_.nBlocks - 1) then x u else -1)
    (fun F u v => J.scatteredUpdate F scatter u v)]
  refine congrArg List.sum (List.map_congr_left fun F hF => ?_)
  exact scattered_quadratic (hvalid F hF) hlast x

/-- A factor without keys has a cost only at the vector without entries: at any other
vector `c.vector().dot(linear_term())` has operands of different lengths. -/
lemma errorAt_without_keys (H : HessianFactor K) (c : VectorXd K) (hk : H.keys_ = [])
    (hc : c.size ≠ 0) : H.errorAt c = none := by
  have hvar : H.varDim = 0 := by
    unfold varDim size
    rw [hk]
    simp
  unfold errorAt
  rw [hvar, if_neg hc]

/-- The entries on and above the diagonal of the joint factor of the single factor with
`G = [4]`, `g = [2]`, `f = 3` are `4`, `2` and `3`. -/
lemma positiveJoint_scattered (i j : Nat) (hij : i ≤ j) (hj : j < 2) :
    HessianFactor.scatteredUpdate
        ({ keys_ := [],
           matrix_ := MatrixXd.zero
            ((SymmetricBlockView.ofDims [1, 1]).offset (SymmetricBlockView.ofDims [1, 1]).nBlocks)
            ((SymmetricBlockView.ofDims [1, 1]).offset (SymmetricBlockView.ofDims [1, 1]).nBlocks),
           info_ := SymmetricBlockView.ofDims [1, 1] } : HessianFactor ℚ)
        (positiveFactor ℚ) [(0, ⟨0, 1⟩)] i j
      = if i = 0 ∧ j = 0 then 4 else if i = 0 then 2 else 3 := by
  have hrows : HessianFactor.scatterRows
      ({ keys_ := [],
         matrix_ := MatrixXd.zero
          ((SymmetricBlockView.ofDims [1, 1]).offset (SymmetricBlockView.ofDims [1, 1]).nBlocks)
          ((SymmetricBlockView.ofDims [1, 1]).offset (SymmetricBlockView.ofDims [1, 1]).nBlocks),
         info_ := SymmetricBlockView.ofDims [1, 1] } : HessianFactor ℚ)
      (positiveFactor ℚ) [(0, ⟨0, 1⟩)] = [0, 1] := by decide
  have hfd : (positiveFactor ℚ).fullDim = 2 := by decide
  have hoff : (positiveFactor ℚ).info_.offset 0 = 0 := by decide
  unfold scatteredUpdate
  rw [hrows, hfd, hoff]
  interval_cases j <;> interval_cases i <;>
    simp [Finset.sum_range_succ, MatrixXd.selfadjointUpper, MatrixXd.block, positiveFactor]

/-- C35, counterexample. The combined constructor leaves `keys_` empty, so `size()` is
`0` and `linear_term()` has no entries: for the single factor with `G = [4]`, `g = [2]`,
`f = 3` on one variable of dimension `1`, the joint factor has no cost at the joint
vector `x = (0)`, whose one entry meets no entry of `linear_term()`, and the factor has
the cost `3/2` there. -/
theorem joint_error_without_keys :
    ∃ H : HessianFactor ℚ,
      ofFactors false doubleFinite [GaussianFactor.Hessian (positiveFactor ℚ)] [1, 1]
        [(0, ⟨0, 1⟩)] = .ok H ∧
      ValidUpdate H (positiveFactor ℚ) [(0, ⟨0, 1⟩)] ∧
      H.keys_ = [] ∧ H.size = 0 ∧
      H.errorAt ⟨1, fun _ => 0⟩ = none ∧
      (positiveFactor ℚ).errorAt ⟨1, fun a =>
        (fun _ => (0 : ℚ)) ((H.scatterRows (positiveFactor ℚ) [(0, ⟨0, 1⟩)]).getD a 0)⟩
          = some (3 / 2) := by
  have hv : ValidUpdate (positiveFactor ℚ) (positiveFactor ℚ) [(0, ⟨0, 1⟩)] := by decide
  have hv0 : ∀ F ∈ [positiveFactor ℚ], ValidUpdate
      ({ keys_ := [],
         matrix_ := MatrixXd.zero
          ((SymmetricBlockView.ofDims [1, 1]).offset (SymmetricBlockView.ofDims [1, 1]).nBlocks)
          ((SymmetricBlockView.ofDims [1, 1]).offset (SymmetricBlockView.ofDims [1, 1]).nBlocks),
         info_ := SymmetricBlockView.ofDims [1, 1] } : HessianFactor ℚ) F [(0, ⟨0, 1⟩)] := by
    intro F hF
    rw [List.mem_singleton.mp hF]
    exact hv.of_info rfl
  obtain ⟨h1, h2, h3⟩ := foldl_updateATA [(0, ⟨0, 1⟩)] [positiveFactor ℚ] _ hv0
  have hok := ofFactors_hessians false doubleFinite [positiveFactor ℚ] [1, 1] [(0, ⟨0, 1⟩)]
  rw [constructed_ok false doubleFinite _ fun _ =>
    (hasNonFinite_eq_false_iff doubleFinite _).mpr fun i j _ hij hj => by
      have hj2 : j < 2 := hj
      rw [h3 i j hij]
      simp only [List.map_cons, List.map_nil, List.sum_cons, List.sum_nil, add_zero]
      rw [positiveJoint_scattered i j hij hj2]
      have hval : ∀ q : ℚ, q = 4 ∨ q = 2 ∨ q = 3 → doubleFinite (0 + q) = true := by
        intro q hq
        rcases hq with rfl | rfl | rfl <;>
          simp only [doubleFinite, decide_eq_true_eq] <;> norm_num [abs_lt]
      refine hval _ ?_
      split_ifs <;> simp] at hok
  refine ⟨_, hok, hv.of_info h1, h2, by rw [size, h2]; rfl,
    errorAt_without_keys _ _ h2 (by decide), ?_⟩
  have hoff : (positiveFactor ℚ).info_.offset 0 = 0 := by decide
  have hsz : (positiveFactor ℚ).info_.offset (positiveFactor ℚ).size = 1 := by decide
  have hvd : (positiveFactor ℚ).varDim = 1 := by decide
  unfold errorAt
  rw [if_pos hvd.symm]
  unfold error varDim constant_term linear_term infoCoeff
  rw [hoff, hsz]
  simp [Finset.sum_range_succ, MatrixXd.selfadjointUpper, MatrixXd.block, positiveFactor]
  norm_num

/-- C35, amended. For information factors that are valid updates of a joint factor with
block view `dimensions`, whose last block has one row, the combined constructor returns
a factor `H` without keys (in a build with `NDEBUG`, and in one without it when the
entries of the sum of the scattered factors on and above the diagonal are finite), which
has no cost at a joint vector with entries; once the keys are assigned (one key per
entry of the scatter map), its cost at a joint vector `c` with as many entries as the
variable blocks have rows is the sum of the costs of the factors, each at `c` read at the
rows the factor is scattered to; for the empty graph `H` is the zero matrix and that cost
is `0`. -/
theorem joint_error_is_sum_with_keys (NDEBUG : Bool) (isfinite : K → Bool)
    (hs : List (HessianFactor K)) (dimensions : List Nat)
    (scatter : Scatter) (J : HessianFactor K) (ks : List Nat) (c : VectorXd K)
    (hJ : J.info_ = SymmetricBlockView.ofDims dimensions)
    (hvalid : ∀ F ∈ hs, ValidUpdate J F scatter)
    (hlast : (SymmetricBlockView.ofDims dimensions).blockDim scatter.length = 1)
    (hks : ks.length = scatter.length)
    (hc : c.size = (SymmetricBlockView.ofDims dimensions).offset scatter.length)
    (hfin : NDEBUG = false → ∀ i j, i ≤ j →
      isfinite ((hs.map fun F => J.scatteredUpdate F scatter i j).sum) = true) :
    ∃ H, ofFactors NDEBUG isfinite (hs.map GaussianFactor.Hessian) dimensions scatter = .ok H ∧
      H.keys_ = [] ∧ H.info_ = SymmetricBlockView.ofDims dimensions ∧
      (c.size ≠ 0 → H.errorAt c = none) ∧
      ({ H with keys_ := ks } : HessianFactor K).errorAt c =
        some ((hs.map fun F => F.error fun a =>
          c.coeff ((J.scatterRows F scatter).getD a 0)).sum) ∧
      (∀ F ∈ hs, F.errorAt ⟨F.varDim, fun a => c.coeff ((J.scatterRows F scatter).getD a 0)⟩
        = some (F.error fun a => c.coeff ((J.scatterRows F scatter).getD a 0))) ∧
      (hs = [] → (∀ i j, H.matrix_.coeff i j = 0) ∧
        ({ H with keys_ := ks } : HessianFactor K).errorAt c = some 0) := by
  have hvalid0 : ∀ F ∈ hs, ValidUpdate
      ({ keys_ := [],
         matrix_ := MatrixXd.zero
          ((SymmetricBlockView.ofDims dimensions).offset
            (SymmetricBlockView.ofDims dimensions).nBlocks)
          ((SymmetricBlockView.ofDims dimensions).offset
            (SymmetricBlockView.ofDims dimensions).nBlocks),
         info_ := SymmetricBlockView.ofDims dimensions } : HessianFactor K) F scatter :=
    fun F hF => (hvalid F hF).of_info hJ.symm
  obtain ⟨h1, h2, h3⟩ := foldl_updateATA scatter hs _ hvalid0
  have hcoeff : ∀ i j, i ≤ j →
      (hs.foldl (fun J F => J.updateATA F scatter)
        ({ keys_ := [],
           matrix_ := MatrixXd.zero
            ((SymmetricBlockView.ofDims dimensions).offset
              (SymmetricBlockView.ofDims dimensions).nBlocks)
            ((SymmetricBlockView.ofDims dimensions).offset
              (SymmetricBlockView.ofDims dimensions).nBlocks),
           info_ := SymmetricBlockView.ofDims dimensions } : HessianFactor K)).matrix_.coeff i j
        = (hs.map fun F => J.scatteredUpdate F scatter i j).sum := by
    intro i j hij
    rw [h3 i j hij]
    simp only [MatrixXd.zero, zero_add]
    refine congrArg List.sum (List.map_congr_left fun F _ => ?_)
    exact scatteredUpdate_of_info F scatter hJ.symm i j
  have hok := ofFactors_hessians NDEBUG isfinite hs dimensions scatter
  rw [constructed_ok NDEBUG isfinite _ fun hN =>
    (hasNonFinite_eq_false_iff isfinite _).mpr fun i j _ hij _ => by
      rw [hcoeff i j hij]
      exact hfin hN i j hij] at hok
  have hvar : ∀ H : HessianFactor K, H.info_ = SymmetricBlockView.ofDims dimensions →
      c.size = ({ H with keys_ := ks } : HessianFactor K).varDim := by
    intro H hi
    show c.size = H.info_.offset ks.length - H.info_.offset 0
    rw [hi, hks, ofDims_offset_zero, hc]
    simp
  have hsum : ({ hs.foldl (fun J F => J.updateATA F scatter)
        ({ keys_ := [],
           matrix_ := MatrixXd.zero
            ((SymmetricBlockView.ofDims dimensions).offset
              (SymmetricBlockView.ofDims dimensions).nBlocks)
            ((SymmetricBlockView.ofDims dimensions).offset
              (SymmetricBlockView.ofDims dimensions).nBlocks),
           info_ := SymmetricBlockView.ofDims dimensions } : HessianFactor K)
          with keys_ := ks } : HessianFactor K).error c.coeff =
        (hs.map fun F => F.error fun a =>
          c.coeff ((J.scatterRows F scatter).getD a 0)).sum := by
    cases hs with
    | nil =>
      simp [error, constant_term, linear_term, infoCoeff, MatrixXd.zero,
        MatrixXd.selfadjointUpper, MatrixXd.block]
    | cons F0 rest =>
      have hv0 := hvalid F0 (List.mem_cons_self _ _)
      have hnB : J.info_.nBlocks = scatter.length + 1 := hv0.2.2.2.1
      have hlastJ : J.info_.blockDim (J.info_.nBlocks - 1) = 1 := by
        rw [hnB, Nat.add_sub_cancel, hJ]
        exact hlast
      exact error_with_keys_of_coeff _ J (F0 :: rest) scatter ks c.coeff (h1.trans hJ.symm)
        (by rw [hJ]; exact ofDims_offset_zero _) hcoeff hnB hlastJ hks hvalid
  have hkeyed : ({ hs.foldl (fun J F => J.updateATA F scatter)
        ({ keys_ := [],
           matrix_ := MatrixXd.zero
            ((SymmetricBlockView.ofDims dimensions).offset
              (SymmetricBlockView.ofDims dimensions).nBlocks)
            ((SymmetricBlockView.ofDims dimensions).offset
              (SymmetricBlockView.ofDims dimensions).nBlocks),
           info_ := SymmetricBlockView.ofDims dimensions } : HessianFactor K)
          with keys_ := ks } : HessianFactor K).errorAt c =
        some ((hs.map fun F => F.error fun a =>
          c.coeff ((J.scatterRows F scatter).getD a 0)).sum) := by
    unfold errorAt
    rw [if_pos (hvar _ h1), hsum]
  refine ⟨_, hok, h2, h1, fun hne => errorAt_without_keys _ _ h2 hne, hkeyed,
    fun F _ => ?_, ?_⟩
  · unfold errorAt
    rw [if_pos rfl]
  · intro hnil
    subst hnil
    exact ⟨fun i j => rfl, hkeyed⟩

/-- Witness of the amended C35: two copies of the factor with `G = [4]`, `g = [2]`,
`f = 3` on one variable of dimension `1`, at the joint vector `(1)`, in exact arithmetic,
where every scalar is finite. -/
theorem joint_error_is_sum_with_keys_witness :
    ∃ H, ofFactors false (fun _ => true)
        ([positiveFactor ℚ, positiveFactor ℚ].map GaussianFactor.Hessian) [1, 1]
        [(0, ⟨0, 1⟩)] = .ok H ∧
      H.keys_ = [] ∧
      H.errorAt ⟨1, fun _ => 1⟩ = none ∧
      ({ H with keys_ := [0] } : HessianFactor ℚ).errorAt ⟨1, fun _ => 1⟩ =
        some (([positiveFactor ℚ, positiveFactor ℚ].map fun F => F.error fun a =>
          (fun _ => (1 : ℚ)) (((positiveFactor ℚ).scatterRows F [(0, ⟨0, 1⟩)]).getD a 0)).sum) :=
  have h := joint_error_is_sum_with_keys false (fun _ => true)
    [positiveFactor ℚ, positiveFactor ℚ] [1, 1] [(0, ⟨0, 1⟩)]
    (positiveFactor ℚ) [0] ⟨1, fun _ => 1⟩ rfl
    (by
      intro F hF
      simp only [List.mem_cons, List.mem_singleton, List.not_mem_nil, or_false, or_self] at hF
      rw [hF]
      decide)
    (by decide) rfl (by decide) (fun _ _ _ _ => rfl)
  ⟨h.choose, h.choose_spec.1, h.choose_spec.2.1, h.choose_spec.2.2.2.1 (by decide),
    h.choose_spec.2.2.2.2.1⟩

end HessianFactor

end JointCost

end gtsam
